import Mathlib

/-!
# UPGM++ inference utilities: max-flow / min-cut and loopy belief propagation

A shallow embedding of `libs/inference/inference_utils.cpp` and
`libs/inference/inference_marginal.cpp`.

Conventions of the embedding.

* `double` is modelled by `ℚ` (exact arithmetic), `int` and `size_t` by `ℤ` / `ℕ`.
  The `int` returned by `fordFulkerson` has 32 bits: the conversion of the
  `double` flow total is `doubleToInt`.
* `Eigen::MatrixXd` is a list of rows, `Eigen::VectorXd` a list of entries.
  An access outside the stored range (undefined behaviour in C++) reads `0`
  and a write outside the range does nothing.
* Every `while` / `for` loop whose trip count is not fixed in advance takes a
  fuel argument and yields `none` when the fuel runs out.
* A quotient by a sum that the code does not guard against zero yields `none`
  when the sum is zero (its entries would be `NaN` or infinite). The
  coefficient-wise quotient `cwiseQuotient` is the division of `ℚ`; it models
  the program only where the divisor has no zero entry.
* The logarithm of a `double` is a parameter `log : ℚ → R` with values in a
  field `R`; theorems instantiate it with the real logarithm.
-/

namespace UPGMpp

/-! ## Dense matrices and vectors -/

/-- Dense matrix of doubles, stored as the list of its rows. -/
abbrev MatrixXd := List (List ℚ)

/-- Dense vector of doubles. -/
abbrev VectorXd := List ℚ

/-- Dense vector of ints. -/
abbrev VectorXi := List ℤ

/-- Number of columns of a matrix (`m.cols()`): the length of its first row. -/
def MatrixXd.cols (m : MatrixXd) : ℕ := (m.headD []).length

/-- Number of rows of a matrix (`m.rows()`). -/
def MatrixXd.rows (m : MatrixXd) : ℕ := m.length

/-- Coefficient read `m(u,v)`. -/
def MatrixXd.coeff (m : MatrixXd) (u v : ℕ) : ℚ := (m.getD u []).getD v 0

/-- Coefficient write `m(u,v) = x`. -/
def MatrixXd.setCoeff (m : MatrixXd) (u v : ℕ) (x : ℚ) : MatrixXd :=
  m.set u ((m.getD u []).set v x)

/-- The value of `std::numeric_limits<double>::max()`. -/
def DBL_MAX : ℚ := 2 ^ 1024 - 2 ^ 971

/-- The value of `INT_MAX` for the 32-bit `int`. -/
def INT_MAX : ℤ := 2147483647

/-- The value of `INT_MIN` for the 32-bit `int`. -/
def INT_MIN : ℤ := -2147483648

/-- Conversion of a `double` to the 32-bit `int`, as performed by
`return max_flow;` in a function whose return type is `int`: truncation toward
zero when the truncated value lies between `INT_MIN` and `INT_MAX`. For a value
outside that range the conversion is undefined behaviour in C++; the model
returns `INT_MIN`, the result of the conversion instruction of x86-64. -/
def doubleToInt (x : ℚ) : ℤ :=
  let truncated : ℤ := if 0 ≤ x then ⌊x⌋ else ⌈x⌉
  if INT_MIN ≤ truncated ∧ truncated ≤ INT_MAX then truncated else INT_MIN

/-! ## Ford–Fulkerson (`inference_utils.cpp`, lines 198–335) -/

/-- Local state of the breadth-first search of `bfs`: the `visited` array, the
`parent` array and the queue `q`. -/
structure BfsState where
  visited : List Bool
  parent : List ℕ
  q : List ℕ

/-- Body of `for (int v=0; v<N_nodes; v++)` in `bfs` (lines 257–265). -/
def bfsVisit (rGraph : MatrixXd) (u : ℕ) (st : BfsState) (v : ℕ) : BfsState :=
  if st.visited.getD v false = false ∧ rGraph.coeff u v > 0 then
    { q := st.q ++ [v], parent := st.parent.set v u, visited := st.visited.set v true }
  else st

/-- The loop `while (!q.empty())` of `bfs` (lines 252–266). -/
def bfsLoop (rGraph : MatrixXd) (N_nodes : ℕ) : ℕ → BfsState → Option BfsState
  | 0, st => if st.q = [] then some st else none
  | fuel + 1, st =>
    match st.q with
    | [] => some st
    | u :: rest =>
      bfsLoop rGraph N_nodes fuel
        ((List.range N_nodes).foldl (bfsVisit rGraph u) { st with q := rest })

/-- Function `bfs` (lines 238–271): returns whether `t` was reached together
with the `parent` array it leaves behind. -/
def bfs (fuel : ℕ) (rGraph : MatrixXd) (s t : ℕ) (parent : List ℕ) :
    Option (Bool × List ℕ) :=
  let N_nodes := rGraph.cols
  let visited := List.replicate N_nodes false
  (bfsLoop rGraph N_nodes fuel
      { visited := visited.set s true, parent := parent, q := [s] }).map
    fun st => (st.visited.getD t false, st.parent)

/-- Local state of `getFinalCut`: the `visited` array, the `cut` vector and the
queue `q`. -/
structure CutState where
  visited : List Bool
  cut : VectorXi
  q : List ℕ

/-- Body of `for (int v=0; v<N_nodes; v++)` in `getFinalCut` (lines 222–231). -/
def cutVisit (rGraph : MatrixXd) (u : ℕ) (st : CutState) (v : ℕ) : CutState :=
  if st.visited.getD v false = false ∧ rGraph.coeff u v > 0 then
    { q := st.q ++ [v], visited := st.visited.set v true, cut := st.cut.set v 1 }
  else st

/-- The loop `while (!q.empty())` of `getFinalCut` (lines 217–232). -/
def cutLoop (rGraph : MatrixXd) (N_nodes : ℕ) : ℕ → CutState → Option CutState
  | 0, st => if st.q = [] then some st else none
  | fuel + 1, st =>
    match st.q with
    | [] => some st
    | u :: rest =>
      cutLoop rGraph N_nodes fuel
        ((List.range N_nodes).foldl (cutVisit rGraph u) { st with q := rest })

/-- Function `getFinalCut` (lines 204–234): the `cut` vector it leaves behind. -/
def getFinalCut (fuel : ℕ) (rGraph : MatrixXd) (s : ℕ) (cut : VectorXi) :
    Option VectorXi :=
  let N_nodes := rGraph.cols
  let visited := List.replicate N_nodes false
  (cutLoop rGraph N_nodes fuel
      { visited := visited.set s true, cut := cut.set s 1, q := [s] }).map
    fun st => st.cut

/-- The loop `for (v=t; v!=s; v=parent[v])` of lines 303–307: the bottleneck
residual capacity along the parent chain from `v` back to `s`. -/
def pathFlowLoop (rGraph : MatrixXd) (s : ℕ) (parent : List ℕ) : ℕ → ℕ → ℚ → Option ℚ
  | 0, v, path_flow => if v = s then some path_flow else none
  | fuel + 1, v, path_flow =>
    if v = s then some path_flow
    else
      let u := parent.getD v 0
      pathFlowLoop rGraph s parent fuel u (min path_flow (rGraph.coeff u v))

/-- The loop `for (v=t; v != s; v=parent[v])` of lines 313–318: update of the
residual capacities along the parent chain from `v` back to `s`. -/
def augmentLoop (s : ℕ) (parent : List ℕ) (path_flow : ℚ) :
    ℕ → ℕ → MatrixXd → Option MatrixXd
  | 0, v, rGraph => if v = s then some rGraph else none
  | fuel + 1, v, rGraph =>
    if v = s then some rGraph
    else
      let u := parent.getD v 0
      let rGraph1 := rGraph.setCoeff u v (rGraph.coeff u v - path_flow)
      let rGraph2 := rGraph1.setCoeff v u (rGraph1.coeff v u + path_flow)
      augmentLoop s parent path_flow fuel u rGraph2

/-- State of the augmentation loop of `fordFulkerson`: the residual matrix, the
`parent` array and the running total `max_flow`. -/
structure FlowState where
  rGraph : MatrixXd
  parent : List ℕ
  max_flow : ℚ
  deriving DecidableEq

/-- One round of `while (bfs(rGraph, s, t, parent))` (lines 297–322):
`none` when an inner loop runs out of fuel, `some (Sum.inl st)` when the search
fails and the loop ends in state `st`, `some (Sum.inr st)` after one
augmentation. -/
def augmentStep (fuel : ℕ) (s t : ℕ) (st : FlowState) :
    Option (FlowState ⊕ FlowState) :=
  match bfs fuel st.rGraph s t st.parent with
  | none => none
  | some (false, parent) => some (Sum.inl { st with parent := parent })
  | some (true, parent) =>
    match pathFlowLoop st.rGraph s parent fuel t DBL_MAX with
    | none => none
    | some path_flow =>
      match augmentLoop s parent path_flow fuel t st.rGraph with
      | none => none
      | some rGraph =>
        some (Sum.inr { rGraph := rGraph, parent := parent,
                        max_flow := st.max_flow + path_flow })

/-- The augmentation loop `while (bfs(rGraph, s, t, parent))` of lines 297–322.
The first argument is the fuel handed to every inner loop, the second the
number of rounds allowed. -/
def flowLoop (fuel : ℕ) (s t : ℕ) : ℕ → FlowState → Option FlowState
  | 0, _ => none
  | rounds + 1, st =>
    match augmentStep fuel s t st with
    | none => none
    | some (Sum.inl st1) => some st1
    | some (Sum.inr st1) => flowLoop fuel s t rounds st1

/-- The residual matrix as initialised by lines 282–288: an `N_nodes × N_nodes`
copy of the capacities. -/
def initResidual (graph : MatrixXd) : MatrixXd :=
  let N_nodes := graph.cols
  (List.range N_nodes).map fun u => (List.range N_nodes).map fun v => graph.coeff u v

/-- The state in which `fordFulkerson` leaves its augmentation loop (line 322).
`parent` is the content of the uninitialised local array `int parent[N_nodes]`. -/
def fordFulkersonLoop (fuel : ℕ) (graph : MatrixXd) (s t : ℕ) (parent : List ℕ) :
    Option FlowState :=
  flowLoop fuel s t fuel { rGraph := initResidual graph, parent := parent, max_flow := 0 }

/-- Function `UPGMpp::fordFulkerson` (lines 274–335): the returned `int` and the
`cut` vector left behind. `parent` is the content of the uninitialised local
array `int parent[N_nodes]`. -/
def fordFulkerson (fuel : ℕ) (graph : MatrixXd) (s t : ℕ) (cut : VectorXi)
    (parent : List ℕ) : Option (ℤ × VectorXi) :=
  match fordFulkersonLoop fuel graph s t parent with
  | none => none
  | some st =>
    match getFinalCut fuel st.rGraph s cut with
    | none => none
    | some cut1 => some (doubleToInt st.max_flow, cut1)

/-- The 6-vertex capacity network of the classical textbook example. -/
def textbookGraph : MatrixXd :=
  [[0, 16, 13, 0, 0, 0],
   [0, 0, 10, 12, 0, 0],
   [0, 4, 0, 0, 14, 0],
   [0, 0, 9, 0, 0, 20],
   [0, 0, 0, 7, 0, 4],
   [0, 0, 0, 0, 0, 0]]

/-! ## Graph view (external collaborator) -/

/-- Modelled from the spec: a node of the graph view, with its identity and its
unary potential as returned by `getPotentials(considerNodeFixedValues)`. The
class `CNode` is not part of the sources under study. -/
structure CNode where
  id : ℕ
  potentials : Bool → VectorXd

/-- Modelled from the spec: an edge of the graph view, with its identity, the
ids of its first and second node (`getNodesID`) and its pairwise potential
(`getPotentials`), of shape `card(first) × card(second)`. The class `CEdge` is
not part of the sources under study. -/
structure CEdge where
  id : ℕ
  ID1 : ℕ
  ID2 : ℕ
  potentials : MatrixXd
  deriving DecidableEq

/-- Modelled from the spec: position of a node in an edge (`getNodePosition`):
`0` for the first node, `1` otherwise. -/
def CEdge.getNodePosition (e : CEdge) (nodeID : ℕ) : ℕ := if e.ID1 = nodeID then 0 else 1

/-- Modelled from the spec: the graph view, with its ordered node list
(`getNodes`), its ordered edge list (`getEdges`) and the multimap from a node id
to its incident edges (`getEdgesF`), given here by the list that `equal_range`
enumerates. The class `CGraph` is not part of the sources under study. -/
structure CGraph where
  nodes : List CNode
  edges : List CEdge
  edges_f : ℕ → List CEdge

/-- Modelled from the spec: `getNodeWithID`, the node with the given id. -/
def CGraph.getNodeWithID (graph : CGraph) (ID : ℕ) : CNode :=
  (graph.nodes.find? fun n => n.id = ID).getD ⟨ID, fun _ => []⟩

/-- Modelled from the spec: `getEdgeIndex`, the index in the edge list of the
edge with the given id. -/
def CGraph.getEdgeIndex (graph : CGraph) (edgeID : ℕ) : ℕ :=
  graph.edges.findIdx fun e => e.id = edgeID

/-- Modelled from the spec: the options record read by the inference engine. -/
structure TInferenceOptions where
  maxIterations : ℕ
  convergency : ℚ
  considerNodeFixedValues : Bool
  particularS : String → String

/-! ## Eigen operations -/

/-- Coefficient-wise product `a.cwiseProduct(b)`. -/
def cwiseProduct (a b : VectorXd) : VectorXd := List.zipWith (· * ·) a b

/-- Coefficient-wise quotient `a.cwiseQuotient(b)`. Where an entry of `b` is zero
the quotient of doubles is `NaN` or infinite, which `ℚ` cannot represent: the
model then holds the value `0` of the division of `ℚ`, and says nothing of the
program. The theorems on edge beliefs are stated for tables without zero
entries. -/
def cwiseQuotient (a b : VectorXd) : VectorXd := List.zipWith (· / ·) a b

/-- Matrix transpose `m.transpose()`. -/
def MatrixXd.transpose (m : MatrixXd) : MatrixXd :=
  (List.range m.cols).map fun j => (List.range m.rows).map fun i => m.coeff i j

/-- Matrix-vector product `m * v`. -/
def MatrixXd.mulVec (m : MatrixXd) (v : VectorXd) : VectorXd :=
  m.map fun row => (List.zipWith (· * ·) row v).sum

/-- Sum of all coefficients `m.sum()`. -/
def MatrixXd.sum (m : MatrixXd) : ℚ := (m.map List.sum).sum

/-- The value of `std::numeric_limits<double>::min()`. -/
def DBL_MIN : ℚ := 1 / 2 ^ 1022

/-- `std::vector::resize`: keep the first `n` elements, pad with `d`. -/
def resize {α : Type} (l : List α) (n : ℕ) (d : α) : List α :=
  l.take n ++ List.replicate (n - l.length) d

/-! ## Message passing (`inference_utils.cpp`, lines 12–193) -/

/-- The message table `vector<vector<VectorXd> >`. -/
abbrev Messages := List (List VectorXd)

/-- Read of `messages[ edgeIndex ][ k ]`. -/
def Messages.get (messages : Messages) (edgeIndex k : ℕ) : VectorXd :=
  (messages.getD edgeIndex []).getD k []

/-- Write of `messages[ edgeIndex ][ k ]`. -/
def Messages.put (messages : Messages) (edgeIndex k : ℕ) (v : VectorXd) : Messages :=
  messages.set edgeIndex ((messages.getD edgeIndex []).set k v)

/-- Body of the loop of lines 34–51: the pair of all-ones vectors of edge `i`,
and the running total of the sizes. -/
def initStep (graph : CGraph) (options : TInferenceOptions) (acc : Messages × ℚ) (i : ℕ) :
    Messages × ℚ :=
  let edge := graph.edges.getD i ⟨0, 0, 0, []⟩
  let m0 := List.replicate
    ((graph.getNodeWithID edge.ID2).potentials options.considerNodeFixedValues).length (1 : ℚ)
  let m1 := List.replicate
    ((graph.getNodeWithID edge.ID1).potentials options.considerNodeFixedValues).length (1 : ℚ)
  let pair := ((resize (acc.1.getD i []) 2 []).set 0 m0).set 1 m1
  (acc.1.set i pair, acc.2 + (m0.length + m1.length))

/-- Building of the message structure (lines 30–51): the table resized to one
pair of all-ones vectors per edge, and the running total of their sizes. -/
def initMessages (graph : CGraph) (options : TInferenceOptions) (messages : Messages) :
    Messages × ℚ :=
  (List.range graph.edges.length).foldl (initStep graph options)
    (resize messages graph.edges.length [], 0)

/-- The loop of lines 92–109: the node potential times the incoming messages of
all incident edges that do not contain the current neighbour. -/
def incomingProduct (graph : CGraph) (messages : Messages) (nodeID neighborID : ℕ)
    (neighbors : List CEdge) (nodePotPlusIncMsg : VectorXd) : VectorXd :=
  neighbors.foldl
    (fun acc edgePtr2 =>
      let edgeIndex := graph.getEdgeIndex edgePtr2.id
      if neighborID ≠ edgePtr2.ID1 ∧ neighborID ≠ edgePtr2.ID2 then
        if nodeID = edgePtr2.ID1 then cwiseProduct acc (messages.get edgeIndex 1)
        else cwiseProduct acc (messages.get edgeIndex 0)
      else acc)
    nodePotPlusIncMsg

/-- The max-product message of lines 135–154, before normalisation. -/
def maxProductMessage (edgePotentials : MatrixXd) (nodePotPlusIncMsg : VectorXd) (size : ℕ) :
    VectorXd :=
  (List.range edgePotentials.rows).foldl
    (fun newMessage row =>
      let maxRowValue := (List.range edgePotentials.cols).foldl
        (fun maxRowValue col =>
          let value := edgePotentials.coeff row col * nodePotPlusIncMsg.getD col 0
          if value > maxRowValue then value else maxRowValue)
        DBL_MIN
      newMessage.set row maxRowValue)
    (List.replicate size 0)

/-- Body of the loop over the neighbours of a node (lines 79–168): the message
sent by `nodePtr` along the incident edge `edgePtr`. -/
def sendMessage (graph : CGraph) (options : TInferenceOptions) (maximize : Bool)
    (nodePtr : CNode) (messages : Messages) (edgePtr : CEdge) : Messages :=
  let nodeID := nodePtr.id
  let neighbors := graph.edges_f nodeID
  let neighborID := if edgePtr.ID1 = nodeID then edgePtr.ID2 else edgePtr.ID1
  let nodePotPlusIncMsg := incomingProduct graph messages nodeID neighborID neighbors
    (nodePtr.potentials options.considerNodeFixedValues)
  let edgePotentials :=
    if nodeID ≠ edgePtr.ID1 then edgePtr.potentials else edgePtr.potentials.transpose
  let edgeIndex := graph.getEdgeIndex edgePtr.id
  let newMessage :=
    if !maximize then edgePotentials.mulVec nodePotPlusIncMsg
    else
      let unnormalised := maxProductMessage edgePotentials nodePotPlusIncMsg
        (if nodeID = edgePtr.ID1 then (messages.get edgeIndex 0).length
         else (messages.get edgeIndex 1).length)
      unnormalised.map fun x => x / unnormalised.sum
  if nodeID = edgePtr.ID1 then messages.put edgeIndex 0 newMessage
  else messages.put edgeIndex 1 newMessage

/-- Body of the loop over the nodes (lines 65–168): node `nodePtr` sends a
message to each of its neighbours. -/
def nodeSweep (graph : CGraph) (options : TInferenceOptions) (maximize : Bool)
    (messages : Messages) (nodePtr : CNode) : Messages :=
  (graph.edges_f nodePtr.id).foldl (sendMessage graph options maximize nodePtr) messages

/-- One iteration of the outer loop (lines 64–170): all nodes in index order. -/
def sweep (graph : CGraph) (options : TInferenceOptions) (maximize : Bool)
    (messages : Messages) : Messages :=
  graph.nodes.foldl (nodeSweep graph options maximize) messages

/-- The total of lines 176–180: the sum of all message entries. -/
def totalSum (graph : CGraph) (messages : Messages) : ℚ :=
  (List.range graph.edges.length).foldl
    (fun acc i => acc + ((messages.get i 0).sum + (messages.get i 1).sum)) 0

/-- The loop `for ( iteration = 0; iteration < options.maxIterations; ... )` of
lines 59–190, with `remaining` iterations left. -/
def iterate (graph : CGraph) (options : TInferenceOptions) (maximize : Bool) :
    ℕ → Messages → ℚ → Messages
  | 0, messages, _ => messages
  | remaining + 1, messages, totalSumOfMsgs =>
    let messages1 := sweep graph options maximize messages
    let newTotalSumOfMsgs := totalSum graph messages1
    if |totalSumOfMsgs - newTotalSumOfMsgs| < options.convergency then messages1
    else iterate graph options maximize remaining messages1 newTotalSumOfMsgs

/-- Function `UPGMpp::messagesLBP` (lines 12–193): the message table it leaves
in its argument `messages`. The call `graph.computePotentials()` belongs to the
graph view; the potentials of the model are the ones it leaves. -/
def messagesLBP (graph : CGraph) (options : TInferenceOptions) (messages : Messages)
    (maximize : Bool) : Messages :=
  let init := initMessages graph options messages
  iterate graph options maximize options.maxIterations init.1 init.2

/-! ## Standard loopy BP (`inference_marginal.cpp`, lines 37–293) -/

/-- Division of a vector by its sum unless the sum is zero (lines 102–105). -/
def normalizeVector (v : VectorXd) : VectorXd :=
  if v.sum ≠ 0 then v.map fun x => x / v.sum else v

/-- Division of a matrix by its sum unless the sum is zero (lines 167–170). -/
def normalizeMatrix (m : MatrixXd) : MatrixXd :=
  if m.sum ≠ 0 then m.map fun row => row.map fun x => x / m.sum else m

/-- Body of the loop of lines 76–112: the belief of node `nodePtr`. -/
def nodeBelief (graph : CGraph) (options : TInferenceOptions) (messages : Messages)
    (nodePtr : CNode) : VectorXd :=
  let nodeID := nodePtr.id
  normalizeVector
    ((graph.edges_f nodeID).foldl
      (fun acc edgePtr =>
        let edgeIndex := graph.getEdgeIndex edgePtr.id
        if edgePtr.getNodePosition nodeID = 0 then cwiseProduct acc (messages.get edgeIndex 1)
        else cwiseProduct acc (messages.get edgeIndex 0))
      (nodePtr.potentials options.considerNodeFixedValues))

/-- Step 2 of `infer` (lines 76–112): the map `nodeBeliefs`, keyed by node id;
a key that was never written reads as the empty vector. -/
def computeNodeBeliefs (graph : CGraph) (options : TInferenceOptions) (messages : Messages) :
    ℕ → VectorXd :=
  graph.nodes.foldl
    (fun nodeBeliefs nodePtr =>
      Function.update nodeBeliefs nodePtr.id (nodeBelief graph options messages nodePtr))
    (fun _ => [])

/-- Body of the loop of lines 120–175: the belief of the edge of index
`edgeIndex`. -/
def edgeBelief (graph : CGraph) (messages : Messages) (nodeBeliefs : ℕ → VectorXd)
    (edgeIndex : ℕ) : MatrixXd :=
  let edgePtr := graph.edges.getD edgeIndex ⟨0, 0, 0, []⟩
  let edgePotentials := edgePtr.potentials
  let message1To2 := messages.get edgeIndex 0
  let message2To1 := messages.get edgeIndex 1
  let node1Belief := cwiseQuotient (nodeBeliefs edgePtr.ID1) message2To1
  let node2Belief := cwiseQuotient (nodeBeliefs edgePtr.ID2) message1To2
  normalizeMatrix
    ((List.range edgePotentials.rows).map fun row =>
      (List.range edgePotentials.cols).map fun col =>
        edgePotentials.coeff row col * node1Belief.getD row 0 * node2Belief.getD col 0)

/-- Step 3 of `infer` (lines 120–175): the map `edgeBeliefs`, keyed by edge id. -/
def computeEdgeBeliefs (graph : CGraph) (messages : Messages) (nodeBeliefs : ℕ → VectorXd) :
    ℕ → MatrixXd :=
  (List.range graph.edges.length).foldl
    (fun edgeBeliefs edgeIndex =>
      Function.update edgeBeliefs (graph.edges.getD edgeIndex ⟨0, 0, 0, []⟩).id
        (edgeBelief graph messages nodeBeliefs edgeIndex))
    (fun _ => [])

/-- Steps 1 to 3 of `CLBPInferenceMarginal::infer` (lines 51–175): the maps
`nodeBeliefs` and `edgeBeliefs` it returns. -/
def CLBPInferenceMarginal.inferBeliefs (graph : CGraph) (m_options : TInferenceOptions) :
    (ℕ → VectorXd) × (ℕ → MatrixXd) :=
  let messages := messagesLBP graph m_options [] false
  let nodeBeliefs := computeNodeBeliefs graph m_options messages
  (nodeBeliefs, computeEdgeBeliefs graph messages nodeBeliefs)


/-! ## Message passing: number of passes over the nodes -/

/-- The loop of lines 59–190 once more, returning with the table the number of
passes over the nodes that were performed (`sweeps` counts them). -/
def iterateSweeps (graph : CGraph) (options : TInferenceOptions) (maximize : Bool) :
    ℕ → Messages → ℚ → ℕ → Messages × ℕ
  | 0, messages, _, sweeps => (messages, sweeps)
  | remaining + 1, messages, totalSumOfMsgs, sweeps =>
    let messages1 := sweep graph options maximize messages
    let newTotalSumOfMsgs := totalSum graph messages1
    if |totalSumOfMsgs - newTotalSumOfMsgs| < options.convergency then (messages1, sweeps + 1)
    else iterateSweeps graph options maximize remaining messages1 newTotalSumOfMsgs (sweeps + 1)

/-- Function `UPGMpp::messagesLBP` (lines 12–193) with the number of passes over
the nodes it performed. -/
def messagesLBPSweeps (graph : CGraph) (options : TInferenceOptions) (messages : Messages)
    (maximize : Bool) : Messages × ℕ :=
  let init := initMessages graph options messages
  iterateSweeps graph options maximize options.maxIterations init.1 init.2 0

/-! ## Standard loopy BP: the estimate of the log-partition function
(`inference_marginal.cpp`, lines 183–284)

The logarithm of a `double` is not a rational number: the functions below take
the logarithm as a parameter `log : ℚ → R` with values in a field `R`. The helper
`UPGMpp::logWithLove` is not part of the sources under study; it is taken as a
second parameter, applied coefficient by coefficient. -/

/-- Modelled from the spec: `getNumberOfNodeNeighbors`, the degree of a node,
that is the number of its incident edges. -/
def CGraph.getNumberOfNodeNeighbors (graph : CGraph) (nodeID : ℕ) : ℕ :=
  (graph.edges_f nodeID).length

/-- The value `a.cwiseProduct( b ).sum()` for a vector of doubles `a` and a vector
of logarithms `b`. -/
def cwiseProductSum {R : Type} [Field R] (a : VectorXd) (b : List R) : R :=
  (List.zipWith (fun (x : ℚ) (y : R) => (x : R) * y) a b).sum

/-- The same for matrices, row by row. -/
def cwiseProductSumMatrix {R : Type} [Field R] (a : MatrixXd) (b : List (List R)) : R :=
  (List.zipWith (fun (x : VectorXd) (y : List R) => cwiseProductSum x y) a b).sum

/-- The loop of lines 190–209: the pair `(energyNodes, entropyNodes)`. -/
def nodeEnergies {R : Type} [Field R] (log logWithLove : ℚ → R) (graph : CGraph)
    (m_options : TInferenceOptions) (nodeBeliefs : ℕ → VectorXd) : R × R :=
  graph.nodes.foldl
    (fun acc nodePtr =>
      let nodeID := nodePtr.id
      let N_Neighbors := graph.getNumberOfNodeNeighbors nodeID
      let nodeBelief := nodeBeliefs nodeID
      let logNodeBelief := nodeBelief.map logWithLove
      let nodePotentials := nodePtr.potentials m_options.considerNodeFixedValues
      let logNodePotentials := nodePotentials.map log
      (acc.1 + (N_Neighbors : R) * cwiseProductSum nodeBelief logNodeBelief,
        acc.2 + (N_Neighbors : R) * cwiseProductSum nodeBelief logNodePotentials))
    (0, 0)

/-- The loop of lines 213–251: the pair `(energyEdges, entropyEdges)`. The
literal `1e-10` is read as the rational `1 / 10 ^ 10`. -/
def edgeEnergies {R : Type} [Field R] (log logWithLove : ℚ → R) (graph : CGraph)
    (edgeBeliefs : ℕ → MatrixXd) : R × R :=
  (List.range graph.edges.length).foldl
    (fun acc edgeIndex =>
      let edgePtr := graph.edges.getD edgeIndex ⟨0, 0, 0, []⟩
      let edgeBelief := edgeBeliefs edgePtr.id
      let energyEdges :=
        if edgeBelief.all (fun row => row.all fun x => decide (x > 1 / 10 ^ 10)) then
          acc.1 + cwiseProductSumMatrix edgeBelief (edgeBelief.map fun row => row.map logWithLove)
        else acc.1
      let logEdgePotentials := edgePtr.potentials.map fun row => row.map log
      (energyEdges, acc.2 + cwiseProductSumMatrix edgeBelief logEdgePotentials))
    (0, 0)

/-- Step 4 of `CLBPInferenceMarginal::infer` (lines 183–284): `logZ`. -/
def CLBPInferenceMarginal.logZ {R : Type} [Field R] (log logWithLove : ℚ → R) (graph : CGraph)
    (m_options : TInferenceOptions) (nodeBeliefs : ℕ → VectorXd)
    (edgeBeliefs : ℕ → MatrixXd) : R :=
  let nodes := nodeEnergies log logWithLove graph m_options nodeBeliefs
  let edges := edgeEnergies log logWithLove graph edgeBeliefs
  let energyNodes := nodes.1
  let entropyNodes := nodes.2
  let energyEdges := edges.1
  let entropyEdges := edges.2
  let BethefreeEnergy := (energyNodes - energyEdges) - (entropyNodes - entropyEdges)
  let logZ := -BethefreeEnergy
  logZ

/-- Function `CLBPInferenceMarginal::infer` (lines 37–293): the maps `nodeBeliefs`
and `edgeBeliefs` and the value `logZ` it returns. -/
def CLBPInferenceMarginal.infer {R : Type} [Field R] (log logWithLove : ℚ → R)
    (graph : CGraph) (m_options : TInferenceOptions) :
    (ℕ → VectorXd) × (ℕ → MatrixXd) × R :=
  let messages := messagesLBP graph m_options [] false
  let nodeBeliefs := computeNodeBeliefs graph m_options messages
  let edgeBeliefs := computeEdgeBeliefs graph messages nodeBeliefs
  (nodeBeliefs, edgeBeliefs,
    CLBPInferenceMarginal.logZ log logWithLove graph m_options nodeBeliefs edgeBeliefs)

/-! ## Randomized/residual variant (`inference_marginal.cpp`, lines 559–571) -/

/-- Function `CRBPInferenceMarginal::infer` (lines 559–571): the options record
`m_options` it leaves behind and the result of the call to
`CLBPInferenceMarginal::infer`. -/
def CRBPInferenceMarginal.infer {R : Type} [Field R] (log logWithLove : ℚ → R)
    (graph : CGraph) (m_options : TInferenceOptions) :
    TInferenceOptions × ((ℕ → VectorXd) × (ℕ → MatrixXd) × R) :=
  let m_options1 : TInferenceOptions :=
    { m_options with particularS := Function.update m_options.particularS "order" "RBP" }
  (m_options1, CLBPInferenceMarginal.infer log logWithLove graph m_options1)

/-! ## Tree-reweighted BP (`inference_marginal.cpp`, lines 302–551) -/

/-- State of the loop `while (!allNodesAdded)` of lines 337–365: the trees stored
in `v_trees`, the marks `v_addedNodes`, and the number of calls made to
`getSpanningTree`. -/
structure CoverState where
  v_trees : List (List ℕ)
  v_addedNodes : List Bool
  calls : ℕ
  deriving DecidableEq

/-- The map `addedNodesMap` built by lines 334–335, from the id of a node to its
index; `operator[]` on an absent key yields `0`. -/
def addedNodesMap (graph : CGraph) : ℕ → ℕ :=
  (List.range graph.nodes.length).foldl
    (fun m i => Function.update m (graph.nodes.getD i ⟨0, fun _ => []⟩).id i)
    (fun _ => 0)

/-- The loop `while (!allNodesAdded)` of lines 337–365. The function
`getSpanningTree` is not part of the sources under study: the parameter
`getSpanningTree k` is the tree that its call number `k` returns. -/
def coverLoop (getSpanningTree : ℕ → List ℕ) (graph : CGraph) :
    ℕ → CoverState → Option CoverState
  | 0, _ => none
  | fuel + 1, st =>
    let tree := getSpanningTree st.calls
    let v_trees := if tree.length ≠ 0 then st.v_trees ++ [tree] else st.v_trees
    let v_addedNodes :=
      tree.foldl (fun acc id => acc.set (addedNodesMap graph id) true) st.v_addedNodes
    let st1 : CoverState := ⟨v_trees, v_addedNodes, st.calls + 1⟩
    if (List.range graph.nodes.length).all fun i_node => v_addedNodes.getD i_node false then
      some st1
    else coverLoop getSpanningTree graph fuel st1

/-- Step 1 of `CTRPBPInferenceMarginal::infer` (lines 325–365): the creation of
the spanning trees. -/
def CTRPBPInferenceMarginal.createSpanningTrees (getSpanningTree : ℕ → List ℕ) (fuel : ℕ)
    (graph : CGraph) : Option CoverState :=
  coverLoop getSpanningTree graph fuel ⟨[], List.replicate graph.nodes.length false, 0⟩

/-- The quotient `v / v.sum()` of line 428, without guard. When the sum is zero
every entry of the quotient is `NaN` or infinite: the result is `none`. -/
def divideBySum (v : VectorXd) : Option VectorXd :=
  if v.sum = 0 then none else some (v.map fun x => x / v.sum)

/-- The quotient `m / m.sum()` of line 485, without guard: `none` when the sum is
zero. -/
def divideMatrixBySum (m : MatrixXd) : Option MatrixXd :=
  if m.sum = 0 then none else some (m.map fun row => row.map fun x => x / m.sum)

/-- Body of the loop of lines 403–432 of `CTRPBPInferenceMarginal::infer`: the
belief of node `nodePtr`. -/
def CTRPBPInferenceMarginal.nodeBelief (graph : CGraph) (options : TInferenceOptions)
    (messages : Messages) (nodePtr : CNode) : Option VectorXd :=
  let nodeID := nodePtr.id
  divideBySum
    ((graph.edges_f nodeID).foldl
      (fun acc edgePtr =>
        let edgeIndex := graph.getEdgeIndex edgePtr.id
        if edgePtr.getNodePosition nodeID = 0 then cwiseProduct acc (messages.get edgeIndex 1)
        else cwiseProduct acc (messages.get edgeIndex 0))
      (nodePtr.potentials options.considerNodeFixedValues))

/-- Step 2 of `CTRPBPInferenceMarginal::infer` (lines 403–432): the map
`nodeBeliefs`; a key that was never written reads as the empty vector. -/
def CTRPBPInferenceMarginal.computeNodeBeliefs (graph : CGraph) (options : TInferenceOptions)
    (messages : Messages) : ℕ → Option VectorXd :=
  graph.nodes.foldl
    (fun nodeBeliefs nodePtr =>
      Function.update nodeBeliefs nodePtr.id
        (CTRPBPInferenceMarginal.nodeBelief graph options messages nodePtr))
    (fun _ => some [])

/-- Body of the loop of lines 438–488 of `CTRPBPInferenceMarginal::infer`: the
belief of the edge of index `edgeIndex`; `none` when a node belief it reads or
its own quotient is not a finite value. -/
def CTRPBPInferenceMarginal.edgeBelief (graph : CGraph) (messages : Messages)
    (nodeBeliefs : ℕ → Option VectorXd) (edgeIndex : ℕ) : Option MatrixXd :=
  let edgePtr := graph.edges.getD edgeIndex ⟨0, 0, 0, []⟩
  let edgePotentials := edgePtr.potentials
  let message1To2 := messages.get edgeIndex 0
  let message2To1 := messages.get edgeIndex 1
  match nodeBeliefs edgePtr.ID1, nodeBeliefs edgePtr.ID2 with
  | some belief1, some belief2 =>
    let node1Belief := cwiseQuotient belief1 message2To1
    let node2Belief := cwiseQuotient belief2 message1To2
    divideMatrixBySum
      ((List.range edgePotentials.rows).map fun row =>
        (List.range edgePotentials.cols).map fun col =>
          edgePotentials.coeff row col * node1Belief.getD row 0 * node2Belief.getD col 0)
  | _, _ => none

/-- Step 3 of `CTRPBPInferenceMarginal::infer` (lines 438–488): the map
`edgeBeliefs`, keyed by edge id. -/
def CTRPBPInferenceMarginal.computeEdgeBeliefs (graph : CGraph) (messages : Messages)
    (nodeBeliefs : ℕ → Option VectorXd) : ℕ → Option MatrixXd :=
  (List.range graph.edges.length).foldl
    (fun edgeBeliefs edgeIndex =>
      Function.update edgeBeliefs (graph.edges.getD edgeIndex ⟨0, 0, 0, []⟩).id
        (CTRPBPInferenceMarginal.edgeBelief graph messages nodeBeliefs edgeIndex))
    (fun _ => some [])


/-! ## Specification-side definitions and proof invariants -/

/-- A matrix with `N` rows, each of length `N`. -/
def IsSquare (m : MatrixXd) (N : ℕ) : Prop := m.length = N ∧ ∀ row ∈ m, row.length = N

/-- An edge of the residual graph: strictly positive residual capacity. -/
def ResEdge (r : MatrixXd) (u v : ℕ) : Prop := 0 < r.coeff u v

/-- Vertex `v` is reachable from `s` through edges of strictly positive residual
capacity. -/
def Reach (r : MatrixXd) (s v : ℕ) : Prop := Relation.ReflTransGen (ResEdge r) s v

/-- Invariant of the breadth-first search while vertex `u` (already popped) is
being scanned, the vertices `v < k` having been looked at. `L` lists the
vertices discovered so far, in order of discovery. -/
structure BfsInv (r : MatrixXd) (N s : ℕ) (L done : List ℕ) (u k : ℕ)
    (vis : List Bool) (par : List ℕ) (q : List ℕ) : Prop where
  decomp : L = done ++ u :: q
  vlen : vis.length = N
  plen : par.length = N
  nodup : L.Nodup
  lt : ∀ v ∈ L, v < N
  vis_iff : ∀ v, vis.getD v false = true ↔ v ∈ L
  src : s ∈ L
  par_ok : ∀ v ∈ L, v ≠ s →
    par.getD v 0 ∈ L ∧ L.indexOf (par.getD v 0) < L.indexOf v ∧ 0 < r.coeff (par.getD v 0) v
  closed : ∀ a ∈ done, ∀ v < N, 0 < r.coeff a v → v ∈ L
  scanned : ∀ v < k, 0 < r.coeff u v → v ∈ L
  reach : ∀ v ∈ L, Reach r s v

/-- What `bfs` leaves behind: `visited` marks exactly the vertices reachable from
`s`, and the parent pointers of the reachable vertices lead back to `s` along
edges of positive residual capacity, the discovery rank decreasing. -/
structure BfsPost (r : MatrixXd) (N s : ℕ) (vis : List Bool) (par : List ℕ)
    (rank : ℕ → ℕ) : Prop where
  vlen : vis.length = N
  plen : par.length = N
  vis_iff : ∀ v, vis.getD v false = true ↔ Reach r s v
  lt : ∀ v, Reach r s v → v < N
  rank_lt : ∀ v, Reach r s v → rank v < N
  par_ok : ∀ v, Reach r s v → v ≠ s →
    Reach r s (par.getD v 0) ∧ rank (par.getD v 0) < rank v ∧ 0 < r.coeff (par.getD v 0) v

/-- Simulation between the search of `getFinalCut` and the search of `bfs`: same
`visited` array and queue, and `cut` holds `1` exactly at the visited vertices
and its initial content elsewhere. -/
structure CutRel (N : ℕ) (cut0 : VectorXi) (c : CutState) (b : BfsState) : Prop where
  vis_eq : c.visited = b.visited
  q_eq : c.q = b.q
  vlen : b.visited.length = N
  clen : c.cut.length = cut0.length
  cut_eq : ∀ v, c.cut.getD v 0 =
    if b.visited.getD v false = true ∧ v < cut0.length then 1 else cut0.getD v 0

/-- Sum of row `w` of a matrix over the first `N` columns. -/
def rowSum (m : MatrixXd) (N w : ℕ) : ℚ := ∑ b in Finset.range N, m.coeff w b

/-- The value `x` is an integer multiple of `1 / D`. -/
def IsMul (D : ℕ) (x : ℚ) : Prop := ∃ z : ℤ, x = z / D

/-- Vertices the loop `for (v = t; v != s; v = parent[v])` passes through when
started at `v`. -/
inductive OnWalk (par : List ℕ) (s : ℕ) : ℕ → ℕ → Prop
  | here {v : ℕ} : v ≠ s → OnWalk par s v v
  | next {v w : ℕ} : v ≠ s → OnWalk par s (par.getD v 0) w → OnWalk par s v w

/-- Invariant of the augmentation loop of `fordFulkerson` with respect to the
capacity matrix `c`. -/
structure FlowInv (c : MatrixXd) (N s t D : ℕ) (st : FlowState) : Prop where
  sq : IsSquare st.rGraph N
  plen : st.parent.length = N
  nonneg : ∀ a b, 0 ≤ st.rGraph.coeff a b
  mul : ∀ a b, IsMul D (st.rGraph.coeff a b)
  mulFlow : IsMul D st.max_flow
  skew : ∀ a b, st.rGraph.coeff a b + st.rGraph.coeff b a = c.coeff a b + c.coeff b a
  rows : ∀ w, rowSum st.rGraph N w =
    rowSum c N w - (if w = s then st.max_flow else 0) + (if w = t then st.max_flow else 0)

/-- A feasible `s`-`t` flow on the capacity matrix `graph`: between `0` and the
capacity on every pair, and conserved at every vertex other than `s` and `t`. -/
def IsFlow (graph : MatrixXd) (N s t : ℕ) (f : ℕ → ℕ → ℚ) : Prop :=
  (∀ u v, u < N → v < N → 0 ≤ f u v ∧ f u v ≤ graph.coeff u v) ∧
  ∀ v, v < N → v ≠ s → v ≠ t →
    ∑ u in Finset.range N, f u v = ∑ u in Finset.range N, f v u

/-- Net outflow of a flow from the source `s`. -/
def flowValue (N s : ℕ) (f : ℕ → ℕ → ℚ) : ℚ :=
  ∑ v in Finset.range N, f s v - ∑ v in Finset.range N, f v s

/-- Total capacity of the pairs going from the side `S` to its complement. -/
def sideCapacity (graph : MatrixXd) (N : ℕ) (S : ℕ → Prop) [DecidablePred S] : ℚ :=
  ∑ u in Finset.range N, ∑ v in Finset.range N,
    if S u ∧ ¬ S v then graph.coeff u v else 0

/-- Two searches that differ only in the prior content of `parent`: same
`visited` array and queue, and the same parent at every visited vertex other
than `s`. -/
structure ParRel (N s : ℕ) (b1 b2 : BfsState) : Prop where
  vis_eq : b1.visited = b2.visited
  q_eq : b1.q = b2.q
  plen1 : b1.parent.length = N
  plen2 : b2.parent.length = N
  par_eq : ∀ v, b1.visited.getD v false = true → v ≠ s →
    b1.parent.getD v 0 = b2.parent.getD v 0

/-- The part of the loop state that is not the `parent` array. -/
def FlowState.core (st : FlowState) : MatrixXd × ℚ := (st.rGraph, st.max_flow)

/-- Total capacity `graph(u,v)` over the pairs with `cut(u) = 1` and `cut(v) = 0`. -/
def cutCapacity (graph : MatrixXd) (N : ℕ) (cut : VectorXi) : ℚ :=
  ∑ u in Finset.range N, ∑ v in Finset.range N,
    if cut.getD u 0 = 1 ∧ cut.getD v 0 = 0 then graph.coeff u v else 0

instance (m : MatrixXd) (N : ℕ) : Decidable (IsSquare m N) := by
  unfold IsSquare; infer_instance

/-- State of the augmentation loop after `n` augmentations, started in `st`;
`none` when the loop has ended (or an inner loop ran out of fuel) before. -/
def flowTrace (fuel s t : ℕ) : ℕ → FlowState → Option FlowState
  | 0, st => some st
  | n + 1, st =>
    match augmentStep fuel s t st with
    | some (Sum.inr st1) => flowTrace fuel s t n st1
    | _ => none

/-- Residual matrix at the end of the augmentation loop on the textbook network. -/
def textbookResidual : MatrixXd :=
  [[0, 4, 2, 0, 0, 0],
   [12, 0, 10, 0, 0, 0],
   [11, 4, 0, 0, 3, 0],
   [0, 12, 9, 0, 7, 1],
   [0, 0, 11, 0, 0, 0],
   [0, 0, 0, 19, 4, 0]]

/-- Cardinality of the node with the given id: the size of its unary potential. -/
def CGraph.card (graph : CGraph) (flag : Bool) (ID : ℕ) : ℕ :=
  ((graph.getNodeWithID ID).potentials flag).length

/-- Well-formedness of a graph view: node ids and edge ids are unique, the end
nodes of every edge exist, every edge potential has the shape
`card(first) × card(second)`, every node has at least one state, and the
multimap `edges_f` only lists, under a node id, edges of the graph incident to
that node. -/
structure CGraph.WellFormed (graph : CGraph) (flag : Bool) : Prop where
  node_ids : (graph.nodes.map CNode.id).Nodup
  edge_ids : (graph.edges.map CEdge.id).Nodup
  ends : ∀ e ∈ graph.edges,
    (∃ n ∈ graph.nodes, n.id = e.ID1) ∧ (∃ n ∈ graph.nodes, n.id = e.ID2)
  dims : ∀ e ∈ graph.edges, e.potentials.length = graph.card flag e.ID1 ∧
    ∀ row ∈ e.potentials, row.length = graph.card flag e.ID2
  states : ∀ n ∈ graph.nodes, 0 < (n.potentials flag).length
  incident : ∀ n ∈ graph.nodes, ∀ e ∈ graph.edges_f n.id,
    e ∈ graph.edges ∧ (e.ID1 = n.id ∨ e.ID2 = n.id)

/-- Shape of a message table: one pair of vectors per edge, the first sized to
the second node of the edge and the second sized to its first node. -/
structure MsgDims (graph : CGraph) (flag : Bool) (messages : Messages) : Prop where
  len : messages.length = graph.edges.length
  pair : ∀ i, i < graph.edges.length → (messages.getD i []).length = 2
  dim0 : ∀ i, i < graph.edges.length →
    (messages.get i 0).length = graph.card flag (graph.edges.getD i ⟨0, 0, 0, []⟩).ID2
  dim1 : ∀ i, i < graph.edges.length →
    (messages.get i 1).length = graph.card flag (graph.edges.getD i ⟨0, 0, 0, []⟩).ID1

/-- Every entry of every message satisfies `P`. -/
def MsgAll (P : ℚ → Prop) (messages : Messages) : Prop :=
  ∀ i k, ∀ x ∈ messages.get i k, P x

/-- The message that node `nodeID` has received along its incident edge `e2`:
slot `1` of the edge when `nodeID` is its first node, slot `0` otherwise. -/
def incomingMessage (graph : CGraph) (messages : Messages) (nodeID : ℕ) (e2 : CEdge) :
    VectorXd :=
  if nodeID = e2.ID1 then messages.get (graph.getEdgeIndex e2.id) 1
  else messages.get (graph.getEdgeIndex e2.id) 0

/-- The sum-product message of the specification, from node `i` along its
incident edge `e` to the neighbour `j` at the other end, at state `x_j` of `j`:
the sum over the states `x_i` of `i` of `psi(x_i, x_j) * phi_i(x_i)` times the
product, over the neighbours `k ≠ j` of `i`, of the message from `k` to `i`. -/
def sumProductMessage (graph : CGraph) (flag : Bool) (messages : Messages) (i : CNode)
    (e : CEdge) (x_j : ℕ) : ℚ :=
  ∑ x_i in Finset.range (i.potentials flag).length,
    (if e.ID1 = i.id then e.potentials.coeff x_i x_j else e.potentials.coeff x_j x_i) *
      (i.potentials flag).getD x_i 0 *
      ((graph.edges.filter fun e2 => (e2.ID1 = i.id ∨ e2.ID2 = i.id) ∧
          (if e2.ID1 = i.id then e2.ID2 else e2.ID1) ≠
            (if e.ID1 = i.id then e.ID2 else e.ID1)).map
        fun e2 => (incomingMessage graph messages i.id e2).getD x_i 0).prod

/-- All unary and pairwise potentials are strictly positive. -/
structure CGraph.PositivePotentials (graph : CGraph) (flag : Bool) : Prop where
  node_pos : ∀ n ∈ graph.nodes, ∀ x ∈ n.potentials flag, 0 < x
  edge_pos : ∀ e ∈ graph.edges, ∀ row ∈ e.potentials, ∀ x ∈ row, 0 < x

/-- The all-ones table built by lines 32–51: for every edge, a vector of ones of
the size of its second node and one of the size of its first node. -/
def onesTable (graph : CGraph) (flag : Bool) : Messages :=
  graph.edges.map fun e =>
    [List.replicate (graph.card flag e.ID2) 1, List.replicate (graph.card flag e.ID1) 1]

/-- Shape and positivity of the message table: the invariant of sum-product
message passing on a graph with positive potentials. -/
def MsgInv (graph : CGraph) (flag : Bool) (messages : Messages) : Prop :=
  MsgDims graph flag messages ∧ MsgAll (fun x => 0 < x) messages

/-- No edge joins a node to itself. -/
def CGraph.NoSelfLoops (graph : CGraph) : Prop := ∀ e ∈ graph.edges, e.ID1 ≠ e.ID2

/-- No two distinct edges join the same pair of nodes. -/
def CGraph.NoParallelEdges (graph : CGraph) : Prop :=
  ∀ e1 ∈ graph.edges, ∀ e2 ∈ graph.edges,
    (e1.ID1 = e2.ID1 ∧ e1.ID2 = e2.ID2) ∨ (e1.ID1 = e2.ID2 ∧ e1.ID2 = e2.ID1) → e1 = e2

/-- The multimap `edges_f` lists, under the id of every node, each edge of the
graph incident to that node exactly once. -/
def CGraph.CompleteEdgesF (graph : CGraph) : Prop :=
  ∀ n ∈ graph.nodes,
    (graph.edges_f n.id).Perm (graph.edges.filter fun e => e.ID1 = n.id ∨ e.ID2 = n.id)

/-- All joint states of variables with the given numbers of states, as lists of
one state per variable. -/
def jointStates : List ℕ → List (List ℕ)
  | [] => [[]]
  | c :: cs => (List.range c).flatMap fun x => (jointStates cs).map fun σ => x :: σ

/-- Modelled from the spec: `getNodeIndex`-style lookup, the position in the node
list of the node with the given id. -/
def CGraph.nodeIndex (graph : CGraph) (ID : ℕ) : ℕ := graph.nodes.findIdx fun n => n.id = ID

/-- Unnormalised probability of a joint state `σ` (one state per node, in node
order): the product of all unary potentials and of all pairwise potentials. -/
def jointWeight (graph : CGraph) (flag : Bool) (σ : List ℕ) : ℚ :=
  ((List.range graph.nodes.length).map fun k =>
      ((graph.nodes.getD k ⟨0, fun _ => []⟩).potentials flag).getD (σ.getD k 0) 0).prod *
    (graph.edges.map fun e =>
      e.potentials.coeff (σ.getD (graph.nodeIndex e.ID1) 0) (σ.getD (graph.nodeIndex e.ID2) 0)).prod

/-- Exact marginal probability that the node of index `k` is in state `x`, by
enumeration of all joint states. -/
def exactMarginal (graph : CGraph) (flag : Bool) (k x : ℕ) : ℚ :=
  (((jointStates (graph.nodes.map fun n => (n.potentials flag).length)).filter
      fun σ => σ.getD k 0 = x).map (jointWeight graph flag)).sum /
    ((jointStates (graph.nodes.map fun n => (n.potentials flag).length)).map
      (jointWeight graph flag)).sum

/-- A chain of three binary nodes in path order: node ids `0`, `1`, `2`, edges
`0 – 1` and `1 – 2`. -/
def pathChain : CGraph :=
  { nodes := [⟨0, fun _ => [1, 2]⟩, ⟨1, fun _ => [1, 1]⟩, ⟨2, fun _ => [3, 1]⟩],
    edges := [⟨10, 0, 1, [[1, 2], [3, 4]]⟩, ⟨11, 1, 2, [[1, 3], [2, 1]]⟩],
    edges_f := fun i =>
      if i = 0 then [⟨10, 0, 1, [[1, 2], [3, 4]]⟩]
      else if i = 1 then [⟨10, 0, 1, [[1, 2], [3, 4]]⟩, ⟨11, 1, 2, [[1, 3], [2, 1]]⟩]
      else if i = 2 then [⟨11, 1, 2, [[1, 3], [2, 1]]⟩] else [] }

/-- Slot of an edge in which a message sent by node `nodeID` is stored: `0` when
the sender is the first node of the edge, `1` otherwise. -/
def sendSlot (nodeID : ℕ) (e : CEdge) : ℕ := if nodeID = e.ID1 then 0 else 1

/-- The sum-product message that node `n` computes for its incident edge `e`
from the table `messages`. -/
def outMessage (graph : CGraph) (options : TInferenceOptions) (n : CNode)
    (messages : Messages) (e : CEdge) : VectorXd :=
  (if n.id ≠ e.ID1 then e.potentials else e.potentials.transpose).mulVec
    (incomingProduct graph messages n.id (if e.ID1 = n.id then e.ID2 else e.ID1)
      (graph.edges_f n.id) (n.potentials options.considerNodeFixedValues))

/-- Edge `e` joins the nodes with ids `x` and `y`. -/
def CEdge.Joins (e : CEdge) (x y : ℕ) : Prop :=
  (e.ID1 = x ∧ e.ID2 = y) ∨ (e.ID1 = y ∧ e.ID2 = x)

/-- The graph is a chain of three binary nodes: its nodes have the ids `a`, `m`
and `b`, and its two edges are `e1`, joining `m` and `a`, and `e2`, joining `m`
and `b`. -/
structure IsChain3 (graph : CGraph) (flag : Bool) (a m b : ℕ) (e1 e2 : CEdge) : Prop where
  wf : graph.WellFormed flag
  complete : graph.CompleteEdgesF
  nodes3 : graph.nodes.length = 3
  ids : ∀ n ∈ graph.nodes, n.id = a ∨ n.id = m ∨ n.id = b
  am : a ≠ m
  bm : b ≠ m
  ab : a ≠ b
  binary : ∀ n ∈ graph.nodes, (n.potentials flag).length = 2
  edges2 : graph.edges.length = 2
  mem1 : e1 ∈ graph.edges
  mem2 : e2 ∈ graph.edges
  joins1 : e1.Joins m a
  joins2 : e2.Joins m b

/-- Message of a leaf of the chain along its edge: the edge potential applied to
the unary potential of the leaf. -/
def leafMessage (flag : Bool) (n : CNode) (e : CEdge) : VectorXd :=
  (if n.id ≠ e.ID1 then e.potentials else e.potentials.transpose).mulVec (n.potentials flag)

/-- Message of the middle node of the chain along an edge, given the message `u`
it received along its other edge. -/
def midMessage (flag : Bool) (n : CNode) (e : CEdge) (u : VectorXd) : VectorXd :=
  (if n.id ≠ e.ID1 then e.potentials else e.potentials.transpose).mulVec
    (cwiseProduct (n.potentials flag) u)

/-- The slot of edge `e` written by the leaf `l` holds the leaf message. -/
def LeafSlotOK (graph : CGraph) (flag : Bool) (l : ℕ) (e : CEdge) (messages : Messages) : Prop :=
  messages.get (graph.getEdgeIndex e.id) (sendSlot l e) =
    leafMessage flag (graph.getNodeWithID l) e

/-- The slot of edge `e` written by the middle node `m` holds the message
computed from the leaf message of the other leaf `l` along the other edge `e'`. -/
def MidSlotOK (graph : CGraph) (flag : Bool) (m l : ℕ) (e e' : CEdge) (messages : Messages) :
    Prop :=
  messages.get (graph.getEdgeIndex e.id) (sendSlot m e) =
    midMessage flag (graph.getNodeWithID m) e (leafMessage flag (graph.getNodeWithID l) e')

/-- The two leaf messages of the chain are in place. -/
def ChainLeafOK (graph : CGraph) (flag : Bool) (a b : ℕ) (e1 e2 : CEdge)
    (messages : Messages) : Prop :=
  MsgDims graph flag messages ∧ LeafSlotOK graph flag a e1 messages ∧
    LeafSlotOK graph flag b e2 messages

/-- All four messages of the chain have their fixed-point value. -/
def ChainOK (graph : CGraph) (flag : Bool) (a m b : ℕ) (e1 e2 : CEdge)
    (messages : Messages) : Prop :=
  ChainLeafOK graph flag a b e1 e2 messages ∧ MidSlotOK graph flag m b e1 e2 messages ∧
    MidSlotOK graph flag m a e2 e1 messages

/-- Unary potential of the node with id `ID`, as a function of the state. -/
def CGraph.phi (graph : CGraph) (flag : Bool) (ID x : ℕ) : ℚ :=
  ((graph.getNodeWithID ID).potentials flag).getD x 0

/-- Pairwise potential of edge `e` read as (state of node `m`, state of the
node at the other end), whichever of the two is stored first. -/
def CEdge.psi (e : CEdge) (m xm xl : ℕ) : ℚ :=
  if e.ID1 = m then e.potentials.coeff xm xl else e.potentials.coeff xl xm

/-- Unnormalised probability of the joint state of a chain in which the leaf `a`
is in state `xa`, the middle node `m` in state `xm` and the leaf `b` in state
`xb`. -/
def chainWeight (graph : CGraph) (flag : Bool) (a m b : ℕ) (e1 e2 : CEdge)
    (xa xm xb : ℕ) : ℚ :=
  graph.phi flag a xa * graph.phi flag m xm * graph.phi flag b xb * e1.psi m xm xa *
    e2.psi m xm xb

/-- The message table after `n` passes over the nodes, starting from the
all-ones table. -/
def tableAfter (graph : CGraph) (options : TInferenceOptions) (maximize : Bool) (n : ℕ) :
    Messages :=
  (sweep graph options maximize)^[n] (onesTable graph options.considerNodeFixedValues)

/-- The sum `S_n` of all message entries after `n` passes over the nodes. -/
def sumAfter (graph : CGraph) (options : TInferenceOptions) (maximize : Bool) (n : ℕ) : ℚ :=
  totalSum graph (tableAfter graph options maximize n)

/-- The stopping test succeeds after pass number `n`:
`|S_{n-1} - S_n| < convergenceThreshold`. -/
def StopsAt (graph : CGraph) (options : TInferenceOptions) (maximize : Bool) (n : ℕ) : Prop :=
  |sumAfter graph options maximize (n - 1) - sumAfter graph options maximize n| <
    options.convergency

/-- Two options records agree on the fields that the engine reads. -/
def TInferenceOptions.SameEngineFields (o o1 : TInferenceOptions) : Prop :=
  o.maxIterations = o1.maxIterations ∧ o.convergency = o1.convergency ∧
    o.considerNodeFixedValues = o1.considerNodeFixedValues

/-- Invariant of the cover construction: every marked node lies in a stored
tree, and no stored tree is empty. -/
def CoverInv (graph : CGraph) (st : CoverState) : Prop :=
  (∀ i, i < graph.nodes.length → st.v_addedNodes.getD i false = true →
      ∃ tree ∈ st.v_trees, (graph.nodes.getD i ⟨0, fun _ => []⟩).id ∈ tree) ∧
    ∀ tree ∈ st.v_trees, tree ≠ []

/-- The set of the marked indices. -/
def markedSet (N : ℕ) (v : List Bool) : Finset ℕ :=
  (Finset.range N).filter fun i => v.getD i false = true

/-- The state of the cover construction after `k` calls: a node is marked exactly
when an earlier tree contains its id, and every call so far marked a new node. -/
def CoverProgress (getSpanningTree : ℕ → List ℕ) (graph : CGraph) (st : CoverState) : Prop :=
  st.v_addedNodes.length = graph.nodes.length ∧
    (∀ i, i < graph.nodes.length →
      (st.v_addedNodes.getD i false = true ↔
        ∃ j, j < st.calls ∧ (graph.nodes.getD i ⟨0, fun _ => []⟩).id ∈ getSpanningTree j)) ∧
    st.calls ≤ (markedSet graph.nodes.length st.v_addedNodes).card

/-- All unary and pairwise potentials of the graph are non-negative. -/
structure CGraph.NonnegPotentials (graph : CGraph) (flag : Bool) : Prop where
  node_nonneg : ∀ n ∈ graph.nodes, ∀ x ∈ n.potentials flag, 0 ≤ x
  edge_nonneg : ∀ e ∈ graph.edges, ∀ row ∈ e.potentials, ∀ x ∈ row, 0 ≤ x

/-- The maximum of a list of numbers (`0` for the empty list). -/
def listMax : List ℚ → ℚ
  | [] => 0
  | a :: l => l.foldl max a

/-- The max-product value of the specification for node `i`, its incident edge
`e` to the neighbour `j` at the other end, and state `x_j` of `j`: the maximum
over the states `x_i` of `i` of `psi(x_i, x_j) * accumulated(x_i)`, where
`accumulated` is `phi_i` times the messages into `i` from all neighbours other
than `j`. -/
def maxProductValue (graph : CGraph) (flag : Bool) (messages : Messages) (i : CNode)
    (e : CEdge) (x_j : ℕ) : ℚ :=
  listMax ((List.range (i.potentials flag).length).map fun x_i =>
    (if e.ID1 = i.id then e.potentials.coeff x_i x_j else e.potentials.coeff x_j x_i) *
      ((i.potentials flag).getD x_i 0 *
        ((graph.edges.filter fun e2 => (e2.ID1 = i.id ∨ e2.ID2 = i.id) ∧
            (if e2.ID1 = i.id then e2.ID2 else e2.ID1) ≠
              (if e.ID1 = i.id then e.ID2 else e.ID1)).map
          fun e2 => (incomingMessage graph messages i.id e2).getD x_i 0).prod))

/-- The max-product message of the specification: the vector of the max-product
values over the states of the neighbour, divided by its sum. -/
def maxProductSpecMessage (graph : CGraph) (flag : Bool) (messages : Messages) (i : CNode)
    (e : CEdge) : VectorXd :=
  let maxima := (List.range (graph.card flag (if e.ID1 = i.id then e.ID2 else e.ID1))).map
    (maxProductValue graph flag messages i e)
  maxima.map fun x => x / maxima.sum

/-- Two binary nodes joined by one edge whose potential vanishes on the second
state of the second node. -/
def zeroColumnPair : CGraph :=
  { nodes := [⟨0, fun _ => [1, 1]⟩, ⟨1, fun _ => [1, 1]⟩],
    edges := [⟨0, 0, 1, [[1, 0], [1, 0]]⟩],
    edges_f := fun i => if i = 0 ∨ i = 1 then [⟨0, 0, 1, [[1, 0], [1, 0]]⟩] else [] }

/-- The unnormalised belief of a node: its potential times the messages it
received (lines 76–98 and 403–425). -/
def nodeMass (graph : CGraph) (options : TInferenceOptions) (messages : Messages)
    (nodePtr : CNode) : VectorXd :=
  (graph.edges_f nodePtr.id).foldl
    (fun acc edgePtr =>
      let edgeIndex := graph.getEdgeIndex edgePtr.id
      if edgePtr.getNodePosition nodePtr.id = 0 then
        cwiseProduct acc (messages.get edgeIndex 1)
      else cwiseProduct acc (messages.get edgeIndex 0))
    (nodePtr.potentials options.considerNodeFixedValues)

/-- Two binary nodes joined by one edge; the unary potential of node `0` is
zero. -/
def zeroMassPair : CGraph :=
  { nodes := [⟨0, fun _ => [0, 0]⟩, ⟨1, fun _ => [1, 1]⟩],
    edges := [⟨0, 0, 1, [[1, 1], [1, 1]]⟩],
    edges_f := fun i => if i = 0 ∨ i = 1 then [⟨0, 0, 1, [[1, 1], [1, 1]]⟩] else [] }

/-- The partition function `Z` of the model: the sum, over all joint states, of
the product of all unary and pairwise potentials. -/
def partitionFunction (graph : CGraph) (flag : Bool) : ℚ :=
  ((jointStates (graph.nodes.map fun n => (n.potentials flag).length)).map
    (jointWeight graph flag)).sum

/-- Two binary nodes joined by one edge, all potentials equal to one. -/
def unitPair : CGraph :=
  { nodes := [⟨0, fun _ => [1, 1]⟩, ⟨1, fun _ => [1, 1]⟩],
    edges := [⟨0, 0, 1, [[1, 1], [1, 1]]⟩],
    edges_f := fun i => if i = 0 ∨ i = 1 then [⟨0, 0, 1, [[1, 1], [1, 1]]⟩] else [] }

/-- The message table is a fixed point of the update of the given mode
(sum-product for `maximize = false`): no single message update changes it. -/
def IsFixedPoint (graph : CGraph) (options : TInferenceOptions) (maximize : Bool)
    (messages : Messages) : Prop :=
  ∀ n ∈ graph.nodes, ∀ e ∈ graph.edges_f n.id,
    sendMessage graph options maximize n messages e = messages

/-- The node that writes slot `k` of the edge of index `edgeIndex`: the first
node of the edge for slot `0`, its second node otherwise. -/
def slotSender (graph : CGraph) (edgeIndex k : ℕ) : ℕ :=
  if k = 0 then (graph.edges.getD edgeIndex ⟨0, 0, 0, []⟩).ID1
  else (graph.edges.getD edgeIndex ⟨0, 0, 0, []⟩).ID2

/-- The table that the node with id `i` reads during a pass over the nodes: the
messages of the current pass (`Mnew`) sent by the nodes whose index is smaller
than the index of `i`, and the messages of the previous pass (`Mold`) sent by
the other nodes. -/
def mixTable (graph : CGraph) (Mnew Mold : Messages) (i : ℕ) : Messages :=
  (List.range graph.edges.length).map fun edgeIndex =>
    (List.range 2).map fun k =>
      if graph.nodeIndex (slotSender graph edgeIndex k) < graph.nodeIndex i then
        Mnew.get edgeIndex k
      else Mold.get edgeIndex k

/-- The message of the sequential schedule, from node `i` along its incident
edge `e` to the neighbour `j` at the other end, at state `x_j` of `j`: the
sum-product message in which the message from a neighbour `k ≠ j` is read in the
table `Mnew` of the current pass when the index of `k` is smaller than the index
of `i`, and in the table `Mold` of the previous pass otherwise. -/
def scheduledMessage (graph : CGraph) (flag : Bool) (Mnew Mold : Messages) (i : CNode)
    (e : CEdge) (x_j : ℕ) : ℚ :=
  ∑ x_i in Finset.range (i.potentials flag).length,
    (if e.ID1 = i.id then e.potentials.coeff x_i x_j else e.potentials.coeff x_j x_i) *
      (i.potentials flag).getD x_i 0 *
      ((graph.edges.filter fun e2 => (e2.ID1 = i.id ∨ e2.ID2 = i.id) ∧
          (if e2.ID1 = i.id then e2.ID2 else e2.ID1) ≠
            (if e.ID1 = i.id then e.ID2 else e.ID1)).map
        fun e2 =>
          (incomingMessage graph
            (if graph.nodeIndex (if e2.ID1 = i.id then e2.ID2 else e2.ID1) <
                graph.nodeIndex i.id then Mnew else Mold) i.id e2).getD x_i 0).prod

/-- Every edge joins two nodes of consecutive indices, as in a path graph whose
nodes are indexed in path order. -/
def CGraph.PathOrdered (graph : CGraph) : Prop :=
  ∀ e ∈ graph.edges, graph.nodeIndex e.ID1 + 1 = graph.nodeIndex e.ID2 ∨
    graph.nodeIndex e.ID2 + 1 = graph.nodeIndex e.ID1

/-! ## Max-flow / min-cut: lemmas and theorems -/

theorem IsSquare.cols_eq {m : MatrixXd} {N : ℕ} (h : IsSquare m N) : m.cols = N := by
  obtain ⟨h1, h2⟩ := h
  cases m with
  | nil => simpa [MatrixXd.cols] using h1
  | cons row rest => simpa [MatrixXd.cols] using h2 row (by simp)

theorem IsSquare.row_length {m : MatrixXd} {N : ℕ} (h : IsSquare m N) {u : ℕ} (hu : u < N) :
    (m.getD u []).length = N := by
  obtain ⟨h1, h2⟩ := h
  have hu' : u < m.length := by omega
  rw [List.getD_eq_getElem _ _ hu']
  exact h2 _ (List.getElem_mem _)

theorem IsSquare.setCoeff {m : MatrixXd} {N : ℕ} (h : IsSquare m N) (u v : ℕ) (x : ℚ) :
    IsSquare (m.setCoeff u v x) N := by
  obtain ⟨h1, h2⟩ := h
  refine ⟨by simp [MatrixXd.setCoeff, h1], ?_⟩
  intro row hrow
  unfold MatrixXd.setCoeff at hrow
  rcases List.mem_or_eq_of_mem_set hrow with h | h
  · exact h2 row h
  · subst h
    by_cases hu : u < m.length
    · rw [List.length_set, List.getD_eq_getElem _ _ hu]
      exact h2 _ (List.getElem_mem _)
    · rw [List.set_eq_of_length_le (by omega)] at hrow
      exact h2 _ hrow

theorem getD_set_eq {α : Type} (l : List α) (i j : ℕ) (x d : α) :
    (l.set i x).getD j d = if i = j ∧ i < l.length then x else l.getD j d := by
  simp only [List.getD_eq_getElem?_getD, List.getElem?_set]
  by_cases hij : i = j
  · subst hij
    by_cases hi : i < l.length
    · simp [hi]
    · simp [hi, List.getElem?_eq_none (not_lt.mp hi)]
  · simp [hij]

theorem coeff_setCoeff {m : MatrixXd} {N : ℕ} (h : IsSquare m N) {u v : ℕ} (hu : u < N)
    (hv : v < N) (x : ℚ) (a b : ℕ) :
    (m.setCoeff u v x).coeff a b = if a = u ∧ b = v then x else m.coeff a b := by
  have hlen : u < m.length := by rw [h.1]; exact hu
  have hrow := h.row_length hu
  unfold MatrixXd.setCoeff MatrixXd.coeff
  rw [getD_set_eq]
  by_cases hau : u = a
  · subst hau
    simp only [hlen, and_self, if_true, true_and]
    rw [getD_set_eq]
    by_cases hbv : v = b
    · subst hbv
      rw [if_pos ⟨rfl, by rw [hrow]; exact hv⟩, if_pos rfl]
    · rw [if_neg (fun hh => hbv hh.1), if_neg (fun hh => hbv hh.symm)]
  · simp [hau, Ne.symm hau]

theorem initResidual_isSquare {graph : MatrixXd} {N : ℕ} (h : IsSquare graph N) :
    IsSquare (initResidual graph) N := by
  unfold initResidual
  rw [h.cols_eq]
  refine ⟨by simp, ?_⟩
  intro row hrow
  simp only [List.mem_map] at hrow
  obtain ⟨u, _, rfl⟩ := hrow
  simp

theorem coeff_initResidual {graph : MatrixXd} {N : ℕ} (h : IsSquare graph N) {u v : ℕ}
    (hu : u < N) (hv : v < N) : (initResidual graph).coeff u v = graph.coeff u v := by
  unfold initResidual
  rw [h.cols_eq]
  simp [MatrixXd.coeff, List.getD_eq_getElem?_getD, hu, hv]

theorem coeff_pos_lt {m : MatrixXd} {N : ℕ} (h : IsSquare m N) {u v : ℕ}
    (hpos : 0 < m.coeff u v) : u < N ∧ v < N := by
  unfold MatrixXd.coeff at hpos
  have hu : u < N := by
    by_contra hu
    have h0 : m.getD u [] = [] := List.getD_eq_default _ _ (by rw [h.1]; omega)
    rw [h0] at hpos
    simp at hpos
  refine ⟨hu, ?_⟩
  by_contra hv
  rw [List.getD_eq_default _ _ (by rw [h.row_length hu]; omega)] at hpos
  exact lt_irrefl _ hpos

theorem BfsInv.visit {r : MatrixXd} {N s : ℕ} {L done : List ℕ} {u k : ℕ}
    {vis : List Bool} {par q : List ℕ} (h : BfsInv r N s L done u k vis par q) (hk : k < N) :
    ∃ L1, BfsInv r N s L1 done u (k + 1)
      (bfsVisit r u ⟨vis, par, q⟩ k).visited (bfsVisit r u ⟨vis, par, q⟩ k).parent
      (bfsVisit r u ⟨vis, par, q⟩ k).q := by
  unfold bfsVisit
  by_cases hc : vis.getD k false = false ∧ r.coeff u k > 0
  · rw [if_pos hc]
    obtain ⟨hc1, hc2⟩ := hc
    have hkL : k ∉ L := by
      intro hmem
      rw [← h.vis_iff] at hmem
      rw [hmem] at hc1
      exact Bool.noConfusion hc1
    have huL : u ∈ L := by rw [h.decomp]; simp
    refine ⟨L ++ [k], ?_⟩
    constructor
    · rw [h.decomp]; simp
    · simp [h.vlen]
    · simp [h.plen]
    · rw [List.nodup_append]
      refine ⟨h.nodup, List.nodup_singleton k, ?_⟩
      intro a ha hb
      rw [List.mem_singleton] at hb
      subst hb
      exact hkL ha
    · intro v hv
      rw [List.mem_append, List.mem_singleton] at hv
      rcases hv with hv | hv
      · exact h.lt v hv
      · rw [hv]; exact hk
    · intro v
      show (vis.set k true).getD v false = true ↔ v ∈ L ++ [k]
      rw [getD_set_eq, List.mem_append, List.mem_singleton, ← h.vis_iff]
      by_cases hkv : k = v
      · subst hkv
        simp [h.vlen, hk]
      · simp [hkv, Ne.symm hkv]
    · exact List.mem_append_left _ h.src
    · intro v hv hvs
      show (par.set k u).getD v 0 ∈ L ++ [k] ∧
        (L ++ [k]).indexOf ((par.set k u).getD v 0) < (L ++ [k]).indexOf v ∧
        0 < r.coeff ((par.set k u).getD v 0) v
      rw [getD_set_eq]
      rw [List.mem_append, List.mem_singleton] at hv
      rcases hv with hv | hv
      · have hne : k ≠ v := fun hh => hkL (hh ▸ hv)
        rw [if_neg (fun hh => hne hh.1)]
        obtain ⟨p1, p2, p3⟩ := h.par_ok v hv hvs
        refine ⟨List.mem_append_left _ p1, ?_, p3⟩
        rw [List.indexOf_append_of_mem p1, List.indexOf_append_of_mem hv]
        exact p2
      · subst hv
        rw [if_pos ⟨rfl, by rw [h.plen]; exact hk⟩]
        refine ⟨List.mem_append_left _ huL, ?_, hc2⟩
        rw [List.indexOf_append_of_mem huL, List.indexOf_append_of_not_mem hkL]
        simp only [List.indexOf_cons_self, add_zero]
        exact List.indexOf_lt_length.mpr huL
    · intro a ha v hv hpos
      exact List.mem_append_left _ (h.closed a ha v hv hpos)
    · intro v hv hpos
      by_cases hvk : v = k
      · subst hvk; simp
      · exact List.mem_append_left _ (h.scanned v (by omega) hpos)
    · intro v hv
      rw [List.mem_append, List.mem_singleton] at hv
      rcases hv with hv | hv
      · exact h.reach v hv
      · subst hv
        exact Relation.ReflTransGen.tail (h.reach u huL) hc2
  · rw [if_neg hc]
    refine ⟨L, ?_⟩
    refine { h with scanned := ?_ }
    intro v hv hpos
    by_cases hvk : v = k
    · subst hvk
      rw [← h.vis_iff]
      by_contra hcon
      apply hc
      refine ⟨?_, hpos⟩
      cases hb : vis.getD v false
      · rfl
      · exact absurd hb hcon
    · exact h.scanned v (by omega) hpos

theorem BfsInv.scan {r : MatrixXd} {N s : ℕ} {done : List ℕ} {u : ℕ} (k : ℕ) (hk : k ≤ N) :
    ∀ {L : List ℕ} (st : BfsState), BfsInv r N s L done u 0 st.visited st.parent st.q →
    ∃ L1, BfsInv r N s L1 done u k
      ((List.range k).foldl (bfsVisit r u) st).visited
      ((List.range k).foldl (bfsVisit r u) st).parent
      ((List.range k).foldl (bfsVisit r u) st).q := by
  induction k with
  | zero => intro L st h; exact ⟨L, by simpa using h⟩
  | succ k ih =>
    intro L st h
    obtain ⟨L1, h1⟩ := ih (by omega) st h
    rw [List.range_succ, List.foldl_append]
    exact h1.visit (by omega)

theorem length_le_of_nodup_lt {L : List ℕ} {N : ℕ} (hnd : L.Nodup) (hlt : ∀ v ∈ L, v < N) :
    L.length ≤ N := by
  have h1 : L.toFinset ⊆ Finset.range N := by
    intro v hv
    rw [List.mem_toFinset] at hv
    exact Finset.mem_range.mpr (hlt v hv)
  have h2 := Finset.card_le_card h1
  rw [List.toFinset_card_of_nodup hnd, Finset.card_range] at h2
  exact h2

theorem bfsLoop_nil (r : MatrixXd) (N fuel : ℕ) (st : BfsState) (hq : st.q = []) :
    bfsLoop r N fuel st = some st := by
  cases fuel with
  | zero => simp [bfsLoop, hq]
  | succ fuel => simp [bfsLoop, hq]

theorem BfsInv.next {r : MatrixXd} {N s : ℕ} {L done : List ℕ} {u u1 : ℕ}
    {vis : List Bool} {par rest : List ℕ} (h : BfsInv r N s L done u N vis par (u1 :: rest)) :
    BfsInv r N s L (done ++ [u]) u1 0 vis par rest := by
  refine { h with decomp := ?_, closed := ?_, scanned := ?_ }
  · rw [h.decomp]; simp
  · intro a ha v hv hpos
    rw [List.mem_append, List.mem_singleton] at ha
    rcases ha with ha | ha
    · exact h.closed a ha v hv hpos
    · subst ha; exact h.scanned v hv hpos
  · intro v hv; exact absurd hv (Nat.not_lt_zero v)

theorem bfsLoop_spec {r : MatrixXd} {N s : ℕ} : ∀ (fuel : ℕ) {L done : List ℕ} {u : ℕ}
    {vis : List Bool} {par q : List ℕ}, BfsInv r N s L done u 0 vis par q →
    N ≤ fuel + done.length →
    ∃ L1 done1 u1 st1, bfsLoop r N fuel ⟨vis, par, u :: q⟩ = some st1 ∧ st1.q = [] ∧
      BfsInv r N s L1 done1 u1 N st1.visited st1.parent st1.q := by
  intro fuel
  induction fuel with
  | zero =>
    intro L done u vis par q h hfuel
    have hlen := length_le_of_nodup_lt h.nodup h.lt
    rw [h.decomp] at hlen
    simp at hlen
    omega
  | succ fuel ih =>
    intro L done u vis par q h hfuel
    obtain ⟨L1, h1⟩ := BfsInv.scan N le_rfl ⟨vis, par, q⟩ h
    show ∃ L1 done1 u1 st1, bfsLoop r N fuel
        ((List.range N).foldl (bfsVisit r u) ⟨vis, par, q⟩) = some st1 ∧ _
    generalize (List.range N).foldl (bfsVisit r u) ⟨vis, par, q⟩ = st at h1
    obtain ⟨vis1, par1, q1⟩ := st
    cases q1 with
    | nil => exact ⟨L1, done, u, _, bfsLoop_nil r N fuel _ rfl, rfl, h1⟩
    | cons u1 rest =>
      exact ih h1.next (by simp; omega)

theorem BfsInv.post {r : MatrixXd} {N s : ℕ} {L done : List ℕ} {u : ℕ}
    {vis : List Bool} {par : List ℕ} (hsq : IsSquare r N)
    (h : BfsInv r N s L done u N vis par []) :
    BfsPost r N s vis par (fun v => L.indexOf v) := by
  have hmem : ∀ v, Reach r s v ↔ v ∈ L := by
    intro v
    constructor
    · intro hr
      induction hr with
      | refl => exact h.src
      | @tail a b _ hedge ih =>
        have hb := (coeff_pos_lt hsq hedge).2
        rw [h.decomp, List.mem_append] at ih
        rcases ih with ha | ha
        · exact h.closed a ha b hb hedge
        · simp only [List.mem_singleton] at ha
          subst ha
          exact h.scanned b hb hedge
    · exact h.reach v
  constructor
  · exact h.vlen
  · exact h.plen
  · intro v; rw [h.vis_iff, hmem]
  · intro v hv; exact h.lt v ((hmem v).mp hv)
  · intro v hv
    exact lt_of_lt_of_le (List.indexOf_lt_length.mpr ((hmem v).mp hv))
      (length_le_of_nodup_lt h.nodup h.lt)
  · intro v hv hvs
    obtain ⟨p1, p2, p3⟩ := h.par_ok v ((hmem v).mp hv) hvs
    exact ⟨(hmem _).mpr p1, p2, p3⟩

theorem getD_replicate_false (N v : ℕ) : (List.replicate N false).getD v false = false := by
  simp only [List.getD_eq_getElem?_getD, List.getElem?_replicate]
  split <;> rfl

theorem bfsLoop_init_spec {r : MatrixXd} {N s : ℕ} (hsq : IsSquare r N) (hs : s < N)
    {par0 : List ℕ} (hpar : par0.length = N) {fuel : ℕ} (hfuel : N ≤ fuel) :
    ∃ st1 rank, bfsLoop r N fuel ⟨(List.replicate N false).set s true, par0, [s]⟩ = some st1 ∧
      BfsPost r N s st1.visited st1.parent rank := by
  have hinit : BfsInv r N s [s] [] s 0 ((List.replicate N false).set s true) par0 [] := by
    constructor
    · rfl
    · simp
    · exact hpar
    · exact List.nodup_singleton s
    · intro v hv; rw [List.mem_singleton] at hv; rw [hv]; exact hs
    · intro v
      rw [getD_set_eq, getD_replicate_false, List.mem_singleton]
      by_cases hsv : s = v
      · subst hsv; simp [hs]
      · simp [hsv, Ne.symm hsv]
    · exact List.mem_singleton_self s
    · intro v hv hvs; rw [List.mem_singleton] at hv; exact absurd hv hvs
    · intro a ha; exact absurd ha (List.not_mem_nil a)
    · intro v hv; exact absurd hv (Nat.not_lt_zero v)
    · intro v hv; rw [List.mem_singleton] at hv; rw [hv]; exact Relation.ReflTransGen.refl
  obtain ⟨L1, done1, u1, st1, hloop, hq, hinv⟩ := bfsLoop_spec fuel hinit (by simpa using hfuel)
  rw [hq] at hinv
  exact ⟨st1, fun v => L1.indexOf v, hloop, hinv.post hsq⟩

theorem bfs_spec {r : MatrixXd} {N s : ℕ} (hsq : IsSquare r N) (hs : s < N) (t : ℕ)
    {par0 : List ℕ} (hpar : par0.length = N) {fuel : ℕ} (hfuel : N ≤ fuel) :
    ∃ vis par rank, bfs fuel r s t par0 = some (vis.getD t false, par) ∧
      BfsPost r N s vis par rank := by
  obtain ⟨st1, rank, hloop, hpost⟩ := bfsLoop_init_spec hsq hs hpar hfuel
  refine ⟨st1.visited, st1.parent, rank, ?_, hpost⟩
  unfold bfs
  simp only [hsq.cols_eq, hloop, Option.map_some']

theorem CutRel.visit_cut {N : ℕ} {cut0 : VectorXi} {c : CutState} {b : BfsState} (r : MatrixXd)
    (u : ℕ) {v : ℕ} (hv : v < N) (h : CutRel N cut0 c b) :
    CutRel N cut0 (cutVisit r u c v) (bfsVisit r u b v) := by
  unfold cutVisit bfsVisit
  rw [h.vis_eq]
  by_cases hc : b.visited.getD v false = false ∧ r.coeff u v > 0
  · rw [if_pos hc, if_pos hc]
    constructor
    · rfl
    · show c.q ++ [v] = b.q ++ [v]
      rw [h.q_eq]
    · simp [h.vlen]
    · simp [h.clen]
    · intro w
      show (c.cut.set v 1).getD w 0 =
        if (b.visited.set v true).getD w false = true ∧ w < cut0.length then 1 else cut0.getD w 0
      rw [getD_set_eq, getD_set_eq, h.cut_eq w, h.clen, h.vlen]
      by_cases hvw : v = w
      · subst hvw
        by_cases hlen : v < cut0.length
        · simp [hv, hlen]
        · simp [hv, hlen, hc.1]
      · simp [hvw]
  · rw [if_neg hc, if_neg hc]
    exact h

theorem CutRel.scan_cut {N : ℕ} {cut0 : VectorXi} (r : MatrixXd) (u : ℕ) (k : ℕ) (hk : k ≤ N) :
    ∀ {c : CutState} {b : BfsState}, CutRel N cut0 c b →
    CutRel N cut0 ((List.range k).foldl (cutVisit r u) c) ((List.range k).foldl (bfsVisit r u) b) := by
  induction k with
  | zero => intro c b h; simpa using h
  | succ k ih =>
    intro c b h
    rw [List.range_succ, List.foldl_append, List.foldl_append]
    exact (ih (by omega) h).visit_cut r u (by omega)

theorem cutLoop_sim {N : ℕ} {cut0 : VectorXi} (r : MatrixXd) : ∀ (fuel : ℕ) {c : CutState}
    {b b1 : BfsState}, CutRel N cut0 c b → bfsLoop r N fuel b = some b1 →
    ∃ c1, cutLoop r N fuel c = some c1 ∧ CutRel N cut0 c1 b1 := by
  intro fuel
  induction fuel with
  | zero =>
    intro c b b1 h hb
    unfold bfsLoop at hb
    unfold cutLoop
    rw [h.q_eq]
    by_cases hq : b.q = []
    · rw [if_pos hq] at hb
      rw [if_pos hq]
      cases hb
      exact ⟨c, rfl, h⟩
    · rw [if_neg hq] at hb
      cases hb
  | succ fuel ih =>
    intro c b b1 h hb
    obtain ⟨cvis, ccut, cq⟩ := c
    obtain ⟨bvis, bpar, bq⟩ := b
    have hq : cq = bq := h.q_eq
    subst hq
    cases cq with
    | nil =>
      simp only [bfsLoop] at hb
      cases hb
      exact ⟨_, by simp [cutLoop], h⟩
    | cons u rest =>
      simp only [bfsLoop] at hb
      simp only [cutLoop]
      refine ih (CutRel.scan_cut r u N le_rfl ?_) hb
      exact { h with q_eq := rfl }

theorem getFinalCut_spec {r : MatrixXd} {N s : ℕ} (hsq : IsSquare r N) (hs : s < N)
    (cut0 : VectorXi) {fuel : ℕ} (hfuel : N ≤ fuel) :
    ∃ cut1, getFinalCut fuel r s cut0 = some cut1 ∧ cut1.length = cut0.length ∧
      ∀ v, (Reach r s v → v < cut0.length → cut1.getD v 0 = 1) ∧
        (¬ Reach r s v → cut1.getD v 0 = cut0.getD v 0) := by
  obtain ⟨b1, rank, hloop, hpost⟩ :=
    bfsLoop_init_spec hsq hs (show (List.replicate N 0).length = N by simp) hfuel
  have hrel : CutRel N cut0 ⟨(List.replicate N false).set s true, cut0.set s 1, [s]⟩
      ⟨(List.replicate N false).set s true, List.replicate N 0, [s]⟩ := by
    constructor
    · rfl
    · rfl
    · simp
    · simp
    · intro v
      show (cut0.set s 1).getD v 0 =
        if ((List.replicate N false).set s true).getD v false = true ∧ v < cut0.length
          then 1 else cut0.getD v 0
      rw [getD_set_eq, getD_set_eq, getD_replicate_false]
      by_cases hsv : s = v
      · subst hsv
        by_cases hlen : s < cut0.length
        · simp [hs, hlen]
        · simp [hs, hlen]
      · simp [hsv]
  obtain ⟨c1, hc1, hrel1⟩ := cutLoop_sim r fuel hrel hloop
  refine ⟨c1.cut, ?_, hrel1.clen, ?_⟩
  · unfold getFinalCut
    simp only [hsq.cols_eq, hc1, Option.map_some']
  · intro v
    rw [hrel1.cut_eq v]
    constructor
    · intro hr hlen
      rw [if_pos ⟨(hpost.vis_iff v).mpr hr, hlen⟩]
    · intro hr
      rw [if_neg (fun hh => hr ((hpost.vis_iff v).mp hh.1))]

theorem IsMul.add {D : ℕ} {x y : ℚ} (hx : IsMul D x) (hy : IsMul D y) : IsMul D (x + y) := by
  obtain ⟨a, rfl⟩ := hx
  obtain ⟨b, rfl⟩ := hy
  exact ⟨a + b, by push_cast; ring⟩

theorem IsMul.sub {D : ℕ} {x y : ℚ} (hx : IsMul D x) (hy : IsMul D y) : IsMul D (x - y) := by
  obtain ⟨a, rfl⟩ := hx
  obtain ⟨b, rfl⟩ := hy
  exact ⟨a - b, by push_cast; ring⟩

theorem IsMul.min {D : ℕ} {x y : ℚ} (hx : IsMul D x) (hy : IsMul D y) : IsMul D (min x y) := by
  rcases min_choice x y with h | h <;> rw [h] <;> assumption

theorem IsMul.of_int {D : ℕ} (hD : 0 < D) (z : ℤ) : IsMul D (z : ℚ) := by
  refine ⟨z * D, ?_⟩
  have : (D : ℚ) ≠ 0 := by exact_mod_cast hD.ne'
  push_cast
  field_simp

theorem IsMul.zero (D : ℕ) : IsMul D 0 := ⟨0, by simp⟩

theorem isMul_DBL_MAX {D : ℕ} (hD : 0 < D) : IsMul D DBL_MAX := by
  have h : DBL_MAX = ((2 ^ 1024 - 2 ^ 971 : ℤ) : ℚ) := by
    unfold DBL_MAX; push_cast; rfl
  rw [h]
  exact IsMul.of_int hD _

theorem DBL_MAX_pos : 0 < DBL_MAX := by
  unfold DBL_MAX
  norm_num

theorem OnWalk.props {r : MatrixXd} {N s : ℕ} {vis : List Bool} {par : List ℕ} {rank : ℕ → ℕ}
    (hpost : BfsPost r N s vis par rank) {v w : ℕ} (hw : OnWalk par s v w) :
    Reach r s v → Reach r s w ∧ w ≠ s ∧ rank w ≤ rank v := by
  induction hw with
  | here hvs => intro hr; exact ⟨hr, hvs, le_rfl⟩
  | next hvs _ ih =>
    intro hr
    obtain ⟨p1, p2, _⟩ := hpost.par_ok _ hr hvs
    obtain ⟨q1, q2, q3⟩ := ih p1
    exact ⟨q1, q2, by omega⟩

theorem pathFlowLoop_spec {r : MatrixXd} {N s : ℕ} {vis : List Bool} {par : List ℕ}
    {rank : ℕ → ℕ} (hpost : BfsPost r N s vis par rank) :
    ∀ (fuel v : ℕ) (p : ℚ), Reach r s v → rank v ≤ fuel →
    ∃ pf, pathFlowLoop r s par fuel v p = some pf ∧ pf ≤ p ∧
      (∀ w, OnWalk par s v w → pf ≤ r.coeff (par.getD w 0) w) ∧
      (pf = p ∨ ∃ a b, 0 < r.coeff a b ∧ pf = r.coeff a b) := by
  intro fuel
  induction fuel with
  | zero =>
    intro v p hr hrank
    by_cases hvs : v = s
    · refine ⟨p, by simp [pathFlowLoop, hvs], le_rfl, ?_, Or.inl rfl⟩
      intro w hw
      cases hw with
      | here h => exact absurd hvs h
      | next h _ => exact absurd hvs h
    · have := (hpost.par_ok v hr hvs).2.1
      omega
  | succ fuel ih =>
    intro v p hr hrank
    by_cases hvs : v = s
    · refine ⟨p, by simp [pathFlowLoop, hvs], le_rfl, ?_, Or.inl rfl⟩
      intro w hw
      cases hw with
      | here h => exact absurd hvs h
      | next h _ => exact absurd hvs h
    · obtain ⟨p1, p2, p3⟩ := hpost.par_ok v hr hvs
      obtain ⟨pf, h1, h2, h3, h4⟩ :=
        ih (par.getD v 0) (min p (r.coeff (par.getD v 0) v)) p1 (by omega)
      refine ⟨pf, ?_, le_trans h2 (min_le_left _ _), ?_, ?_⟩
      · simp only [pathFlowLoop, hvs, if_false]
        exact h1
      · intro w hw
        cases hw with
        | here _ => exact le_trans h2 (min_le_right _ _)
        | next _ hw1 => exact h3 w hw1
      · rcases h4 with h4 | h4
        · rcases min_choice p (r.coeff (par.getD v 0) v) with hm | hm
          · left; rw [h4, hm]
          · right; exact ⟨_, _, p3, by rw [h4, hm]⟩
        · right; exact h4

theorem coeff_augment {R : MatrixXd} {N : ℕ} (hsq : IsSquare R N) {u v : ℕ} (hu : u < N)
    (hv : v < N) (huv : u ≠ v) (pf : ℚ) (a b : ℕ) :
    ((R.setCoeff u v (R.coeff u v - pf)).setCoeff v u
        ((R.setCoeff u v (R.coeff u v - pf)).coeff v u + pf)).coeff a b =
      R.coeff a b + (if a = v ∧ b = u then pf else 0) - (if a = u ∧ b = v then pf else 0) := by
  rw [coeff_setCoeff (hsq.setCoeff _ _ _) hv hu, coeff_setCoeff hsq hu hv,
    coeff_setCoeff hsq hu hv]
  by_cases h1 : a = v ∧ b = u
  · rw [h1.1, h1.2]
    simp only [huv, Ne.symm huv, and_self, false_and, and_false, if_true, if_false]
    ring
  · by_cases h2 : a = u ∧ b = v
    · rw [h2.1, h2.2]
      simp only [huv, Ne.symm huv, and_self, false_and, and_false, if_true, if_false]
      ring
    · simp [h1, h2]

theorem rowSum_augment {R R2 : MatrixXd} {N : ℕ} {u v : ℕ} (hu : u < N) (hv : v < N) (pf : ℚ)
    (h : ∀ a b, R2.coeff a b =
      R.coeff a b + (if a = v ∧ b = u then pf else 0) - (if a = u ∧ b = v then pf else 0))
    (w : ℕ) :
    rowSum R2 N w = rowSum R N w - (if w = u then pf else 0) + (if w = v then pf else 0) := by
  unfold rowSum
  simp only [h, Finset.sum_sub_distrib, Finset.sum_add_distrib]
  have e1 : ∑ b in Finset.range N, (if w = v ∧ b = u then pf else 0) = if w = v then pf else 0 := by
    by_cases hwv : w = v
    · simp [hwv, hu]
    · simp [hwv]
  have e2 : ∑ b in Finset.range N, (if w = u ∧ b = v then pf else 0) = if w = u then pf else 0 := by
    by_cases hwu : w = u
    · simp [hwu, hv]
    · simp [hwu]
  rw [e1, e2]
  ring

theorem augmentLoop_spec {r : MatrixXd} {N s : ℕ} {vis : List Bool} {par : List ℕ}
    {rank : ℕ → ℕ} (hpost : BfsPost r N s vis par rank) {D : ℕ} {pf : ℚ} (hpf : 0 ≤ pf)
    (hpfD : IsMul D pf) :
    ∀ (fuel v : ℕ) (R : MatrixXd), IsSquare R N → Reach r s v → rank v ≤ fuel →
    (∀ a b, 0 ≤ R.coeff a b) → (∀ w, OnWalk par s v w → pf ≤ R.coeff (par.getD w 0) w) →
    (∀ a b, IsMul D (R.coeff a b)) →
    ∃ R1, augmentLoop s par pf fuel v R = some R1 ∧ IsSquare R1 N ∧
      (∀ a b, 0 ≤ R1.coeff a b) ∧ (∀ a b, IsMul D (R1.coeff a b)) ∧
      (∀ a b, R1.coeff a b + R1.coeff b a = R.coeff a b + R.coeff b a) ∧
      ∀ w, rowSum R1 N w =
        rowSum R N w - (if w = s then pf else 0) + (if w = v then pf else 0) := by
  intro fuel
  induction fuel with
  | zero =>
    intro v R hsq hr hrank hnn hwalk hmul
    by_cases hvs : v = s
    · refine ⟨R, by simp [augmentLoop, hvs], hsq, hnn, hmul, fun _ _ => rfl, ?_⟩
      intro w; rw [hvs]; ring
    · have := (hpost.par_ok v hr hvs).2.1
      omega
  | succ fuel ih =>
    intro v R hsq hr hrank hnn hwalk hmul
    by_cases hvs : v = s
    · refine ⟨R, by simp [augmentLoop, hvs], hsq, hnn, hmul, fun _ _ => rfl, ?_⟩
      intro w; rw [hvs]; ring
    · obtain ⟨p1, p2, p3⟩ := hpost.par_ok v hr hvs
      have hu : par.getD v 0 < N := hpost.lt _ p1
      have hv : v < N := hpost.lt _ hr
      have huv : par.getD v 0 ≠ v := fun hh => by rw [hh] at p2; exact lt_irrefl _ p2
      have hco := coeff_augment hsq hu hv huv pf
      generalize hR2 : (R.setCoeff (par.getD v 0) v (R.coeff (par.getD v 0) v - pf)).setCoeff v
        (par.getD v 0) ((R.setCoeff (par.getD v 0) v (R.coeff (par.getD v 0) v - pf)).coeff v
          (par.getD v 0) + pf) = R2 at hco
      have hsq2 : IsSquare R2 N := by rw [← hR2]; exact (hsq.setCoeff _ _ _).setCoeff _ _ _
      have hnn2 : ∀ a b, 0 ≤ R2.coeff a b := by
        intro a b
        rw [hco]
        by_cases h2 : a = par.getD v 0 ∧ b = v
        · rw [h2.1, h2.2]
          have := hwalk v (OnWalk.here hvs)
          simp only [huv, Ne.symm huv, and_self, false_and, and_false, if_true, if_false]
          linarith
        · have := hnn a b
          simp only [h2, if_false]
          split <;> linarith
      have hwalk2 : ∀ w, OnWalk par s (par.getD v 0) w → pf ≤ R2.coeff (par.getD w 0) w := by
        intro w hw
        have hwv : w ≠ v := by
          intro hh
          have := (hw.props hpost p1).2.2
          rw [hh] at this
          omega
        rw [hco]
        have h2 : ¬ (par.getD w 0 = par.getD v 0 ∧ w = v) := fun hh => hwv hh.2
        have := hwalk w (OnWalk.next hvs hw)
        simp only [h2, if_false]
        split <;> linarith
      have hmul2 : ∀ a b, IsMul D (R2.coeff a b) := by
        intro a b
        rw [hco]
        refine IsMul.sub (IsMul.add (hmul a b) ?_) ?_
        · split
          · exact hpfD
          · exact IsMul.zero D
        · split
          · exact hpfD
          · exact IsMul.zero D
      obtain ⟨R1, e1, e2, e3, e4, e5, e6⟩ :=
        ih (par.getD v 0) R2 hsq2 p1 (by omega) hnn2 hwalk2 hmul2
      refine ⟨R1, ?_, e2, e3, e4, ?_, ?_⟩
      · simp only [augmentLoop, hvs, if_false]
        rw [hR2]
        exact e1
      · intro a b
        rw [e5, hco, hco]
        by_cases h1 : a = v ∧ b = par.getD v 0
        · rw [h1.1, h1.2]
          simp only [huv, Ne.symm huv, and_self, false_and, and_false, if_true, if_false]
          ring
        · by_cases h2 : a = par.getD v 0 ∧ b = v
          · rw [h2.1, h2.2]
            simp only [huv, Ne.symm huv, and_self, false_and, and_false, if_true, if_false]
            ring
          · have h3 : ¬ (b = v ∧ a = par.getD v 0) := fun hh => h2 ⟨hh.2, hh.1⟩
            have h4 : ¬ (b = par.getD v 0 ∧ a = v) := fun hh => h1 ⟨hh.2, hh.1⟩
            rw [if_neg h1, if_neg h2, if_neg h3, if_neg h4]
            ring
      · intro w
        rw [e6, rowSum_augment hu hv pf hco w]
        ring

theorem coeff_eq_zero_of_not_lt {m : MatrixXd} {N : ℕ} (h : IsSquare m N) {u v : ℕ}
    (huv : ¬ (u < N ∧ v < N)) : m.coeff u v = 0 := by
  rcases lt_trichotomy (m.coeff u v) 0 with hlt | heq | hgt
  · unfold MatrixXd.coeff at hlt ⊢
    by_cases hu : u < N
    · have hv : ¬ v < N := fun hv => huv ⟨hu, hv⟩
      exact List.getD_eq_default _ _ (by rw [h.row_length hu]; omega)
    · have h0 : m.getD u [] = [] := List.getD_eq_default _ _ (by rw [h.1]; omega)
      rw [h0]; rfl
  · exact heq
  · exact absurd (coeff_pos_lt h hgt) huv

theorem coeff_initResidual_all {graph : MatrixXd} {N : ℕ} (h : IsSquare graph N) (u v : ℕ) :
    (initResidual graph).coeff u v = graph.coeff u v := by
  by_cases huv : u < N ∧ v < N
  · exact coeff_initResidual h huv.1 huv.2
  · rw [coeff_eq_zero_of_not_lt (initResidual_isSquare h) huv, coeff_eq_zero_of_not_lt h huv]

theorem FlowInv.init {c : MatrixXd} {N : ℕ} (s t : ℕ) {D : ℕ} (hsq : IsSquare c N)
    (hnn : ∀ a b, 0 ≤ c.coeff a b) (hmul : ∀ a b, IsMul D (c.coeff a b)) {par0 : List ℕ}
    (hpar : par0.length = N) :
    FlowInv c N s t D { rGraph := initResidual c, parent := par0, max_flow := 0 } := by
  constructor
  · exact initResidual_isSquare hsq
  · exact hpar
  · intro a b; rw [coeff_initResidual_all hsq]; exact hnn a b
  · intro a b; rw [coeff_initResidual_all hsq]; exact hmul a b
  · exact IsMul.zero D
  · intro a b; rw [coeff_initResidual_all hsq, coeff_initResidual_all hsq]
  · intro w
    simp only [rowSum, coeff_initResidual_all hsq]
    simp

theorem IsMul.ge_of_pos {D : ℕ} (hD : 0 < D) {x : ℚ} (hx : IsMul D x) (hpos : 0 < x) :
    1 / (D : ℚ) ≤ x := by
  obtain ⟨z, rfl⟩ := hx
  have hDq : (0 : ℚ) < D := by exact_mod_cast hD
  have hz : (0 : ℚ) < z := by
    by_contra hcon
    push_neg at hcon
    have : (z : ℚ) / D ≤ 0 := div_nonpos_of_nonpos_of_nonneg hcon hDq.le
    linarith
  have hz1 : (1 : ℚ) ≤ z := by
    have : (0 : ℤ) < z := by exact_mod_cast hz
    exact_mod_cast this
  exact div_le_div_of_nonneg_right hz1 hDq.le

/-- Effect of one round of the augmentation loop on a state satisfying the
invariant: either the search fails and the loop ends, or the invariant is kept
and the flow grows by at least `1 / D`. -/
theorem augmentStep_spec {c : MatrixXd} {N s t D : ℕ} {st : FlowState}
    (h : FlowInv c N s t D st) (hs : s < N) (hD : 0 < D) {fuel : ℕ} (hfuel : N ≤ fuel) :
    (∃ par, augmentStep fuel s t st = some (Sum.inl { st with parent := par }) ∧
        par.length = N ∧ ¬ Reach st.rGraph s t) ∨
    (∃ st1, augmentStep fuel s t st = some (Sum.inr st1) ∧ FlowInv c N s t D st1 ∧
        st.max_flow + 1 / (D : ℚ) ≤ st1.max_flow ∧ Reach st.rGraph s t) := by
  obtain ⟨vis, par, rank, hbfs, hpost⟩ := bfs_spec h.sq hs t h.plen hfuel
  unfold augmentStep
  rw [hbfs]
  cases hvt : vis.getD t false with
  | false =>
    left
    refine ⟨par, rfl, hpost.plen, ?_⟩
    intro hr
    rw [← hpost.vis_iff, hvt] at hr
    exact Bool.noConfusion hr
  | true =>
    right
    have hr : Reach st.rGraph s t := (hpost.vis_iff t).mp hvt
    have hrank : rank t ≤ fuel := le_trans (le_of_lt (hpost.rank_lt t hr)) hfuel
    obtain ⟨pf, hpf1, hpf2, hpf3, hpf4⟩ := pathFlowLoop_spec hpost fuel t DBL_MAX hr hrank
    have hpos : 0 < pf := by
      rcases hpf4 with h4 | ⟨a, b, hab, h4⟩
      · rw [h4]; exact DBL_MAX_pos
      · rw [h4]; exact hab
    have hpfD : IsMul D pf := by
      rcases hpf4 with h4 | ⟨a, b, hab, h4⟩
      · rw [h4]; exact isMul_DBL_MAX hD
      · rw [h4]; exact h.mul a b
    obtain ⟨R1, e1, e2, e3, e4, e5, e6⟩ :=
      augmentLoop_spec hpost hpos.le hpfD fuel t st.rGraph h.sq hr hrank h.nonneg hpf3 h.mul
    simp only [hpf1, e1]
    refine ⟨_, rfl, ?_, ?_, hr⟩
    · constructor
      · exact e2
      · exact hpost.plen
      · exact e3
      · exact e4
      · exact h.mulFlow.add hpfD
      · intro a b; rw [e5, h.skew]
      · intro w
        show rowSum R1 N w = rowSum c N w - (if w = s then st.max_flow + pf else 0) +
          (if w = t then st.max_flow + pf else 0)
        rw [e6, h.rows]
        split_ifs <;> ring
    · show st.max_flow + 1 / (D : ℚ) ≤ st.max_flow + pf
      have := hpfD.ge_of_pos hD hpos
      linarith

theorem rowSum_nonneg {R : MatrixXd} (hnn : ∀ a b, 0 ≤ R.coeff a b) (N w : ℕ) :
    0 ≤ rowSum R N w :=
  Finset.sum_nonneg fun b _ => hnn w b

theorem FlowInv.flow_le {c : MatrixXd} {N s t D : ℕ} {st : FlowState}
    (h : FlowInv c N s t D st) (hst : s ≠ t) : st.max_flow ≤ rowSum c N s := by
  have h1 := h.rows s
  have h2 := rowSum_nonneg h.nonneg N s
  rw [if_pos rfl, if_neg hst] at h1
  linarith

/-- Termination of the augmentation loop: `k` bounds the number of rounds still
possible. -/
theorem flowLoop_spec {c : MatrixXd} {N s t D : ℕ} (hs : s < N) (hst : s ≠ t) (hD : 0 < D)
    {fuel : ℕ} (hfuel : N ≤ fuel) :
    ∀ (k rounds : ℕ) (st : FlowState), FlowInv c N s t D st →
    (rowSum c N s - st.max_flow) * D ≤ k → k < rounds →
    ∃ st1, flowLoop fuel s t rounds st = some st1 ∧ FlowInv c N s t D st1 ∧
      ¬ Reach st1.rGraph s t := by
  have hDq : (0 : ℚ) < D := by exact_mod_cast hD
  intro k
  induction k with
  | zero =>
    intro rounds st h hk hrounds
    obtain ⟨rounds, rfl⟩ : ∃ r, rounds = r + 1 := ⟨rounds - 1, by omega⟩
    rcases augmentStep_spec h hs hD hfuel with ⟨par, e1, e2, e3⟩ | ⟨st1, e1, e2, e3, _⟩
    · exact ⟨{ st with parent := par }, by simp only [flowLoop, e1],
        ⟨h.sq, e2, h.nonneg, h.mul, h.mulFlow, h.skew, h.rows⟩, e3⟩
    · exfalso
      have h1 := e2.flow_le hst
      have h2 : (0 : ℚ) < 1 / D := by positivity
      have h3 : rowSum c N s - st.max_flow ≤ 0 := by
        by_contra hcon
        push_neg at hcon
        have := mul_pos hcon hDq
        push_cast at hk
        linarith
      linarith
  | succ k ih =>
    intro rounds st h hk hrounds
    obtain ⟨rounds, rfl⟩ : ∃ r, rounds = r + 1 := ⟨rounds - 1, by omega⟩
    rcases augmentStep_spec h hs hD hfuel with ⟨par, e1, e2, e3⟩ | ⟨st1, e1, e2, e3, _⟩
    · exact ⟨{ st with parent := par }, by simp only [flowLoop, e1],
        ⟨h.sq, e2, h.nonneg, h.mul, h.mulFlow, h.skew, h.rows⟩, e3⟩
    · have hk1 : (rowSum c N s - st1.max_flow) * D ≤ k := by
        have h4 : (rowSum c N s - st1.max_flow) * D ≤
            (rowSum c N s - st.max_flow) * D - 1 := by
          have : (rowSum c N s - st1.max_flow) ≤ (rowSum c N s - st.max_flow) - 1 / D := by
            linarith
          calc (rowSum c N s - st1.max_flow) * D
              ≤ ((rowSum c N s - st.max_flow) - 1 / D) * D :=
                mul_le_mul_of_nonneg_right this hDq.le
            _ = (rowSum c N s - st.max_flow) * D - 1 := by field_simp
        push_cast at hk
        linarith
      obtain ⟨st2, f1, f2, f3⟩ := ih rounds st1 e2 hk1 (by omega)
      exact ⟨st2, by simp only [flowLoop, e1]; exact f1, f2, f3⟩

theorem exists_common_den (l : List ℚ) : ∃ D : ℕ, 0 < D ∧ ∀ x ∈ l, IsMul D x := by
  induction l with
  | nil => exact ⟨1, Nat.one_pos, fun x hx => absurd hx (List.not_mem_nil x)⟩
  | cons y l ih =>
    obtain ⟨D, hD, hl⟩ := ih
    refine ⟨y.den * D, Nat.mul_pos y.den_pos hD, ?_⟩
    have hDq : (D : ℚ) ≠ 0 := by exact_mod_cast hD.ne'
    have hyq : (y.den : ℚ) ≠ 0 := by exact_mod_cast y.den_pos.ne'
    intro x hx
    rw [List.mem_cons] at hx
    rcases hx with rfl | hx
    · refine ⟨x.num * D, ?_⟩
      push_cast
      rw [mul_div_mul_right _ _ hDq]
      exact (Rat.num_div_den x).symm
    · obtain ⟨z, rfl⟩ := hl x hx
      refine ⟨z * y.den, ?_⟩
      push_cast
      field_simp
      ring

theorem exists_den_matrix (m : MatrixXd) : ∃ D : ℕ, 0 < D ∧ ∀ a b, IsMul D (m.coeff a b) := by
  obtain ⟨D, hD, hl⟩ := exists_common_den m.flatten
  refine ⟨D, hD, ?_⟩
  intro a b
  unfold MatrixXd.coeff
  by_cases ha : a < m.length
  · by_cases hb : b < (m.getD a []).length
    · apply hl
      rw [List.mem_flatten]
      refine ⟨m.getD a [], ?_, ?_⟩
      · rw [List.getD_eq_getElem _ _ ha]; exact List.getElem_mem _
      · rw [List.getD_eq_getElem _ _ hb]; exact List.getElem_mem _
    · rw [List.getD_eq_default _ _ (by omega)]; exact IsMul.zero D
  · have h0 : m.getD a [] = [] := List.getD_eq_default _ _ (by omega)
    rw [h0]
    exact IsMul.zero D

/-- Total correctness of the augmentation loop: with enough fuel it ends, in a
state that satisfies the invariant and in which `t` is unreachable from `s`. -/
theorem fordFulkersonLoop_spec {c : MatrixXd} {N s t D : ℕ} (hsq : IsSquare c N)
    (hnn : ∀ a b, 0 ≤ c.coeff a b) (hmul : ∀ a b, IsMul D (c.coeff a b)) (hD : 0 < D)
    (hs : s < N) (hst : s ≠ t) {par0 : List ℕ} (hpar : par0.length = N) :
    ∃ F0, ∀ F, F0 ≤ F → ∃ st, fordFulkersonLoop F c s t par0 = some st ∧
      FlowInv c N s t D st ∧ ¬ Reach st.rGraph s t := by
  refine ⟨max N (⌈rowSum c N s * D⌉₊ + 1), ?_⟩
  intro F hF
  have h1 : N ≤ F := le_trans (le_max_left _ _) hF
  have h2 : ⌈rowSum c N s * D⌉₊ < F := lt_of_lt_of_le (Nat.lt_succ_self _)
    (le_trans (le_max_right _ _) hF)
  unfold fordFulkersonLoop
  refine flowLoop_spec hs hst hD h1 ⌈rowSum c N s * D⌉₊ F _
    (FlowInv.init s t hsq hnn hmul hpar) ?_ h2
  show (rowSum c N s - 0) * D ≤ _
  rw [sub_zero]
  exact Nat.le_ceil _

/-- Total correctness of `fordFulkerson`: with enough fuel it returns, the
residual matrix at the end of the augmentation loop satisfies the invariant,
and `cut` is set to `1` at the vertices reachable from `s` in that matrix and
left as it was elsewhere. -/
theorem fordFulkerson_spec {c : MatrixXd} {N s t D : ℕ} (hsq : IsSquare c N)
    (hnn : ∀ a b, 0 ≤ c.coeff a b) (hmul : ∀ a b, IsMul D (c.coeff a b)) (hD : 0 < D)
    (hs : s < N) (hst : s ≠ t) {par0 : List ℕ} (hpar : par0.length = N) (cut0 : VectorXi) :
    ∃ F0, ∀ F, F0 ≤ F → ∃ st cut1, fordFulkersonLoop F c s t par0 = some st ∧
      fordFulkerson F c s t cut0 par0 = some (doubleToInt st.max_flow, cut1) ∧
      FlowInv c N s t D st ∧ ¬ Reach st.rGraph s t ∧ cut1.length = cut0.length ∧
      ∀ v, (Reach st.rGraph s v → v < cut0.length → cut1.getD v 0 = 1) ∧
        (¬ Reach st.rGraph s v → cut1.getD v 0 = cut0.getD v 0) := by
  obtain ⟨F0, hF0⟩ := fordFulkersonLoop_spec hsq hnn hmul hD hs hst hpar
  refine ⟨max F0 N, ?_⟩
  intro F hF
  obtain ⟨st, e1, e2, e3⟩ := hF0 F (le_trans (le_max_left _ _) hF)
  obtain ⟨cut1, f1, f2, f3⟩ :=
    getFinalCut_spec e2.sq hs cut0 (le_trans (le_max_right _ _) hF)
  refine ⟨st, cut1, e1, ?_, e2, e3, f2, f3⟩
  unfold fordFulkerson
  simp only [e1, f1]

theorem skew_cut_sum (N : ℕ) (S : ℕ → Prop) [DecidablePred S] (h : ℕ → ℕ → ℚ)
    (hskew : ∀ u v, h u v + h v u = 0) :
    ∑ u in Finset.range N, (if S u then ∑ v in Finset.range N, h u v else 0) =
      ∑ u in Finset.range N, ∑ v in Finset.range N, if S u ∧ ¬ S v then h u v else 0 := by
  have hT : ∑ u in Finset.range N, ∑ v in Finset.range N,
      (if S u ∧ S v then h u v else 0) = 0 := by
    have hneg : ∑ u in Finset.range N, ∑ v in Finset.range N,
        (if S u ∧ S v then h u v else 0) =
        - ∑ u in Finset.range N, ∑ v in Finset.range N,
          (if S u ∧ S v then h u v else 0) := by
      calc ∑ u in Finset.range N, ∑ v in Finset.range N, (if S u ∧ S v then h u v else 0)
          = ∑ u in Finset.range N, ∑ v in Finset.range N,
              (if S v ∧ S u then h v u else 0) := Finset.sum_comm
        _ = ∑ u in Finset.range N, ∑ v in Finset.range N,
              - (if S u ∧ S v then h u v else 0) := by
            refine Finset.sum_congr rfl fun u _ => Finset.sum_congr rfl fun v _ => ?_
            have := hskew u v
            by_cases hu : S u <;> by_cases hv : S v <;> simp [hu, hv]
            linarith
        _ = _ := by simp only [Finset.sum_neg_distrib]
    linarith
  have hsplit : ∀ u, (if S u then ∑ v in Finset.range N, h u v else 0) =
      ∑ v in Finset.range N, (if S u ∧ S v then h u v else 0) +
        ∑ v in Finset.range N, (if S u ∧ ¬ S v then h u v else 0) := by
    intro u
    rw [← Finset.sum_add_distrib]
    by_cases hu : S u
    · rw [if_pos hu]
      refine Finset.sum_congr rfl fun v _ => ?_
      by_cases hv : S v <;> simp [hu, hv]
    · simp [hu]
  simp only [hsplit, Finset.sum_add_distrib, hT, zero_add]

theorem sum_ite_eq_single (N s : ℕ) (hs : s < N) (x : ℚ) :
    ∑ u in Finset.range N, (if u = s then x else 0) = x := by
  simp [hs]

/-- Weak duality: the value of a feasible flow is at most the capacity of any
side containing `s` and not `t`. -/
theorem flowValue_le_sideCapacity {graph : MatrixXd} {N s t : ℕ} {f : ℕ → ℕ → ℚ}
    (hf : IsFlow graph N s t f) (S : ℕ → Prop) [DecidablePred S] (hs : s < N) (hSs : S s)
    (hSt : ¬ S t) : flowValue N s f ≤ sideCapacity graph N S := by
  have hskew : ∀ u v, (f u v - f v u) + (f v u - f u v) = 0 := fun u v => by ring
  have h1 := skew_cut_sum N S (fun u v => f u v - f v u) hskew
  beta_reduce at h1
  have h2 : ∑ u in Finset.range N,
      (if S u then ∑ v in Finset.range N, (f u v - f v u) else 0) = flowValue N s f := by
    rw [← sum_ite_eq_single N s hs (flowValue N s f)]
    refine Finset.sum_congr rfl fun u hu => ?_
    rw [Finset.mem_range] at hu
    by_cases hus : u = s
    · subst hus
      simp only [hSs, if_true, flowValue, Finset.sum_sub_distrib]
    · rw [if_neg hus]
      by_cases hSu : S u
      · have hut : u ≠ t := fun hh => hSt (hh ▸ hSu)
        rw [if_pos hSu, Finset.sum_sub_distrib, hf.2 u hu hus hut, sub_self]
      · rw [if_neg hSu]
  rw [← h2, h1]
  unfold sideCapacity
  refine Finset.sum_le_sum fun u hu => Finset.sum_le_sum fun v hv => ?_
  rw [Finset.mem_range] at hu hv
  have h3 := hf.1 u v hu hv
  have h4 := hf.1 v u hv hu
  split_ifs
  · linarith
  · exact le_rfl

theorem FlowInv.rowSum_diff {c : MatrixXd} {N s t D : ℕ} {st : FlowState}
    (h : FlowInv c N s t D st) (u : ℕ) :
    ∑ v in Finset.range N, (c.coeff u v - st.rGraph.coeff u v) =
      (if u = s then st.max_flow else 0) - (if u = t then st.max_flow else 0) := by
  have := h.rows u
  unfold rowSum at this
  rw [Finset.sum_sub_distrib, this]
  ring

/-- Strong duality at the end of the augmentation loop: when no pair leaving the
side `S` has residual capacity left, the flow total equals the capacity of `S`. -/
theorem FlowInv.flow_eq_sideCapacity {c : MatrixXd} {N s t D : ℕ} {st : FlowState}
    (h : FlowInv c N s t D st) (S : ℕ → Prop) [DecidablePred S] (hs : s < N) (hst : s ≠ t)
    (hSs : S s) (hSt : ¬ S t) (hsat : ∀ u v, S u → ¬ S v → st.rGraph.coeff u v = 0) :
    st.max_flow = sideCapacity c N S := by
  have hskew : ∀ u v, (c.coeff u v - st.rGraph.coeff u v) +
      (c.coeff v u - st.rGraph.coeff v u) = 0 := by
    intro u v
    have := h.skew u v
    linarith
  have h1 := skew_cut_sum N S (fun u v => c.coeff u v - st.rGraph.coeff u v) hskew
  beta_reduce at h1
  have h2 : ∑ u in Finset.range N,
      (if S u then ∑ v in Finset.range N, (c.coeff u v - st.rGraph.coeff u v) else 0) =
      st.max_flow := by
    rw [← sum_ite_eq_single N s hs st.max_flow]
    refine Finset.sum_congr rfl fun u _ => ?_
    rw [h.rowSum_diff u]
    by_cases hus : u = s
    · subst hus
      simp [hSs, hst]
    · by_cases hSu : S u
      · have hut : u ≠ t := fun hh => hSt (hh ▸ hSu)
        simp [hus, hut]
      · simp [hus, hSu]
  rw [← h2, h1]
  unfold sideCapacity
  refine Finset.sum_congr rfl fun u _ => Finset.sum_congr rfl fun v _ => ?_
  by_cases hc : S u ∧ ¬ S v
  · rw [if_pos hc, if_pos hc, hsat u v hc.1 hc.2, sub_zero]
  · rw [if_neg hc, if_neg hc]

/-- The flow read off the residual matrix, `max (c - r) 0`, is feasible and its
value is the running total `max_flow`. -/
theorem FlowInv.isFlow {c : MatrixXd} {N s t D : ℕ} {st : FlowState}
    (h : FlowInv c N s t D st) (hnn : ∀ a b, 0 ≤ c.coeff a b) (hst : s ≠ t) :
    IsFlow c N s t (fun u v => max (c.coeff u v - st.rGraph.coeff u v) 0) ∧
      flowValue N s (fun u v => max (c.coeff u v - st.rGraph.coeff u v) 0) = st.max_flow := by
  have hdiff : ∀ u v, max (c.coeff u v - st.rGraph.coeff u v) 0 -
      max (c.coeff v u - st.rGraph.coeff v u) 0 = c.coeff u v - st.rGraph.coeff u v := by
    intro u v
    have := h.skew u v
    rcases le_total (c.coeff u v - st.rGraph.coeff u v) 0 with hle | hle
    · rw [max_eq_right hle, max_eq_left (by linarith)]; linarith
    · rw [max_eq_left hle, max_eq_right (by linarith)]; linarith
  refine ⟨⟨?_, ?_⟩, ?_⟩
  · intro u v _ _
    refine ⟨le_max_right _ _, max_le ?_ (hnn u v)⟩
    have := h.nonneg u v
    linarith
  · intro v _ hvs hvt
    have h1 := h.rowSum_diff v
    rw [if_neg hvs, if_neg hvt, sub_zero] at h1
    have h2 : ∑ u in Finset.range N, (max (c.coeff v u - st.rGraph.coeff v u) 0 -
        max (c.coeff u v - st.rGraph.coeff u v) 0) = 0 :=
      (Finset.sum_congr rfl fun u _ => hdiff v u).trans h1
    rw [Finset.sum_sub_distrib] at h2
    linarith
  · unfold flowValue
    rw [← Finset.sum_sub_distrib]
    have h1 := h.rowSum_diff s
    rw [if_pos rfl, if_neg hst, sub_zero] at h1
    rw [← h1]
    exact Finset.sum_congr rfl fun u _ => hdiff s u

/-! ### More fuel does not change a result -/

theorem bfsLoop_mono (r : MatrixXd) (N : ℕ) : ∀ (fuel : ℕ) (st st1 : BfsState),
    bfsLoop r N fuel st = some st1 → bfsLoop r N (fuel + 1) st = some st1 := by
  intro fuel
  induction fuel with
  | zero =>
    intro st st1 h
    unfold bfsLoop at h
    by_cases hq : st.q = []
    · rw [if_pos hq] at h
      rw [bfsLoop_nil r N 1 st hq]
      exact h
    · rw [if_neg hq] at h
      cases h
  | succ fuel ih =>
    intro st st1 h
    obtain ⟨vis, par, q⟩ := st
    cases q with
    | nil => simpa [bfsLoop] using h
    | cons u rest =>
      simp only [bfsLoop] at h ⊢
      exact ih _ _ h

theorem cutLoop_mono (r : MatrixXd) (N : ℕ) : ∀ (fuel : ℕ) (st st1 : CutState),
    cutLoop r N fuel st = some st1 → cutLoop r N (fuel + 1) st = some st1 := by
  intro fuel
  induction fuel with
  | zero =>
    intro st st1 h
    obtain ⟨vis, cut, q⟩ := st
    cases q with
    | nil => simpa [cutLoop] using h
    | cons u rest => simp [cutLoop] at h
  | succ fuel ih =>
    intro st st1 h
    obtain ⟨vis, cut, q⟩ := st
    cases q with
    | nil => simpa [cutLoop] using h
    | cons u rest =>
      simp only [cutLoop] at h ⊢
      exact ih _ _ h

theorem pathFlowLoop_mono (r : MatrixXd) (s : ℕ) (par : List ℕ) : ∀ (fuel v : ℕ) (p pf : ℚ),
    pathFlowLoop r s par fuel v p = some pf → pathFlowLoop r s par (fuel + 1) v p = some pf := by
  intro fuel
  induction fuel with
  | zero =>
    intro v p pf h
    by_cases hvs : v = s
    · simpa [pathFlowLoop, hvs] using h
    · simp [pathFlowLoop, hvs] at h
  | succ fuel ih =>
    intro v p pf h
    by_cases hvs : v = s
    · simpa [pathFlowLoop, hvs] using h
    · rw [pathFlowLoop, if_neg hvs] at h ⊢
      exact ih _ _ _ h

theorem augmentLoop_mono (s : ℕ) (par : List ℕ) (pf : ℚ) : ∀ (fuel v : ℕ) (R R1 : MatrixXd),
    augmentLoop s par pf fuel v R = some R1 → augmentLoop s par pf (fuel + 1) v R = some R1 := by
  intro fuel
  induction fuel with
  | zero =>
    intro v R R1 h
    by_cases hvs : v = s
    · simpa [augmentLoop, hvs] using h
    · simp [augmentLoop, hvs] at h
  | succ fuel ih =>
    intro v R R1 h
    by_cases hvs : v = s
    · simpa [augmentLoop, hvs] using h
    · rw [augmentLoop, if_neg hvs] at h ⊢
      exact ih _ _ _ h

theorem mono_of_succ {α β : Type} (f : ℕ → α → Option β)
    (h : ∀ n a b, f n a = some b → f (n + 1) a = some b) {n m : ℕ} (hnm : n ≤ m) {a : α}
    {b : β} (hf : f n a = some b) : f m a = some b := by
  induction hnm with
  | refl => exact hf
  | step _ ih => exact h _ _ _ ih

theorem bfs_mono {fuel fuel1 : ℕ} (hle : fuel ≤ fuel1) {r : MatrixXd} {s t : ℕ}
    {par : List ℕ} {x : Bool × List ℕ} (h : bfs fuel r s t par = some x) :
    bfs fuel1 r s t par = some x := by
  unfold bfs at h ⊢
  simp only [Option.map_eq_some'] at h ⊢
  obtain ⟨st, h1, h2⟩ := h
  exact ⟨st, mono_of_succ (fun n a => bfsLoop r r.cols n a) (bfsLoop_mono r r.cols) hle h1, h2⟩

theorem getFinalCut_mono {fuel fuel1 : ℕ} (hle : fuel ≤ fuel1) {r : MatrixXd} {s : ℕ}
    {cut x : VectorXi} (h : getFinalCut fuel r s cut = some x) :
    getFinalCut fuel1 r s cut = some x := by
  unfold getFinalCut at h ⊢
  simp only [Option.map_eq_some'] at h ⊢
  obtain ⟨st, h1, h2⟩ := h
  exact ⟨st, mono_of_succ (fun n a => cutLoop r r.cols n a) (cutLoop_mono r r.cols) hle h1, h2⟩

theorem augmentStep_mono {fuel fuel1 : ℕ} (hle : fuel ≤ fuel1) {s t : ℕ} {st : FlowState}
    {x : FlowState ⊕ FlowState} (h : augmentStep fuel s t st = some x) :
    augmentStep fuel1 s t st = some x := by
  unfold augmentStep at h ⊢
  cases hb : bfs fuel st.rGraph s t st.parent with
  | none => rw [hb] at h; cases h
  | some res =>
    rw [hb] at h
    rw [bfs_mono hle hb]
    obtain ⟨b, par⟩ := res
    cases b with
    | false => exact h
    | true =>
      simp only at h ⊢
      cases hp : pathFlowLoop st.rGraph s par fuel t DBL_MAX with
      | none => rw [hp] at h; cases h
      | some pf =>
        rw [hp] at h
        rw [mono_of_succ (fun n (a : ℕ × ℚ) => pathFlowLoop st.rGraph s par n a.1 a.2)
          (fun n a b => pathFlowLoop_mono st.rGraph s par n a.1 a.2 b) hle (a := (t, DBL_MAX)) hp]
        simp only at h ⊢
        cases ha : augmentLoop s par pf fuel t st.rGraph with
        | none => rw [ha] at h; cases h
        | some R1 =>
          rw [ha] at h
          rw [mono_of_succ (fun n (a : ℕ × MatrixXd) => augmentLoop s par pf n a.1 a.2)
            (fun n a b => augmentLoop_mono s par pf n a.1 a.2 b) hle (a := (t, st.rGraph)) ha]
          exact h

theorem flowLoop_mono {fuel fuel1 : ℕ} (hle : fuel ≤ fuel1) {s t : ℕ} :
    ∀ (rounds rounds1 : ℕ) (st st1 : FlowState), rounds ≤ rounds1 →
    flowLoop fuel s t rounds st = some st1 → flowLoop fuel1 s t rounds1 st = some st1 := by
  intro rounds
  induction rounds with
  | zero => intro rounds1 st st1 _ h; simp [flowLoop] at h
  | succ rounds ih =>
    intro rounds1 st st1 hr h
    obtain ⟨rounds1, rfl⟩ : ∃ k, rounds1 = k + 1 := ⟨rounds1 - 1, by omega⟩
    unfold flowLoop at h ⊢
    cases hstep : augmentStep fuel s t st with
    | none => rw [hstep] at h; cases h
    | some x =>
      rw [hstep] at h
      rw [augmentStep_mono hle hstep]
      cases x with
      | inl a => exact h
      | inr a => exact ih rounds1 a st1 (by omega) h

theorem fordFulkersonLoop_mono {fuel fuel1 : ℕ} (hle : fuel ≤ fuel1) {graph : MatrixXd}
    {s t : ℕ} {par : List ℕ} {st : FlowState}
    (h : fordFulkersonLoop fuel graph s t par = some st) :
    fordFulkersonLoop fuel1 graph s t par = some st :=
  flowLoop_mono hle fuel fuel1 _ _ hle h

theorem fordFulkerson_mono {fuel fuel1 : ℕ} (hle : fuel ≤ fuel1) {graph : MatrixXd}
    {s t : ℕ} {cut : VectorXi} {par : List ℕ} {x : ℤ × VectorXi}
    (h : fordFulkerson fuel graph s t cut par = some x) :
    fordFulkerson fuel1 graph s t cut par = some x := by
  unfold fordFulkerson at h ⊢
  cases hl : fordFulkersonLoop fuel graph s t par with
  | none => rw [hl] at h; cases h
  | some st =>
    rw [hl] at h
    rw [fordFulkersonLoop_mono hle hl]
    simp only at h ⊢
    cases hc : getFinalCut fuel st.rGraph s cut with
    | none => rw [hc] at h; cases h
    | some c1 =>
      rw [hc] at h
      rw [getFinalCut_mono hle hc]
      exact h

/-! ### The prior content of the `parent` array does not matter -/

theorem ParRel.visit_par {N s : ℕ} {b1 b2 : BfsState} (r : MatrixXd) (u : ℕ) {v : ℕ} (hv : v < N)
    (h : ParRel N s b1 b2) : ParRel N s (bfsVisit r u b1 v) (bfsVisit r u b2 v) := by
  unfold bfsVisit
  rw [← h.vis_eq]
  by_cases hc : b1.visited.getD v false = false ∧ r.coeff u v > 0
  · rw [if_pos hc, if_pos hc]
    constructor
    · rfl
    · show b1.q ++ [v] = b2.q ++ [v]
      rw [h.q_eq]
    · simp [h.plen1]
    · simp [h.plen2]
    · intro w hw hws
      show (b1.parent.set v u).getD w 0 = (b2.parent.set v u).getD w 0
      rw [getD_set_eq, getD_set_eq, h.plen1, h.plen2]
      by_cases hvw : v = w
      · subst hvw
        rw [if_pos ⟨rfl, hv⟩, if_pos ⟨rfl, hv⟩]
      · rw [if_neg (fun hh => hvw hh.1), if_neg (fun hh => hvw hh.1)]
        apply h.par_eq w _ hws
        have hw' : (b1.visited.set v true).getD w false = true := hw
        rw [getD_set_eq, if_neg (fun hh => hvw hh.1)] at hw'
        exact hw'
  · rw [if_neg hc, if_neg hc]
    exact h

theorem ParRel.scan_par {N s : ℕ} (r : MatrixXd) (u : ℕ) (k : ℕ) (hk : k ≤ N) :
    ∀ {b1 b2 : BfsState}, ParRel N s b1 b2 →
    ParRel N s ((List.range k).foldl (bfsVisit r u) b1)
      ((List.range k).foldl (bfsVisit r u) b2) := by
  induction k with
  | zero => intro b1 b2 h; simpa using h
  | succ k ih =>
    intro b1 b2 h
    rw [List.range_succ, List.foldl_append, List.foldl_append]
    exact (ih (by omega) h).visit_par r u (by omega)

theorem bfsLoop_indep {N s : ℕ} (r : MatrixXd) : ∀ (fuel : ℕ) {b1 b2 c1 : BfsState},
    ParRel N s b1 b2 → bfsLoop r N fuel b1 = some c1 →
    ∃ c2, bfsLoop r N fuel b2 = some c2 ∧ ParRel N s c1 c2 := by
  intro fuel
  induction fuel with
  | zero =>
    intro b1 b2 c1 h hb
    unfold bfsLoop at hb ⊢
    rw [← h.q_eq]
    by_cases hq : b1.q = []
    · rw [if_pos hq] at hb
      rw [if_pos hq]
      cases hb
      exact ⟨b2, rfl, h⟩
    · rw [if_neg hq] at hb
      cases hb
  | succ fuel ih =>
    intro b1 b2 c1 h hb
    obtain ⟨vis1, par1, q1⟩ := b1
    obtain ⟨vis2, par2, q2⟩ := b2
    have hq : q1 = q2 := h.q_eq
    subst hq
    cases q1 with
    | nil =>
      simp only [bfsLoop] at hb
      cases hb
      exact ⟨_, by simp [bfsLoop], h⟩
    | cons u rest =>
      simp only [bfsLoop] at hb ⊢
      refine ih (ParRel.scan_par r u N le_rfl ?_) hb
      exact { h with q_eq := rfl }

theorem bfs_indep {r : MatrixXd} {N s : ℕ} (hsq : IsSquare r N) (hs : s < N) (t : ℕ)
    {par1 par2 : List ℕ} (hp1 : par1.length = N) (hp2 : par2.length = N) {fuel : ℕ}
    (hfuel : N ≤ fuel) :
    ∃ vis p1 p2 rank, bfs fuel r s t par1 = some (vis.getD t false, p1) ∧
      bfs fuel r s t par2 = some (vis.getD t false, p2) ∧ BfsPost r N s vis p1 rank ∧
      p2.length = N ∧ ∀ v, Reach r s v → v ≠ s → p1.getD v 0 = p2.getD v 0 := by
  obtain ⟨st1, rank, hloop, hpost⟩ := bfsLoop_init_spec hsq hs hp1 hfuel
  have hrel : ParRel N s ⟨(List.replicate N false).set s true, par1, [s]⟩
      ⟨(List.replicate N false).set s true, par2, [s]⟩ := by
    refine ⟨rfl, rfl, hp1, hp2, ?_⟩
    intro v hv hvs
    exfalso
    have hv' : ((List.replicate N false).set s true).getD v false = true := hv
    rw [getD_set_eq, getD_replicate_false] at hv'
    by_cases hsv : s = v
    · exact hvs hsv.symm
    · rw [if_neg (fun hh => hsv hh.1)] at hv'
      exact Bool.noConfusion hv'
  obtain ⟨c2, e1, e2⟩ := bfsLoop_indep r fuel hrel hloop
  refine ⟨st1.visited, st1.parent, c2.parent, rank, ?_, ?_, hpost, e2.plen2, ?_⟩
  · unfold bfs
    simp only [hsq.cols_eq, hloop, Option.map_some']
  · unfold bfs
    simp only [hsq.cols_eq, e1, Option.map_some']
    rw [← e2.vis_eq]
  · intro v hv hvs
    exact e2.par_eq v ((hpost.vis_iff v).mpr hv) hvs

theorem pathFlowLoop_indep {r : MatrixXd} {N s : ℕ} {vis : List Bool} {par1 par2 : List ℕ}
    {rank : ℕ → ℕ} (hpost : BfsPost r N s vis par1 rank)
    (hagree : ∀ v, Reach r s v → v ≠ s → par1.getD v 0 = par2.getD v 0) :
    ∀ (fuel v : ℕ) (p : ℚ), Reach r s v →
    pathFlowLoop r s par1 fuel v p = pathFlowLoop r s par2 fuel v p := by
  intro fuel
  induction fuel with
  | zero => intro v p _; rfl
  | succ fuel ih =>
    intro v p hr
    by_cases hvs : v = s
    · simp [pathFlowLoop, hvs]
    · rw [pathFlowLoop, pathFlowLoop, if_neg hvs, if_neg hvs]
      simp only
      rw [← hagree v hr hvs]
      exact ih _ _ (hpost.par_ok v hr hvs).1

theorem augmentLoop_indep {r : MatrixXd} {N s : ℕ} {vis : List Bool} {par1 par2 : List ℕ}
    {rank : ℕ → ℕ} (hpost : BfsPost r N s vis par1 rank)
    (hagree : ∀ v, Reach r s v → v ≠ s → par1.getD v 0 = par2.getD v 0) (pf : ℚ) :
    ∀ (fuel v : ℕ) (R : MatrixXd), Reach r s v →
    augmentLoop s par1 pf fuel v R = augmentLoop s par2 pf fuel v R := by
  intro fuel
  induction fuel with
  | zero => intro v R _; rfl
  | succ fuel ih =>
    intro v R hr
    by_cases hvs : v = s
    · simp [augmentLoop, hvs]
    · rw [augmentLoop, augmentLoop, if_neg hvs, if_neg hvs]
      simp only
      rw [← hagree v hr hvs]
      exact ih _ _ (hpost.par_ok v hr hvs).1

theorem augmentStep_indep {N s : ℕ} {st1 st2 : FlowState} (hsq : IsSquare st1.rGraph N)
    (hs : s < N) (t : ℕ) (hp1 : st1.parent.length = N) (hp2 : st2.parent.length = N)
    (hcore : st1.core = st2.core) {fuel : ℕ} (hfuel : N ≤ fuel) :
    (augmentStep fuel s t st1).map (Sum.map FlowState.core FlowState.core) =
      (augmentStep fuel s t st2).map (Sum.map FlowState.core FlowState.core) := by
  obtain ⟨R, par1, mf⟩ := st1
  obtain ⟨R2, par2, mf2⟩ := st2
  simp only [FlowState.core, Prod.mk.injEq] at hcore
  obtain ⟨rfl, rfl⟩ := hcore
  obtain ⟨vis, p1, p2, rank, hb1, hb2, hpost, _, hagree⟩ := bfs_indep hsq hs t hp1 hp2 hfuel
  unfold augmentStep
  simp only [hb1, hb2]
  cases hvt : vis.getD t false with
  | false => rfl
  | true =>
    have hr : Reach R s t := (hpost.vis_iff t).mp hvt
    simp only
    rw [← pathFlowLoop_indep hpost hagree fuel t DBL_MAX hr]
    cases pathFlowLoop R s p1 fuel t DBL_MAX with
    | none => rfl
    | some pf =>
      simp only
      rw [← augmentLoop_indep hpost hagree pf fuel t R hr]
      cases augmentLoop s p1 pf fuel t R with
      | none => rfl
      | some R1 => rfl

theorem flowLoop_indep {c : MatrixXd} {N s t D : ℕ} (hs : s < N) (hD : 0 < D) {fuel : ℕ}
    (hfuel : N ≤ fuel) : ∀ (rounds : ℕ) (st1 st2 : FlowState), FlowInv c N s t D st1 →
    st2.parent.length = N → st1.core = st2.core →
    (flowLoop fuel s t rounds st1).map FlowState.core =
      (flowLoop fuel s t rounds st2).map FlowState.core := by
  intro rounds
  induction rounds with
  | zero => intro st1 st2 _ _ _; rfl
  | succ rounds ih =>
    intro st1 st2 h1 hp2 hcore
    have hstep := augmentStep_indep h1.sq hs t h1.plen hp2 hcore hfuel
    have h2 : FlowInv c N s t D st2 := by
      simp only [FlowState.core, Prod.mk.injEq] at hcore
      obtain ⟨hR, hmf⟩ := hcore
      constructor
      · rw [← hR]; exact h1.sq
      · exact hp2
      · rw [← hR]; exact h1.nonneg
      · rw [← hR]; exact h1.mul
      · rw [← hmf]; exact h1.mulFlow
      · rw [← hR]; exact h1.skew
      · rw [← hR, ← hmf]; exact h1.rows
    unfold flowLoop
    rcases augmentStep_spec h1 hs hD hfuel with ⟨pa, e1, _, _⟩ | ⟨a1, e1, e2, _, _⟩
    · rcases augmentStep_spec h2 hs hD hfuel with ⟨pb, f1, _, _⟩ | ⟨b1, f1, _, _, _⟩
      · rw [e1, f1]
        simpa [FlowState.core] using hcore
      · rw [e1, f1] at hstep
        simp at hstep
    · rcases augmentStep_spec h2 hs hD hfuel with ⟨pb, f1, _, _⟩ | ⟨b1, f1, f2, _, _⟩
      · rw [e1, f1] at hstep
        simp at hstep
      · rw [e1, f1] at hstep ⊢
        simp only [Option.map_some', Sum.map_inr, Option.some.injEq, Sum.inr.injEq] at hstep
        exact ih a1 b1 e2 f2.plen hstep

/-- The result of `fordFulkerson` does not depend on the prior content of its
local array `parent`. -/
theorem fordFulkerson_indep {c : MatrixXd} {N s t D : ℕ} (hsq : IsSquare c N)
    (hnn : ∀ a b, 0 ≤ c.coeff a b) (hmul : ∀ a b, IsMul D (c.coeff a b)) (hD : 0 < D)
    (hs : s < N) {par1 par2 : List ℕ} (hp1 : par1.length = N) (hp2 : par2.length = N)
    {fuel : ℕ} (hfuel : N ≤ fuel) (cut0 : VectorXi) :
    (fordFulkersonLoop fuel c s t par1).map FlowState.core =
        (fordFulkersonLoop fuel c s t par2).map FlowState.core ∧
      fordFulkerson fuel c s t cut0 par1 = fordFulkerson fuel c s t cut0 par2 := by
  have h := flowLoop_indep hs hD hfuel fuel _
    { rGraph := initResidual c, parent := par2, max_flow := 0 }
    (FlowInv.init s t hsq hnn hmul hp1) hp2 rfl
  refine ⟨h, ?_⟩
  unfold fordFulkerson
  unfold fordFulkersonLoop at h ⊢
  cases h1 : flowLoop fuel s t fuel { rGraph := initResidual c, parent := par1, max_flow := 0 } with
  | none =>
    rw [h1] at h
    cases h2 : flowLoop fuel s t fuel { rGraph := initResidual c, parent := par2, max_flow := 0 } with
    | none => rfl
    | some b => rw [h2] at h; simp at h
  | some a =>
    rw [h1] at h
    cases h2 : flowLoop fuel s t fuel { rGraph := initResidual c, parent := par2, max_flow := 0 } with
    | none => rw [h2] at h; simp at h
    | some b =>
      rw [h2] at h
      simp only [Option.map_some', Option.some.injEq, FlowState.core, Prod.mk.injEq] at h
      simp only [h.1, h.2]

theorem coeff_nonneg_all {m : MatrixXd} {N : ℕ} (hsq : IsSquare m N)
    (h : ∀ a b, a < N → b < N → 0 ≤ m.coeff a b) (a b : ℕ) : 0 ≤ m.coeff a b := by
  by_cases hab : a < N ∧ b < N
  · exact h a b hab.1 hab.2
  · rw [coeff_eq_zero_of_not_lt hsq hab]

/-- Summary of a run of `fordFulkerson` on a valid input: from some fuel on, and
whatever the prior content of `parent`, the augmentation loop ends with the
same residual matrix and flow total, which satisfy the loop invariant; `t` is
not reachable from `s` in the final residual matrix; and `cut` is set to `1` at
the vertices reachable from `s` and left untouched elsewhere. -/
theorem fordFulkerson_total {c : MatrixXd} {N s t D : ℕ} (hsq : IsSquare c N)
    (hnn : ∀ a b, a < N → b < N → 0 ≤ c.coeff a b) (hmul : ∀ a b, IsMul D (c.coeff a b))
    (hD : 0 < D) (hs : s < N) (hst : s ≠ t) (cut0 : VectorXi) :
    ∃ F0 st cut1, FlowInv c N s t D st ∧ ¬ Reach st.rGraph s t ∧
      cut1.length = cut0.length ∧
      (∀ v, (Reach st.rGraph s v → v < cut0.length → cut1.getD v 0 = 1) ∧
        (¬ Reach st.rGraph s v → cut1.getD v 0 = cut0.getD v 0)) ∧
      ∀ par0 F, par0.length = N → F0 ≤ F →
        (fordFulkersonLoop F c s t par0).map FlowState.core = some st.core ∧
        fordFulkerson F c s t cut0 par0 = some (doubleToInt st.max_flow, cut1) := by
  have hnn' := coeff_nonneg_all hsq hnn
  obtain ⟨F0, hF0⟩ := fordFulkerson_spec hsq hnn' hmul hD hs hst
    (show (List.replicate N 0).length = N by simp) cut0
  obtain ⟨st, cut1, e1, e2, e3, e4, e5, e6⟩ := hF0 (max F0 N) (le_max_left _ _)
  refine ⟨max F0 N, st, cut1, e3, e4, e5, e6, ?_⟩
  intro par0 F hpar hF
  have hN : N ≤ F := le_trans (le_max_right _ _) hF
  obtain ⟨i1, i2⟩ := fordFulkerson_indep (t := t) hsq hnn' hmul hD hs hpar
    (show (List.replicate N 0).length = N by simp) hN cut0
  rw [i1, i2, fordFulkersonLoop_mono hF e1, fordFulkerson_mono hF e2]
  exact ⟨rfl, rfl⟩

theorem doubleToInt_intCast (z : ℤ) (h1 : INT_MIN ≤ z) (h2 : z ≤ INT_MAX) :
    doubleToInt (z : ℚ) = z := by
  have h : (if (0 : ℚ) ≤ (z : ℚ) then ⌊(z : ℚ)⌋ else ⌈(z : ℚ)⌉) = z := by
    split <;> simp
  unfold doubleToInt
  simp only
  rw [h, if_pos ⟨h1, h2⟩]

/-- Every value returned through the `int` return type lies in the range of the
32-bit `int`. -/
theorem doubleToInt_range (x : ℚ) : INT_MIN ≤ doubleToInt x ∧ doubleToInt x ≤ INT_MAX := by
  unfold doubleToInt
  simp only
  generalize (if (0 : ℚ) ≤ x then ⌊x⌋ else ⌈x⌉) = z
  by_cases hc : INT_MIN ≤ z ∧ z ≤ INT_MAX
  · rw [if_pos hc]; exact hc
  · rw [if_neg hc]; decide

theorem isFlow_zero {graph : MatrixXd} {N : ℕ}
    (hnn : ∀ a b, a < N → b < N → 0 ≤ graph.coeff a b) (s t : ℕ) :
    IsFlow graph N s t (fun _ _ => 0) ∧ flowValue N s (fun _ _ => 0) = 0 := by
  refine ⟨⟨fun u v hu hv => ⟨le_refl _, hnn u v hu hv⟩, fun v _ _ _ => rfl⟩, ?_⟩
  simp [flowValue]

theorem isMul_one_of_nat {c : MatrixXd} {N : ℕ} (hsq : IsSquare c N)
    (hint : ∀ a b, a < N → b < N → ∃ n : ℕ, c.coeff a b = n) (a b : ℕ) :
    IsMul 1 (c.coeff a b) := by
  by_cases hab : a < N ∧ b < N
  · obtain ⟨n, hn⟩ := hint a b hab.1 hab.2
    exact ⟨n, by rw [hn]; simp⟩
  · rw [coeff_eq_zero_of_not_lt hsq hab]
    exact IsMul.zero 1

/-- Max-flow / min-cut at the end of the augmentation loop: the running total is
the value of a feasible flow, and no feasible flow has a larger value. -/
theorem FlowInv.max_flow_optimal {c : MatrixXd} {N s t D : ℕ} {st : FlowState}
    (h : FlowInv c N s t D st) (hnn : ∀ a b, 0 ≤ c.coeff a b) (hs : s < N) (hst : s ≠ t)
    (hreach : ¬ Reach st.rGraph s t) :
    (∃ f, IsFlow c N s t f ∧ flowValue N s f = st.max_flow) ∧
      ∀ f, IsFlow c N s t f → flowValue N s f ≤ st.max_flow := by
  classical
  refine ⟨⟨_, h.isFlow hnn hst⟩, ?_⟩
  intro f hf
  have hsat : ∀ u v, Reach st.rGraph s u → ¬ Reach st.rGraph s v → st.rGraph.coeff u v = 0 := by
    intro u v hu hv
    by_contra hne
    have hpos : 0 < st.rGraph.coeff u v := lt_of_le_of_ne (h.nonneg u v) (Ne.symm hne)
    exact hv (Relation.ReflTransGen.tail hu hpos)
  rw [h.flow_eq_sideCapacity (fun v => Reach st.rGraph s v) hs hst
    Relation.ReflTransGen.refl hreach hsat]
  exact flowValue_le_sideCapacity hf _ hs Relation.ReflTransGen.refl hreach

theorem coeff_mem_or_zero (m : MatrixXd) (a b : ℕ) :
    (∃ row ∈ m, m.coeff a b ∈ row) ∨ m.coeff a b = 0 := by
  unfold MatrixXd.coeff
  by_cases ha : a < m.length
  · by_cases hb : b < (m.getD a []).length
    · left
      refine ⟨m.getD a [], ?_, ?_⟩
      · rw [List.getD_eq_getElem _ _ ha]; exact List.getElem_mem _
      · rw [List.getD_eq_getElem _ _ hb]; exact List.getElem_mem _
    · right; exact List.getD_eq_default _ _ (by omega)
  · right
    have h0 : m.getD a [] = [] := List.getD_eq_default _ _ (by omega)
    rw [h0]; rfl

theorem coeff_nonneg_of_forall {m : MatrixXd} (h : ∀ row ∈ m, ∀ x ∈ row, (0 : ℚ) ≤ x)
    (a b : ℕ) : 0 ≤ m.coeff a b := by
  rcases coeff_mem_or_zero m a b with ⟨row, h1, h2⟩ | h0
  · exact h row h1 _ h2
  · rw [h0]

theorem coeff_nat_of_forall {m : MatrixXd}
    (h : ∀ row ∈ m, ∀ x ∈ row, (0 : ℚ) ≤ x ∧ x.den = 1) (a b : ℕ) :
    ∃ n : ℕ, m.coeff a b = n := by
  rcases coeff_mem_or_zero m a b with ⟨row, h1, h2⟩ | h0
  · obtain ⟨hx0, hx1⟩ := h row h1 _ h2
    refine ⟨(m.coeff a b).num.toNat, ?_⟩
    have hnum : 0 ≤ (m.coeff a b).num := Rat.num_nonneg.mpr hx0
    have h3 : ((m.coeff a b).num.toNat : ℤ) = (m.coeff a b).num := Int.toNat_of_nonneg hnum
    have h4 : m.coeff a b = ((m.coeff a b).num : ℚ) := by
      conv_lhs => rw [← Rat.num_div_den (m.coeff a b), hx1]
      simp
    rw [h4]
    exact_mod_cast h3.symm
  · exact ⟨0, by rw [h0]; simp⟩

theorem flowLoop_of_trace (fuel s t : ℕ) : ∀ (n k : ℕ) (st st1 : FlowState),
    flowTrace fuel s t n st = some st1 →
    flowLoop fuel s t (n + k) st = flowLoop fuel s t k st1 := by
  intro n
  induction n with
  | zero =>
    intro k st st1 h
    simp only [flowTrace, Option.some.injEq] at h
    rw [h, Nat.zero_add]
  | succ n ih =>
    intro k st st1 h
    unfold flowTrace at h
    rw [show n + 1 + k = (n + k) + 1 by omega]
    cases hstep : augmentStep fuel s t st with
    | none => rw [hstep] at h; cases h
    | some x =>
      rw [hstep] at h
      cases x with
      | inl a => cases h
      | inr a =>
        rw [flowLoop, hstep]
        exact ih k a st1 h

theorem flowTrace_inv {c : MatrixXd} {N s t D : ℕ} (hs : s < N) (hD : 0 < D) {fuel : ℕ}
    (hfuel : N ≤ fuel) : ∀ (n : ℕ) (st st1 : FlowState), FlowInv c N s t D st →
    flowTrace fuel s t n st = some st1 → FlowInv c N s t D st1 := by
  intro n
  induction n with
  | zero =>
    intro st st1 h htr
    simp only [flowTrace, Option.some.injEq] at htr
    rw [← htr]; exact h
  | succ n ih =>
    intro st st1 h htr
    unfold flowTrace at htr
    rcases augmentStep_spec h hs hD hfuel with ⟨par, e1, _, _⟩ | ⟨a, e1, e2, _, _⟩
    · rw [e1] at htr; cases htr
    · rw [e1] at htr
      exact ih a st1 e2 htr

set_option linter.unusedVariables false

/-- C1 (fails on the code). On the two-vertex network with the single capacity
`graph(0,1) = 1/2`, `fordFulkerson` returns `0`, although the cut it leaves
behind, `[1, 0]`, has capacity `1/2`: the flow total is accumulated in a
`double` and returned through the `int` return type. -/
theorem fordFulkerson_truncates_flow :
    fordFulkerson 2 [[0, 1 / 2], [0, 0]] 0 1 [0, 0] [0, 0] = some (0, [1, 0]) ∧
      cutCapacity [[0, 1 / 2], [0, 0]] 2 [1, 0] = 1 / 2 ∧
      (fordFulkersonLoop 2 [[0, 1 / 2], [0, 0]] 0 1 [0, 0]).map FlowState.core =
        some ([[0, 0], [1 / 2, 0]], 1 / 2) := by
  decide!

/-- Optimality on integer capacities within the range of `int`. On a square
matrix of non-negative integer capacities whose capacities leaving `s` sum to at
most `INT_MAX`, with `s ≠ t` in range, `fordFulkerson` returns (given enough
fuel, and whatever the prior content of `cut` and `parent`) the value of a
maximum `s`-`t` flow: some feasible flow has that value and no feasible flow has a
larger one. -/
theorem fordFulkerson_integer_max_flow_in_range (graph : MatrixXd) (N s t : ℕ)
    (hsq : IsSquare graph N) (hint : ∀ a b, a < N → b < N → ∃ n : ℕ, graph.coeff a b = n)
    (hfit : rowSum graph N s ≤ INT_MAX)
    (hs : s < N) (ht : t < N) (hst : s ≠ t) (cut : VectorXi) :
    ∃ (F0 : ℕ) (val : ℤ) (cut1 : VectorXi),
      (∀ parent F, parent.length = N → F0 ≤ F →
        fordFulkerson F graph s t cut parent = some (val, cut1)) ∧
      (∃ f, IsFlow graph N s t f ∧ flowValue N s f = val) ∧
      ∀ f, IsFlow graph N s t f → flowValue N s f ≤ val := by
  have hnn : ∀ a b, a < N → b < N → 0 ≤ graph.coeff a b := by
    intro a b ha hb
    obtain ⟨n, hn⟩ := hint a b ha hb
    rw [hn]; exact Nat.cast_nonneg n
  obtain ⟨F0, st, cut1, h1, h2, _, _, h5⟩ :=
    fordFulkerson_total hsq hnn (isMul_one_of_nat hsq hint) Nat.one_pos hs hst cut
  obtain ⟨z, hz⟩ := h1.mulFlow
  have hz' : st.max_flow = (z : ℚ) := by rw [hz]; simp
  have hopt := h1.max_flow_optimal (coeff_nonneg_all hsq hnn) hs hst h2
  have hlo : INT_MIN ≤ z := by
    have h0 := hopt.2 _ (isFlow_zero hnn s t).1
    rw [(isFlow_zero hnn s t).2, hz'] at h0
    have h3 : (0 : ℤ) ≤ z := by exact_mod_cast h0
    exact le_trans (by decide) h3
  have hhi : z ≤ INT_MAX := by
    have h3 := le_trans (h1.flow_le hst) hfit
    rw [hz'] at h3
    exact_mod_cast h3
  refine ⟨F0, z, cut1, ?_, ?_⟩
  · intro parent F hpar hF
    rw [(h5 parent F hpar hF).2, hz', doubleToInt_intCast z hlo hhi]
  · rw [← hz']
    exact hopt

theorem textbookGraph_isSquare : IsSquare textbookGraph 6 := by decide

theorem textbookGraph_entries :
    ∀ row ∈ textbookGraph, ∀ x ∈ row, (0 : ℚ) ≤ x ∧ x.den = 1 := by decide!

/-- The textbook network lies within the range of `int`: the value returned for
it is the value of a maximum flow. -/
theorem fordFulkerson_integer_max_flow_textbook :
    ∃ (F0 : ℕ) (val : ℤ) (cut1 : VectorXi),
      (∀ parent F, parent.length = 6 → F0 ≤ F →
        fordFulkerson F textbookGraph 0 5 [0, 0, 0, 0, 0, 0] parent = some (val, cut1)) ∧
      (∃ f, IsFlow textbookGraph 6 0 5 f ∧ flowValue 6 0 f = val) ∧
      ∀ f, IsFlow textbookGraph 6 0 5 f → flowValue 6 0 f ≤ val :=
  fordFulkerson_integer_max_flow_in_range textbookGraph 6 0 5 textbookGraph_isSquare
    (fun a b _ _ => coeff_nat_of_forall textbookGraph_entries a b) (by decide!) (by decide)
    (by decide) (by decide) [0, 0, 0, 0, 0, 0]

/-- C2 (fails on the code). On the two-vertex network with the single integer
capacity `graph(0,1) = 3000000000`, the augmentation loop ends with the flow
total `3000000000`, the value of a feasible flow, but `fordFulkerson` returns
`-2147483648`: the total is accumulated in a `double` and returned through the
32-bit `int` return type, which holds no value above `2147483647`. -/
theorem fordFulkerson_int_overflow :
    fordFulkerson 2 [[0, 3000000000], [0, 0]] 0 1 [0, 0] [0, 0] =
        some (-2147483648, [1, 0]) ∧
      (fordFulkersonLoop 2 [[0, 3000000000], [0, 0]] 0 1 [0, 0]).map FlowState.core =
        some ([[0, 0], [3000000000, 0]], 3000000000) ∧
      (IsFlow [[0, 3000000000], [0, 0]] 2 0 1
          (fun u v => if u = 0 ∧ v = 1 then 3000000000 else 0) ∧
        flowValue 2 0 (fun u v => if u = 0 ∧ v = 1 then 3000000000 else 0) = 3000000000) ∧
      ∀ x : ℚ, doubleToInt x < 3000000000 := by
  refine ⟨by decide!, by decide!, ⟨⟨?_, ?_⟩, ?_⟩, ?_⟩
  · intro u v hu hv
    interval_cases u <;> interval_cases v <;> simp [MatrixXd.coeff]
  · intro v hv h0 h1
    interval_cases v <;> simp at h0 h1
  · simp [flowValue, Finset.sum_range_succ]
  · intro x
    exact lt_of_le_of_lt (doubleToInt_range x).2 (by decide)

theorem textbook_loop (parent : List ℕ) (hpar : parent.length = 6) (F : ℕ) (hF : 6 ≤ F) :
    (fordFulkersonLoop F textbookGraph 0 5 parent).map FlowState.core =
      some (textbookResidual, 23) := by
  have hrun : fordFulkersonLoop 6 textbookGraph 0 5 [0, 0, 0, 0, 0, 0] =
      some ⟨textbookResidual, [0, 0, 0, 4, 2, 3], 23⟩ := by
    have h : ((fordFulkersonLoop 6 textbookGraph 0 5 [0, 0, 0, 0, 0, 0]).map
        fun st => (st.rGraph, st.parent, st.max_flow)) =
        some (textbookResidual, [0, 0, 0, 4, 2, 3], 23) := by decide!
    cases hl : fordFulkersonLoop 6 textbookGraph 0 5 [0, 0, 0, 0, 0, 0] with
    | none => rw [hl] at h; cases h
    | some st =>
      rw [hl] at h
      obtain ⟨R, p, mf⟩ := st
      simp only [Option.map_some', Option.some.injEq, Prod.mk.injEq] at h
      obtain ⟨rfl, rfl, rfl⟩ := h
      rfl
  obtain ⟨D, hD, hmul⟩ := exists_den_matrix textbookGraph
  have hnn := coeff_nonneg_of_forall fun row hr x hx => (textbookGraph_entries row hr x hx).1
  rw [(fordFulkerson_indep (t := 5) textbookGraph_isSquare hnn hmul hD (by decide) hpar
    (show ([0, 0, 0, 0, 0, 0] : List ℕ).length = 6 from rfl) hF []).1, fordFulkersonLoop_mono hF hrun]
  rfl

/-- C6. On the textbook network with `s = 0` and `t = 5`, `fordFulkerson` returns
`23`, for every fuel from `6` on and whatever the prior content of `cut` and of
the local array `parent`. -/
theorem fordFulkerson_textbook_value (F : ℕ) (hF : 6 ≤ F) (cut : VectorXi) (parent : List ℕ)
    (hpar : parent.length = 6) :
    ∃ cut1, fordFulkerson F textbookGraph 0 5 cut parent = some (23, cut1) := by
  have hloop := textbook_loop parent hpar F hF
  obtain ⟨cut1, hc, _⟩ := getFinalCut_spec (r := textbookResidual) (N := 6) (s := 0)
    (by decide) (by decide) cut hF
  refine ⟨cut1, ?_⟩
  unfold fordFulkerson
  cases hl : fordFulkersonLoop F textbookGraph 0 5 parent with
  | none => rw [hl] at hloop; cases hloop
  | some st =>
    rw [hl] at hloop
    simp only [Option.map_some', Option.some.injEq, FlowState.core, Prod.mk.injEq] at hloop
    simp only [hloop.1, hloop.2, hc]
    rfl

/-- Witness for C6. -/
theorem fordFulkerson_textbook_value_witness :
    ∃ cut1, fordFulkerson 6 textbookGraph 0 5 [0, 0, 0, 0, 0, 0] [0, 0, 0, 0, 0, 0] =
      some (23, cut1) :=
  fordFulkerson_textbook_value 6 (by decide) [0, 0, 0, 0, 0, 0] [0, 0, 0, 0, 0, 0] rfl

/-- C7 (fails on the code). On the textbook network with a zero-initialised cut
vector, `fordFulkerson` does not leave the cut `{0,1,4}` / `{2,3,5}`: entry `2`
of the cut vector is `1`. Moreover the capacity crossing from `{0,1,4}` to
`{2,3,5}` is `46`, not `23`. -/
theorem fordFulkerson_textbook_cut_counterexample :
    (∃ val cut1, fordFulkerson 6 textbookGraph 0 5 [0, 0, 0, 0, 0, 0] [0, 0, 0, 0, 0, 0] =
        some (val, cut1) ∧
      ¬ (cut1.getD 0 0 = 1 ∧ cut1.getD 1 0 = 1 ∧ cut1.getD 4 0 = 1 ∧
        cut1.getD 2 0 = 0 ∧ cut1.getD 3 0 = 0 ∧ cut1.getD 5 0 = 0)) ∧
      cutCapacity textbookGraph 6 [1, 1, 0, 0, 1, 0] = 46 :=
  ⟨⟨23, [1, 1, 1, 0, 1, 0], by decide!, by decide⟩, by decide!⟩

/-- C7 (amended). On the textbook network with `s = 0`, `t = 5` and a
zero-initialised cut vector, `fordFulkerson` returns `23` and leaves the cut
vector `[1, 1, 1, 0, 1, 0]`, which separates `{0,1,2,4}` from `{3,5}`; the
capacity crossing from the marked to the unmarked side is `23`. -/
theorem fordFulkerson_textbook_cut (F : ℕ) (hF : 6 ≤ F) (parent : List ℕ)
    (hpar : parent.length = 6) :
    fordFulkerson F textbookGraph 0 5 [0, 0, 0, 0, 0, 0] parent =
        some (23, [1, 1, 1, 0, 1, 0]) ∧
      cutCapacity textbookGraph 6 [1, 1, 1, 0, 1, 0] = 23 := by
  refine ⟨?_, by decide!⟩
  have hrun : fordFulkerson 6 textbookGraph 0 5 [0, 0, 0, 0, 0, 0] [0, 0, 0, 0, 0, 0] =
      some (23, [1, 1, 1, 0, 1, 0]) := by decide!
  obtain ⟨D, hD, hmul⟩ := exists_den_matrix textbookGraph
  have hnn := coeff_nonneg_of_forall fun row hr x hx => (textbookGraph_entries row hr x hx).1
  rw [(fordFulkerson_indep (t := 5) textbookGraph_isSquare hnn hmul hD (by decide) hpar
    (show ([0, 0, 0, 0, 0, 0] : List ℕ).length = 6 from rfl) hF [0, 0, 0, 0, 0, 0]).2]
  exact fordFulkerson_mono hF hrun

/-- Witness for C7 (amended). -/
theorem fordFulkerson_textbook_cut_witness :
    fordFulkerson 7 textbookGraph 0 5 [0, 0, 0, 0, 0, 0] [5, 4, 3, 2, 1, 0] =
        some (23, [1, 1, 1, 0, 1, 0]) ∧
      cutCapacity textbookGraph 6 [1, 1, 1, 0, 1, 0] = 23 :=
  fordFulkerson_textbook_cut 7 (by decide) [5, 4, 3, 2, 1, 0] rfl

theorem not_reach_of_row_zero {r : MatrixXd} {s v : ℕ} (hrow : ∀ b, r.coeff s b = 0)
    (hsv : s ≠ v) : ¬ Reach r s v := by
  intro h
  rcases Relation.ReflTransGen.cases_head h with heq | ⟨c, hedge, _⟩
  · exact hsv heq
  · have : 0 < r.coeff s c := hedge
    rw [hrow c] at this
    exact lt_irrefl _ this

/-- C8 (fails on the code). On the two-vertex network with `graph(0,1) = 1` and a
cut vector passed in as `[1, 1]`, vertex `1` is not reachable from `0` in the
final residual matrix `[[0, 0], [1, 0]]`, yet `cut(1)` is still `1` on return. -/
theorem fordFulkerson_cut_not_reset :
    (fordFulkersonLoop 2 [[0, 1], [0, 0]] 0 1 [0, 0]).map FlowState.core =
        some ([[0, 0], [1, 0]], 1) ∧
      fordFulkerson 2 [[0, 1], [0, 0]] 0 1 [1, 1] [0, 0] = some (1, [1, 1]) ∧
      ¬ Reach [[0, 0], [1, 0]] 0 1 := by
  refine ⟨by decide!, by decide!, ?_⟩
  apply not_reach_of_row_zero _ (by decide)
  intro b
  match b with
  | 0 => rfl
  | 1 => rfl
  | b + 2 => rfl

/-- C8 (amended). For every non-negative capacity matrix, `s ≠ t` in range and
every prior content of the cut vector (of length `N`), `fordFulkerson` returns
(given enough fuel, whatever the prior content of `parent`) and leaves
`cut(v) = 1` at every vertex `v` reachable from `s` in the final residual matrix
through edges of strictly positive residual capacity, and `cut(v)` unchanged at
every other vertex. -/
theorem fordFulkerson_cut_marks_reachable (graph : MatrixXd) (N s t : ℕ)
    (hsq : IsSquare graph N) (hnn : ∀ a b, a < N → b < N → 0 ≤ graph.coeff a b)
    (hs : s < N) (ht : t < N) (hst : s ≠ t) (cut : VectorXi) (hcut : cut.length = N) :
    ∃ (F0 : ℕ) (rGraph : MatrixXd) (val : ℤ) (cut1 : VectorXi),
      (∀ parent F, parent.length = N → F0 ≤ F →
        (fordFulkersonLoop F graph s t parent).map (fun st => st.rGraph) = some rGraph ∧
        fordFulkerson F graph s t cut parent = some (val, cut1)) ∧
      ∀ v, v < N → (Reach rGraph s v → cut1.getD v 0 = 1) ∧
        (¬ Reach rGraph s v → cut1.getD v 0 = cut.getD v 0) := by
  obtain ⟨D, hD, hmul⟩ := exists_den_matrix graph
  obtain ⟨F0, st, cut1, _, _, _, h4, h5⟩ := fordFulkerson_total hsq hnn hmul hD hs hst cut
  refine ⟨F0, st.rGraph, doubleToInt st.max_flow, cut1, ?_, ?_⟩
  · intro parent F hpar hF
    obtain ⟨e1, e2⟩ := h5 parent F hpar hF
    refine ⟨?_, e2⟩
    cases hl : fordFulkersonLoop F graph s t parent with
    | none => rw [hl] at e1; cases e1
    | some st1 =>
      rw [hl] at e1
      simp only [Option.map_some', Option.some.injEq, FlowState.core, Prod.mk.injEq] at e1
      simp only [Option.map_some', e1.1]
  · intro v hv
    exact ⟨fun hr => (h4 v).1 hr (by rw [hcut]; exact hv), (h4 v).2⟩

/-- Witness for C8 (amended). -/
theorem fordFulkerson_cut_marks_reachable_witness :
    ∃ (F0 : ℕ) (rGraph : MatrixXd) (val : ℤ) (cut1 : VectorXi),
      (∀ parent F, parent.length = 6 → F0 ≤ F →
        (fordFulkersonLoop F textbookGraph 0 5 parent).map (fun st => st.rGraph) =
          some rGraph ∧
        fordFulkerson F textbookGraph 0 5 [7, 7, 7, 7, 7, 7] parent = some (val, cut1)) ∧
      ∀ v, v < 6 → (Reach rGraph 0 v → cut1.getD v 0 = 1) ∧
        (¬ Reach rGraph 0 v → cut1.getD v 0 = ([7, 7, 7, 7, 7, 7] : VectorXi).getD v 0) :=
  fordFulkerson_cut_marks_reachable textbookGraph 6 0 5 textbookGraph_isSquare
    (fun a b _ _ => coeff_nonneg_of_forall
      (fun row hr x hx => (textbookGraph_entries row hr x hx).1) a b)
    (by decide) (by decide) (by decide) [7, 7, 7, 7, 7, 7] rfl

/-- C9. For every non-negative capacity matrix and `s ≠ t` in range, the
residual matrix is entrywise non-negative after the initial copy (`n = 0`) and
after every augmentation (`n` augmentations, for every `n` the loop reaches);
and the next round of the loop does not run out of fuel. -/
theorem fordFulkerson_residual_nonneg (graph : MatrixXd) (N s t : ℕ)
    (hsq : IsSquare graph N) (hnn : ∀ a b, a < N → b < N → 0 ≤ graph.coeff a b)
    (hs : s < N) (ht : t < N) (hst : s ≠ t) (parent : List ℕ) (hpar : parent.length = N)
    (F : ℕ) (hF : N ≤ F) (n : ℕ) (st : FlowState)
    (hn : flowTrace F s t n { rGraph := initResidual graph, parent := parent, max_flow := 0 } =
      some st) :
    (∀ u v, u < N → v < N → 0 ≤ st.rGraph.coeff u v) ∧ (augmentStep F s t st).isSome := by
  obtain ⟨D, hD, hmul⟩ := exists_den_matrix graph
  have hinit := FlowInv.init s t hsq (coeff_nonneg_all hsq hnn) hmul hpar
  have hinv := flowTrace_inv hs hD hF n _ st hinit hn
  refine ⟨fun u v _ _ => hinv.nonneg u v, ?_⟩
  rcases augmentStep_spec hinv hs hD hF with ⟨par, e1, _, _⟩ | ⟨a, e1, _, _, _⟩
  · rw [e1]; rfl
  · rw [e1]; rfl

/-- Witness for C9: the textbook network after two augmentations. -/
theorem fordFulkerson_residual_nonneg_witness :
    (∀ u v, u < 6 → v < 6 → 0 ≤ MatrixXd.coeff
        [[0, 4, 9, 0, 0, 0], [12, 0, 10, 0, 0, 0], [4, 4, 0, 0, 10, 0],
         [0, 12, 9, 0, 0, 8], [0, 0, 4, 7, 0, 0], [0, 0, 0, 12, 4, 0]] u v) ∧
      (augmentStep 6 0 5
        { rGraph := [[0, 4, 9, 0, 0, 0], [12, 0, 10, 0, 0, 0], [4, 4, 0, 0, 10, 0],
            [0, 12, 9, 0, 0, 8], [0, 0, 4, 7, 0, 0], [0, 0, 0, 12, 4, 0]],
          parent := [0, 0, 0, 4, 2, 4], max_flow := 16 }).isSome :=
  fordFulkerson_residual_nonneg textbookGraph 6 0 5 textbookGraph_isSquare
    (fun a b _ _ => coeff_nonneg_of_forall
      (fun row hr x hx => (textbookGraph_entries row hr x hx).1) a b)
    (by decide) (by decide) (by decide) [0, 0, 0, 0, 0, 0] rfl 6 (by decide) 2
    { rGraph := [[0, 4, 9, 0, 0, 0], [12, 0, 10, 0, 0, 0], [4, 4, 0, 0, 10, 0],
        [0, 12, 9, 0, 0, 8], [0, 0, 4, 7, 0, 0], [0, 0, 0, 12, 4, 0]],
      parent := [0, 0, 0, 4, 2, 4], max_flow := 16 } (by decide!)

theorem cwiseProduct_length (a b : VectorXd) :
    (cwiseProduct a b).length = min a.length b.length := by
  simp [cwiseProduct]

theorem cwiseProduct_getD (a b : VectorXd) (x : ℕ) :
    (cwiseProduct a b).getD x 0 = a.getD x 0 * b.getD x 0 := by
  unfold cwiseProduct
  induction a generalizing b x with
  | nil => simp
  | cons y a ih =>
    cases b with
    | nil => simp
    | cons z b =>
      cases x with
      | zero => simp
      | succ x => simpa using ih b x

theorem cwiseQuotient_length (a b : VectorXd) :
    (cwiseQuotient a b).length = min a.length b.length := by
  simp [cwiseQuotient]

theorem cwiseQuotient_getD (a b : VectorXd) (x : ℕ) :
    (cwiseQuotient a b).getD x 0 = a.getD x 0 / b.getD x 0 := by
  unfold cwiseQuotient
  induction a generalizing b x with
  | nil => simp
  | cons y a ih =>
    cases b with
    | nil => simp
    | cons z b =>
      cases x with
      | zero => simp
      | succ x => simpa using ih b x

theorem sum_eq_sum_range (l : List ℚ) : l.sum = ∑ i in Finset.range l.length, l.getD i 0 := by
  induction l with
  | nil => simp
  | cons y l ih =>
    rw [List.sum_cons, List.length_cons, Finset.sum_range_succ', ih]
    simp [add_comm]

theorem sum_zipWith_mul (a b : List ℚ) :
    (List.zipWith (· * ·) a b).sum = ∑ c in Finset.range b.length, a.getD c 0 * b.getD c 0 := by
  induction a generalizing b with
  | nil => simp
  | cons y a ih =>
    cases b with
    | nil => simp
    | cons z b =>
      rw [List.zipWith_cons_cons, List.sum_cons, List.length_cons, Finset.sum_range_succ', ih]
      simp [add_comm]

theorem mulVec_length (m : MatrixXd) (v : VectorXd) : (m.mulVec v).length = m.length := by
  simp [MatrixXd.mulVec]

theorem mulVec_getD (m : MatrixXd) (v : VectorXd) (r : ℕ) :
    (m.mulVec v).getD r 0 = ∑ c in Finset.range v.length, m.coeff r c * v.getD c 0 := by
  unfold MatrixXd.mulVec MatrixXd.coeff
  by_cases hr : r < m.length
  · rw [List.getD_eq_getElem _ _ (by simpa using hr), List.getElem_map, sum_zipWith_mul,
      List.getD_eq_getElem _ _ hr]
  · rw [List.getD_eq_default _ _ (by simpa using hr), List.getD_eq_default _ _ (by omega)]
    simp

theorem transpose_length (m : MatrixXd) : m.transpose.length = m.cols := by
  simp [MatrixXd.transpose]

theorem transpose_row_length (m : MatrixXd) : ∀ row ∈ m.transpose, row.length = m.rows := by
  intro row hrow
  simp only [MatrixXd.transpose, List.mem_map] at hrow
  obtain ⟨j, _, rfl⟩ := hrow
  simp

theorem transpose_coeff (m : MatrixXd) {i j : ℕ} (hi : i < m.rows) (hj : j < m.cols) :
    m.transpose.coeff j i = m.coeff i j := by
  simp [MatrixXd.transpose, MatrixXd.coeff, List.getD_eq_getElem?_getD, hi, hj]

theorem find_of_nodup {l : List CNode} (hnd : (l.map CNode.id).Nodup) {n : CNode}
    (hn : n ∈ l) : l.find? (fun m => m.id = n.id) = some n := by
  induction l with
  | nil => cases hn
  | cons a l ih =>
    rw [List.map_cons, List.nodup_cons] at hnd
    rw [List.mem_cons] at hn
    rcases hn with rfl | hn
    · simp
    · have hne : a.id ≠ n.id := by
        intro h
        apply hnd.1
        rw [h]
        exact List.mem_map_of_mem _ hn
      rw [List.find?_cons_of_neg _ (by simpa using hne)]
      exact ih hnd.2 hn

theorem CGraph.WellFormed.getNodeWithID_eq {graph : CGraph} {flag : Bool}
    (h : graph.WellFormed flag) {n : CNode} (hn : n ∈ graph.nodes) :
    graph.getNodeWithID n.id = n := by
  unfold CGraph.getNodeWithID
  rw [find_of_nodup h.node_ids hn]
  rfl

theorem CGraph.WellFormed.card_eq {graph : CGraph} {flag : Bool}
    (h : graph.WellFormed flag) {n : CNode} (hn : n ∈ graph.nodes) :
    graph.card flag n.id = (n.potentials flag).length := by
  unfold CGraph.card
  rw [h.getNodeWithID_eq hn]

theorem findIdx_of_nodup {l : List CEdge} (hnd : (l.map CEdge.id).Nodup) {i : ℕ}
    (hi : i < l.length) : l.findIdx (fun e => e.id = l[i].id) = i := by
  induction l generalizing i with
  | nil => cases hi
  | cons a l ih =>
    rw [List.map_cons, List.nodup_cons] at hnd
    cases i with
    | zero => simp [List.findIdx_cons]
    | succ i =>
      have hi' : i < l.length := by simpa using hi
      have hne : a.id ≠ l[i].id := by
        intro h
        apply hnd.1
        rw [h]
        exact List.mem_map_of_mem _ (List.getElem_mem _)
      rw [List.findIdx_cons]
      simp only [List.getElem_cons_succ]
      rw [show decide (a.id = l[i].id) = false by simpa using hne]
      simp only [cond_false]
      rw [ih hnd.2 hi']

theorem CGraph.WellFormed.getEdgeIndex_getElem {graph : CGraph} {flag : Bool}
    (h : graph.WellFormed flag) {i : ℕ} (hi : i < graph.edges.length) :
    graph.getEdgeIndex graph.edges[i].id = i :=
  findIdx_of_nodup h.edge_ids hi

theorem CGraph.WellFormed.getEdgeIndex_spec {graph : CGraph} {flag : Bool}
    (h : graph.WellFormed flag) {e : CEdge} (he : e ∈ graph.edges) :
    graph.getEdgeIndex e.id < graph.edges.length ∧
      graph.edges.getD (graph.getEdgeIndex e.id) ⟨0, 0, 0, []⟩ = e := by
  obtain ⟨i, hi, rfl⟩ := List.getElem_of_mem he
  rw [h.getEdgeIndex_getElem hi]
  exact ⟨hi, List.getD_eq_getElem _ _ hi⟩

theorem Messages.get_put (m : Messages) {i k : ℕ} (hi : i < m.length)
    (hk : k < (m.getD i []).length) (v : VectorXd) (i1 k1 : ℕ) :
    (m.put i k v).get i1 k1 = if i1 = i ∧ k1 = k then v else m.get i1 k1 := by
  unfold Messages.put Messages.get
  rw [getD_set_eq]
  by_cases hii : i = i1
  · subst hii
    rw [if_pos ⟨rfl, hi⟩, getD_set_eq]
    by_cases hkk : k = k1
    · subst hkk
      rw [if_pos ⟨rfl, hk⟩, if_pos ⟨rfl, rfl⟩]
    · rw [if_neg (fun hh => hkk hh.1), if_neg (fun hh => hkk hh.2.symm)]
  · rw [if_neg (fun hh => hii hh.1), if_neg (fun hh => hii hh.1.symm)]

theorem Messages.put_length (m : Messages) (i k : ℕ) (v : VectorXd) :
    (m.put i k v).length = m.length := by
  simp [Messages.put]

theorem Messages.put_pair_length (m : Messages) (i k : ℕ) (v : VectorXd) (i1 : ℕ) :
    ((m.put i k v).getD i1 []).length = (m.getD i1 []).length := by
  unfold Messages.put
  rw [getD_set_eq]
  by_cases hii : i = i1 ∧ i < m.length
  · rw [if_pos hii, List.length_set, hii.1]
  · rw [if_neg hii]

theorem foldl_ite_eq_filter {α β : Type} (c : α → Prop) [DecidablePred c] (g : β → α → β)
    (l : List α) (b : β) :
    l.foldl (fun acc a => if c a then g acc a else acc) b = (l.filter c).foldl g b := by
  induction l generalizing b with
  | nil => rfl
  | cons a l ih =>
    by_cases h : c a
    · simp [List.filter_cons, h, ih]
    · simp [List.filter_cons, h, ih]

theorem foldl_cwiseProduct_getD (l : List VectorXd) (acc : VectorXd) (x : ℕ) :
    (l.foldl cwiseProduct acc).getD x 0 = acc.getD x 0 * (l.map fun v => v.getD x 0).prod := by
  induction l generalizing acc with
  | nil => simp
  | cons v l ih =>
    rw [List.foldl_cons, ih, cwiseProduct_getD, List.map_cons, List.prod_cons, mul_assoc]

theorem foldl_cwiseProduct_length (l : List VectorXd) (acc : VectorXd)
    (h : ∀ v ∈ l, v.length = acc.length) : (l.foldl cwiseProduct acc).length = acc.length := by
  induction l generalizing acc with
  | nil => rfl
  | cons v l ih =>
    have hv : v.length = acc.length := h v (by simp)
    have hlen : (cwiseProduct acc v).length = acc.length := by
      rw [cwiseProduct_length, hv, min_self]
    rw [List.foldl_cons, ih, hlen]
    intro w hw
    rw [hlen]
    exact h w (List.mem_cons_of_mem _ hw)

theorem incomingProduct_eq (graph : CGraph) (messages : Messages) (nodeID neighborID : ℕ)
    (neighbors : List CEdge) (acc : VectorXd) :
    incomingProduct graph messages nodeID neighborID neighbors acc =
      ((neighbors.filter fun e2 => neighborID ≠ e2.ID1 ∧ neighborID ≠ e2.ID2).map
        (incomingMessage graph messages nodeID)).foldl cwiseProduct acc := by
  unfold incomingProduct
  rw [List.foldl_map]
  have h := foldl_ite_eq_filter (fun e2 : CEdge => neighborID ≠ e2.ID1 ∧ neighborID ≠ e2.ID2)
    (fun acc e2 => cwiseProduct acc (incomingMessage graph messages nodeID e2)) neighbors acc
  rw [← h]
  congr 1
  funext acc e2
  unfold incomingMessage
  split_ifs <;> rfl

theorem CGraph.WellFormed.incoming_length {graph : CGraph} {flag : Bool}
    (h : graph.WellFormed flag) {messages : Messages} (hd : MsgDims graph flag messages)
    {n : CNode} (hn : n ∈ graph.nodes) {e2 : CEdge} (he : e2 ∈ graph.edges_f n.id) :
    (incomingMessage graph messages n.id e2).length = (n.potentials flag).length := by
  obtain ⟨h1, h2⟩ := h.incident n hn e2 he
  obtain ⟨h3, h4⟩ := h.getEdgeIndex_spec h1
  unfold incomingMessage
  by_cases hc : n.id = e2.ID1
  · rw [if_pos hc, hd.dim1 _ h3, h4, ← hc, h.card_eq hn]
  · rw [if_neg hc, hd.dim0 _ h3, h4]
    rcases h2 with h2 | h2
    · exact absurd h2.symm hc
    · rw [h2, h.card_eq hn]

theorem CGraph.WellFormed.incomingProduct_length {graph : CGraph} {flag : Bool}
    (h : graph.WellFormed flag) {messages : Messages} (hd : MsgDims graph flag messages)
    {n : CNode} (hn : n ∈ graph.nodes) (neighborID : ℕ) :
    (incomingProduct graph messages n.id neighborID (graph.edges_f n.id)
      (n.potentials flag)).length = (n.potentials flag).length := by
  rw [incomingProduct_eq]
  apply foldl_cwiseProduct_length
  intro v hv
  rw [List.mem_map] at hv
  obtain ⟨e2, he2, rfl⟩ := hv
  exact h.incoming_length hd hn (List.mem_of_mem_filter he2)

theorem incomingProduct_getD (graph : CGraph) (messages : Messages) (nodeID neighborID : ℕ)
    (neighbors : List CEdge) (acc : VectorXd) (x : ℕ) :
    (incomingProduct graph messages nodeID neighborID neighbors acc).getD x 0 =
      acc.getD x 0 *
        ((neighbors.filter fun e2 => neighborID ≠ e2.ID1 ∧ neighborID ≠ e2.ID2).map
          fun e2 => (incomingMessage graph messages nodeID e2).getD x 0).prod := by
  rw [incomingProduct_eq, foldl_cwiseProduct_getD, List.map_map]
  rfl

theorem sendMessage_sum (graph : CGraph) (options : TInferenceOptions) (nodePtr : CNode)
    (messages : Messages) (edgePtr : CEdge) :
    sendMessage graph options false nodePtr messages edgePtr =
      messages.put (graph.getEdgeIndex edgePtr.id) (if nodePtr.id = edgePtr.ID1 then 0 else 1)
        ((if nodePtr.id ≠ edgePtr.ID1 then edgePtr.potentials
          else edgePtr.potentials.transpose).mulVec
          (incomingProduct graph messages nodePtr.id
            (if edgePtr.ID1 = nodePtr.id then edgePtr.ID2 else edgePtr.ID1)
            (graph.edges_f nodePtr.id)
            (nodePtr.potentials options.considerNodeFixedValues))) := by
  unfold sendMessage
  by_cases h : nodePtr.id = edgePtr.ID1
  · simp [h]
  · simp [h]

theorem CGraph.WellFormed.card_pos {graph : CGraph} {flag : Bool} (h : graph.WellFormed flag)
    {ID : ℕ} (hID : ∃ n ∈ graph.nodes, n.id = ID) : 0 < graph.card flag ID := by
  obtain ⟨n, hn, rfl⟩ := hID
  rw [h.card_eq hn]
  exact h.states n hn

theorem CGraph.WellFormed.potentials_cols {graph : CGraph} {flag : Bool} (h : graph.WellFormed flag)
    {e : CEdge} (he : e ∈ graph.edges) : e.potentials.cols = graph.card flag e.ID2 := by
  have h1 := h.card_pos (h.ends e he).1
  obtain ⟨h2, h3⟩ := h.dims e he
  unfold MatrixXd.cols
  cases hp : e.potentials with
  | nil => rw [hp] at h2; simp at h2; omega
  | cons row rest =>
    rw [hp] at h3
    exact h3 row (by simp)

/-- Shape of the matrix used by `sendMessage`: as many rows as the neighbour has
states. -/
theorem CGraph.WellFormed.oriented_length {graph : CGraph} {flag : Bool}
    (h : graph.WellFormed flag) {e : CEdge} (he : e ∈ graph.edges) (nodeID : ℕ) :
    (if nodeID ≠ e.ID1 then e.potentials else e.potentials.transpose).length =
      graph.card flag (if nodeID = e.ID1 then e.ID2 else e.ID1) := by
  by_cases hc : nodeID = e.ID1
  · rw [if_neg (not_not.mpr hc), if_pos hc, transpose_length, h.potentials_cols he]
  · rw [if_pos hc, if_neg hc, (h.dims e he).1]

theorem coeff_of_lt {m : MatrixXd} {r c : ℕ} (hr : r < m.length)
    (hc : c < (m.getD r []).length) : m.coeff r c ∈ m.getD r [] ∧ m.getD r [] ∈ m := by
  unfold MatrixXd.coeff
  constructor
  · rw [List.getD_eq_getElem _ _ hc]; exact List.getElem_mem _
  · rw [List.getD_eq_getElem _ _ hr]; exact List.getElem_mem _

theorem CGraph.WellFormed.coeff_mem {graph : CGraph} {flag : Bool} (h : graph.WellFormed flag)
    {e : CEdge} (he : e ∈ graph.edges) {r c : ℕ} (hr : r < graph.card flag e.ID1)
    (hc : c < graph.card flag e.ID2) : ∃ row ∈ e.potentials, e.potentials.coeff r c ∈ row := by
  obtain ⟨h2, h3⟩ := h.dims e he
  have hr' : r < e.potentials.length := by rw [h2]; exact hr
  have hrow : e.potentials.getD r [] ∈ e.potentials := by
    rw [List.getD_eq_getElem _ _ hr']; exact List.getElem_mem _
  have hc' : c < (e.potentials.getD r []).length := by rw [h3 _ hrow]; exact hc
  exact ⟨_, hrow, (coeff_of_lt hr' hc').1⟩

/-- Entry of the sum-product message written by `sendMessage`, in terms of the
accumulated vector. -/
theorem CGraph.WellFormed.oriented_mulVec_getD {graph : CGraph} {flag : Bool}
    (h : graph.WellFormed flag) {e : CEdge} (he : e ∈ graph.edges) {n : CNode}
    (hn : n ∈ graph.nodes) (acc : VectorXd)
    (hacc : acc.length = (n.potentials flag).length) {x_j : ℕ}
    (hx : x_j < graph.card flag (if n.id = e.ID1 then e.ID2 else e.ID1)) :
    ((if n.id ≠ e.ID1 then e.potentials else e.potentials.transpose).mulVec acc).getD x_j 0 =
      ∑ x_i in Finset.range (n.potentials flag).length,
        (if e.ID1 = n.id then e.potentials.coeff x_i x_j else e.potentials.coeff x_j x_i) *
          acc.getD x_i 0 := by
  rw [mulVec_getD, hacc]
  refine Finset.sum_congr rfl fun x_i hxi => ?_
  rw [Finset.mem_range] at hxi
  by_cases hc : n.id = e.ID1
  · rw [if_neg (not_not.mpr hc), if_pos hc.symm]
    rw [if_pos hc] at hx
    rw [transpose_coeff]
    · show x_i < e.potentials.length
      rw [(h.dims e he).1, ← hc, h.card_eq hn]; exact hxi
    · rw [h.potentials_cols he]; exact hx
  · rw [if_pos hc, if_neg (fun hh => hc hh.symm)]

theorem getD_mem_of_lt {l : List ℚ} {i : ℕ} (hi : i < l.length) : l.getD i 0 ∈ l := by
  rw [List.getD_eq_getElem _ _ hi]; exact List.getElem_mem _

theorem forall_mem_of_getD {l : List ℚ} {P : ℚ → Prop}
    (h : ∀ i, i < l.length → P (l.getD i 0)) : ∀ x ∈ l, P x := by
  intro x hx
  obtain ⟨i, hi, rfl⟩ := List.getElem_of_mem hx
  rw [← List.getD_eq_getElem _ 0 hi]
  exact h i hi

theorem sendMessage_dims {graph : CGraph} {options : TInferenceOptions}
    (h : graph.WellFormed options.considerNodeFixedValues) {messages : Messages}
    (hd : MsgDims graph options.considerNodeFixedValues messages) {n : CNode}
    (hn : n ∈ graph.nodes) {e : CEdge} (he : e ∈ graph.edges_f n.id) :
    MsgDims graph options.considerNodeFixedValues (sendMessage graph options false n messages e) := by
  obtain ⟨he1, he2⟩ := h.incident n hn e he
  obtain ⟨hidx, hget⟩ := h.getEdgeIndex_spec he1
  have hi : graph.getEdgeIndex e.id < messages.length := by rw [hd.len]; exact hidx
  have hk : (if n.id = e.ID1 then 0 else 1) < (messages.getD (graph.getEdgeIndex e.id) []).length := by
    rw [hd.pair _ hidx]; split <;> decide
  rw [sendMessage_sum]
  constructor
  · rw [Messages.put_length]; exact hd.len
  · intro i hilt
    rw [Messages.put_pair_length]; exact hd.pair i hilt
  · intro i hilt
    rw [Messages.get_put _ hi hk]
    by_cases hc : i = graph.getEdgeIndex e.id ∧ 0 = if n.id = e.ID1 then 0 else 1
    · rw [if_pos hc, mulVec_length, h.oriented_length he1, hc.1, hget]
      have h01 : n.id = e.ID1 := by
        by_contra hne
        rw [if_neg hne] at hc
        exact absurd hc.2 (by decide)
      rw [if_pos h01]
    · rw [if_neg hc]; exact hd.dim0 i hilt
  · intro i hilt
    rw [Messages.get_put _ hi hk]
    by_cases hc : i = graph.getEdgeIndex e.id ∧ 1 = if n.id = e.ID1 then 0 else 1
    · rw [if_pos hc, mulVec_length, h.oriented_length he1, hc.1, hget]
      have h01 : n.id ≠ e.ID1 := by
        intro heq
        rw [if_pos heq] at hc
        exact absurd hc.2 (by decide)
      rw [if_neg h01]
    · rw [if_neg hc]; exact hd.dim1 i hilt

/-- Entries of the accumulated vector are positive when the potentials and the
messages are. -/
theorem incomingProduct_pos {graph : CGraph} {flag : Bool} (h : graph.WellFormed flag)
    (hp : graph.PositivePotentials flag) {messages : Messages}
    (hd : MsgDims graph flag messages) (hpos : MsgAll (fun x => 0 < x) messages) {n : CNode}
    (hn : n ∈ graph.nodes) (neighborID : ℕ) {x : ℕ} (hx : x < (n.potentials flag).length) :
    0 < (incomingProduct graph messages n.id neighborID (graph.edges_f n.id)
      (n.potentials flag)).getD x 0 := by
  rw [incomingProduct_getD]
  apply mul_pos (hp.node_pos n hn _ (getD_mem_of_lt hx))
  apply List.prod_pos
  intro a ha
  rw [List.mem_map] at ha
  obtain ⟨e2, he2, rfl⟩ := ha
  have hlen := h.incoming_length hd hn (List.mem_of_mem_filter he2)
  have hmem : (incomingMessage graph messages n.id e2).getD x 0 ∈
      incomingMessage graph messages n.id e2 := getD_mem_of_lt (by rw [hlen]; exact hx)
  unfold incomingMessage at hmem ⊢
  split_ifs at hmem ⊢
  · exact hpos _ _ _ hmem
  · exact hpos _ _ _ hmem

theorem sendMessage_pos {graph : CGraph} {options : TInferenceOptions}
    (h : graph.WellFormed options.considerNodeFixedValues)
    (hp : graph.PositivePotentials options.considerNodeFixedValues) {messages : Messages}
    (hd : MsgDims graph options.considerNodeFixedValues messages)
    (hpos : MsgAll (fun x => 0 < x) messages) {n : CNode} (hn : n ∈ graph.nodes) {e : CEdge}
    (he : e ∈ graph.edges_f n.id) :
    MsgAll (fun x => 0 < x) (sendMessage graph options false n messages e) := by
  obtain ⟨he1, he2⟩ := h.incident n hn e he
  obtain ⟨hidx, hget⟩ := h.getEdgeIndex_spec he1
  have hi : graph.getEdgeIndex e.id < messages.length := by rw [hd.len]; exact hidx
  have hk : (if n.id = e.ID1 then 0 else 1) < (messages.getD (graph.getEdgeIndex e.id) []).length := by
    rw [hd.pair _ hidx]; split <;> decide
  rw [sendMessage_sum]
  intro i k
  rw [Messages.get_put _ hi hk]
  by_cases hc : i = graph.getEdgeIndex e.id ∧ k = if n.id = e.ID1 then 0 else 1
  · rw [if_pos hc]
    apply forall_mem_of_getD
    intro x_j hxj
    rw [mulVec_length, h.oriented_length he1] at hxj
    have hacc := h.incomingProduct_length hd hn (if e.ID1 = n.id then e.ID2 else e.ID1)
    rw [h.oriented_mulVec_getD he1 hn _ hacc hxj]
    apply Finset.sum_pos
    · intro x_i hxi
      rw [Finset.mem_range] at hxi
      apply mul_pos _ (incomingProduct_pos h hp hd hpos hn _ hxi)
      by_cases hc1 : e.ID1 = n.id
      · rw [if_pos hc1]
        rw [if_pos hc1.symm] at hxj
        obtain ⟨row, hrow, hmem⟩ := h.coeff_mem he1
          (show x_i < graph.card options.considerNodeFixedValues e.ID1 by
            rw [hc1, h.card_eq hn]; exact hxi) hxj
        exact hp.edge_pos e he1 row hrow _ hmem
      · rw [if_neg hc1]
        rw [if_neg (fun hh => hc1 hh.symm)] at hxj
        have hc2 : e.ID2 = n.id := by
          rcases he2 with h2 | h2
          · exact absurd h2 hc1
          · exact h2
        obtain ⟨row, hrow, hmem⟩ := h.coeff_mem he1 hxj
          (show x_i < graph.card options.considerNodeFixedValues e.ID2 by
            rw [hc2, h.card_eq hn]; exact hxi)
        exact hp.edge_pos e he1 row hrow _ hmem
    · rw [Finset.nonempty_range_iff]
      exact (h.states n hn).ne'
  · rw [if_neg hc]
    exact hpos i k

theorem foldl_inv {α β : Type} (P : β → Prop) (f : β → α → β) (l : List α)
    (hstep : ∀ b, ∀ a ∈ l, P b → P (f b a)) {b : β} (hb : P b) : P (l.foldl f b) := by
  induction l generalizing b with
  | nil => exact hb
  | cons a l ih =>
    rw [List.foldl_cons]
    exact ih (fun b1 a1 ha1 => hstep b1 a1 (List.mem_cons_of_mem _ ha1))
      (hstep b a (List.mem_cons_self _ _) hb)

theorem resize_length {α : Type} (l : List α) (n : ℕ) (d : α) : (resize l n d).length = n := by
  simp [resize]
  omega

theorem resize_two_set {α : Type} (l : List α) (d a b : α) :
    ((resize l 2 d).set 0 a).set 1 b = [a, b] := by
  match l with
  | [] => rfl
  | [x] => rfl
  | x :: y :: l => simp [resize]

theorem initMessages_prefix (graph : CGraph) (options : TInferenceOptions) (messages : Messages)
    (k : ℕ) (hk : k ≤ graph.edges.length) :
    ((List.range k).foldl (initStep graph options)
        (resize messages graph.edges.length [], 0)).1.length = graph.edges.length ∧
    ∀ i, i < k →
      ((List.range k).foldl (initStep graph options)
        (resize messages graph.edges.length [], 0)).1.getD i [] =
      (onesTable graph options.considerNodeFixedValues).getD i [] := by
  induction k with
  | zero =>
    refine ⟨by simp [resize_length], ?_⟩
    intro i hi; omega
  | succ k ih =>
    obtain ⟨h1, h2⟩ := ih (by omega)
    rw [List.range_succ, List.foldl_append]
    simp only [List.foldl_cons, List.foldl_nil]
    generalize (List.range k).foldl (initStep graph options)
      (resize messages graph.edges.length [], 0) = acc at h1 h2
    unfold initStep
    simp only [resize_two_set]
    refine ⟨by rw [List.length_set]; exact h1, ?_⟩
    intro i hi
    rw [getD_set_eq]
    by_cases hki : k = i
    · subst hki
      rw [if_pos ⟨rfl, by rw [h1]; omega⟩]
      have hk' : k < graph.edges.length := by omega
      simp [onesTable, CGraph.card, List.getD_eq_getElem?_getD, hk']
    · rw [if_neg (fun hh => hki hh.1)]
      exact h2 i (by omega)

/-- The table built by the initialisation does not depend on the table passed
in: it is the all-ones table. -/
theorem initMessages_fst (graph : CGraph) (options : TInferenceOptions) (messages : Messages) :
    (initMessages graph options messages).1 = onesTable graph options.considerNodeFixedValues := by
  obtain ⟨h1, h2⟩ := initMessages_prefix graph options messages graph.edges.length le_rfl
  unfold initMessages
  apply List.ext_getElem
  · rw [h1]; simp [onesTable]
  · intro i hi1 hi2
    have := h2 i (by rw [← h1]; exact hi1)
    rw [List.getD_eq_getElem _ _ hi1, List.getD_eq_getElem _ _ hi2] at this
    exact this

theorem onesTable_get (graph : CGraph) (flag : Bool) {i : ℕ} (hi : i < graph.edges.length) :
    (onesTable graph flag).get i 0 =
        List.replicate (graph.card flag (graph.edges.getD i ⟨0, 0, 0, []⟩).ID2) 1 ∧
      (onesTable graph flag).get i 1 =
        List.replicate (graph.card flag (graph.edges.getD i ⟨0, 0, 0, []⟩).ID1) 1 := by
  simp [onesTable, Messages.get, List.getD_eq_getElem?_getD, hi]

theorem onesTable_dims (graph : CGraph) (flag : Bool) : MsgDims graph flag (onesTable graph flag) := by
  constructor
  · simp [onesTable]
  · intro i hi
    simp [onesTable, List.getD_eq_getElem?_getD, hi]
  · intro i hi; rw [(onesTable_get graph flag hi).1]; simp
  · intro i hi; rw [(onesTable_get graph flag hi).2]; simp

theorem onesTable_pos (graph : CGraph) (flag : Bool) :
    MsgAll (fun x => 0 < x) (onesTable graph flag) := by
  intro i k x hx
  by_cases hi : i < graph.edges.length
  · match k with
    | 0 =>
      rw [(onesTable_get graph flag hi).1] at hx
      rw [(List.mem_replicate.mp hx).2]; exact one_pos
    | 1 =>
      rw [(onesTable_get graph flag hi).2] at hx
      rw [(List.mem_replicate.mp hx).2]; exact one_pos
    | k + 2 =>
      simp [onesTable, Messages.get, List.getD_eq_getElem?_getD, hi] at hx
  · have hnone : graph.edges[i]? = none := List.getElem?_eq_none (by omega)
    simp [onesTable, Messages.get, List.getD_eq_getElem?_getD, hnone] at hx

theorem sweep_inv {graph : CGraph} {options : TInferenceOptions}
    (h : graph.WellFormed options.considerNodeFixedValues)
    (hp : graph.PositivePotentials options.considerNodeFixedValues) {messages : Messages}
    (hinv : MsgInv graph options.considerNodeFixedValues messages) :
    MsgInv graph options.considerNodeFixedValues (sweep graph options false messages) := by
  unfold sweep
  refine foldl_inv _ _ _ ?_ hinv
  intro m n hn hm
  unfold nodeSweep
  refine foldl_inv _ _ _ ?_ hm
  intro m1 e he hm1
  exact ⟨sendMessage_dims h hm1.1 hn he, sendMessage_pos h hp hm1.1 hm1.2 hn he⟩

theorem iterate_inv {graph : CGraph} {options : TInferenceOptions}
    (h : graph.WellFormed options.considerNodeFixedValues)
    (hp : graph.PositivePotentials options.considerNodeFixedValues) :
    ∀ (remaining : ℕ) (messages : Messages) (total : ℚ),
    MsgInv graph options.considerNodeFixedValues messages →
    MsgInv graph options.considerNodeFixedValues
      (iterate graph options false remaining messages total) := by
  intro remaining
  induction remaining with
  | zero => intro messages total hinv; exact hinv
  | succ remaining ih =>
    intro messages total hinv
    unfold iterate
    simp only
    split
    · exact sweep_inv h hp hinv
    · exact ih _ _ (sweep_inv h hp hinv)

theorem messagesLBP_inv {graph : CGraph} {options : TInferenceOptions}
    (h : graph.WellFormed options.considerNodeFixedValues)
    (hp : graph.PositivePotentials options.considerNodeFixedValues) (messages : Messages) :
    MsgInv graph options.considerNodeFixedValues (messagesLBP graph options messages false) := by
  unfold messagesLBP
  simp only
  apply iterate_inv h hp
  rw [initMessages_fst]
  exact ⟨onesTable_dims _ _, onesTable_pos _ _⟩

theorem sum_map_div (l : List ℚ) (s : ℚ) : (l.map fun x => x / s).sum = l.sum / s := by
  induction l with
  | nil => simp
  | cons a l ih => rw [List.map_cons, List.sum_cons, List.sum_cons, ih, add_div]

theorem normalizeVector_sum {v : VectorXd} (h : v.sum ≠ 0) : (normalizeVector v).sum = 1 := by
  unfold normalizeVector
  rw [if_pos h, sum_map_div, div_self h]

theorem normalizeMatrix_sum {m : MatrixXd} (h : m.sum ≠ 0) : (normalizeMatrix m).sum = 1 := by
  unfold normalizeMatrix
  rw [if_pos h]
  unfold MatrixXd.sum at h ⊢
  rw [List.map_map]
  have : ((fun row : List ℚ => row.sum) ∘ fun row : List ℚ => row.map fun x => x / (m.map List.sum).sum) =
      fun row => row.sum / (m.map List.sum).sum := by
    funext row
    exact sum_map_div row _
  have h2 : (List.sum ∘ fun row : List ℚ => row.map fun x => x / (m.map List.sum).sum) =
      fun row => row.sum / (m.map List.sum).sum := this
  rw [h2]
  have h3 : (m.map fun row => row.sum / (m.map List.sum).sum) =
      (m.map List.sum).map fun x => x / (m.map List.sum).sum := by
    rw [List.map_map]; rfl
  rw [h3, sum_map_div, div_self h]

theorem normalizeVector_length (v : VectorXd) : (normalizeVector v).length = v.length := by
  unfold normalizeVector
  split <;> simp

theorem normalizeVector_pos {v : VectorXd} (hv : ∀ x ∈ v, 0 < x) :
    ∀ x ∈ normalizeVector v, 0 < x := by
  unfold normalizeVector
  split
  · intro x hx
    rw [List.mem_map] at hx
    obtain ⟨y, hy, rfl⟩ := hx
    have hs : 0 < v.sum := List.sum_pos _ hv (List.ne_nil_of_mem hy)
    exact div_pos (hv y hy) hs
  · exact hv

/-- The unnormalised belief of a node: its potential times the messages received
along all its incident edges. -/
theorem nodeBelief_eq (graph : CGraph) (options : TInferenceOptions) (messages : Messages)
    (n : CNode) :
    nodeBelief graph options messages n =
      normalizeVector (((graph.edges_f n.id).map (incomingMessage graph messages n.id)).foldl
        cwiseProduct (n.potentials options.considerNodeFixedValues)) := by
  unfold nodeBelief
  simp only
  rw [List.foldl_map]
  congr 2
  funext acc e
  unfold incomingMessage CEdge.getNodePosition
  by_cases hc : e.ID1 = n.id
  · rw [if_pos hc, if_pos rfl, if_pos hc.symm]
  · rw [if_neg hc, if_neg (by decide), if_neg (fun hh => hc hh.symm)]

theorem foldl_update_of_not_mem {α β : Type} (key : α → ℕ) (val : α → β) (l : List α)
    (f : ℕ → β) (k : ℕ) (hk : k ∉ l.map key) :
    (l.foldl (fun g a => Function.update g (key a) (val a)) f) k = f k := by
  induction l generalizing f with
  | nil => rfl
  | cons a l ih =>
    rw [List.map_cons, List.mem_cons, not_or] at hk
    rw [List.foldl_cons, ih _ hk.2, Function.update_noteq hk.1]

theorem foldl_update_of_mem {α β : Type} (key : α → ℕ) (val : α → β) (l : List α)
    (hnd : (l.map key).Nodup) (f : ℕ → β) {a : α} (ha : a ∈ l) :
    (l.foldl (fun g a => Function.update g (key a) (val a)) f) (key a) = val a := by
  induction l generalizing f with
  | nil => cases ha
  | cons b l ih =>
    rw [List.map_cons, List.nodup_cons] at hnd
    rw [List.foldl_cons]
    rw [List.mem_cons] at ha
    rcases ha with rfl | ha
    · rw [foldl_update_of_not_mem key val l _ _ hnd.1, Function.update_same]
    · exact ih hnd.2 _ ha

theorem computeNodeBeliefs_eq {graph : CGraph} {options : TInferenceOptions}
    (h : graph.WellFormed options.considerNodeFixedValues) (messages : Messages) {n : CNode}
    (hn : n ∈ graph.nodes) :
    computeNodeBeliefs graph options messages n.id = nodeBelief graph options messages n :=
  foldl_update_of_mem CNode.id (nodeBelief graph options messages) graph.nodes h.node_ids _ hn

theorem range_map_getD (l : List CEdge) (d : CEdge) :
    (List.range l.length).map (fun i => l.getD i d) = l := by
  apply List.ext_getElem
  · simp
  · intro i h1 h2
    simp [List.getD_eq_getElem?_getD, h2]

theorem computeEdgeBeliefs_eq {graph : CGraph} {flag : Bool} (h : graph.WellFormed flag)
    (messages : Messages) (nodeBeliefs : ℕ → VectorXd) {i : ℕ} (hi : i < graph.edges.length) :
    computeEdgeBeliefs graph messages nodeBeliefs (graph.edges.getD i ⟨0, 0, 0, []⟩).id =
      edgeBelief graph messages nodeBeliefs i := by
  have hnd : ((List.range graph.edges.length).map
      fun i => (graph.edges.getD i ⟨0, 0, 0, []⟩).id).Nodup := by
    have h1 : ((List.range graph.edges.length).map
        fun i => (graph.edges.getD i ⟨0, 0, 0, []⟩).id) =
        ((List.range graph.edges.length).map
          fun i => graph.edges.getD i ⟨0, 0, 0, []⟩).map CEdge.id := by
      rw [List.map_map]; rfl
    rw [h1, range_map_getD]
    exact h.edge_ids
  exact foldl_update_of_mem (fun i => (graph.edges.getD i ⟨0, 0, 0, []⟩).id)
    (edgeBelief graph messages nodeBeliefs) (List.range graph.edges.length) hnd _
    (List.mem_range.mpr hi)

theorem foldl_cwiseProduct_pos (l : List VectorXd) (acc : VectorXd)
    (hl : ∀ v ∈ l, v.length = acc.length ∧ ∀ x ∈ v, 0 < x) (hacc : ∀ x ∈ acc, 0 < x) :
    ∀ x ∈ l.foldl cwiseProduct acc, 0 < x := by
  apply forall_mem_of_getD
  intro i hi
  rw [foldl_cwiseProduct_length l acc fun v hv => (hl v hv).1] at hi
  rw [foldl_cwiseProduct_getD]
  apply mul_pos (hacc _ (getD_mem_of_lt hi))
  apply List.prod_pos
  intro a ha
  rw [List.mem_map] at ha
  obtain ⟨v, hv, rfl⟩ := ha
  exact (hl v hv).2 _ (getD_mem_of_lt (by rw [(hl v hv).1]; exact hi))

theorem incomingMessage_pos {graph : CGraph} {messages : Messages}
    (hpos : MsgAll (fun x => 0 < x) messages) (nodeID : ℕ) (e : CEdge) :
    ∀ x ∈ incomingMessage graph messages nodeID e, 0 < x := by
  unfold incomingMessage
  split
  · exact hpos _ _
  · exact hpos _ _

/-- Shape, positivity and normalisation of a node belief computed from a
positive message table. -/
theorem nodeBelief_props {graph : CGraph} {options : TInferenceOptions}
    (h : graph.WellFormed options.considerNodeFixedValues)
    (hp : graph.PositivePotentials options.considerNodeFixedValues) {messages : Messages}
    (hinv : MsgInv graph options.considerNodeFixedValues messages) {n : CNode}
    (hn : n ∈ graph.nodes) :
    (nodeBelief graph options messages n).length =
        (n.potentials options.considerNodeFixedValues).length ∧
      (∀ x ∈ nodeBelief graph options messages n, 0 < x) ∧
      (nodeBelief graph options messages n).sum = 1 := by
  have hl : ∀ v ∈ (graph.edges_f n.id).map (incomingMessage graph messages n.id),
      v.length = (n.potentials options.considerNodeFixedValues).length ∧ ∀ x ∈ v, 0 < x := by
    intro v hv
    rw [List.mem_map] at hv
    obtain ⟨e, he, rfl⟩ := hv
    exact ⟨h.incoming_length hinv.1 hn he, incomingMessage_pos hinv.2 _ _⟩
  have hlen := foldl_cwiseProduct_length _ _ fun v hv => (hl v hv).1
  have hpos := foldl_cwiseProduct_pos _ _ hl (hp.node_pos n hn)
  rw [nodeBelief_eq]
  refine ⟨by rw [normalizeVector_length, hlen], normalizeVector_pos hpos, ?_⟩
  apply normalizeVector_sum
  apply ne_of_gt
  apply List.sum_pos _ hpos
  intro hnil
  rw [hnil] at hlen
  have := h.states n hn
  simp at hlen
  omega

theorem matrix_sum_pos {m : MatrixXd} (hne : m ≠ [])
    (hrow : ∀ row ∈ m, row ≠ [] ∧ ∀ x ∈ row, 0 < x) : 0 < m.sum := by
  unfold MatrixXd.sum
  apply List.sum_pos
  · intro s hs
    rw [List.mem_map] at hs
    obtain ⟨row, hr, rfl⟩ := hs
    exact List.sum_pos _ (hrow row hr).2 (hrow row hr).1
  · simpa using hne

/-- Normalisation of an edge belief computed from a positive message table and
positive, correctly sized node beliefs. -/
theorem edgeBelief_sum {graph : CGraph} {flag : Bool} (h : graph.WellFormed flag)
    (hp : graph.PositivePotentials flag) {messages : Messages}
    (hinv : MsgInv graph flag messages) {nodeBeliefs : ℕ → VectorXd}
    (hnb : ∀ n ∈ graph.nodes, (nodeBeliefs n.id).length = (n.potentials flag).length ∧
      ∀ x ∈ nodeBeliefs n.id, 0 < x) {i : ℕ} (hi : i < graph.edges.length) :
    (edgeBelief graph messages nodeBeliefs i).sum = 1 := by
  have he : graph.edges.getD i ⟨0, 0, 0, []⟩ ∈ graph.edges := by
    rw [List.getD_eq_getElem _ _ hi]; exact List.getElem_mem _
  generalize hedef : graph.edges.getD i ⟨0, 0, 0, []⟩ = e at he
  obtain ⟨⟨n1, hn1, hid1⟩, ⟨n2, hn2, hid2⟩⟩ := h.ends e he
  have hrows : e.potentials.rows = graph.card flag e.ID1 := (h.dims e he).1
  have hcols : e.potentials.cols = graph.card flag e.ID2 := h.potentials_cols he
  have hc1 : 0 < graph.card flag e.ID1 := h.card_pos ⟨n1, hn1, hid1⟩
  have hc2 : 0 < graph.card flag e.ID2 := h.card_pos ⟨n2, hn2, hid2⟩
  have hb1 : ∀ r, r < graph.card flag e.ID1 →
      0 < (cwiseQuotient (nodeBeliefs e.ID1) (messages.get i 1)).getD r 0 := by
    intro r hr
    rw [cwiseQuotient_getD]
    apply div_pos
    · rw [← hid1]
      apply (hnb n1 hn1).2 _ (getD_mem_of_lt _)
      rw [(hnb n1 hn1).1, ← h.card_eq hn1, hid1]; exact hr
    · apply hinv.2 i 1 _ (getD_mem_of_lt _)
      rw [hinv.1.dim1 i hi, hedef]; exact hr
  have hb2 : ∀ c, c < graph.card flag e.ID2 →
      0 < (cwiseQuotient (nodeBeliefs e.ID2) (messages.get i 0)).getD c 0 := by
    intro c hc
    rw [cwiseQuotient_getD]
    apply div_pos
    · rw [← hid2]
      apply (hnb n2 hn2).2 _ (getD_mem_of_lt _)
      rw [(hnb n2 hn2).1, ← h.card_eq hn2, hid2]; exact hc
    · apply hinv.2 i 0 _ (getD_mem_of_lt _)
      rw [hinv.1.dim0 i hi, hedef]; exact hc
  unfold edgeBelief
  simp only [hedef]
  apply normalizeMatrix_sum
  apply ne_of_gt
  apply matrix_sum_pos
  · rw [hrows]
    intro hnil
    have := congrArg List.length hnil
    simp at this
    omega
  · intro row hrow
    rw [List.mem_map] at hrow
    obtain ⟨r, hr, rfl⟩ := hrow
    rw [List.mem_range, hrows] at hr
    constructor
    · rw [hcols]
      intro hnil
      have := congrArg List.length hnil
      simp at this
      omega
    · intro x hx
      rw [List.mem_map] at hx
      obtain ⟨c, hc, rfl⟩ := hx
      rw [List.mem_range, hcols] at hc
      obtain ⟨row1, hrow1, hmem⟩ := h.coeff_mem he hr hc
      exact mul_pos (mul_pos (hp.edge_pos e he row1 hrow1 _ hmem) (hb1 r hr)) (hb2 c hc)

set_option linter.unusedVariables false

/-- C3. For every well-formed graph whose node and edge potentials are all
strictly positive, every `maxIterations` and every positive convergence
threshold, each node belief returned by `CLBPInferenceMarginal::infer` sums to
exactly `1` and each edge belief returned sums to exactly `1`. -/
theorem infer_beliefs_sum_to_one (graph : CGraph) (m_options : TInferenceOptions)
    (hwf : graph.WellFormed m_options.considerNodeFixedValues)
    (hpos : graph.PositivePotentials m_options.considerNodeFixedValues)
    (hconv : 0 < m_options.convergency) :
    (∀ n ∈ graph.nodes,
        ((CLBPInferenceMarginal.inferBeliefs graph m_options).1 n.id).sum = 1) ∧
      ∀ e ∈ graph.edges,
        ((CLBPInferenceMarginal.inferBeliefs graph m_options).2 e.id).sum = 1 := by
  have hinv := messagesLBP_inv hwf hpos []
  unfold CLBPInferenceMarginal.inferBeliefs
  simp only
  constructor
  · intro n hn
    rw [computeNodeBeliefs_eq hwf _ hn]
    exact (nodeBelief_props hwf hpos hinv hn).2.2
  · intro e he
    obtain ⟨i, hi, rfl⟩ := List.getElem_of_mem he
    rw [← List.getD_eq_getElem _ ⟨0, 0, 0, []⟩ hi, computeEdgeBeliefs_eq hwf _ _ hi]
    apply edgeBelief_sum hwf hpos hinv _ hi
    intro n hn
    rw [computeNodeBeliefs_eq hwf _ hn]
    exact ⟨(nodeBelief_props hwf hpos hinv hn).1, (nodeBelief_props hwf hpos hinv hn).2.1⟩

theorem incoming_filter_perm {graph : CGraph} (hloop : graph.NoSelfLoops)
    (hcomp : graph.CompleteEdgesF) {n : CNode} (hn : n ∈ graph.nodes) {j : ℕ}
    (hj : j ≠ n.id) :
    ((graph.edges_f n.id).filter fun e2 => j ≠ e2.ID1 ∧ j ≠ e2.ID2).Perm
      (graph.edges.filter fun e2 => (e2.ID1 = n.id ∨ e2.ID2 = n.id) ∧
        (if e2.ID1 = n.id then e2.ID2 else e2.ID1) ≠ j) := by
  have h1 := (hcomp n hn).filter fun e2 => j ≠ e2.ID1 ∧ j ≠ e2.ID2
  rw [List.filter_filter] at h1
  have h2 : (graph.edges.filter fun a =>
      (decide (j ≠ a.ID1 ∧ j ≠ a.ID2) && decide (a.ID1 = n.id ∨ a.ID2 = n.id))) =
      graph.edges.filter fun e2 => (e2.ID1 = n.id ∨ e2.ID2 = n.id) ∧
        (if e2.ID1 = n.id then e2.ID2 else e2.ID1) ≠ j := by
    apply List.filter_congr
    intro e2 he2
    have hl := hloop e2 he2
    by_cases hc : e2.ID1 = n.id
    · have : e2.ID2 ≠ n.id := fun hh => hl (hc.trans hh.symm)
      by_cases hj2 : j = e2.ID2
      · simp [hc, hj2]
      · simp [hc, hj2, Ne.symm hj2, hj]
    · by_cases hc2 : e2.ID2 = n.id
      · by_cases hj1 : j = e2.ID1
        · simp [hc, hc2, hj1]
        · simp [hc, hc2, hj1, Ne.symm hj1, hj]
      · simp [hc, hc2]
  rw [h2] at h1
  exact h1

set_option linter.unusedVariables false

/-- C5. Sum-product update of `messagesLBP` (`maximize = false`) on a well-formed
graph without self-loops or parallel edges: when node `i` sends along its
incident edge `e`, the message written has one entry per state of the neighbour
`j`, the entry at state `x_j` is the sum over the states `x_i` of `i` of
`psi(x_i, x_j) * phi_i(x_i)` times the product of the messages into `i` from its
neighbours other than `j` (read in the table as it is at the moment of the
update), it is stored in slot `0` of `e` when `i` is the first node of `e` and in
slot `1` otherwise, and no other message of the table changes. -/
theorem sendMessage_sum_product (graph : CGraph) (options : TInferenceOptions)
    (messages : Messages) (i : CNode) (e : CEdge)
    (hwf : graph.WellFormed options.considerNodeFixedValues) (hloop : graph.NoSelfLoops)
    (hpar : graph.NoParallelEdges) (hcomp : graph.CompleteEdgesF)
    (hdims : MsgDims graph options.considerNodeFixedValues messages) (hi : i ∈ graph.nodes)
    (he : e ∈ graph.edges_f i.id) :
    ((sendMessage graph options false i messages e).get (graph.getEdgeIndex e.id)
        (if i.id = e.ID1 then 0 else 1)).length =
        graph.card options.considerNodeFixedValues (if i.id = e.ID1 then e.ID2 else e.ID1) ∧
      (∀ x_j, x_j < graph.card options.considerNodeFixedValues
          (if i.id = e.ID1 then e.ID2 else e.ID1) →
        ((sendMessage graph options false i messages e).get (graph.getEdgeIndex e.id)
          (if i.id = e.ID1 then 0 else 1)).getD x_j 0 =
          sumProductMessage graph options.considerNodeFixedValues messages i e x_j) ∧
      ∀ edgeIndex k, ¬ (edgeIndex = graph.getEdgeIndex e.id ∧
          k = if i.id = e.ID1 then 0 else 1) →
        (sendMessage graph options false i messages e).get edgeIndex k =
          messages.get edgeIndex k := by
  obtain ⟨he1, he2⟩ := hwf.incident i hi e he
  obtain ⟨hidx, hget⟩ := hwf.getEdgeIndex_spec he1
  have hilt : graph.getEdgeIndex e.id < messages.length := by rw [hdims.len]; exact hidx
  have hk : (if i.id = e.ID1 then 0 else 1) <
      (messages.getD (graph.getEdgeIndex e.id) []).length := by
    rw [hdims.pair _ hidx]; split <;> decide
  have hj : (if e.ID1 = i.id then e.ID2 else e.ID1) ≠ i.id := by
    have hl := hloop e he1
    by_cases hc : e.ID1 = i.id
    · rw [if_pos hc]
      exact fun hh => hl (hc.trans hh.symm)
    · rw [if_neg hc]; exact hc
  rw [sendMessage_sum]
  refine ⟨?_, ?_, ?_⟩
  · rw [Messages.get_put _ hilt hk, if_pos ⟨rfl, rfl⟩, mulVec_length, hwf.oriented_length he1]
  · intro x_j hx
    have hacc := hwf.incomingProduct_length hdims hi (if e.ID1 = i.id then e.ID2 else e.ID1)
    rw [Messages.get_put _ hilt hk, if_pos ⟨rfl, rfl⟩,
      hwf.oriented_mulVec_getD he1 hi _ hacc hx]
    unfold sumProductMessage
    refine Finset.sum_congr rfl fun x_i _ => ?_
    rw [incomingProduct_getD, mul_assoc]
    congr 2
    exact ((incoming_filter_perm hloop hcomp hi hj).map _).prod_eq
  · intro edgeIndex k hne
    rw [Messages.get_put _ hilt hk, if_neg hne]

theorem pathChain_wellFormed : pathChain.WellFormed false :=
  ⟨by decide, by decide, by decide, by decide, by decide, by decide⟩

theorem pathChain_positive : pathChain.PositivePotentials false :=
  ⟨by decide!, by decide!⟩

theorem pathChain_complete : pathChain.CompleteEdgesF := by
  unfold CGraph.CompleteEdgesF; decide

theorem pathChain_noSelfLoops : pathChain.NoSelfLoops := by
  unfold CGraph.NoSelfLoops; decide

theorem pathChain_noParallel : pathChain.NoParallelEdges := by
  unfold CGraph.NoParallelEdges; decide

/-- Witness for C3: the path-ordered chain of three binary nodes. -/
theorem infer_beliefs_sum_to_one_witness :
    (∀ n ∈ pathChain.nodes,
        ((CLBPInferenceMarginal.inferBeliefs pathChain ⟨5, 1 / 1000, false, fun _ => ""⟩).1 n.id).sum = 1) ∧
      ∀ e ∈ pathChain.edges,
        ((CLBPInferenceMarginal.inferBeliefs pathChain ⟨5, 1 / 1000, false, fun _ => ""⟩).2 e.id).sum = 1 :=
  infer_beliefs_sum_to_one pathChain ⟨5, 1 / 1000, false, fun _ => ""⟩ pathChain_wellFormed
    pathChain_positive (by decide!)

/-- Witness for C5: in the path-ordered chain, the middle node sends along its
second edge, from the all-ones table. -/
theorem sendMessage_sum_product_witness :
    ((sendMessage pathChain ⟨5, 1 / 1000, false, fun _ => ""⟩ false ⟨1, fun _ => [1, 1]⟩
        (onesTable pathChain false) ⟨11, 1, 2, [[1, 3], [2, 1]]⟩).get
          (pathChain.getEdgeIndex 11) (if 1 = 1 then 0 else 1)).length =
        pathChain.card false (if 1 = 1 then 2 else 1) ∧
      (∀ x_j, x_j < pathChain.card false (if 1 = 1 then 2 else 1) →
        ((sendMessage pathChain ⟨5, 1 / 1000, false, fun _ => ""⟩ false ⟨1, fun _ => [1, 1]⟩
          (onesTable pathChain false) ⟨11, 1, 2, [[1, 3], [2, 1]]⟩).get
            (pathChain.getEdgeIndex 11) (if 1 = 1 then 0 else 1)).getD x_j 0 =
          sumProductMessage pathChain false (onesTable pathChain false)
            ⟨1, fun _ => [1, 1]⟩ ⟨11, 1, 2, [[1, 3], [2, 1]]⟩ x_j) ∧
      ∀ edgeIndex k, ¬ (edgeIndex = pathChain.getEdgeIndex 11 ∧
          k = if 1 = 1 then 0 else 1) →
        (sendMessage pathChain ⟨5, 1 / 1000, false, fun _ => ""⟩ false ⟨1, fun _ => [1, 1]⟩
          (onesTable pathChain false) ⟨11, 1, 2, [[1, 3], [2, 1]]⟩).get edgeIndex k =
          (onesTable pathChain false).get edgeIndex k :=
  sendMessage_sum_product pathChain ⟨5, 1 / 1000, false, fun _ => ""⟩ (onesTable pathChain false)
    ⟨1, fun _ => [1, 1]⟩ ⟨11, 1, 2, [[1, 3], [2, 1]]⟩ pathChain_wellFormed
    pathChain_noSelfLoops pathChain_noParallel pathChain_complete (onesTable_dims _ _)
    (by simp [pathChain]) (by simp [pathChain])

theorem sendMessage_put (graph : CGraph) (options : TInferenceOptions) (n : CNode)
    (messages : Messages) (e : CEdge) :
    sendMessage graph options false n messages e =
      messages.put (graph.getEdgeIndex e.id) (sendSlot n.id e)
        (outMessage graph options n messages e) :=
  sendMessage_sum graph options n messages e

theorem sendMessage_get {graph : CGraph} {options : TInferenceOptions}
    (h : graph.WellFormed options.considerNodeFixedValues) {messages : Messages}
    (hd : MsgDims graph options.considerNodeFixedValues messages) {n : CNode}
    (hn : n ∈ graph.nodes) {e : CEdge} (he : e ∈ graph.edges_f n.id) (i k : ℕ) :
    (sendMessage graph options false n messages e).get i k =
      if i = graph.getEdgeIndex e.id ∧ k = sendSlot n.id e then
        outMessage graph options n messages e
      else messages.get i k := by
  obtain ⟨he1, _⟩ := h.incident n hn e he
  obtain ⟨hidx, _⟩ := h.getEdgeIndex_spec he1
  rw [sendMessage_put]
  apply Messages.get_put
  · rw [hd.len]; exact hidx
  · rw [hd.pair _ hidx]; unfold sendSlot; split <;> decide

theorem foldl_establish {α β : Type} (I Q : β → Prop) (f : β → α → β) (l : List α) {x0 : α}
    (hx0 : x0 ∈ l) (hI : ∀ b, ∀ x ∈ l, I b → I (f b x))
    (hQ : ∀ b, ∀ x ∈ l, I b → Q b → Q (f b x)) (hE : ∀ b, I b → Q (f b x0)) {b0 : β}
    (hb : I b0) : Q (l.foldl f b0) := by
  induction l generalizing b0 with
  | nil => cases hx0
  | cons x l ih =>
    rw [List.foldl_cons]
    by_cases hmem : x0 ∈ l
    · exact ih hmem (fun b y hy => hI b y (List.mem_cons_of_mem _ hy))
        (fun b y hy => hQ b y (List.mem_cons_of_mem _ hy)) (hI b0 x (List.mem_cons_self _ _) hb)
    · have hx : x0 = x := by
        rcases List.mem_cons.mp hx0 with h | h
        · exact h
        · exact absurd h hmem
      subst hx
      have h2 : I (f b0 x0) ∧ Q (f b0 x0) :=
        ⟨hI b0 x0 (List.mem_cons_self _ _) hb, hE b0 hb⟩
      exact (foldl_inv (fun b => I b ∧ Q b) f l
        (fun b y hy hb1 => ⟨hI b y (List.mem_cons_of_mem _ hy) hb1.1,
          hQ b y (List.mem_cons_of_mem _ hy) hb1.1 hb1.2⟩) h2).2

theorem CEdge.Joins.incident_left {e : CEdge} {x y : ℕ} (h : e.Joins x y) :
    e.ID1 = x ∨ e.ID2 = x := by
  rcases h with ⟨h1, _⟩ | ⟨_, h2⟩
  · exact Or.inl h1
  · exact Or.inr h2

theorem CEdge.Joins.incident_right {e : CEdge} {x y : ℕ} (h : e.Joins x y) :
    e.ID1 = y ∨ e.ID2 = y := by
  rcases h with ⟨_, h2⟩ | ⟨h1, _⟩
  · exact Or.inr h2
  · exact Or.inl h1

theorem CEdge.Joins.not_incident {e : CEdge} {x y z : ℕ} (h : e.Joins x y) (hzx : z ≠ x)
    (hzy : z ≠ y) : ¬ (e.ID1 = z ∨ e.ID2 = z) := by
  rcases h with ⟨h1, h2⟩ | ⟨h1, h2⟩ <;> rw [h1, h2] <;> intro hh <;> rcases hh with hh | hh
  · exact hzx hh.symm
  · exact hzy hh.symm
  · exact hzy hh.symm
  · exact hzx hh.symm

theorem IsChain3.swap {graph : CGraph} {flag : Bool} {a m b : ℕ} {e1 e2 : CEdge}
    (h : IsChain3 graph flag a m b e1 e2) : IsChain3 graph flag b m a e2 e1 :=
  { h with
    ids := fun n hn => by
      rcases h.ids n hn with h1 | h1 | h1
      · exact Or.inr (Or.inr h1)
      · exact Or.inr (Or.inl h1)
      · exact Or.inl h1
    am := h.bm
    bm := h.am
    ab := h.ab.symm
    mem1 := h.mem2
    mem2 := h.mem1
    joins1 := h.joins2
    joins2 := h.joins1 }

theorem IsChain3.edge_ne {graph : CGraph} {flag : Bool} {a m b : ℕ} {e1 e2 : CEdge}
    (h : IsChain3 graph flag a m b e1 e2) : e1 ≠ e2 := by
  intro heq
  have h1 := h.joins1.incident_right
  rw [heq] at h1
  exact h.joins2.not_incident h.am h.ab h1

theorem IsChain3.edges_eq {graph : CGraph} {flag : Bool} {a m b : ℕ} {e1 e2 : CEdge}
    (h : IsChain3 graph flag a m b e1 e2) : graph.edges = [e1, e2] ∨ graph.edges = [e2, e1] := by
  have hne := h.edge_ne
  have h1 := h.mem1
  have h2 := h.mem2
  have hlen := h.edges2
  match hg : graph.edges with
  | [] => rw [hg] at hlen; cases hlen
  | [x] => rw [hg] at hlen; cases hlen
  | x :: y :: z :: l => rw [hg] at hlen; simp at hlen
  | [x, y] =>
    rw [hg] at h1 h2
    simp only [List.mem_cons, List.mem_singleton, List.not_mem_nil, or_false] at h1 h2
    rcases h1 with rfl | rfl <;> rcases h2 with rfl | rfl
    · exact absurd rfl hne
    · exact Or.inl rfl
    · exact Or.inr rfl
    · exact absurd rfl hne

theorem IsChain3.noSelfLoops {graph : CGraph} {flag : Bool} {a m b : ℕ} {e1 e2 : CEdge}
    (h : IsChain3 graph flag a m b e1 e2) : graph.NoSelfLoops := by
  intro e he
  have hcases : e = e1 ∨ e = e2 := by
    rcases h.edges_eq with hg | hg <;> rw [hg] at he <;> simpa [or_comm] using he
  rcases hcases with rfl | rfl
  · rcases h.joins1 with ⟨h1, h2⟩ | ⟨h1, h2⟩ <;> rw [h1, h2]
    · exact h.am.symm
    · exact h.am
  · rcases h.joins2 with ⟨h1, h2⟩ | ⟨h1, h2⟩ <;> rw [h1, h2]
    · exact h.bm.symm
    · exact h.bm

/-- The edge index of `e1` and of `e2` in the edge list. -/
theorem IsChain3.index_ne {graph : CGraph} {flag : Bool} {a m b : ℕ} {e1 e2 : CEdge}
    (h : IsChain3 graph flag a m b e1 e2) :
    graph.getEdgeIndex e1.id ≠ graph.getEdgeIndex e2.id := by
  intro heq
  have h1 := (h.wf.getEdgeIndex_spec h.mem1).2
  have h2 := (h.wf.getEdgeIndex_spec h.mem2).2
  rw [heq, h2] at h1
  exact h.edge_ne h1.symm

theorem IsChain3.leaf_edges {graph : CGraph} {flag : Bool} {a m b : ℕ} {e1 e2 : CEdge}
    (h : IsChain3 graph flag a m b e1 e2) {n : CNode} (hn : n ∈ graph.nodes) (hid : n.id = a) :
    graph.edges_f n.id = [e1] := by
  have hperm := h.complete n hn
  have hfilter : (graph.edges.filter fun e => e.ID1 = n.id ∨ e.ID2 = n.id) = [e1] := by
    have i1 : e1.ID1 = n.id ∨ e1.ID2 = n.id := by rw [hid]; exact h.joins1.incident_right
    have i2 : ¬ (e2.ID1 = n.id ∨ e2.ID2 = n.id) := by
      rw [hid]; exact h.joins2.not_incident h.am h.ab
    rcases h.edges_eq with hg | hg <;> rw [hg] <;> simp [List.filter_cons, i1, i2]
  rw [hfilter] at hperm
  exact List.perm_singleton.mp hperm

theorem IsChain3.mid_edges {graph : CGraph} {flag : Bool} {a m b : ℕ} {e1 e2 : CEdge}
    (h : IsChain3 graph flag a m b e1 e2) {n : CNode} (hn : n ∈ graph.nodes) (hid : n.id = m) :
    (graph.edges_f n.id).Perm [e1, e2] := by
  have hperm := h.complete n hn
  have i1 : e1.ID1 = n.id ∨ e1.ID2 = n.id := by rw [hid]; exact h.joins1.incident_left
  have i2 : e2.ID1 = n.id ∨ e2.ID2 = n.id := by rw [hid]; exact h.joins2.incident_left
  rcases h.edges_eq with hg | hg
  · rw [hg] at hperm
    simpa [List.filter_cons, i1, i2] using hperm
  · rw [hg] at hperm
    have : (graph.edges_f n.id).Perm [e2, e1] := by
      simpa [List.filter_cons, i1, i2] using hperm
    exact this.trans (List.Perm.swap e1 e2 [])

theorem IsChain3.slot_ne {graph : CGraph} {flag : Bool} {a m b : ℕ} {e1 e2 : CEdge}
    (h : IsChain3 graph flag a m b e1 e2) : sendSlot a e1 ≠ sendSlot m e1 := by
  unfold sendSlot
  rcases h.joins1 with ⟨h1, _⟩ | ⟨h1, _⟩
  · rw [if_neg (fun hh => h.am (hh.trans h1)), if_pos h1.symm]; decide
  · rw [if_pos h1.symm, if_neg (fun hh => h.am (h1.symm.trans hh.symm))]; decide

theorem IsChain3.node_of_id {graph : CGraph} {flag : Bool} {a m b : ℕ} {e1 e2 : CEdge}
    (h : IsChain3 graph flag a m b e1 e2) :
    (∃ n ∈ graph.nodes, n.id = a) ∧ (∃ n ∈ graph.nodes, n.id = m) := by
  obtain ⟨w1, w2⟩ := h.wf.ends e1 h.mem1
  rcases h.joins1 with ⟨h1, h2⟩ | ⟨h1, h2⟩
  · rw [h1] at w1; rw [h2] at w2; exact ⟨w2, w1⟩
  · rw [h1] at w1; rw [h2] at w2; exact ⟨w1, w2⟩

theorem sweep_inv_gen {graph : CGraph} {options : TInferenceOptions} (I : Messages → Prop)
    (hI : ∀ msgs, ∀ n ∈ graph.nodes, ∀ e ∈ graph.edges_f n.id, I msgs →
      I (sendMessage graph options false n msgs e)) {messages : Messages} (h : I messages) :
    I (sweep graph options false messages) := by
  unfold sweep
  refine foldl_inv I _ _ ?_ h
  intro msgs n hn hm
  unfold nodeSweep
  exact foldl_inv I _ _ (fun msgs1 e he h1 => hI msgs1 n hn e he h1) hm

theorem sweep_establish {graph : CGraph} {options : TInferenceOptions} (I Q : Messages → Prop)
    {n0 : CNode} (hn0 : n0 ∈ graph.nodes) {e0 : CEdge} (he0 : e0 ∈ graph.edges_f n0.id)
    (hI : ∀ msgs, ∀ n ∈ graph.nodes, ∀ e ∈ graph.edges_f n.id, I msgs →
      I (sendMessage graph options false n msgs e))
    (hQ : ∀ msgs, ∀ n ∈ graph.nodes, ∀ e ∈ graph.edges_f n.id, I msgs → Q msgs →
      Q (sendMessage graph options false n msgs e))
    (hE : ∀ msgs, I msgs → Q (sendMessage graph options false n0 msgs e0))
    {messages : Messages} (h : I messages) : Q (sweep graph options false messages) := by
  unfold sweep
  refine foldl_establish I Q _ _ hn0 ?_ ?_ ?_ h
  · intro msgs n hn hm
    unfold nodeSweep
    exact foldl_inv I _ _ (fun msgs1 e he h1 => hI msgs1 n hn e he h1) hm
  · intro msgs n hn hm hq
    unfold nodeSweep
    exact (foldl_inv (fun b => I b ∧ Q b) _ _
      (fun msgs1 e he h1 => ⟨hI msgs1 n hn e he h1.1, hQ msgs1 n hn e he h1.1 h1.2⟩)
      ⟨hm, hq⟩).2
  · intro msgs hm
    unfold nodeSweep
    exact foldl_establish I Q _ _ he0 (fun msgs1 e he h1 => hI msgs1 n0 hn0 e he h1)
      (fun msgs1 e he h1 h2 => hQ msgs1 n0 hn0 e he h1 h2) hE hm

theorem IsChain3.op_cases {graph : CGraph} {flag : Bool} {a m b : ℕ} {e1 e2 : CEdge}
    (h : IsChain3 graph flag a m b e1 e2) {n : CNode} (hn : n ∈ graph.nodes) {e : CEdge}
    (he : e ∈ graph.edges_f n.id) :
    (n.id = a ∧ e = e1) ∨ (n.id = b ∧ e = e2) ∨ (n.id = m ∧ e = e1) ∨ (n.id = m ∧ e = e2) := by
  rcases h.ids n hn with hid | hid | hid
  · rw [h.leaf_edges hn hid, List.mem_singleton] at he
    exact Or.inl ⟨hid, he⟩
  · have := (h.mid_edges hn hid).mem_iff.mp he
    simp only [List.mem_cons, List.mem_singleton, List.not_mem_nil, or_false] at this
    rcases this with h1 | h1
    · exact Or.inr (Or.inr (Or.inl ⟨hid, h1⟩))
    · exact Or.inr (Or.inr (Or.inr ⟨hid, h1⟩))
  · rw [h.swap.leaf_edges hn hid, List.mem_singleton] at he
    exact Or.inr (Or.inl ⟨hid, he⟩)

theorem IsChain3.leaf_out {graph : CGraph} {options : TInferenceOptions} {a m b : ℕ}
    {e1 e2 : CEdge} (h : IsChain3 graph options.considerNodeFixedValues a m b e1 e2)
    {n : CNode} (hn : n ∈ graph.nodes) (hid : n.id = a) (messages : Messages) :
    outMessage graph options n messages e1 =
      leafMessage options.considerNodeFixedValues (graph.getNodeWithID a) e1 := by
  rw [← hid, h.wf.getNodeWithID_eq hn]
  unfold outMessage leafMessage
  rw [h.leaf_edges hn hid]
  unfold incomingProduct
  simp only [List.foldl_cons, List.foldl_nil]
  by_cases hc : e1.ID1 = n.id
  · simp [hc]
  · simp [hc]

theorem IsChain3.mid_out {graph : CGraph} {options : TInferenceOptions} {a m b : ℕ}
    {e1 e2 : CEdge} (h : IsChain3 graph options.considerNodeFixedValues a m b e1 e2)
    {n : CNode} (hn : n ∈ graph.nodes) (hid : n.id = m) (messages : Messages) :
    outMessage graph options n messages e1 =
      midMessage options.considerNodeFixedValues (graph.getNodeWithID m) e1
        (messages.get (graph.getEdgeIndex e2.id) (sendSlot b e2)) := by
  rw [← hid, h.wf.getNodeWithID_eq hn]
  unfold outMessage midMessage
  have hneigh : (if e1.ID1 = n.id then e1.ID2 else e1.ID1) = a := by
    rw [hid]
    rcases h.joins1 with ⟨h1, h2⟩ | ⟨h1, h2⟩
    · rw [if_pos h1, h2]
    · rw [if_neg (fun hh => h.am (h1.symm.trans hh)), h1]
  rw [hneigh, incomingProduct_eq]
  have hfilter : ((graph.edges_f n.id).filter fun e => a ≠ e.ID1 ∧ a ≠ e.ID2) = [e2] := by
    have hp := (h.mid_edges hn hid).filter fun e => a ≠ e.ID1 ∧ a ≠ e.ID2
    have c1 : ¬ (a ≠ e1.ID1 ∧ a ≠ e1.ID2) := by
      intro hh
      rcases h.joins1.incident_right with h1 | h1
      · exact hh.1 h1.symm
      · exact hh.2 h1.symm
    have c2 : a ≠ e2.ID1 ∧ a ≠ e2.ID2 := by
      have := h.joins2.not_incident h.am h.ab
      constructor
      · exact fun hh => this (Or.inl hh.symm)
      · exact fun hh => this (Or.inr hh.symm)
    rw [List.filter_cons, List.filter_cons, List.filter_nil] at hp
    simp only [c1, c2, decide_False, decide_True, and_self, ne_eq, not_false_eq_true,
      if_true, if_false] at hp
    exact List.perm_singleton.mp hp
  rw [hfilter]
  simp only [List.map_cons, List.map_nil, List.foldl_cons, List.foldl_nil]
  congr 2
  unfold incomingMessage sendSlot
  rw [hid]
  rcases h.joins2 with ⟨h1, h2⟩ | ⟨h1, h2⟩
  · rw [if_pos h1.symm, if_neg (fun hh => h.bm (hh.trans h1))]
  · rw [if_neg (fun hh => h.bm (h1.symm.trans hh.symm)), if_pos h1.symm]

theorem IsChain3.send_leafSlot {graph : CGraph} {options : TInferenceOptions} {a m b : ℕ}
    {e1 e2 : CEdge} (h : IsChain3 graph options.considerNodeFixedValues a m b e1 e2)
    {messages : Messages} (hd : MsgDims graph options.considerNodeFixedValues messages)
    {n : CNode} (hn : n ∈ graph.nodes) {e : CEdge} (he : e ∈ graph.edges_f n.id) :
    (n.id = a ∨ LeafSlotOK graph options.considerNodeFixedValues a e1 messages) →
      LeafSlotOK graph options.considerNodeFixedValues a e1
        (sendMessage graph options false n messages e) := by
  intro hor
  unfold LeafSlotOK at hor ⊢
  rw [sendMessage_get h.wf hd hn he]
  rcases h.op_cases hn he with ⟨hid, rfl⟩ | ⟨hid, rfl⟩ | ⟨hid, rfl⟩ | ⟨hid, rfl⟩
  · rw [hid, if_pos ⟨rfl, rfl⟩]
    exact h.leaf_out hn hid messages
  · rw [if_neg (fun hh => h.index_ne hh.1)]
    rcases hor with hor | hor
    · exact absurd (hid.symm.trans hor) h.ab.symm
    · exact hor
  · rw [hid, if_neg (fun hh => h.slot_ne hh.2)]
    rcases hor with hor | hor
    · exact absurd (hid.symm.trans hor) h.am.symm
    · exact hor
  · rw [if_neg (fun hh => h.index_ne hh.1)]
    rcases hor with hor | hor
    · exact absurd (hid.symm.trans hor) h.am.symm
    · exact hor

theorem IsChain3.send_midSlot {graph : CGraph} {options : TInferenceOptions} {a m b : ℕ}
    {e1 e2 : CEdge} (h : IsChain3 graph options.considerNodeFixedValues a m b e1 e2)
    {messages : Messages} (hd : MsgDims graph options.considerNodeFixedValues messages)
    (hleaf : LeafSlotOK graph options.considerNodeFixedValues b e2 messages)
    {n : CNode} (hn : n ∈ graph.nodes) {e : CEdge} (he : e ∈ graph.edges_f n.id) :
    ((n.id = m ∧ e = e1) ∨ MidSlotOK graph options.considerNodeFixedValues m b e1 e2 messages) →
      MidSlotOK graph options.considerNodeFixedValues m b e1 e2
        (sendMessage graph options false n messages e) := by
  intro hor
  unfold MidSlotOK at hor ⊢
  unfold LeafSlotOK at hleaf
  rw [sendMessage_get h.wf hd hn he]
  rcases h.op_cases hn he with ⟨hid, rfl⟩ | ⟨hid, rfl⟩ | ⟨hid, rfl⟩ | ⟨hid, rfl⟩
  · rw [hid, if_neg (fun hh => h.slot_ne hh.2.symm)]
    rcases hor with hor | hor
    · exact absurd (hid.symm.trans hor.1) h.am
    · exact hor
  · rw [if_neg (fun hh => h.index_ne hh.1)]
    rcases hor with hor | hor
    · exact absurd hor.2.symm h.edge_ne
    · exact hor
  · rw [hid, if_pos ⟨rfl, rfl⟩, h.mid_out hn hid messages, hleaf]
  · rw [if_neg (fun hh => h.index_ne hh.1)]
    rcases hor with hor | hor
    · exact absurd hor.2.symm h.edge_ne
    · exact hor

theorem IsChain3.send_chainLeaf {graph : CGraph} {options : TInferenceOptions} {a m b : ℕ}
    {e1 e2 : CEdge} (h : IsChain3 graph options.considerNodeFixedValues a m b e1 e2)
    (messages : Messages) (n : CNode) (hn : n ∈ graph.nodes) (e : CEdge)
    (he : e ∈ graph.edges_f n.id)
    (hm : ChainLeafOK graph options.considerNodeFixedValues a b e1 e2 messages) :
    ChainLeafOK graph options.considerNodeFixedValues a b e1 e2
      (sendMessage graph options false n messages e) :=
  ⟨sendMessage_dims h.wf hm.1 hn he, h.send_leafSlot hm.1 hn he (Or.inr hm.2.1),
    h.swap.send_leafSlot hm.1 hn he (Or.inr hm.2.2)⟩

theorem IsChain3.sweep_chainLeaf {graph : CGraph} {options : TInferenceOptions} {a m b : ℕ}
    {e1 e2 : CEdge} (h : IsChain3 graph options.considerNodeFixedValues a m b e1 e2)
    {messages : Messages} (hd : MsgDims graph options.considerNodeFixedValues messages) :
    ChainLeafOK graph options.considerNodeFixedValues a b e1 e2
      (sweep graph options false messages) := by
  obtain ⟨⟨na, hna, hida⟩, _⟩ := h.node_of_id
  obtain ⟨⟨nb, hnb, hidb⟩, _⟩ := h.swap.node_of_id
  have hdims : ∀ msgs, ∀ n ∈ graph.nodes, ∀ e ∈ graph.edges_f n.id,
      MsgDims graph options.considerNodeFixedValues msgs →
      MsgDims graph options.considerNodeFixedValues (sendMessage graph options false n msgs e) :=
    fun msgs n hn e he hm => sendMessage_dims h.wf hm hn he
  refine ⟨sweep_inv_gen _ hdims hd, ?_, ?_⟩
  · refine sweep_establish _ _ hna
      (show e1 ∈ graph.edges_f na.id by rw [h.leaf_edges hna hida]; simp) hdims ?_ ?_ hd
    · exact fun msgs n hn e he hm hq => h.send_leafSlot hm hn he (Or.inr hq)
    · exact fun msgs hm => h.send_leafSlot hm hna
        (show e1 ∈ graph.edges_f na.id by rw [h.leaf_edges hna hida]; simp) (Or.inl hida)
  · refine sweep_establish _ _ hnb
      (show e2 ∈ graph.edges_f nb.id by rw [h.swap.leaf_edges hnb hidb]; simp) hdims ?_ ?_ hd
    · exact fun msgs n hn e he hm hq => h.swap.send_leafSlot hm hn he (Or.inr hq)
    · exact fun msgs hm => h.swap.send_leafSlot hm hnb
        (show e2 ∈ graph.edges_f nb.id by rw [h.swap.leaf_edges hnb hidb]; simp) (Or.inl hidb)

theorem IsChain3.sweep_chainOK {graph : CGraph} {options : TInferenceOptions} {a m b : ℕ}
    {e1 e2 : CEdge} (h : IsChain3 graph options.considerNodeFixedValues a m b e1 e2)
    {messages : Messages}
    (hm : ChainLeafOK graph options.considerNodeFixedValues a b e1 e2 messages) :
    ChainOK graph options.considerNodeFixedValues a m b e1 e2
      (sweep graph options false messages) := by
  obtain ⟨_, ⟨nm, hnm, hidm⟩⟩ := h.node_of_id
  have hmem1 : e1 ∈ graph.edges_f nm.id :=
    (h.mid_edges hnm hidm).mem_iff.mpr (by simp)
  have hmem2 : e2 ∈ graph.edges_f nm.id :=
    (h.mid_edges hnm hidm).mem_iff.mpr (by simp)
  refine ⟨sweep_inv_gen _ h.send_chainLeaf hm, ?_, ?_⟩
  · refine sweep_establish _ _ hnm hmem1 h.send_chainLeaf ?_ ?_ hm
    · exact fun msgs n hn e he hI hq => h.send_midSlot hI.1 hI.2.2 hn he (Or.inr hq)
    · exact fun msgs hI => h.send_midSlot hI.1 hI.2.2 hnm hmem1 (Or.inl ⟨hidm, rfl⟩)
  · refine sweep_establish _ _ hnm hmem2 h.send_chainLeaf ?_ ?_ hm
    · exact fun msgs n hn e he hI hq => h.swap.send_midSlot hI.1 hI.2.1 hn he (Or.inr hq)
    · exact fun msgs hI => h.swap.send_midSlot hI.1 hI.2.1 hnm hmem2 (Or.inl ⟨hidm, rfl⟩)

theorem IsChain3.iterate_chainOK {graph : CGraph} {options : TInferenceOptions} {a m b : ℕ}
    {e1 e2 : CEdge} (h : IsChain3 graph options.considerNodeFixedValues a m b e1 e2) :
    ∀ (remaining : ℕ) (messages : Messages) (total : ℚ), 0 < remaining →
    ChainLeafOK graph options.considerNodeFixedValues a b e1 e2 messages →
    ChainOK graph options.considerNodeFixedValues a m b e1 e2
      (iterate graph options false remaining messages total) := by
  intro remaining
  induction remaining with
  | zero => intro messages total hpos; omega
  | succ remaining ih =>
    intro messages total _ hm
    have hok := h.sweep_chainOK hm
    unfold iterate
    simp only
    split
    · exact hok
    · cases remaining with
      | zero => exact hok
      | succ k => exact ih _ _ (Nat.succ_pos k) hok.1

/-- On a chain of three binary nodes, when at least two sweeps are performed the
message table returned by `messagesLBP` holds the fixed-point messages. -/
theorem IsChain3.messagesLBP_chainOK {graph : CGraph} {options : TInferenceOptions}
    {a m b : ℕ} {e1 e2 : CEdge}
    (h : IsChain3 graph options.considerNodeFixedValues a m b e1 e2)
    (hmax : 2 ≤ options.maxIterations) (messages : Messages)
    (hfirst : ¬ (|(initMessages graph options messages).2 -
      totalSum graph (sweep graph options false (initMessages graph options messages).1)| <
        options.convergency)) :
    ChainOK graph options.considerNodeFixedValues a m b e1 e2
      (messagesLBP graph options messages false) := by
  unfold messagesLBP
  simp only
  obtain ⟨k, hk⟩ : ∃ k, options.maxIterations = k + 2 := ⟨options.maxIterations - 2, by omega⟩
  rw [hk]
  rw [iterate, if_neg hfirst]
  apply h.iterate_chainOK _ _ _ (Nat.succ_pos k)
  apply h.sweep_chainLeaf
  rw [initMessages_fst]
  exact onesTable_dims _ _

theorem IsChain3.card_two {graph : CGraph} {flag : Bool} {a m b : ℕ} {e1 e2 : CEdge}
    (h : IsChain3 graph flag a m b e1 e2) :
    graph.card flag a = 2 ∧ graph.card flag m = 2 ∧ graph.card flag b = 2 := by
  obtain ⟨⟨na, hna, hida⟩, ⟨nm, hnm, hidm⟩⟩ := h.node_of_id
  obtain ⟨⟨nb, hnb, hidb⟩, _⟩ := h.swap.node_of_id
  refine ⟨?_, ?_, ?_⟩
  · rw [← hida, h.wf.card_eq hna]; exact h.binary na hna
  · rw [← hidm, h.wf.card_eq hnm]; exact h.binary nm hnm
  · rw [← hidb, h.wf.card_eq hnb]; exact h.binary nb hnb

theorem IsChain3.getNode_mem {graph : CGraph} {flag : Bool} {a m b : ℕ} {e1 e2 : CEdge}
    (h : IsChain3 graph flag a m b e1 e2) :
    (graph.getNodeWithID a ∈ graph.nodes ∧ (graph.getNodeWithID a).id = a) ∧
      (graph.getNodeWithID m ∈ graph.nodes ∧ (graph.getNodeWithID m).id = m) := by
  obtain ⟨⟨na, hna, hida⟩, ⟨nm, hnm, hidm⟩⟩ := h.node_of_id
  constructor
  · rw [← hida, h.wf.getNodeWithID_eq hna]; exact ⟨hna, rfl⟩
  · rw [← hidm, h.wf.getNodeWithID_eq hnm]; exact ⟨hnm, rfl⟩

/-- Entries of the message of leaf `a` to the middle node. -/
theorem IsChain3.leafMessage_getD {graph : CGraph} {flag : Bool} {a m b : ℕ} {e1 e2 : CEdge}
    (h : IsChain3 graph flag a m b e1 e2) {xm : ℕ} (hx : xm < 2) :
    (leafMessage flag (graph.getNodeWithID a) e1).getD xm 0 =
      ∑ xa in Finset.range 2, e1.psi m xm xa * graph.phi flag a xa := by
  obtain ⟨hmem, hid⟩ := h.getNode_mem.1
  have hother : (if (graph.getNodeWithID a).id = e1.ID1 then e1.ID2 else e1.ID1) = m := by
    rw [hid]
    rcases h.joins1 with ⟨h1, h2⟩ | ⟨h1, h2⟩
    · rw [if_neg (fun hh => h.am (hh.trans h1)), h1]
    · rw [if_pos h1.symm, h2]
  unfold leafMessage
  rw [h.wf.oriented_mulVec_getD h.mem1 hmem _ rfl (by rw [hother, h.card_two.2.1]; exact hx),
    h.binary _ hmem]
  refine Finset.sum_congr rfl fun xa _ => ?_
  unfold CEdge.psi CGraph.phi
  rw [hid]
  rcases h.joins1 with ⟨h1, _⟩ | ⟨h1, _⟩
  · rw [if_neg (fun hh => h.am (hh.symm.trans h1)), if_pos h1]
  · rw [if_pos h1, if_neg (fun hh => h.am (h1.symm.trans hh))]

theorem IsChain3.leafMessage_length {graph : CGraph} {flag : Bool} {a m b : ℕ}
    {e1 e2 : CEdge} (h : IsChain3 graph flag a m b e1 e2) :
    (leafMessage flag (graph.getNodeWithID a) e1).length = 2 := by
  obtain ⟨_, hid⟩ := h.getNode_mem.1
  unfold leafMessage
  rw [mulVec_length, h.wf.oriented_length h.mem1, hid]
  rcases h.joins1 with ⟨h1, h2⟩ | ⟨h1, h2⟩
  · rw [if_neg (fun hh => h.am (hh.trans h1)), h1]; exact h.card_two.2.1
  · rw [if_pos h1.symm, h2]; exact h.card_two.2.1

/-- Entries of the message of the middle node to leaf `a`, given the message `u`
received from the other leaf. -/
theorem IsChain3.midMessage_getD {graph : CGraph} {flag : Bool} {a m b : ℕ} {e1 e2 : CEdge}
    (h : IsChain3 graph flag a m b e1 e2) (u : VectorXd) (hu : u.length = 2) {xa : ℕ}
    (hx : xa < 2) :
    (midMessage flag (graph.getNodeWithID m) e1 u).getD xa 0 =
      ∑ xm in Finset.range 2, e1.psi m xm xa * (graph.phi flag m xm * u.getD xm 0) := by
  obtain ⟨hmem, hid⟩ := h.getNode_mem.2
  have hother : (if (graph.getNodeWithID m).id = e1.ID1 then e1.ID2 else e1.ID1) = a := by
    rw [hid]
    rcases h.joins1 with ⟨h1, h2⟩ | ⟨h1, h2⟩
    · rw [if_pos h1.symm, h2]
    · rw [if_neg (fun hh => h.am (h1.symm.trans hh.symm)), h1]
  unfold midMessage
  rw [h.wf.oriented_mulVec_getD h.mem1 hmem _
    (by rw [cwiseProduct_length, hu, h.binary _ hmem]; rfl)
    (by rw [hother, h.card_two.1]; exact hx), h.binary _ hmem]
  refine Finset.sum_congr rfl fun xm _ => ?_
  unfold CEdge.psi CGraph.phi
  rw [hid, cwiseProduct_getD]

theorem normalizeVector_getD {v : VectorXd} (hv : v.sum ≠ 0) (x : ℕ) :
    (normalizeVector v).getD x 0 = v.getD x 0 / v.sum := by
  unfold normalizeVector
  rw [if_pos hv]
  simp only [List.getD_eq_getElem?_getD, List.getElem?_map]
  cases v[x]? with
  | none => simp
  | some y => simp

theorem sum_of_length_two {v : VectorXd} (hv : v.length = 2) :
    v.sum = v.getD 0 0 + v.getD 1 0 := by
  match v, hv with
  | [x, y], _ => simp

/-- Entries of a node belief, for a node with two states whose unnormalised
belief has positive mass. -/
theorem nodeBelief_getD_two {graph : CGraph} {options : TInferenceOptions}
    (h : graph.WellFormed options.considerNodeFixedValues)
    (hp : graph.PositivePotentials options.considerNodeFixedValues) {messages : Messages}
    (hinv : MsgInv graph options.considerNodeFixedValues messages) {n : CNode}
    (hn : n ∈ graph.nodes) (h2 : (n.potentials options.considerNodeFixedValues).length = 2)
    (x : ℕ) :
    (nodeBelief graph options messages n).getD x 0 =
      ((n.potentials options.considerNodeFixedValues).getD x 0 *
          ((graph.edges_f n.id).map fun e =>
            (incomingMessage graph messages n.id e).getD x 0).prod) /
        ((n.potentials options.considerNodeFixedValues).getD 0 0 *
            ((graph.edges_f n.id).map fun e =>
              (incomingMessage graph messages n.id e).getD 0 0).prod +
          (n.potentials options.considerNodeFixedValues).getD 1 0 *
            ((graph.edges_f n.id).map fun e =>
              (incomingMessage graph messages n.id e).getD 1 0).prod) := by
  have hl : ∀ v ∈ (graph.edges_f n.id).map (incomingMessage graph messages n.id),
      v.length = (n.potentials options.considerNodeFixedValues).length ∧ ∀ x ∈ v, 0 < x := by
    intro v hv
    rw [List.mem_map] at hv
    obtain ⟨e, he, rfl⟩ := hv
    exact ⟨h.incoming_length hinv.1 hn he, incomingMessage_pos hinv.2 _ _⟩
  have hlen := foldl_cwiseProduct_length _ _ fun v hv => (hl v hv).1
  have hpos := foldl_cwiseProduct_pos _ _ hl (hp.node_pos n hn)
  have hsum : 0 < (((graph.edges_f n.id).map (incomingMessage graph messages n.id)).foldl
      cwiseProduct (n.potentials options.considerNodeFixedValues)).sum := by
    apply List.sum_pos _ hpos
    intro hnil
    rw [hnil, h2] at hlen
    cases hlen
  rw [nodeBelief_eq, normalizeVector_getD hsum.ne', sum_of_length_two (hlen.trans h2)]
  simp only [foldl_cwiseProduct_getD, List.map_map]
  rfl

theorem IsChain3.incoming_leaf {graph : CGraph} {flag : Bool} {a m b : ℕ} {e1 e2 : CEdge}
    (h : IsChain3 graph flag a m b e1 e2) (messages : Messages) :
    incomingMessage graph messages a e1 =
      messages.get (graph.getEdgeIndex e1.id) (sendSlot m e1) := by
  unfold incomingMessage sendSlot
  rcases h.joins1 with ⟨h1, _⟩ | ⟨h1, _⟩
  · rw [if_neg (fun hh => h.am (hh.trans h1)), if_pos h1.symm]
  · rw [if_pos h1.symm, if_neg (fun hh => h.am (h1.symm.trans hh.symm))]

theorem IsChain3.incoming_mid {graph : CGraph} {flag : Bool} {a m b : ℕ} {e1 e2 : CEdge}
    (h : IsChain3 graph flag a m b e1 e2) (messages : Messages) :
    incomingMessage graph messages m e1 =
      messages.get (graph.getEdgeIndex e1.id) (sendSlot a e1) := by
  unfold incomingMessage sendSlot
  rcases h.joins1 with ⟨h1, _⟩ | ⟨h1, _⟩
  · rw [if_pos h1.symm, if_neg (fun hh => h.am (hh.trans h1))]
  · rw [if_neg (fun hh => h.am (h1.symm.trans hh.symm)), if_pos h1.symm]

theorem ChainOK.swap_roles {graph : CGraph} {flag : Bool} {a m b : ℕ} {e1 e2 : CEdge}
    {messages : Messages} (h : ChainOK graph flag a m b e1 e2 messages) :
    ChainOK graph flag b m a e2 e1 messages :=
  ⟨⟨h.1.1, h.1.2.2, h.1.2.1⟩, h.2.2, h.2.1⟩

/-- Belief of a leaf of the chain computed from the fixed-point messages. -/
theorem IsChain3.belief_leaf {graph : CGraph} {options : TInferenceOptions} {a m b : ℕ}
    {e1 e2 : CEdge} (h : IsChain3 graph options.considerNodeFixedValues a m b e1 e2)
    (hp : graph.PositivePotentials options.considerNodeFixedValues) {messages : Messages}
    (hinv : MsgInv graph options.considerNodeFixedValues messages)
    (hok : ChainOK graph options.considerNodeFixedValues a m b e1 e2 messages) {x : ℕ}
    (hx : x < 2) :
    (nodeBelief graph options messages (graph.getNodeWithID a)).getD x 0 =
      (∑ xm in Finset.range 2, ∑ xb in Finset.range 2,
          chainWeight graph options.considerNodeFixedValues a m b e1 e2 x xm xb) /
        ∑ xa in Finset.range 2, ∑ xm in Finset.range 2, ∑ xb in Finset.range 2,
          chainWeight graph options.considerNodeFixedValues a m b e1 e2 xa xm xb := by
  obtain ⟨hmem, hid⟩ := h.getNode_mem.1
  have hin : ∀ y, y < 2 → (incomingMessage graph messages a e1).getD y 0 =
      ∑ xm in Finset.range 2, e1.psi m xm y *
        (graph.phi options.considerNodeFixedValues m xm *
          ∑ xb in Finset.range 2, e2.psi m xm xb *
            graph.phi options.considerNodeFixedValues b xb) := by
    intro y hy
    rw [h.incoming_leaf, hok.2.1, h.midMessage_getD _ h.swap.leafMessage_length hy]
    refine Finset.sum_congr rfl fun xm hxm => ?_
    rw [h.swap.leafMessage_getD (Finset.mem_range.mp hxm)]
  rw [nodeBelief_getD_two h.wf hp hinv hmem (h.binary _ hmem) x, h.leaf_edges hmem hid, hid]
  simp only [List.map_cons, List.map_nil, List.prod_cons, List.prod_nil, mul_one]
  rw [hin x hx, hin 0 (by norm_num), hin 1 (by norm_num)]
  change graph.phi options.considerNodeFixedValues a x * _ /
    (graph.phi options.considerNodeFixedValues a 0 * _ +
      graph.phi options.considerNodeFixedValues a 1 * _) = _
  simp only [Finset.sum_range_succ, Finset.sum_range_zero, chainWeight, zero_add]
  congr 1 <;> ring

/-- Belief of the middle node of the chain computed from the fixed-point
messages. -/
theorem IsChain3.belief_mid {graph : CGraph} {options : TInferenceOptions} {a m b : ℕ}
    {e1 e2 : CEdge} (h : IsChain3 graph options.considerNodeFixedValues a m b e1 e2)
    (hp : graph.PositivePotentials options.considerNodeFixedValues) {messages : Messages}
    (hinv : MsgInv graph options.considerNodeFixedValues messages)
    (hok : ChainOK graph options.considerNodeFixedValues a m b e1 e2 messages) {x : ℕ}
    (hx : x < 2) :
    (nodeBelief graph options messages (graph.getNodeWithID m)).getD x 0 =
      (∑ xa in Finset.range 2, ∑ xb in Finset.range 2,
          chainWeight graph options.considerNodeFixedValues a m b e1 e2 xa x xb) /
        ∑ xa in Finset.range 2, ∑ xm in Finset.range 2, ∑ xb in Finset.range 2,
          chainWeight graph options.considerNodeFixedValues a m b e1 e2 xa xm xb := by
  obtain ⟨hmem, hid⟩ := h.getNode_mem.2
  have hin1 : ∀ y, y < 2 → (incomingMessage graph messages m e1).getD y 0 =
      ∑ xa in Finset.range 2, e1.psi m y xa *
        graph.phi options.considerNodeFixedValues a xa := by
    intro y hy
    rw [h.incoming_mid, hok.1.2.1, h.leafMessage_getD hy]
  have hin2 : ∀ y, y < 2 → (incomingMessage graph messages m e2).getD y 0 =
      ∑ xb in Finset.range 2, e2.psi m y xb *
        graph.phi options.considerNodeFixedValues b xb := by
    intro y hy
    rw [h.swap.incoming_mid, hok.1.2.2, h.swap.leafMessage_getD hy]
  have hprod : ∀ y, ((graph.edges_f (graph.getNodeWithID m).id).map fun e =>
      (incomingMessage graph messages (graph.getNodeWithID m).id e).getD y 0).prod =
      (incomingMessage graph messages m e1).getD y 0 *
        (incomingMessage graph messages m e2).getD y 0 := by
    intro y
    rw [((h.mid_edges hmem hid).map _).prod_eq, hid]
    simp only [List.map_cons, List.map_nil, List.prod_cons, List.prod_nil, mul_one]
  rw [nodeBelief_getD_two h.wf hp hinv hmem (h.binary _ hmem) x, hprod, hprod, hprod,
    hin1 x hx, hin1 0 (by norm_num), hin1 1 (by norm_num),
    hin2 x hx, hin2 0 (by norm_num), hin2 1 (by norm_num)]
  change graph.phi options.considerNodeFixedValues m x * _ /
    (graph.phi options.considerNodeFixedValues m 0 * _ +
      graph.phi options.considerNodeFixedValues m 1 * _) = _
  simp only [Finset.sum_range_succ, Finset.sum_range_zero, chainWeight, zero_add]
  congr 1 <;> ring

theorem CEdge.Joins.coeff_eq_psi {e : CEdge} {m l : ℕ} (h : e.Joins m l) (hml : m ≠ l)
    (f : ℕ → ℕ) : e.potentials.coeff (f e.ID1) (f e.ID2) = e.psi m (f m) (f l) := by
  unfold CEdge.psi
  rcases h with ⟨h1, h2⟩ | ⟨h1, h2⟩
  · rw [if_pos h1, h1, h2]
  · rw [if_neg (fun hh => hml (hh.symm.trans h1)), h1, h2]

theorem perm3_cases {a m b p q r : ℕ} (hp : p = a ∨ p = m ∨ p = b)
    (hq : q = a ∨ q = m ∨ q = b) (hr : r = a ∨ r = m ∨ r = b) (d1 : p ≠ q) (d2 : p ≠ r)
    (d3 : q ≠ r) :
    (p = a ∧ q = m ∧ r = b) ∨ (p = a ∧ q = b ∧ r = m) ∨ (p = m ∧ q = a ∧ r = b) ∨
      (p = m ∧ q = b ∧ r = a) ∨ (p = b ∧ q = a ∧ r = m) ∨ (p = b ∧ q = m ∧ r = a) := by
  rcases hp with hp | hp | hp <;> rcases hq with hq | hq | hq <;>
    rcases hr with hr | hr | hr <;> subst hp hq hr <;> simp_all

/-- The node list of a chain: three nodes carrying the ids `a`, `m`, `b` in some
order. -/
theorem IsChain3.nodes_cases {graph : CGraph} {flag : Bool} {a m b : ℕ} {e1 e2 : CEdge}
    (h : IsChain3 graph flag a m b e1 e2) :
    ∃ n0 n1 n2, graph.nodes = [n0, n1, n2] ∧ n0.id ≠ n1.id ∧ n0.id ≠ n2.id ∧
      n1.id ≠ n2.id ∧
      ((n0.id = a ∧ n1.id = m ∧ n2.id = b) ∨ (n0.id = a ∧ n1.id = b ∧ n2.id = m) ∨
        (n0.id = m ∧ n1.id = a ∧ n2.id = b) ∨ (n0.id = m ∧ n1.id = b ∧ n2.id = a) ∨
        (n0.id = b ∧ n1.id = a ∧ n2.id = m) ∨ (n0.id = b ∧ n1.id = m ∧ n2.id = a)) := by
  have h3 := h.nodes3
  have hids := h.ids
  have hnd := h.wf.node_ids
  match hg : graph.nodes, h3 with
  | [n0, n1, n2], _ =>
    rw [hg] at hids hnd
    simp only [List.map_cons, List.map_nil, List.nodup_cons, List.mem_cons, List.mem_singleton,
      List.not_mem_nil, not_or, List.nodup_nil, not_false_eq_true, and_true] at hnd
    have i0 := hids n0 (by simp)
    have i1 := hids n1 (by simp)
    have i2 := hids n2 (by simp)
    exact ⟨n0, n1, n2, rfl, hnd.1.1, hnd.1.2, hnd.2,
      perm3_cases i0 i1 i2 hnd.1.1 hnd.1.2 hnd.2⟩

/-- In a chain the joint weight of the model is the chain weight of the states of
the three roles. -/
theorem IsChain3.jointWeight_eq {graph : CGraph} {flag : Bool} {a m b : ℕ} {e1 e2 : CEdge}
    (h : IsChain3 graph flag a m b e1 e2) (σ : List ℕ) :
    jointWeight graph flag σ =
      chainWeight graph flag a m b e1 e2 (σ.getD (graph.nodeIndex a) 0)
        (σ.getD (graph.nodeIndex m) 0) (σ.getD (graph.nodeIndex b) 0) := by
  have hedge : ∀ g : CEdge → ℚ, (graph.edges.map g).prod = g e1 * g e2 := by
    intro g
    rcases h.edges_eq with hg | hg <;> rw [hg] <;> simp [mul_comm]
  have hpsi1 := h.joins1.coeff_eq_psi h.am.symm fun ID => σ.getD (graph.nodeIndex ID) 0
  have hpsi2 := h.joins2.coeff_eq_psi h.bm.symm fun ID => σ.getD (graph.nodeIndex ID) 0
  obtain ⟨n0, n1, n2, hnodes, d01, d02, d12, hc⟩ := h.nodes_cases
  have g0 : graph.getNodeWithID n0.id = n0 := h.wf.getNodeWithID_eq (by rw [hnodes]; simp)
  have g1 : graph.getNodeWithID n1.id = n1 := h.wf.getNodeWithID_eq (by rw [hnodes]; simp)
  have g2 : graph.getNodeWithID n2.id = n2 := h.wf.getNodeWithID_eq (by rw [hnodes]; simp)
  have x0 : graph.nodeIndex n0.id = 0 := by
    unfold CGraph.nodeIndex; rw [hnodes]; simp [List.findIdx_cons]
  have x1 : graph.nodeIndex n1.id = 1 := by
    unfold CGraph.nodeIndex; rw [hnodes]; simp [List.findIdx_cons, d01]
  have x2 : graph.nodeIndex n2.id = 2 := by
    unfold CGraph.nodeIndex; rw [hnodes]; simp [List.findIdx_cons, d02, d12]
  have hun : ((List.range graph.nodes.length).map fun k =>
      ((graph.nodes.getD k ⟨0, fun _ => []⟩).potentials flag).getD (σ.getD k 0) 0).prod =
      (n0.potentials flag).getD (σ.getD 0 0) 0 * (n1.potentials flag).getD (σ.getD 1 0) 0 *
        (n2.potentials flag).getD (σ.getD 2 0) 0 := by
    rw [hnodes]
    simp [List.range_succ, mul_assoc]
  unfold jointWeight chainWeight CGraph.phi
  rw [hun, hedge]
  beta_reduce at hpsi1 hpsi2
  rw [hpsi1, hpsi2]
  rcases hc with ⟨i0, i1, i2⟩ | ⟨i0, i1, i2⟩ | ⟨i0, i1, i2⟩ | ⟨i0, i1, i2⟩ |
    ⟨i0, i1, i2⟩ | ⟨i0, i1, i2⟩ <;>
  · subst i0 i1 i2
    rw [x0, x1, x2, g0, g1, g2]
    ring

theorem jointStates_binary3 :
    jointStates [2, 2, 2] =
      [[0, 0, 0], [0, 0, 1], [0, 1, 0], [0, 1, 1], [1, 0, 0], [1, 0, 1], [1, 1, 0],
        [1, 1, 1]] := by
  decide

theorem IsChain3.jointStates_eq {graph : CGraph} {flag : Bool} {a m b : ℕ} {e1 e2 : CEdge}
    (h : IsChain3 graph flag a m b e1 e2) :
    jointStates (graph.nodes.map fun n => (n.potentials flag).length) =
      [[0, 0, 0], [0, 0, 1], [0, 1, 0], [0, 1, 1], [1, 0, 0], [1, 0, 1], [1, 1, 0],
        [1, 1, 1]] := by
  have hl : (graph.nodes.map fun n => (n.potentials flag).length) = [2, 2, 2] := by
    have hb := h.binary
    obtain ⟨n0, n1, n2, hnodes, -⟩ := h.nodes_cases
    rw [hnodes] at hb ⊢
    simp only [List.map_cons, List.map_nil]
    rw [hb n0 (by simp), hb n1 (by simp), hb n2 (by simp)]
  rw [hl, jointStates_binary3]

/-- The positions of the three roles in the node list are a permutation of
`0, 1, 2`. -/
theorem IsChain3.index_cases {graph : CGraph} {flag : Bool} {a m b : ℕ} {e1 e2 : CEdge}
    (h : IsChain3 graph flag a m b e1 e2) :
    (graph.nodeIndex a = 0 ∧ graph.nodeIndex m = 1 ∧ graph.nodeIndex b = 2) ∨
      (graph.nodeIndex a = 0 ∧ graph.nodeIndex m = 2 ∧ graph.nodeIndex b = 1) ∨
      (graph.nodeIndex a = 1 ∧ graph.nodeIndex m = 0 ∧ graph.nodeIndex b = 2) ∨
      (graph.nodeIndex a = 1 ∧ graph.nodeIndex m = 2 ∧ graph.nodeIndex b = 0) ∨
      (graph.nodeIndex a = 2 ∧ graph.nodeIndex m = 0 ∧ graph.nodeIndex b = 1) ∨
      (graph.nodeIndex a = 2 ∧ graph.nodeIndex m = 1 ∧ graph.nodeIndex b = 0) := by
  obtain ⟨n0, n1, n2, hnodes, d01, d02, d12, hc⟩ := h.nodes_cases
  have x0 : graph.nodeIndex n0.id = 0 := by
    unfold CGraph.nodeIndex; rw [hnodes]; simp [List.findIdx_cons]
  have x1 : graph.nodeIndex n1.id = 1 := by
    unfold CGraph.nodeIndex; rw [hnodes]; simp [List.findIdx_cons, d01]
  have x2 : graph.nodeIndex n2.id = 2 := by
    unfold CGraph.nodeIndex; rw [hnodes]; simp [List.findIdx_cons, d02, d12]
  rcases hc with ⟨i0, i1, i2⟩ | ⟨i0, i1, i2⟩ | ⟨i0, i1, i2⟩ | ⟨i0, i1, i2⟩ |
    ⟨i0, i1, i2⟩ | ⟨i0, i1, i2⟩ <;>
  · subst i0 i1 i2
    simp [x0, x1, x2]

/-- Exact marginal of a leaf of the chain, in terms of the chain weight. -/
theorem IsChain3.exactMarginal_leaf {graph : CGraph} {flag : Bool} {a m b : ℕ}
    {e1 e2 : CEdge} (h : IsChain3 graph flag a m b e1 e2) {x : ℕ} (hx : x < 2) :
    exactMarginal graph flag (graph.nodeIndex a) x =
      (∑ xm in Finset.range 2, ∑ xb in Finset.range 2,
          chainWeight graph flag a m b e1 e2 x xm xb) /
        ∑ xa in Finset.range 2, ∑ xm in Finset.range 2, ∑ xb in Finset.range 2,
          chainWeight graph flag a m b e1 e2 xa xm xb := by
  have hfun : jointWeight graph flag = fun σ =>
      chainWeight graph flag a m b e1 e2 (σ.getD (graph.nodeIndex a) 0)
        (σ.getD (graph.nodeIndex m) 0) (σ.getD (graph.nodeIndex b) 0) :=
    funext h.jointWeight_eq
  unfold exactMarginal
  rw [h.jointStates_eq, hfun]
  generalize chainWeight graph flag a m b e1 e2 = W
  rcases h.index_cases with ⟨ia, im, ib⟩ | ⟨ia, im, ib⟩ | ⟨ia, im, ib⟩ | ⟨ia, im, ib⟩ |
    ⟨ia, im, ib⟩ | ⟨ia, im, ib⟩ <;>
  · rw [ia, im, ib]
    interval_cases x <;>
    · simp [Finset.sum_range_succ, List.filter_cons]
      congr 1 <;> ring

/-- Exact marginal of the middle node of the chain, in terms of the chain
weight. -/
theorem IsChain3.exactMarginal_mid {graph : CGraph} {flag : Bool} {a m b : ℕ}
    {e1 e2 : CEdge} (h : IsChain3 graph flag a m b e1 e2) {x : ℕ} (hx : x < 2) :
    exactMarginal graph flag (graph.nodeIndex m) x =
      (∑ xa in Finset.range 2, ∑ xb in Finset.range 2,
          chainWeight graph flag a m b e1 e2 xa x xb) /
        ∑ xa in Finset.range 2, ∑ xm in Finset.range 2, ∑ xb in Finset.range 2,
          chainWeight graph flag a m b e1 e2 xa xm xb := by
  have hfun : jointWeight graph flag = fun σ =>
      chainWeight graph flag a m b e1 e2 (σ.getD (graph.nodeIndex a) 0)
        (σ.getD (graph.nodeIndex m) 0) (σ.getD (graph.nodeIndex b) 0) :=
    funext h.jointWeight_eq
  unfold exactMarginal
  rw [h.jointStates_eq, hfun]
  generalize chainWeight graph flag a m b e1 e2 = W
  rcases h.index_cases with ⟨ia, im, ib⟩ | ⟨ia, im, ib⟩ | ⟨ia, im, ib⟩ | ⟨ia, im, ib⟩ |
    ⟨ia, im, ib⟩ | ⟨ia, im, ib⟩ <;>
  · rw [ia, im, ib]
    interval_cases x <;>
    · simp [Finset.sum_range_succ, List.filter_cons]
      congr 1 <;> ring

theorem eq_pair_of_length_two {v : VectorXd} (hv : v.length = 2) :
    v = [v.getD 0 0, v.getD 1 0] := by
  match v, hv with
  | [x, y], _ => rfl

theorem pathChain_isChain3 :
    IsChain3 pathChain false 0 1 2 ⟨10, 0, 1, [[1, 2], [3, 4]]⟩ ⟨11, 1, 2, [[1, 3], [2, 1]]⟩ where
  wf := pathChain_wellFormed
  complete := pathChain_complete
  nodes3 := rfl
  ids := by decide
  am := by decide
  bm := by decide
  ab := by decide
  binary := by decide
  edges2 := rfl
  mem1 := by simp [pathChain]
  mem2 := by simp [pathChain]
  joins1 := Or.inr ⟨rfl, rfl⟩
  joins2 := Or.inl ⟨rfl, rfl⟩

/-- C4, as claimed, fails: the path-ordered chain of three binary nodes has
strictly positive potentials, the threshold `1000` is positive and
`maxIterations = 3 ≥ 2`, but the stopping test of `messagesLBP` succeeds after the
first sweep (the total message sum moves from `8` to `98`), and the belief
returned for node `0` is `[3/17, 14/17]` while its exact marginal is
`[5/28, 23/28]`. -/
theorem infer_chain_not_exact :
    IsChain3 pathChain false 0 1 2 ⟨10, 0, 1, [[1, 2], [3, 4]]⟩ ⟨11, 1, 2, [[1, 3], [2, 1]]⟩ ∧
      pathChain.PositivePotentials false ∧
      (CLBPInferenceMarginal.inferBeliefs pathChain ⟨3, 1000, false, fun _ => ""⟩).1 0 = [3 / 17, 14 / 17] ∧
      [exactMarginal pathChain false (pathChain.nodeIndex 0) 0,
        exactMarginal pathChain false (pathChain.nodeIndex 0) 1] = [5 / 28, 23 / 28] :=
  ⟨pathChain_isChain3, pathChain_positive, by decide!, by decide!⟩

/-- C4 (amended): exactness of standard loopy BP on a chain of three binary nodes.
For every chain graph of three binary nodes `a – m – b` (two edges, in any
node and edge order and orientation) with strictly positive unary and pairwise
potentials, every `maxIterations ≥ 2` and every convergence threshold for which
the stopping test of `messagesLBP` does not succeed after the first sweep (the
total message sum changes by at least the threshold), each node belief returned
by `CLBPInferenceMarginal::infer` is the exact marginal of that node, obtained by
enumerating all joint states of the distribution proportional to the product of
all unary and pairwise potentials. -/
theorem infer_chain_exact {graph : CGraph} {options : TInferenceOptions} {a m b : ℕ}
    {e1 e2 : CEdge} (h : IsChain3 graph options.considerNodeFixedValues a m b e1 e2)
    (hp : graph.PositivePotentials options.considerNodeFixedValues)
    (hmax : 2 ≤ options.maxIterations)
    (hfirst : ¬ (|(initMessages graph options []).2 -
      totalSum graph (sweep graph options false (initMessages graph options []).1)| <
        options.convergency)) :
    ∀ n ∈ graph.nodes,
      (CLBPInferenceMarginal.inferBeliefs graph options).1 n.id =
        [exactMarginal graph options.considerNodeFixedValues (graph.nodeIndex n.id) 0,
          exactMarginal graph options.considerNodeFixedValues (graph.nodeIndex n.id) 1] := by
  intro n hn
  have hinv := messagesLBP_inv h.wf hp []
  have hok := h.messagesLBP_chainOK hmax [] hfirst
  have hbel : (CLBPInferenceMarginal.inferBeliefs graph options).1 n.id =
      nodeBelief graph options (messagesLBP graph options [] false) n :=
    computeNodeBeliefs_eq h.wf _ hn
  have hlen := (nodeBelief_props h.wf hp hinv hn).1.trans (h.binary n hn)
  have hget := h.wf.getNodeWithID_eq hn
  rw [hbel, eq_pair_of_length_two hlen]
  rcases h.ids n hn with hid | hid | hid
  · rw [hid] at hget ⊢
    rw [← hget, h.belief_leaf hp hinv hok (by norm_num : 0 < 2),
      h.belief_leaf hp hinv hok (by norm_num : 1 < 2),
      h.exactMarginal_leaf (by norm_num : 0 < 2), h.exactMarginal_leaf (by norm_num : 1 < 2)]
  · rw [hid] at hget ⊢
    rw [← hget, h.belief_mid hp hinv hok (by norm_num : 0 < 2),
      h.belief_mid hp hinv hok (by norm_num : 1 < 2),
      h.exactMarginal_mid (by norm_num : 0 < 2), h.exactMarginal_mid (by norm_num : 1 < 2)]
  · rw [hid] at hget ⊢
    rw [← hget, h.swap.belief_leaf hp hinv hok.swap_roles (by norm_num : 0 < 2),
      h.swap.belief_leaf hp hinv hok.swap_roles (by norm_num : 1 < 2),
      h.swap.exactMarginal_leaf (by norm_num : 0 < 2),
      h.swap.exactMarginal_leaf (by norm_num : 1 < 2)]

/-- Witness for C4 (amended): the path-ordered chain with threshold `1 / 2` and
`maxIterations = 3`; the total message sum moves from `8` to `98` in the first
sweep. -/
theorem infer_chain_exact_witness :
    (CLBPInferenceMarginal.inferBeliefs pathChain ⟨3, 1 / 2, false, fun _ => ""⟩).1 0 =
        [exactMarginal pathChain false (pathChain.nodeIndex 0) 0,
          exactMarginal pathChain false (pathChain.nodeIndex 0) 1] ∧
      (CLBPInferenceMarginal.inferBeliefs pathChain ⟨3, 1 / 2, false, fun _ => ""⟩).1 1 =
        [exactMarginal pathChain false (pathChain.nodeIndex 1) 0,
          exactMarginal pathChain false (pathChain.nodeIndex 1) 1] :=
  ⟨infer_chain_exact pathChain_isChain3 pathChain_positive (by decide) (by decide!)
      ⟨0, fun _ => [1, 2]⟩ (List.mem_cons_self _ _),
    infer_chain_exact pathChain_isChain3 pathChain_positive (by decide) (by decide!)
      ⟨1, fun _ => [1, 1]⟩ (List.mem_cons_of_mem _ (List.mem_cons_self _ _))⟩

theorem foldl_initStep_snd (graph : CGraph) (options : TInferenceOptions) (l : List ℕ)
    (acc : Messages × ℚ) :
    (l.foldl (initStep graph options) acc).2 =
      l.foldl
        (fun a i => a +
          ((graph.card options.considerNodeFixedValues
              (graph.edges.getD i ⟨0, 0, 0, []⟩).ID2 : ℚ) +
            (graph.card options.considerNodeFixedValues
              (graph.edges.getD i ⟨0, 0, 0, []⟩).ID1 : ℚ)))
        acc.2 := by
  induction l generalizing acc with
  | nil => rfl
  | cons i l ih =>
    rw [List.foldl_cons, List.foldl_cons, ih]
    congr 1
    simp [initStep, CGraph.card]

/-- The initial total `totalSumOfMsgs` does not depend on the table passed in. -/
theorem initMessages_snd (graph : CGraph) (options : TInferenceOptions) (messages : Messages) :
    (initMessages graph options messages).2 =
      (List.range graph.edges.length).foldl
        (fun a i => a +
          ((graph.card options.considerNodeFixedValues
              (graph.edges.getD i ⟨0, 0, 0, []⟩).ID2 : ℚ) +
            (graph.card options.considerNodeFixedValues
              (graph.edges.getD i ⟨0, 0, 0, []⟩).ID1 : ℚ)))
        0 := by
  unfold initMessages
  rw [foldl_initStep_snd]

theorem foldl_congr_mem {α β : Type} (f g : β → α → β) (l : List α)
    (h : ∀ b, ∀ a ∈ l, f b a = g b a) (b : β) : l.foldl f b = l.foldl g b := by
  induction l generalizing b with
  | nil => rfl
  | cons a l ih =>
    rw [List.foldl_cons, List.foldl_cons, h b a (List.mem_cons_self _ _)]
    exact ih (fun b1 a1 ha1 => h b1 a1 (List.mem_cons_of_mem _ ha1)) _

theorem sum_replicate_one (n : ℕ) : (List.replicate n (1 : ℚ)).sum = n := by
  simp

/-- The initial total `totalSumOfMsgs`, the number of message entries, is the
sum of the entries of the all-ones table. -/
theorem initMessages_snd_eq_totalSum (graph : CGraph) (options : TInferenceOptions)
    (messages : Messages) :
    (initMessages graph options messages).2 =
      totalSum graph (onesTable graph options.considerNodeFixedValues) := by
  rw [initMessages_snd]
  unfold totalSum
  apply foldl_congr_mem
  intro b i hi
  rw [List.mem_range] at hi
  rw [(onesTable_get graph _ hi).1, (onesTable_get graph _ hi).2, sum_replicate_one,
    sum_replicate_one]

/-- C13: re-initialisation of the message table. The table produced by
`messagesLBP` does not depend on the prior contents of its `messages` argument;
with `maxIterations = 0` it has one pair of vectors per edge and, for the edge of
index `i` with nodes `(ID1, ID2)`, `messages[i][0]` is the all-ones vector of
length `card(ID2)` and `messages[i][1]` the all-ones vector of length
`card(ID1)`, for every table passed in. -/
theorem messagesLBP_reinitialises (graph : CGraph) (options : TInferenceOptions)
    (maximize : Bool) :
    (∀ messages messages1 : Messages,
        messagesLBP graph options messages maximize =
          messagesLBP graph options messages1 maximize) ∧
      ∀ messages : Messages,
        (messagesLBP graph { options with maxIterations := 0 } messages maximize).length =
            graph.edges.length ∧
          ∀ i, i < graph.edges.length →
            (messagesLBP graph { options with maxIterations := 0 } messages maximize).get i 0 =
                List.replicate (graph.card options.considerNodeFixedValues
                  (graph.edges.getD i ⟨0, 0, 0, []⟩).ID2) 1 ∧
              (messagesLBP graph { options with maxIterations := 0 } messages maximize).get i 1 =
                List.replicate (graph.card options.considerNodeFixedValues
                  (graph.edges.getD i ⟨0, 0, 0, []⟩).ID1) 1 := by
  constructor
  · intro messages messages1
    unfold messagesLBP
    simp only
    rw [initMessages_fst, initMessages_fst, initMessages_snd, initMessages_snd]
  · intro messages
    have h0 : messagesLBP graph { options with maxIterations := 0 } messages maximize =
        onesTable graph options.considerNodeFixedValues := by
      unfold messagesLBP
      simp only [iterate]
      rw [initMessages_fst]
    rw [h0]
    refine ⟨by simp [onesTable], ?_⟩
    intro i hi
    exact onesTable_get graph _ hi

/-- Witness for C13: the path-ordered chain, edge `0`, a table holding other
values, and no iteration. -/
theorem messagesLBP_reinitialises_witness :
    (messagesLBP pathChain ⟨0, 1 / 1000, false, fun _ => ""⟩ [[[5, 7], [-1]]] false).get 0 0 =
        List.replicate (pathChain.card false (pathChain.edges.getD 0 ⟨0, 0, 0, []⟩).ID2) 1 ∧
      (messagesLBP pathChain ⟨0, 1 / 1000, false, fun _ => ""⟩ [[[5, 7], [-1]]] false).get 0 1 =
        List.replicate (pathChain.card false (pathChain.edges.getD 0 ⟨0, 0, 0, []⟩).ID1) 1 :=
  ((messagesLBP_reinitialises pathChain ⟨0, 1 / 1000, false, fun _ => ""⟩ false).2
    [[[5, 7], [-1]]]).2 0 (by decide)

theorem tableAfter_succ (graph : CGraph) (options : TInferenceOptions) (maximize : Bool)
    (n : ℕ) :
    tableAfter graph options maximize (n + 1) =
      sweep graph options maximize (tableAfter graph options maximize n) := by
  unfold tableAfter
  rw [Function.iterate_succ_apply']

/-- The counting loop returns the same table as the loop of the model. -/
theorem iterateSweeps_fst (graph : CGraph) (options : TInferenceOptions) (maximize : Bool)
    (remaining : ℕ) (messages : Messages) (total : ℚ) (sweeps : ℕ) :
    (iterateSweeps graph options maximize remaining messages total sweeps).1 =
      iterate graph options maximize remaining messages total := by
  induction remaining generalizing messages total sweeps with
  | zero => rfl
  | succ r ih =>
    rw [iterateSweeps, iterate]
    split
    · rfl
    · exact ih _ _ _

theorem messagesLBPSweeps_fst (graph : CGraph) (options : TInferenceOptions)
    (messages : Messages) (maximize : Bool) :
    (messagesLBPSweeps graph options messages maximize).1 =
      messagesLBP graph options messages maximize := by
  unfold messagesLBPSweeps messagesLBP
  exact iterateSweeps_fst _ _ _ _ _ _ _

/-- The loop of `messagesLBP` started after `k` passes that did not stop. -/
theorem iterateSweeps_spec (graph : CGraph) (options : TInferenceOptions) (maximize : Bool)
    (remaining k : ℕ)
    (hk : ∀ j, 1 ≤ j → j ≤ k → ¬ StopsAt graph options maximize j) :
    (iterateSweeps graph options maximize remaining (tableAfter graph options maximize k)
        (sumAfter graph options maximize k) k).1 =
        tableAfter graph options maximize
          (iterateSweeps graph options maximize remaining (tableAfter graph options maximize k)
            (sumAfter graph options maximize k) k).2 ∧
      (iterateSweeps graph options maximize remaining (tableAfter graph options maximize k)
        (sumAfter graph options maximize k) k).2 ≤ k + remaining ∧
      (∀ j, 1 ≤ j →
        j < (iterateSweeps graph options maximize remaining (tableAfter graph options maximize k)
          (sumAfter graph options maximize k) k).2 → ¬ StopsAt graph options maximize j) ∧
      ((1 ≤ (iterateSweeps graph options maximize remaining
            (tableAfter graph options maximize k) (sumAfter graph options maximize k) k).2 ∧
          StopsAt graph options maximize
            (iterateSweeps graph options maximize remaining
              (tableAfter graph options maximize k) (sumAfter graph options maximize k) k).2) ∨
        ((iterateSweeps graph options maximize remaining (tableAfter graph options maximize k)
            (sumAfter graph options maximize k) k).2 = k + remaining ∧
          ∀ j, 1 ≤ j → j ≤ k + remaining → ¬ StopsAt graph options maximize j)) := by
  induction remaining generalizing k with
  | zero =>
    rw [iterateSweeps]
    exact ⟨rfl, le_rfl, fun j h1 h2 => hk j h1 (le_of_lt h2), Or.inr ⟨rfl, hk⟩⟩
  | succ r ih =>
    rw [iterateSweeps]
    have hT : sweep graph options maximize (tableAfter graph options maximize k) =
        tableAfter graph options maximize (k + 1) := (tableAfter_succ _ _ _ _).symm
    have hS : totalSum graph (sweep graph options maximize (tableAfter graph options maximize k)) =
        sumAfter graph options maximize (k + 1) := by rw [hT]; rfl
    rw [hS, hT]
    by_cases hstop : |sumAfter graph options maximize k - sumAfter graph options maximize (k + 1)| <
        options.convergency
    · rw [if_pos hstop]
      refine ⟨rfl, by simp only; omega, ?_, Or.inl ⟨by simp only; omega, ?_⟩⟩
      · intro j h1 h2
        exact hk j h1 (by simp only at h2; omega)
      · show StopsAt graph options maximize (k + 1)
        unfold StopsAt
        rw [Nat.add_sub_cancel]
        exact hstop
    · rw [if_neg hstop]
      have hk1 : ∀ j, 1 ≤ j → j ≤ k + 1 → ¬ StopsAt graph options maximize j := by
        intro j h1 h2
        rcases Nat.lt_or_ge j (k + 1) with h3 | h3
        · exact hk j h1 (by omega)
        · have : j = k + 1 := by omega
          subst this
          unfold StopsAt
          rw [Nat.add_sub_cancel]
          exact hstop
      have := ih (k + 1) hk1
      have e : k + 1 + r = k + (r + 1) := by omega
      rw [e] at this
      exact this

/-- C12: stopping rule of `messagesLBP`. With `S_0` the total number of message
entries (the sum of the all-ones initial table, the initial value of
`totalSumOfMsgs`) and `S_n` the sum of all message entries after the `n`-th pass
over the nodes, the number `n` of passes performed is at most `maxIterations`,
no earlier pass satisfied `|S_{k-1} - S_k| < convergenceThreshold`, and either
`n ≥ 1` is a pass that satisfies it (so `n` is the least such) or no pass up to
`maxIterations` satisfies it and `n = maxIterations`; in both cases the table
returned is the one produced by the last pass performed. The function is total:
no error is raised when `maxIterations` is exhausted. -/
theorem messagesLBP_stopping_rule (graph : CGraph) (options : TInferenceOptions)
    (messages : Messages) (maximize : Bool) :
    (initMessages graph options messages).2 = sumAfter graph options maximize 0 ∧
      messagesLBP graph options messages maximize =
        tableAfter graph options maximize
          (messagesLBPSweeps graph options messages maximize).2 ∧
      (messagesLBPSweeps graph options messages maximize).2 ≤ options.maxIterations ∧
      (∀ k, 1 ≤ k → k < (messagesLBPSweeps graph options messages maximize).2 →
        ¬ StopsAt graph options maximize k) ∧
      ((1 ≤ (messagesLBPSweeps graph options messages maximize).2 ∧
          StopsAt graph options maximize (messagesLBPSweeps graph options messages maximize).2) ∨
        ((messagesLBPSweeps graph options messages maximize).2 = options.maxIterations ∧
          ∀ k, 1 ≤ k → k ≤ options.maxIterations → ¬ StopsAt graph options maximize k)) := by
  have h0 : (initMessages graph options messages).2 = sumAfter graph options maximize 0 :=
    initMessages_snd_eq_totalSum graph options messages
  have hT0 : (initMessages graph options messages).1 = tableAfter graph options maximize 0 :=
    initMessages_fst graph options messages
  have hspec := iterateSweeps_spec graph options maximize options.maxIterations 0
    (fun j h1 h2 => by omega)
  have hdef : messagesLBPSweeps graph options messages maximize =
      iterateSweeps graph options maximize options.maxIterations
        (tableAfter graph options maximize 0) (sumAfter graph options maximize 0) 0 := by
    unfold messagesLBPSweeps
    simp only
    rw [h0, hT0]
  rw [← messagesLBPSweeps_fst, hdef]
  rw [Nat.zero_add] at hspec
  exact ⟨h0, hspec.1, hspec.2.1, hspec.2.2.1, hspec.2.2.2⟩

/-- Witness for C12: the path-ordered chain with threshold `1 / 2`; the loop
stops after the third pass. -/
theorem messagesLBP_stopping_rule_witness :
    (messagesLBPSweeps pathChain ⟨5, 1 / 2, false, fun _ => ""⟩ [] false).2 = 3 ∧
      messagesLBP pathChain ⟨5, 1 / 2, false, fun _ => ""⟩ [] false =
        tableAfter pathChain ⟨5, 1 / 2, false, fun _ => ""⟩ false 3 :=
  ⟨by decide!, by
    have h := (messagesLBP_stopping_rule pathChain ⟨5, 1 / 2, false, fun _ => ""⟩ [] false).2.1
    have h3 : (messagesLBPSweeps pathChain ⟨5, 1 / 2, false, fun _ => ""⟩ [] false).2 = 3 := by
      decide!
    rw [h3] at h
    exact h⟩

theorem sendMessage_options (graph : CGraph) {o o1 : TInferenceOptions}
    (h : o.considerNodeFixedValues = o1.considerNodeFixedValues) (maximize : Bool) :
    sendMessage graph o maximize = sendMessage graph o1 maximize := by
  funext n m e
  unfold sendMessage
  rw [h]

theorem sweep_options (graph : CGraph) {o o1 : TInferenceOptions}
    (h : o.considerNodeFixedValues = o1.considerNodeFixedValues) (maximize : Bool) :
    sweep graph o maximize = sweep graph o1 maximize := by
  funext m
  unfold sweep nodeSweep
  rw [sendMessage_options graph h]

theorem iterate_options (graph : CGraph) {o o1 : TInferenceOptions}
    (h2 : o.convergency = o1.convergency)
    (h3 : o.considerNodeFixedValues = o1.considerNodeFixedValues) (maximize : Bool)
    (remaining : ℕ) (m : Messages) (total : ℚ) :
    iterate graph o maximize remaining m total = iterate graph o1 maximize remaining m total := by
  induction remaining generalizing m total with
  | zero => rfl
  | succ r ih =>
    rw [iterate, iterate, sweep_options graph h3, h2]
    split
    · rfl
    · exact ih _ _

theorem initMessages_options (graph : CGraph) {o o1 : TInferenceOptions}
    (h : o.considerNodeFixedValues = o1.considerNodeFixedValues) (m : Messages) :
    initMessages graph o m = initMessages graph o1 m := by
  have : initStep graph o = initStep graph o1 := by
    funext acc i
    unfold initStep
    rw [h]
  unfold initMessages
  rw [this]

/-- The table of `messagesLBP` depends on the options only through
`maxIterations`, `convergency` and `considerNodeFixedValues`. -/
theorem messagesLBP_options (graph : CGraph) {o o1 : TInferenceOptions}
    (h : o.SameEngineFields o1) (m : Messages) (maximize : Bool) :
    messagesLBP graph o m maximize = messagesLBP graph o1 m maximize := by
  unfold messagesLBP
  simp only
  rw [initMessages_options graph h.2.2, h.1, iterate_options graph h.2.1 h.2.2]

theorem computeNodeBeliefs_options (graph : CGraph) {o o1 : TInferenceOptions}
    (h : o.considerNodeFixedValues = o1.considerNodeFixedValues) (m : Messages) :
    computeNodeBeliefs graph o m = computeNodeBeliefs graph o1 m := by
  have : nodeBelief graph o m = nodeBelief graph o1 m := by
    funext n
    unfold nodeBelief
    rw [h]
  unfold computeNodeBeliefs
  rw [this]

/-- The result of `CLBPInferenceMarginal::infer` depends on the options only
through `maxIterations`, `convergency` and `considerNodeFixedValues`. -/
theorem infer_options {R : Type} [Field R] (log logWithLove : ℚ → R) (graph : CGraph)
    {o o1 : TInferenceOptions} (h : o.SameEngineFields o1) :
    CLBPInferenceMarginal.infer log logWithLove graph o =
      CLBPInferenceMarginal.infer log logWithLove graph o1 := by
  have hE : ∀ nb, nodeEnergies log logWithLove graph o nb =
      nodeEnergies log logWithLove graph o1 nb := by
    intro nb
    unfold nodeEnergies
    rw [h.2.2]
  unfold CLBPInferenceMarginal.infer CLBPInferenceMarginal.logZ
  simp only
  rw [messagesLBP_options graph h, computeNodeBeliefs_options graph h.2.2, hE]

/-- C16: the randomized/residual variant is a pure delegation. For every graph
and every options record, `CRBPInferenceMarginal::infer` sets the option
`particularS["order"]` to `"RBP"`, leaves `maxIterations`, the convergence
threshold and `considerNodeFixedValues` as they are, and returns exactly the
node beliefs, edge beliefs and `logZ` that `CLBPInferenceMarginal::infer` returns
for the same graph with any options record having the same `maxIterations`,
convergence threshold and `considerNodeFixedValues`. The logarithms are
parameters of both. -/
theorem CRBP_infer_delegates {R : Type} [Field R] (log logWithLove : ℚ → R) (graph : CGraph)
    (m_options options1 : TInferenceOptions) (h : m_options.SameEngineFields options1) :
    (CRBPInferenceMarginal.infer log logWithLove graph m_options).1.particularS "order" = "RBP" ∧
      (CRBPInferenceMarginal.infer log logWithLove graph m_options).1.SameEngineFields
        m_options ∧
      (CRBPInferenceMarginal.infer log logWithLove graph m_options).2 =
        CLBPInferenceMarginal.infer log logWithLove graph options1 := by
  refine ⟨?_, ⟨rfl, rfl, rfl⟩, ?_⟩
  · simp [CRBPInferenceMarginal.infer]
  · unfold CRBPInferenceMarginal.infer
    simp only
    exact infer_options log logWithLove graph ⟨h.1, h.2.1, h.2.2⟩

/-- Witness for C16: the path-ordered chain, with the identity in the place of
the logarithms and another value of `particularS` on the side of
`CLBPInferenceMarginal::infer`. -/
theorem CRBP_infer_delegates_witness :
    (CRBPInferenceMarginal.infer (fun x : ℚ => x) (fun x : ℚ => x) pathChain
        ⟨5, 1 / 1000, false, fun _ => ""⟩).2 =
      CLBPInferenceMarginal.infer (fun x : ℚ => x) (fun x : ℚ => x) pathChain
        ⟨5, 1 / 1000, false, fun _ => "LBP"⟩ :=
  (CRBP_infer_delegates (fun x : ℚ => x) (fun x : ℚ => x) pathChain
    ⟨5, 1 / 1000, false, fun _ => ""⟩ ⟨5, 1 / 1000, false, fun _ => "LBP"⟩ ⟨rfl, rfl, rfl⟩).2.2

/-- The marking loop of lines 350–354: the entries of `v_addedNodes` after the
nodes of `tree` were marked. -/
theorem markTree_getD (map : ℕ → ℕ) (tree : List ℕ) (v : List Bool) (i : ℕ) :
    (tree.foldl (fun acc id => acc.set (map id) true) v).getD i false = true ↔
      v.getD i false = true ∨ ∃ id ∈ tree, map id = i ∧ i < v.length := by
  induction tree generalizing v with
  | nil => simp
  | cons a tree ih =>
    rw [List.foldl_cons, ih, getD_set_eq, List.length_set]
    constructor
    · rintro (h | ⟨id, hid, h1, h2⟩)
      · split at h
        · rename_i hc
          exact Or.inr ⟨a, List.mem_cons_self _ _, hc.1, hc.1 ▸ hc.2⟩
        · exact Or.inl h
      · exact Or.inr ⟨id, List.mem_cons_of_mem _ hid, h1, h2⟩
    · rintro (h | ⟨id, hid, h1, h2⟩)
      · left
        split
        · rfl
        · exact h
      · rcases List.mem_cons.mp hid with rfl | hid
        · left
          rw [if_pos ⟨h1, h1 ▸ h2⟩]
        · exact Or.inr ⟨id, hid, h1, h2⟩

theorem markTree_length (map : ℕ → ℕ) (tree : List ℕ) (v : List Bool) :
    (tree.foldl (fun acc id => acc.set (map id) true) v).length = v.length := by
  induction tree generalizing v with
  | nil => rfl
  | cons a tree ih => rw [List.foldl_cons, ih, List.length_set]

theorem addedNodesMap_prefix (graph : CGraph) (k : ℕ) (hk : k ≤ graph.nodes.length) (id : ℕ)
    (hid : ∃ i, i < k ∧ (graph.nodes.getD i ⟨0, fun _ => []⟩).id = id) :
    (List.range k).foldl
        (fun m i => Function.update m (graph.nodes.getD i ⟨0, fun _ => []⟩).id i)
        (fun _ => 0) id < k ∧
      (graph.nodes.getD
        ((List.range k).foldl
          (fun m i => Function.update m (graph.nodes.getD i ⟨0, fun _ => []⟩).id i)
          (fun _ => 0) id) ⟨0, fun _ => []⟩).id = id := by
  induction k with
  | zero => obtain ⟨i, hi, _⟩ := hid; omega
  | succ k ih =>
    rw [List.range_succ, List.foldl_append]
    simp only [List.foldl_cons, List.foldl_nil]
    by_cases hlast : (graph.nodes.getD k ⟨0, fun _ => []⟩).id = id
    · rw [← hlast, Function.update_same]
      exact ⟨Nat.lt_succ_self k, rfl⟩
    · rw [Function.update_noteq (Ne.symm hlast)]
      obtain ⟨i, hi, hi2⟩ := hid
      have hik : i < k := by
        rcases Nat.lt_or_ge i k with h | h
        · exact h
        · have : i = k := by omega
          subst this
          exact absurd hi2 hlast
      obtain ⟨h1, h2⟩ := ih (by omega) ⟨i, hik, hi2⟩
      exact ⟨by omega, h2⟩

/-- For the id of a node of the graph, `addedNodesMap` holds the index of a node
with that id. -/
theorem addedNodesMap_spec (graph : CGraph) (id : ℕ) (hid : ∃ n ∈ graph.nodes, n.id = id) :
    addedNodesMap graph id < graph.nodes.length ∧
      (graph.nodes.getD (addedNodesMap graph id) ⟨0, fun _ => []⟩).id = id := by
  obtain ⟨n, hn, hnid⟩ := hid
  obtain ⟨i, hi, hget⟩ := List.getElem_of_mem hn
  apply addedNodesMap_prefix graph graph.nodes.length le_rfl id
  refine ⟨i, hi, ?_⟩
  rw [List.getD_eq_getElem _ _ hi, hget, hnid]

theorem coverLoop_inv (getSpanningTree : ℕ → List ℕ) (graph : CGraph)
    (hids : ∀ k, ∀ id ∈ getSpanningTree k, ∃ n ∈ graph.nodes, n.id = id) (fuel : ℕ)
    (st st1 : CoverState) (hinv : CoverInv graph st)
    (hrun : coverLoop getSpanningTree graph fuel st = some st1) :
    CoverInv graph st1 ∧
      ∀ i, i < graph.nodes.length → st1.v_addedNodes.getD i false = true := by
  induction fuel generalizing st with
  | zero => rw [coverLoop] at hrun; cases hrun
  | succ fuel ih =>
    rw [coverLoop] at hrun
    have hnext : CoverInv graph
        ⟨if (getSpanningTree st.calls).length ≠ 0 then st.v_trees ++ [getSpanningTree st.calls]
          else st.v_trees,
         (getSpanningTree st.calls).foldl
          (fun acc id => acc.set (addedNodesMap graph id) true) st.v_addedNodes,
         st.calls + 1⟩ := by
      constructor
      · intro i hi hmark
        simp only at hmark
        rw [markTree_getD] at hmark
        rcases hmark with h | ⟨id, hid, hmap, _⟩
        · obtain ⟨tree, htree, hmem⟩ := hinv.1 i hi h
          refine ⟨tree, ?_, hmem⟩
          simp only
          split
          · exact List.mem_append_left _ htree
          · exact htree
        · refine ⟨getSpanningTree st.calls, ?_, ?_⟩
          · simp only
            have hne : (getSpanningTree st.calls).length ≠ 0 := by
              intro h0
              rw [List.length_eq_zero] at h0
              rw [h0] at hid
              cases hid
            rw [if_pos hne]
            exact List.mem_append_right _ (List.mem_singleton_self _)
          · have := (addedNodesMap_spec graph id (hids _ id hid)).2
            rw [hmap] at this
            rw [this]
            exact hid
      · intro tree htree
        simp only at htree
        split at htree
        · rename_i hne
          rcases List.mem_append.mp htree with h | h
          · exact hinv.2 tree h
          · rw [List.mem_singleton] at h
            subst h
            intro h0
            exact hne (by rw [h0]; rfl)
        · exact hinv.2 tree htree
    split at hrun
    · rename_i hall
      cases hrun
      refine ⟨hnext, ?_⟩
      intro i hi
      rw [List.all_eq_true] at hall
      exact hall i (List.mem_range.mpr hi)
    · exact ih _ hnext hrun

/-- C18: coverage of the TRW tree set. With `getSpanningTree` an arbitrary source
of sequences of node ids of the graph, whenever the cover-construction loop of
`CTRPBPInferenceMarginal::infer` exits, every node of the graph occurs in at
least one of the trees stored in `v_trees`, and no stored tree is empty. -/
theorem createSpanningTrees_covers (getSpanningTree : ℕ → List ℕ) (fuel : ℕ) (graph : CGraph)
    (st : CoverState)
    (hids : ∀ k, ∀ id ∈ getSpanningTree k, ∃ n ∈ graph.nodes, n.id = id)
    (hexit : CTRPBPInferenceMarginal.createSpanningTrees getSpanningTree fuel graph = some st) :
    (∀ n ∈ graph.nodes, ∃ tree ∈ st.v_trees, n.id ∈ tree) ∧ ∀ tree ∈ st.v_trees, tree ≠ [] := by
  unfold CTRPBPInferenceMarginal.createSpanningTrees at hexit
  have hinit : CoverInv graph ⟨[], List.replicate graph.nodes.length false, 0⟩ := by
    constructor
    · intro i hi h
      simp [List.getD_eq_getElem?_getD, hi] at h
    · intro tree htree
      cases htree
  obtain ⟨hinv, hall⟩ := coverLoop_inv getSpanningTree graph hids fuel _ st hinit hexit
  refine ⟨?_, hinv.2⟩
  intro n hn
  obtain ⟨i, hi, hget⟩ := List.getElem_of_mem hn
  obtain ⟨tree, htree, hmem⟩ := hinv.1 i hi (hall i hi)
  rw [List.getD_eq_getElem _ _ hi, hget] at hmem
  exact ⟨tree, htree, hmem⟩

/-- Witness for C18: on the path-ordered chain, a source that returns the trees
`[0]`, `[]`, `[2, 1]`: the loop exits after three calls with two stored trees. -/
theorem createSpanningTrees_covers_witness :
    CTRPBPInferenceMarginal.createSpanningTrees
        (fun k => if k = 0 then [0] else if k = 1 then [] else [2, 1]) 5 pathChain =
        some ⟨[[0], [2, 1]], [true, true, true], 3⟩ ∧
      (∀ n ∈ pathChain.nodes, ∃ tree ∈ [[0], [2, 1]], n.id ∈ tree) ∧
      ∀ tree ∈ [[0], [2, 1]], tree ≠ [] :=
  ⟨by decide,
    createSpanningTrees_covers (fun k => if k = 0 then [0] else if k = 1 then [] else [2, 1]) 5
      pathChain ⟨[[0], [2, 1]], [true, true, true], 3⟩
      (by
        intro k id hid
        have : id = 0 ∨ id = 1 ∨ id = 2 := by
          beta_reduce at hid
          split at hid
          · simp at hid; omega
          · split at hid
            · cases hid
            · simp at hid; omega
        rcases this with rfl | rfl | rfl
        · exact ⟨⟨0, fun _ => [1, 2]⟩, by simp [pathChain], rfl⟩
        · exact ⟨⟨1, fun _ => [1, 1]⟩, by simp [pathChain], rfl⟩
        · exact ⟨⟨2, fun _ => [3, 1]⟩, by simp [pathChain], rfl⟩)
      (by decide)⟩

/-- With distinct node ids, `addedNodesMap` sends the id of the node of index `i`
to `i`. -/
theorem addedNodesMap_index (graph : CGraph) (hnd : (graph.nodes.map CNode.id).Nodup) (i : ℕ)
    (hi : i < graph.nodes.length) :
    addedNodesMap graph (graph.nodes.getD i ⟨0, fun _ => []⟩).id = i := by
  have hmem : ∃ n ∈ graph.nodes, n.id = (graph.nodes.getD i ⟨0, fun _ => []⟩).id :=
    ⟨graph.nodes.getD i ⟨0, fun _ => []⟩,
      by rw [List.getD_eq_getElem _ _ hi]; exact List.getElem_mem _, rfl⟩
  obtain ⟨h1, h2⟩ := addedNodesMap_spec graph _ hmem
  generalize addedNodesMap graph (graph.nodes.getD i ⟨0, fun _ => []⟩).id = j at h1 h2
  rw [List.getD_eq_getElem _ _ hi, List.getD_eq_getElem _ _ h1] at h2
  have hj : j < (graph.nodes.map CNode.id).length := by simpa using h1
  have hi1 : i < (graph.nodes.map CNode.id).length := by simpa using hi
  have : (graph.nodes.map CNode.id)[j] = (graph.nodes.map CNode.id)[i] := by
    simpa using h2
  exact hnd.getElem_inj_iff.mp this

theorem markedSet_card_le (N : ℕ) (v : List Bool) : (markedSet N v).card ≤ N := by
  unfold markedSet
  exact (Finset.card_filter_le _ _).trans (by simp)

theorem markedSet_card_lt (N : ℕ) (v : List Bool) (i : ℕ) (hi : i < N)
    (hf : v.getD i false = false) : (markedSet N v).card < N := by
  have : markedSet N v ⊂ Finset.range N := by
    unfold markedSet
    rw [Finset.filter_ssubset]
    exact ⟨i, Finset.mem_range.mpr hi, by rw [hf]; simp⟩
  simpa using Finset.card_lt_card this

theorem coverLoop_terminates (getSpanningTree : ℕ → List ℕ) (graph : CGraph)
    (hnd : (graph.nodes.map CNode.id).Nodup)
    (hids : ∀ k, ∀ id ∈ getSpanningTree k, ∃ n ∈ graph.nodes, n.id = id)
    (hprog : ∀ k, (∃ n ∈ graph.nodes, ∀ j, j < k → n.id ∉ getSpanningTree j) →
      ∃ id ∈ getSpanningTree k, ∀ j, j < k → id ∉ getSpanningTree j)
    (fuel : ℕ) (st : CoverState) (hst : CoverProgress getSpanningTree graph st)
    (hopen : ∃ i, i < graph.nodes.length ∧ st.v_addedNodes.getD i false = false)
    (hfuel : graph.nodes.length - st.calls ≤ fuel) :
    ∃ st1, coverLoop getSpanningTree graph fuel st = some st1 ∧
      st1.calls ≤ graph.nodes.length := by
  induction fuel generalizing st with
  | zero =>
    obtain ⟨i, hi, hf⟩ := hopen
    have := markedSet_card_lt _ _ i hi hf
    have := hst.2.2
    omega
  | succ fuel ih =>
    obtain ⟨hlen, hmark, hcard⟩ := hst
    obtain ⟨i0, hi0, hf0⟩ := hopen
    -- the next tree marks a node that was not marked
    have hunc : ∃ n ∈ graph.nodes, ∀ j, j < st.calls → n.id ∉ getSpanningTree j := by
      refine ⟨graph.nodes.getD i0 ⟨0, fun _ => []⟩,
        by rw [List.getD_eq_getElem _ _ hi0]; exact List.getElem_mem _, ?_⟩
      intro j hj hmem
      have := (hmark i0 hi0).mpr ⟨j, hj, hmem⟩
      rw [hf0] at this
      cases this
    obtain ⟨id, hid, hnew⟩ := hprog st.calls hunc
    obtain ⟨n, hn, hnid⟩ := hids _ id hid
    obtain ⟨i1, hi1, hget1⟩ := List.getElem_of_mem hn
    have hid1 : (graph.nodes.getD i1 ⟨0, fun _ => []⟩).id = id := by
      rw [List.getD_eq_getElem _ _ hi1, hget1, hnid]
    have hf1 : st.v_addedNodes.getD i1 false = false := by
      by_contra hne
      have ht : st.v_addedNodes.getD i1 false = true := by
        cases hb : st.v_addedNodes.getD i1 false with
        | true => rfl
        | false => exact absurd hb hne
      obtain ⟨j, hj, hmem⟩ := (hmark i1 hi1).mp ht
      rw [hid1] at hmem
      exact hnew j hj hmem
    have hmark1 : ∀ i, i < graph.nodes.length →
        (((getSpanningTree st.calls).foldl
            (fun acc id => acc.set (addedNodesMap graph id) true) st.v_addedNodes).getD i false =
            true ↔
          ∃ j, j < st.calls + 1 ∧
            (graph.nodes.getD i ⟨0, fun _ => []⟩).id ∈ getSpanningTree j) := by
      intro i hi
      rw [markTree_getD, hmark i hi]
      constructor
      · rintro (⟨j, hj, hmem⟩ | ⟨id2, hid2, hmap, _⟩)
        · exact ⟨j, by omega, hmem⟩
        · refine ⟨st.calls, by omega, ?_⟩
          have := (addedNodesMap_spec graph id2 (hids _ id2 hid2)).2
          rw [hmap] at this
          rw [this]
          exact hid2
      · rintro ⟨j, hj, hmem⟩
        rcases Nat.lt_or_ge j st.calls with h | h
        · exact Or.inl ⟨j, h, hmem⟩
        · have hj2 : j = st.calls := by omega
          subst hj2
          exact Or.inr ⟨_, hmem, addedNodesMap_index graph hnd i hi, by rw [hlen]; exact hi⟩
    have hcard1 : st.calls + 1 ≤ (markedSet graph.nodes.length
        ((getSpanningTree st.calls).foldl
          (fun acc id => acc.set (addedNodesMap graph id) true) st.v_addedNodes)).card := by
      have hss : markedSet graph.nodes.length st.v_addedNodes ⊂
          markedSet graph.nodes.length
            ((getSpanningTree st.calls).foldl
              (fun acc id => acc.set (addedNodesMap graph id) true) st.v_addedNodes) := by
        rw [Finset.ssubset_iff_of_subset]
        · refine ⟨i1, ?_, ?_⟩
          · unfold markedSet
            rw [Finset.mem_filter]
            refine ⟨Finset.mem_range.mpr hi1, ?_⟩
            rw [hmark1 i1 hi1]
            exact ⟨st.calls, by omega, by rw [hid1]; exact hid⟩
          · unfold markedSet
            rw [Finset.mem_filter, hf1]
            simp
        · intro i hi
          unfold markedSet at hi ⊢
          rw [Finset.mem_filter] at hi ⊢
          refine ⟨hi.1, ?_⟩
          rw [markTree_getD]
          exact Or.inl hi.2
      have := Finset.card_lt_card hss
      omega
    rw [coverLoop]
    split
    · refine ⟨_, rfl, ?_⟩
      simp only
      have := markedSet_card_le graph.nodes.length
        ((getSpanningTree st.calls).foldl
          (fun acc id => acc.set (addedNodesMap graph id) true) st.v_addedNodes)
      omega
    · rename_i hall
      have hopen1 : ∃ i, i < graph.nodes.length ∧
          ((getSpanningTree st.calls).foldl
            (fun acc id => acc.set (addedNodesMap graph id) true) st.v_addedNodes).getD i false =
            false := by
        by_contra hno
        apply hall
        rw [List.all_eq_true]
        intro i hi
        rw [List.mem_range] at hi
        by_contra hne
        apply hno
        refine ⟨i, hi, ?_⟩
        cases hb : ((getSpanningTree st.calls).foldl
            (fun acc id => acc.set (addedNodesMap graph id) true) st.v_addedNodes).getD i false with
        | true => rw [hb] at hne; exact absurd rfl hne
        | false => rfl
      apply ih _ ⟨by simp only; rw [markTree_length]; exact hlen, hmark1, hcard1⟩ hopen1
      simp only
      omega

theorem coverLoop_stuck (fuel : ℕ) (st : CoverState)
    (h : st.v_addedNodes.getD 1 false = false) :
    coverLoop (fun _ => [0]) pathChain fuel st = none := by
  induction fuel generalizing st with
  | zero => rfl
  | succ fuel ih =>
    have h0 : addedNodesMap pathChain 0 = 0 := by decide
    have hnext : ((([0] : List ℕ).foldl
        (fun acc id => acc.set (addedNodesMap pathChain id) true) st.v_addedNodes).getD 1 false) =
        false := by
      simp only [List.foldl_cons, List.foldl_nil, h0]
      rw [getD_set_eq, if_neg (by omega)]
      exact h
    rw [coverLoop]
    rw [if_neg]
    · exact ih _ hnext
    · intro hall
      rw [List.all_eq_true] at hall
      have := hall 1 (by decide)
      rw [hnext] at this
      cases this

/-- C19, as claimed, fails: on the path-ordered chain (`N = 3` nodes) a source
that returns the non-empty tree `[0]`, over the node ids of the graph, at every
call never marks the nodes `1` and `2`: the loop has not exited after `3` calls,
nor after any number of calls. -/
theorem createSpanningTrees_unbounded :
    1 ≤ pathChain.nodes.length ∧ (∃ n ∈ pathChain.nodes, n.id = 0) ∧
      CTRPBPInferenceMarginal.createSpanningTrees (fun _ => [0]) 3 pathChain = none ∧
      ∀ fuel, CTRPBPInferenceMarginal.createSpanningTrees (fun _ => [0]) fuel pathChain = none :=
  ⟨by decide, ⟨⟨0, fun _ => [1, 2]⟩, List.mem_cons_self _ _, rfl⟩,
    coverLoop_stuck 3 _ rfl, fun fuel => coverLoop_stuck fuel _ rfl⟩

/-- C19 (amended): termination bound of the TRW cover construction. For every
graph with `N ≥ 1` nodes of distinct ids and every sequence of trees over the
node ids of the graph in which, as long as some node lies in no earlier tree,
the next tree contains a node that lies in no earlier tree, the
cover-construction loop of `CTRPBPInferenceMarginal::infer` exits after at most
`N` calls to `getSpanningTree`. -/
theorem createSpanningTrees_terminates (getSpanningTree : ℕ → List ℕ) (graph : CGraph)
    (hN : 1 ≤ graph.nodes.length) (hnd : (graph.nodes.map CNode.id).Nodup)
    (hids : ∀ k, ∀ id ∈ getSpanningTree k, ∃ n ∈ graph.nodes, n.id = id)
    (hprog : ∀ k, (∃ n ∈ graph.nodes, ∀ j, j < k → n.id ∉ getSpanningTree j) →
      ∃ id ∈ getSpanningTree k, ∀ j, j < k → id ∉ getSpanningTree j)
    (fuel : ℕ) (hfuel : graph.nodes.length ≤ fuel) :
    ∃ st, CTRPBPInferenceMarginal.createSpanningTrees getSpanningTree fuel graph = some st ∧
      st.calls ≤ graph.nodes.length := by
  unfold CTRPBPInferenceMarginal.createSpanningTrees
  apply coverLoop_terminates getSpanningTree graph hnd hids hprog
  · refine ⟨by simp, ?_, Nat.zero_le _⟩
    intro i hi
    constructor
    · intro h
      simp [List.getD_eq_getElem?_getD, hi] at h
    · rintro ⟨j, hj, _⟩
      simp only at hj
      omega
  · exact ⟨0, hN, by simp [List.getD_eq_getElem?_getD, hN]⟩
  · simp only
    omega

/-- Witness for C19 (amended): on the path-ordered chain, a source that returns
the spanning tree `[0, 1, 2]` at every call. -/
theorem createSpanningTrees_terminates_witness :
    ∃ st, CTRPBPInferenceMarginal.createSpanningTrees (fun _ => [0, 1, 2]) 3 pathChain =
        some st ∧ st.calls ≤ pathChain.nodes.length :=
  createSpanningTrees_terminates (fun _ => [0, 1, 2]) pathChain (by decide) (by decide)
    (by
      intro k id hid
      simp only [List.mem_cons, List.mem_singleton, List.not_mem_nil, or_false] at hid
      rcases hid with rfl | rfl | rfl
      · exact ⟨⟨0, fun _ => [1, 2]⟩, by simp [pathChain], rfl⟩
      · exact ⟨⟨1, fun _ => [1, 1]⟩, by simp [pathChain], rfl⟩
      · exact ⟨⟨2, fun _ => [3, 1]⟩, by simp [pathChain], rfl⟩)
    (by
      intro k hk
      cases k with
      | zero => exact ⟨0, by simp, fun j hj => by omega⟩
      | succ k =>
        obtain ⟨n, hn, hnot⟩ := hk
        have h0 := hnot 0 (by omega)
        simp only [pathChain, List.mem_cons, List.mem_singleton, List.not_mem_nil,
          or_false] at hn
        rcases hn with rfl | rfl | rfl <;> simp at h0)
    3 (by decide)

theorem DBL_MIN_pos : 0 < DBL_MIN := by
  unfold DBL_MIN
  positivity

/-- The table after a max-product message update. -/
theorem sendMessage_max (graph : CGraph) (options : TInferenceOptions) (nodePtr : CNode)
    (messages : Messages) (edgePtr : CEdge) :
    sendMessage graph options true nodePtr messages edgePtr =
      messages.put (graph.getEdgeIndex edgePtr.id) (if nodePtr.id = edgePtr.ID1 then 0 else 1)
        ((maxProductMessage
            (if nodePtr.id ≠ edgePtr.ID1 then edgePtr.potentials
              else edgePtr.potentials.transpose)
            (incomingProduct graph messages nodePtr.id
              (if edgePtr.ID1 = nodePtr.id then edgePtr.ID2 else edgePtr.ID1)
              (graph.edges_f nodePtr.id)
              (nodePtr.potentials options.considerNodeFixedValues))
            (messages.get (graph.getEdgeIndex edgePtr.id)
              (if nodePtr.id = edgePtr.ID1 then 0 else 1)).length).map
          fun x => x /
            (maxProductMessage
              (if nodePtr.id ≠ edgePtr.ID1 then edgePtr.potentials
                else edgePtr.potentials.transpose)
              (incomingProduct graph messages nodePtr.id
                (if edgePtr.ID1 = nodePtr.id then edgePtr.ID2 else edgePtr.ID1)
                (graph.edges_f nodePtr.id)
                (nodePtr.potentials options.considerNodeFixedValues))
              (messages.get (graph.getEdgeIndex edgePtr.id)
                (if nodePtr.id = edgePtr.ID1 then 0 else 1)).length).sum) := by
  unfold sendMessage
  by_cases h : nodePtr.id = edgePtr.ID1
  · simp [h]
  · simp [h]

theorem sweep_inv_any {graph : CGraph} {options : TInferenceOptions} (maximize : Bool)
    (I : Messages → Prop)
    (hI : ∀ msgs, ∀ n ∈ graph.nodes, ∀ e ∈ graph.edges_f n.id, I msgs →
      I (sendMessage graph options maximize n msgs e)) {messages : Messages} (h : I messages) :
    I (sweep graph options maximize messages) := by
  unfold sweep
  refine foldl_inv I _ _ ?_ h
  intro msgs n hn hm
  unfold nodeSweep
  exact foldl_inv I _ _ (fun msgs1 e he h1 => hI msgs1 n hn e he h1) hm

theorem zeroColumnPair_wellFormed : zeroColumnPair.WellFormed false :=
  ⟨by decide, by decide, by decide, by decide, by decide, by decide⟩

theorem zeroColumnPair_nonneg : zeroColumnPair.NonnegPotentials false :=
  ⟨by decide!, by decide!⟩

/-- C14, at a failing input: two binary nodes with unit unary potentials, joined
by one edge of potential `[[1, 0], [1, 0]]` (non-negative, no self-loop, no
parallel edge), all messages equal to one. For the message of node `0` to node
`1` the maxima over the states of node `0` are `1` and `0`, so the message of
the claim is `[1, 0]`; the code starts each maximum at
`std::numeric_limits<double>::min()`, the smallest positive normal double, and
stores `[1 / (1 + DBL_MIN), DBL_MIN / (1 + DBL_MIN)]`. -/
theorem sendMessage_max_product_floor :
    zeroColumnPair.NonnegPotentials false ∧ zeroColumnPair.NoSelfLoops ∧
      zeroColumnPair.NoParallelEdges ∧
      (sendMessage zeroColumnPair ⟨5, 1 / 1000, false, fun _ => ""⟩ true ⟨0, fun _ => [1, 1]⟩
          (onesTable zeroColumnPair false) ⟨0, 0, 1, [[1, 0], [1, 0]]⟩).get 0 0 =
        [1 / (1 + DBL_MIN), DBL_MIN / (1 + DBL_MIN)] ∧
      maxProductSpecMessage zeroColumnPair false (onesTable zeroColumnPair false)
          ⟨0, fun _ => [1, 1]⟩ ⟨0, 0, 1, [[1, 0], [1, 0]]⟩ = [1, 0] :=
  ⟨zeroColumnPair_nonneg, by unfold CGraph.NoSelfLoops; decide,
    by unfold CGraph.NoParallelEdges; decide, by decide!, by decide!⟩

/-- Where the unnormalised mass of a node belief is not zero, tree-reweighted BP
and standard loopy BP compute the same node belief from a message table. -/
theorem trw_nodeBelief_of_mass (graph : CGraph) (options : TInferenceOptions)
    (messages : Messages) (nodePtr : CNode)
    (h : (nodeMass graph options messages nodePtr).sum ≠ 0) :
    CTRPBPInferenceMarginal.nodeBelief graph options messages nodePtr =
      some (nodeBelief graph options messages nodePtr) := by
  unfold nodeMass at h
  unfold CTRPBPInferenceMarginal.nodeBelief nodeBelief divideBySum normalizeVector
  simp only
  rw [if_neg h, if_pos h]

/-- Where the unnormalised mass of a node belief is zero, standard loopy BP
leaves the belief unnormalised and tree-reweighted BP divides by zero. -/
theorem trw_nodeBelief_of_zero_mass (graph : CGraph) (options : TInferenceOptions)
    (messages : Messages) (nodePtr : CNode)
    (h : (nodeMass graph options messages nodePtr).sum = 0) :
    CTRPBPInferenceMarginal.nodeBelief graph options messages nodePtr = none ∧
      nodeBelief graph options messages nodePtr = nodeMass graph options messages nodePtr := by
  unfold nodeMass at h
  unfold CTRPBPInferenceMarginal.nodeBelief nodeBelief divideBySum normalizeVector nodeMass
  simp only
  rw [if_pos h, if_neg (not_not.mpr h)]
  exact ⟨rfl, rfl⟩

theorem zeroMassPair_nonneg : zeroMassPair.NonnegPotentials false :=
  ⟨by decide!, by decide!⟩

/-- C15, at a failing input: two binary nodes joined by one edge of unit
potential, node `0` with the unary potential `[0, 0]` (non-negative), and the
all-ones message table. The unnormalised mass of the belief of node `0` is zero:
`CLBPInferenceMarginal::infer` skips the division (`if ( sumNodePotPlusIncMsg )`)
and returns `[0, 0]` for node `0` and the zero matrix for the edge, while
`CTRPBPInferenceMarginal::infer` divides by the zero sum and returns no finite
value for either. -/
theorem trw_beliefs_divide_by_zero :
    zeroMassPair.NonnegPotentials false ∧
      computeNodeBeliefs zeroMassPair ⟨5, 1 / 1000, false, fun _ => ""⟩
          (onesTable zeroMassPair false) 0 = [0, 0] ∧
      CTRPBPInferenceMarginal.computeNodeBeliefs zeroMassPair
          ⟨5, 1 / 1000, false, fun _ => ""⟩ (onesTable zeroMassPair false) 0 = none ∧
      computeEdgeBeliefs zeroMassPair (onesTable zeroMassPair false)
          (computeNodeBeliefs zeroMassPair ⟨5, 1 / 1000, false, fun _ => ""⟩
            (onesTable zeroMassPair false)) 0 = [[0, 0], [0, 0]] ∧
      CTRPBPInferenceMarginal.computeEdgeBeliefs zeroMassPair (onesTable zeroMassPair false)
          (CTRPBPInferenceMarginal.computeNodeBeliefs zeroMassPair
            ⟨5, 1 / 1000, false, fun _ => ""⟩ (onesTable zeroMassPair false)) 0 = none :=
  ⟨zeroMassPair_nonneg, by decide!, by decide!, by decide!, by decide!⟩

theorem unitPair_positive : unitPair.PositivePotentials false :=
  ⟨by decide!, by decide!⟩

theorem unitPair_logZ (logWithLove : ℚ → ℝ)
    (hlog : ∀ x : ℚ, 0 < x → logWithLove x = Real.log (x : ℝ)) :
    (CLBPInferenceMarginal.infer (fun x : ℚ => Real.log (x : ℝ)) logWithLove unitPair
      ⟨5, 1 / 1000, false, fun _ => ""⟩).2.2 = 0 := by
  have hn0 : computeNodeBeliefs unitPair ⟨5, 1 / 1000, false, fun _ => ""⟩
      (messagesLBP unitPair ⟨5, 1 / 1000, false, fun _ => ""⟩ [] false) 0 = [1 / 2, 1 / 2] := by
    decide!
  have hn1 : computeNodeBeliefs unitPair ⟨5, 1 / 1000, false, fun _ => ""⟩
      (messagesLBP unitPair ⟨5, 1 / 1000, false, fun _ => ""⟩ [] false) 1 = [1 / 2, 1 / 2] := by
    decide!
  have he0 : computeEdgeBeliefs unitPair
      (messagesLBP unitPair ⟨5, 1 / 1000, false, fun _ => ""⟩ [] false)
      (computeNodeBeliefs unitPair ⟨5, 1 / 1000, false, fun _ => ""⟩
        (messagesLBP unitPair ⟨5, 1 / 1000, false, fun _ => ""⟩ [] false)) 0 =
      [[1 / 4, 1 / 4], [1 / 4, 1 / 4]] := by
    decide!
  unfold CLBPInferenceMarginal.infer
  simp only
  generalize computeEdgeBeliefs unitPair
      (messagesLBP unitPair ⟨5, 1 / 1000, false, fun _ => ""⟩ [] false)
      (computeNodeBeliefs unitPair ⟨5, 1 / 1000, false, fun _ => ""⟩
        (messagesLBP unitPair ⟨5, 1 / 1000, false, fun _ => ""⟩ [] false)) = eb at he0 ⊢
  generalize computeNodeBeliefs unitPair ⟨5, 1 / 1000, false, fun _ => ""⟩
      (messagesLBP unitPair ⟨5, 1 / 1000, false, fun _ => ""⟩ [] false) = nb at hn0 hn1 ⊢
  have hall : ([[1 / 4, 1 / 4], [1 / 4, 1 / 4]] : MatrixXd).all
      (fun row => row.all fun x => decide (x > 1 / 10 ^ 10)) = true := by decide!
  simp only [CLBPInferenceMarginal.logZ, nodeEnergies, edgeEnergies, unitPair, List.foldl_cons,
    List.foldl_nil, List.length_cons, List.length_nil, List.range_succ, List.range_zero,
    List.nil_append, List.getD_cons_zero, hn0, hn1, he0, hall, if_true,
    CGraph.getNumberOfNodeNeighbors]
  have h2 : logWithLove (1 / 2) = Real.log ((1 / 2 : ℚ) : ℝ) := hlog _ (by norm_num)
  have h4 : logWithLove (1 / 4) = Real.log ((1 / 4 : ℚ) : ℝ) := hlog _ (by norm_num)
  simp only [true_or, or_true, if_true, List.length_singleton, cwiseProductSum,
    cwiseProductSumMatrix, List.map_cons, List.map_nil, List.zipWith_cons_cons,
    List.zipWith_nil_right, List.sum_cons, List.sum_nil, h2, h4]
  push_cast
  have l2 : Real.log (1 / 2 : ℝ) = -Real.log 2 := by
    rw [one_div, Real.log_inv]
  have l4 : Real.log (1 / 4 : ℝ) = -(2 * Real.log 2) := by
    rw [one_div, Real.log_inv, show (4 : ℝ) = 2 ^ 2 by norm_num, Real.log_pow]
    push_cast
    ring
  rw [l2, l4, Real.log_one]
  ring

/-- C17, at a failing input: two binary nodes joined by one edge (a tree), all
potentials equal to one, `maxIterations = 5`, threshold `1 / 1000`. The table
returned by `messagesLBP` is a fixed point of the sum-product update and the
partition function is `Z = 4`, but the value `logZ` computed by
`CLBPInferenceMarginal::infer` is `0`, not `ln 4`, for the natural logarithm and
every `logWithLove` that agrees with it on positive numbers: the node terms are
weighted by the degree and enter with the sign of the edge terms reversed, which
is not the Bethe free energy. -/
theorem infer_logZ_not_log_partition :
    unitPair.WellFormed false ∧ unitPair.PositivePotentials false ∧
      sweep unitPair ⟨5, 1 / 1000, false, fun _ => ""⟩ false
          (messagesLBP unitPair ⟨5, 1 / 1000, false, fun _ => ""⟩ [] false) =
        messagesLBP unitPair ⟨5, 1 / 1000, false, fun _ => ""⟩ [] false ∧
      partitionFunction unitPair false = 4 ∧
      (∀ logWithLove : ℚ → ℝ, (∀ x : ℚ, 0 < x → logWithLove x = Real.log (x : ℝ)) →
        (CLBPInferenceMarginal.infer (fun x : ℚ => Real.log (x : ℝ)) logWithLove unitPair
          ⟨5, 1 / 1000, false, fun _ => ""⟩).2.2 = 0) ∧
      Real.log ((partitionFunction unitPair false : ℚ) : ℝ) ≠ 0 := by
  have hZ : partitionFunction unitPair false = 4 := by decide!
  refine ⟨⟨by decide, by decide, by decide, by decide, by decide, by decide⟩,
    unitPair_positive, by decide!, hZ, unitPair_logZ, ?_⟩
  rw [hZ]
  push_cast
  exact (Real.log_pos (by norm_num)).ne'

theorem foldl_max_assoc (l : List ℚ) (x y : ℚ) : l.foldl max (max x y) = max x (l.foldl max y) := by
  induction l generalizing y with
  | nil => rfl
  | cons a l ih => rw [List.foldl_cons, List.foldl_cons, max_assoc, ih]

/-- The running maximum of the max-product branch, started at `init ≥ 0`, is the
larger of `init` and the maximum of the values. -/
theorem foldl_ifgt_eq (f : ℕ → ℚ) (l : List ℕ) (init : ℚ) (h0 : 0 ≤ init) :
    l.foldl (fun maxRowValue col => if f col > maxRowValue then f col else maxRowValue) init =
      max init (listMax (l.map f)) := by
  have hstep : ∀ (l : List ℕ) (init : ℚ),
      l.foldl (fun maxRowValue col => if f col > maxRowValue then f col else maxRowValue) init =
        (l.map f).foldl max init := by
    intro l
    induction l with
    | nil => intro init; rfl
    | cons a l ih =>
      intro init
      rw [List.foldl_cons, List.map_cons, List.foldl_cons, ih]
      congr 1
      split
      · rename_i h; exact (max_eq_right (le_of_lt h)).symm
      · rename_i h; exact (max_eq_left (not_lt.mp h)).symm
  rw [hstep]
  cases l with
  | nil => simp [listMax, h0]
  | cons a l =>
    rw [List.map_cons, List.foldl_cons, foldl_max_assoc]
    rfl

theorem foldl_set_range (g : ℕ → ℚ) (n k : ℕ) (hk : k ≤ n) :
    ((List.range k).foldl (fun acc r => acc.set r (g r)) (List.replicate n 0)).length = n ∧
      ∀ i, ((List.range k).foldl (fun acc r => acc.set r (g r)) (List.replicate n 0)).getD i 0 =
        if i < k then g i else 0 := by
  induction k with
  | zero =>
    refine ⟨by simp, ?_⟩
    intro i
    simp only [List.range_zero, List.foldl_nil, Nat.not_lt_zero, if_false]
    by_cases hi : i < n
    · simp [List.getD_eq_getElem?_getD, hi]
    · rw [List.getD_eq_default _ _ (by simpa using hi)]
  | succ k ih =>
    obtain ⟨h1, h2⟩ := ih (by omega)
    rw [List.range_succ, List.foldl_append]
    simp only [List.foldl_cons, List.foldl_nil]
    refine ⟨by rw [List.length_set]; exact h1, ?_⟩
    intro i
    rw [getD_set_eq, h1, h2]
    by_cases hki : k = i
    · subst hki
      rw [if_pos ⟨rfl, by omega⟩, if_pos (Nat.lt_succ_self k)]
    · rw [if_neg (fun hh => hki hh.1)]
      by_cases hik : i < k
      · rw [if_pos hik, if_pos (by omega)]
      · rw [if_neg hik, if_neg (by omega)]

/-- The vector built by the max-product branch when the message has one entry
per row of the matrix. -/
theorem maxProductMessage_eq_map (edgePotentials : MatrixXd) (v : VectorXd) :
    maxProductMessage edgePotentials v edgePotentials.rows =
      (List.range edgePotentials.rows).map fun row =>
        (List.range edgePotentials.cols).foldl
          (fun maxRowValue col =>
            if edgePotentials.coeff row col * v.getD col 0 > maxRowValue then
              edgePotentials.coeff row col * v.getD col 0
            else maxRowValue)
          DBL_MIN := by
  unfold maxProductMessage
  obtain ⟨h1, h2⟩ := foldl_set_range
    (fun row => (List.range edgePotentials.cols).foldl
      (fun maxRowValue col =>
        if edgePotentials.coeff row col * v.getD col 0 > maxRowValue then
          edgePotentials.coeff row col * v.getD col 0
        else maxRowValue)
      DBL_MIN) edgePotentials.rows edgePotentials.rows le_rfl
  apply List.ext_getElem
  · rw [h1]; simp
  · intro i hi1 hi2
    have hi : i < edgePotentials.rows := by rw [← h1]; exact hi1
    have := h2 i
    rw [if_pos hi, List.getD_eq_getElem _ _ hi1] at this
    rw [this]
    simp

theorem transpose_cols (m : MatrixXd) (h : 0 < m.cols) : m.transpose.cols = m.rows := by
  obtain ⟨n, hn⟩ : ∃ n, m.cols = n + 1 := ⟨m.cols - 1, by omega⟩
  unfold MatrixXd.transpose
  rw [hn]
  simp [MatrixXd.cols, List.range_succ_eq_map]

/-- Shape of the matrix used by `sendMessage`: as many columns as the sending
node has states. -/
theorem CGraph.WellFormed.oriented_cols {graph : CGraph} {flag : Bool}
    (h : graph.WellFormed flag) {n : CNode} (hn : n ∈ graph.nodes) {e : CEdge}
    (he : e ∈ graph.edges_f n.id) :
    (if n.id ≠ e.ID1 then e.potentials else e.potentials.transpose).cols =
      (n.potentials flag).length := by
  obtain ⟨he1, he2⟩ := h.incident n hn e he
  by_cases hc : n.id = e.ID1
  · rw [if_neg (not_not.mpr hc), transpose_cols]
    · show e.potentials.length = _
      rw [(h.dims e he1).1, ← hc, h.card_eq hn]
    · rw [h.potentials_cols he1]
      exact h.card_pos (h.ends e he1).2
  · rw [if_pos hc, h.potentials_cols he1]
    rcases he2 with h2 | h2
    · exact absurd h2.symm hc
    · rw [h2, h.card_eq hn]

theorem CGraph.WellFormed.oriented_coeff {graph : CGraph} {flag : Bool}
    (h : graph.WellFormed flag) {n : CNode} (hn : n ∈ graph.nodes) {e : CEdge}
    (he : e ∈ graph.edges) {x_j x_i : ℕ}
    (hx : x_j < graph.card flag (if n.id = e.ID1 then e.ID2 else e.ID1))
    (hxi : x_i < (n.potentials flag).length) :
    (if n.id ≠ e.ID1 then e.potentials else e.potentials.transpose).coeff x_j x_i =
      if e.ID1 = n.id then e.potentials.coeff x_i x_j else e.potentials.coeff x_j x_i := by
  by_cases hc : n.id = e.ID1
  · rw [if_neg (not_not.mpr hc), if_pos hc.symm]
    rw [if_pos hc] at hx
    rw [transpose_coeff]
    · show x_i < e.potentials.length
      rw [(h.dims e he).1, ← hc, h.card_eq hn]; exact hxi
    · rw [h.potentials_cols he]; exact hx
  · rw [if_pos hc, if_neg (fun hh => hc hh.symm)]

/-- The max-product update on a well-formed graph without self-loops: the
message stored is the vector of the maxima, each not smaller than `DBL_MIN`,
divided by its sum. -/
theorem sendMessage_max_floor (graph : CGraph) (options : TInferenceOptions)
    (messages : Messages) (i : CNode) (e : CEdge)
    (hwf : graph.WellFormed options.considerNodeFixedValues) (hloop : graph.NoSelfLoops)
    (hcomp : graph.CompleteEdgesF)
    (hdims : MsgDims graph options.considerNodeFixedValues messages) (hi : i ∈ graph.nodes)
    (he : e ∈ graph.edges_f i.id) :
    (sendMessage graph options true i messages e).get (graph.getEdgeIndex e.id)
        (if i.id = e.ID1 then 0 else 1) =
      ((List.range (graph.card options.considerNodeFixedValues
          (if e.ID1 = i.id then e.ID2 else e.ID1))).map fun x_j =>
        max DBL_MIN (maxProductValue graph options.considerNodeFixedValues messages i e x_j)).map
        fun x => x /
          ((List.range (graph.card options.considerNodeFixedValues
            (if e.ID1 = i.id then e.ID2 else e.ID1))).map fun x_j =>
          max DBL_MIN
            (maxProductValue graph options.considerNodeFixedValues messages i e x_j)).sum := by
  obtain ⟨he1, he2⟩ := hwf.incident i hi e he
  obtain ⟨hidx, hget⟩ := hwf.getEdgeIndex_spec he1
  have hilt : graph.getEdgeIndex e.id < messages.length := by rw [hdims.len]; exact hidx
  have hk : (if i.id = e.ID1 then 0 else 1) <
      (messages.getD (graph.getEdgeIndex e.id) []).length := by
    rw [hdims.pair _ hidx]; split <;> decide
  have hj : (if e.ID1 = i.id then e.ID2 else e.ID1) ≠ i.id := by
    have hl := hloop e he1
    by_cases hc : e.ID1 = i.id
    · rw [if_pos hc]
      exact fun hh => hl (hc.trans hh.symm)
    · rw [if_neg hc]; exact hc
  have hjj : (if i.id = e.ID1 then e.ID2 else e.ID1) = (if e.ID1 = i.id then e.ID2 else e.ID1) := by
    by_cases hc : e.ID1 = i.id
    · rw [if_pos hc, if_pos hc.symm]
    · rw [if_neg hc, if_neg (fun hh => hc hh.symm)]
  have hsize : (messages.get (graph.getEdgeIndex e.id) (if i.id = e.ID1 then 0 else 1)).length =
      (if i.id ≠ e.ID1 then e.potentials else e.potentials.transpose).rows := by
    show _ = (if i.id ≠ e.ID1 then e.potentials else e.potentials.transpose).length
    rw [hwf.oriented_length he1]
    by_cases hc : i.id = e.ID1
    · rw [if_pos hc, if_pos hc, hdims.dim0 _ hidx, hget]
    · rw [if_neg hc, if_neg hc, hdims.dim1 _ hidx, hget]
  have hrows : (if i.id ≠ e.ID1 then e.potentials else e.potentials.transpose).rows =
      graph.card options.considerNodeFixedValues (if e.ID1 = i.id then e.ID2 else e.ID1) := by
    show (if i.id ≠ e.ID1 then e.potentials else e.potentials.transpose).length = _
    rw [hwf.oriented_length he1, hjj]
  rw [sendMessage_max, Messages.get_put _ hilt hk, if_pos ⟨rfl, rfl⟩, hsize,
    maxProductMessage_eq_map, hrows, hwf.oriented_cols hi he]
  have hmap : ((List.range (graph.card options.considerNodeFixedValues
      (if e.ID1 = i.id then e.ID2 else e.ID1))).map fun row =>
      (List.range (i.potentials options.considerNodeFixedValues).length).foldl
        (fun maxRowValue col =>
          if (if i.id ≠ e.ID1 then e.potentials else e.potentials.transpose).coeff row col *
              (incomingProduct graph messages i.id (if e.ID1 = i.id then e.ID2 else e.ID1)
                (graph.edges_f i.id) (i.potentials options.considerNodeFixedValues)).getD col 0 >
              maxRowValue then
            (if i.id ≠ e.ID1 then e.potentials else e.potentials.transpose).coeff row col *
              (incomingProduct graph messages i.id (if e.ID1 = i.id then e.ID2 else e.ID1)
                (graph.edges_f i.id) (i.potentials options.considerNodeFixedValues)).getD col 0
          else maxRowValue)
        DBL_MIN) =
      (List.range (graph.card options.considerNodeFixedValues
        (if e.ID1 = i.id then e.ID2 else e.ID1))).map fun x_j =>
        max DBL_MIN
          (maxProductValue graph options.considerNodeFixedValues messages i e x_j) := by
    apply List.map_congr_left
    intro x_j hx
    rw [List.mem_range] at hx
    rw [foldl_ifgt_eq _ _ _ DBL_MIN_pos.le]
    congr 1
    unfold maxProductValue
    congr 1
    apply List.map_congr_left
    intro x_i hxi
    rw [List.mem_range] at hxi
    rw [hwf.oriented_coeff hi he1 (by rw [hjj]; exact hx) hxi, incomingProduct_getD]
    congr 2
    exact ((incoming_filter_perm hloop hcomp hi hj).map _).prod_eq
  rw [hmap]

/-- Where every maximum is at least `DBL_MIN`, the max-product update stores the
message of the specification. -/
theorem sendMessage_max_product (graph : CGraph) (options : TInferenceOptions)
    (messages : Messages) (i : CNode) (e : CEdge)
    (hwf : graph.WellFormed options.considerNodeFixedValues) (hloop : graph.NoSelfLoops)
    (hcomp : graph.CompleteEdgesF)
    (hdims : MsgDims graph options.considerNodeFixedValues messages) (hi : i ∈ graph.nodes)
    (he : e ∈ graph.edges_f i.id)
    (hfloor : ∀ x_j, x_j < graph.card options.considerNodeFixedValues
        (if e.ID1 = i.id then e.ID2 else e.ID1) →
      DBL_MIN ≤ maxProductValue graph options.considerNodeFixedValues messages i e x_j) :
    (sendMessage graph options true i messages e).get (graph.getEdgeIndex e.id)
        (if i.id = e.ID1 then 0 else 1) =
      maxProductSpecMessage graph options.considerNodeFixedValues messages i e := by
  rw [sendMessage_max_floor graph options messages i e hwf hloop hcomp hdims hi he]
  have hmap : ((List.range (graph.card options.considerNodeFixedValues
      (if e.ID1 = i.id then e.ID2 else e.ID1))).map fun x_j =>
      max DBL_MIN (maxProductValue graph options.considerNodeFixedValues messages i e x_j)) =
      (List.range (graph.card options.considerNodeFixedValues
        (if e.ID1 = i.id then e.ID2 else e.ID1))).map
        (maxProductValue graph options.considerNodeFixedValues messages i e) := by
    apply List.map_congr_left
    intro x_j hx
    exact max_eq_right (hfloor x_j (List.mem_range.mp hx))
  rw [hmap]
  rfl

theorem sum_map_range (f : ℕ → ℚ) (n : ℕ) :
    ((List.range n).map f).sum = ∑ i in Finset.range n, f i := by
  induction n with
  | zero => simp
  | succ n ih =>
    rw [List.range_succ, List.map_append, List.sum_append, ih, Finset.sum_range_succ]
    simp

theorem eq_map_range_getD (l : List ℚ) : l = (List.range l.length).map fun i => l.getD i 0 := by
  apply List.ext_getElem
  · simp
  · intro i h1 h2
    simp [List.getD_eq_getElem?_getD, h1]

/-- Sum of a matrix given by its entries. -/
theorem table_sum (f : ℕ → ℕ → ℚ) (R C : ℕ) :
    MatrixXd.sum ((List.range R).map fun r => (List.range C).map fun c => f r c) =
      ∑ r in Finset.range R, ∑ c in Finset.range C, f r c := by
  unfold MatrixXd.sum
  rw [List.map_map, ← sum_map_range]
  have : (List.sum ∘ fun r => (List.range C).map fun c => f r c) =
      fun r => ∑ c in Finset.range C, f r c := by
    funext r
    exact sum_map_range _ _
  rw [this]

/-- Normalisation of a matrix given by its entries. -/
theorem normalizeMatrix_table (f : ℕ → ℕ → ℚ) (R C : ℕ)
    (hS : ∑ r in Finset.range R, ∑ c in Finset.range C, f r c ≠ 0) :
    normalizeMatrix ((List.range R).map fun r => (List.range C).map fun c => f r c) =
      (List.range R).map fun r => (List.range C).map fun c =>
        f r c / ∑ r in Finset.range R, ∑ c in Finset.range C, f r c := by
  unfold normalizeMatrix
  rw [table_sum, if_pos hS]
  simp [List.map_map, Function.comp]

theorem table_row_sums (f : ℕ → ℕ → ℚ) (R C : ℕ) :
    ((List.range R).map fun r => (List.range C).map fun c => f r c).map List.sum =
      (List.range R).map fun r => ∑ c in Finset.range C, f r c := by
  rw [List.map_map]
  apply List.map_congr_left
  intro r _
  exact sum_map_range _ _

theorem table_transpose (f : ℕ → ℕ → ℚ) (R C : ℕ) (hR : 0 < R) :
    MatrixXd.transpose ((List.range R).map fun r => (List.range C).map fun c => f r c) =
      (List.range C).map fun c => (List.range R).map fun r => f r c := by
  have hcols : MatrixXd.cols ((List.range R).map fun r => (List.range C).map fun c => f r c) =
      C := by
    obtain ⟨n, hn⟩ : ∃ n, R = n + 1 := ⟨R - 1, by omega⟩
    rw [hn]
    simp [MatrixXd.cols, List.range_succ_eq_map]
  have hrows : MatrixXd.rows ((List.range R).map fun r => (List.range C).map fun c => f r c) =
      R := by
    simp [MatrixXd.rows]
  unfold MatrixXd.transpose
  rw [hcols, hrows]
  apply List.map_congr_left
  intro c hc
  apply List.map_congr_left
  intro r hr
  rw [List.mem_range] at hc hr
  simp [MatrixXd.coeff, List.getD_eq_getElem?_getD, hr, hc]

theorem CGraph.CompleteEdgesF.mem_edges_f {graph : CGraph} (hcomp : graph.CompleteEdgesF)
    {n : CNode} (hn : n ∈ graph.nodes) {e : CEdge} (he : e ∈ graph.edges)
    (hinc : e.ID1 = n.id ∨ e.ID2 = n.id) : e ∈ graph.edges_f n.id := by
  rw [(hcomp n hn).mem_iff, List.mem_filter]
  exact ⟨he, by simpa using hinc⟩

theorem CGraph.WellFormed.edges_f_nodup {graph : CGraph} {flag : Bool}
    (h : graph.WellFormed flag) (hcomp : graph.CompleteEdgesF) {n : CNode}
    (hn : n ∈ graph.nodes) : (graph.edges_f n.id).Nodup := by
  rw [(hcomp n hn).nodup_iff]
  exact (List.Nodup.of_map _ h.edge_ids).filter _

/-- Among the edges incident to a node, the edges that do not contain the
neighbour at the other end of `e` are all the edges but `e`. -/
theorem exclude_filter_perm {graph : CGraph} {flag : Bool} (h : graph.WellFormed flag)
    (hloop : graph.NoSelfLoops) (hpar : graph.NoParallelEdges) (hcomp : graph.CompleteEdgesF)
    {n : CNode} (hn : n ∈ graph.nodes) {e : CEdge} (he : e ∈ graph.edges_f n.id) :
    ((graph.edges_f n.id).filter fun e2 =>
        (if e.ID1 = n.id then e.ID2 else e.ID1) ≠ e2.ID1 ∧
          (if e.ID1 = n.id then e.ID2 else e.ID1) ≠ e2.ID2).Perm
      ((graph.edges_f n.id).erase e) := by
  obtain ⟨he1, he2⟩ := h.incident n hn e he
  have hl := hloop e he1
  have hnd := h.edges_f_nodup hcomp hn
  have hnot : ¬ ((if e.ID1 = n.id then e.ID2 else e.ID1) ≠ e.ID1 ∧
      (if e.ID1 = n.id then e.ID2 else e.ID1) ≠ e.ID2) := by
    by_cases hc : e.ID1 = n.id
    · rw [if_pos hc]; exact fun hh => hh.2 rfl
    · rw [if_neg hc]; exact fun hh => hh.1 rfl
  have hall : ∀ e2 ∈ (graph.edges_f n.id).erase e,
      decide ((if e.ID1 = n.id then e.ID2 else e.ID1) ≠ e2.ID1 ∧
        (if e.ID1 = n.id then e.ID2 else e.ID1) ≠ e2.ID2) = true := by
    intro e2 hmem
    rw [hnd.mem_erase_iff] at hmem
    obtain ⟨hne, hm⟩ := hmem
    obtain ⟨h21, h22⟩ := h.incident n hn e2 hm
    have hl2 := hloop e2 h21
    rw [decide_eq_true_eq]
    by_contra hcon
    apply hne
    apply hpar e2 h21 e he1
    by_cases hc : e.ID1 = n.id
    · rw [if_pos hc] at hcon
      rcases h22 with h3 | h3
      · left
        refine ⟨h3.trans hc.symm, ?_⟩
        by_contra h4
        exact hcon ⟨fun hh => hl (hc.trans (h3.symm.trans hh.symm)), fun hh => h4 hh.symm⟩
      · right
        refine ⟨?_, h3.trans hc.symm⟩
        by_contra h4
        exact hcon ⟨fun hh => h4 hh.symm, fun hh => hl (hc.trans (h3.symm.trans hh.symm))⟩
    · rw [if_neg hc] at hcon
      have hc2 : e.ID2 = n.id := by
        rcases he2 with h5 | h5
        · exact absurd h5 hc
        · exact h5
      rcases h22 with h3 | h3
      · right
        refine ⟨h3.trans hc2.symm, ?_⟩
        by_contra h4
        exact hcon ⟨fun hh => hc (hh.trans h3), fun hh => h4 hh.symm⟩
      · left
        refine ⟨?_, h3.trans hc2.symm⟩
        by_contra h4
        exact hcon ⟨fun hh => h4 hh.symm, fun hh => hc (hh.trans h3)⟩
  have h1 := (List.perm_cons_erase he).filter fun e2 =>
    (if e.ID1 = n.id then e.ID2 else e.ID1) ≠ e2.ID1 ∧
      (if e.ID1 = n.id then e.ID2 else e.ID1) ≠ e2.ID2
  rw [List.filter_cons_of_neg (by simpa using hnot), List.filter_eq_self.mpr hall] at h1
  exact h1

/-- The unnormalised belief of a node is the accumulated vector it uses for the
message along `e` times the message it received along `e`. -/
theorem mass_eq_acc_mul {graph : CGraph} {flag : Bool} (h : graph.WellFormed flag)
    (hloop : graph.NoSelfLoops) (hpar : graph.NoParallelEdges) (hcomp : graph.CompleteEdgesF)
    (messages : Messages) {n : CNode} (hn : n ∈ graph.nodes) {e : CEdge}
    (he : e ∈ graph.edges_f n.id) (x : ℕ) :
    (((graph.edges_f n.id).map (incomingMessage graph messages n.id)).foldl cwiseProduct
        (n.potentials flag)).getD x 0 =
      (incomingProduct graph messages n.id (if e.ID1 = n.id then e.ID2 else e.ID1)
          (graph.edges_f n.id) (n.potentials flag)).getD x 0 *
        (incomingMessage graph messages n.id e).getD x 0 := by
  rw [foldl_cwiseProduct_getD, incomingProduct_getD, List.map_map]
  have h1 := ((List.perm_cons_erase he).map
    fun e2 => (incomingMessage graph messages n.id e2).getD x 0).prod_eq
  have h2 := ((exclude_filter_perm h hloop hpar hcomp hn he).map
    fun e2 => (incomingMessage graph messages n.id e2).getD x 0).prod_eq
  rw [List.map_cons, List.prod_cons] at h1
  rw [h2]
  have h3 : (List.map ((fun v : VectorXd => v.getD x 0) ∘ incomingMessage graph messages n.id)
      (graph.edges_f n.id)).prod =
      (incomingMessage graph messages n.id e).getD x 0 *
        (List.map (fun e2 => (incomingMessage graph messages n.id e2).getD x 0)
          ((graph.edges_f n.id).erase e)).prod := h1
  rw [h3]
  ring

/-- At a fixed point, the message stored for node `n` along its edge `e` is the
sum-product of the edge potential with the accumulated vector of `n`. -/
theorem IsFixedPoint.entry {graph : CGraph} {options : TInferenceOptions}
    {messages : Messages} (hfix : IsFixedPoint graph options false messages)
    (h : graph.WellFormed options.considerNodeFixedValues)
    (hd : MsgDims graph options.considerNodeFixedValues messages) {n : CNode}
    (hn : n ∈ graph.nodes) {e : CEdge} (he : e ∈ graph.edges_f n.id) {x_j : ℕ}
    (hx : x_j < graph.card options.considerNodeFixedValues
      (if n.id = e.ID1 then e.ID2 else e.ID1)) :
    (messages.get (graph.getEdgeIndex e.id) (if n.id = e.ID1 then 0 else 1)).getD x_j 0 =
      ∑ x_i in Finset.range (n.potentials options.considerNodeFixedValues).length,
        (if e.ID1 = n.id then e.potentials.coeff x_i x_j else e.potentials.coeff x_j x_i) *
          (incomingProduct graph messages n.id (if e.ID1 = n.id then e.ID2 else e.ID1)
            (graph.edges_f n.id) (n.potentials options.considerNodeFixedValues)).getD x_i 0 := by
  obtain ⟨he1, _⟩ := h.incident n hn e he
  obtain ⟨hidx, _⟩ := h.getEdgeIndex_spec he1
  have hilt : graph.getEdgeIndex e.id < messages.length := by rw [hd.len]; exact hidx
  have hk : (if n.id = e.ID1 then 0 else 1) <
      (messages.getD (graph.getEdgeIndex e.id) []).length := by
    rw [hd.pair _ hidx]; split <;> decide
  have hacc := h.incomingProduct_length hd hn (if e.ID1 = n.id then e.ID2 else e.ID1)
  have hsend := hfix n hn e he
  rw [sendMessage_sum] at hsend
  have hget := congrArg
    (fun m : Messages => m.get (graph.getEdgeIndex e.id) (if n.id = e.ID1 then 0 else 1)) hsend
  simp only at hget
  rw [Messages.get_put _ hilt hk, if_pos ⟨rfl, rfl⟩] at hget
  rw [← hget, h.oriented_mulVec_getD he1 hn _ hacc hx]

/-- The algebra of marginal consistency: a pairwise table built from two
normalised beliefs, each divided by the message received along the edge, has
the two beliefs as the marginals of its normalisation when the two messages
are the sum-products of the other end. -/
theorem marginal_algebra (R C : ℕ) (ψ : ℕ → ℕ → ℚ) (a1 m21 nb1 a2 m12 nb2 : ℕ → ℚ)
    (Z1 Z2 : ℚ) (hZ1 : Z1 ≠ 0) (hZ2 : Z2 ≠ 0)
    (h1 : ∀ r, r < R → nb1 r = a1 r * m21 r / Z1)
    (h2 : ∀ c, c < C → nb2 c = a2 c * m12 c / Z2)
    (hm21 : ∀ r, r < R → m21 r = ∑ c in Finset.range C, ψ r c * a2 c)
    (hm12 : ∀ c, c < C → m12 c = ∑ r in Finset.range R, ψ r c * a1 r)
    (hs1 : ∑ r in Finset.range R, nb1 r = 1) (hs2 : ∑ c in Finset.range C, nb2 c = 1)
    (hp21 : ∀ r, r < R → m21 r ≠ 0) (hp12 : ∀ c, c < C → m12 c ≠ 0) :
    (∑ r in Finset.range R, ∑ c in Finset.range C,
        ψ r c * (nb1 r / m21 r) * (nb2 c / m12 c)) ≠ 0 ∧
      (∀ r, r < R →
        (∑ c in Finset.range C, ψ r c * (nb1 r / m21 r) * (nb2 c / m12 c) /
          ∑ r in Finset.range R, ∑ c in Finset.range C,
            ψ r c * (nb1 r / m21 r) * (nb2 c / m12 c)) = nb1 r) ∧
      ∀ c, c < C →
        (∑ r in Finset.range R, ψ r c * (nb1 r / m21 r) * (nb2 c / m12 c) /
          ∑ r in Finset.range R, ∑ c in Finset.range C,
            ψ r c * (nb1 r / m21 r) * (nb2 c / m12 c)) = nb2 c := by
  have hU : ∀ r, r < R → ∀ c, c < C →
      ψ r c * (nb1 r / m21 r) * (nb2 c / m12 c) = ψ r c * (a1 r / Z1) * (a2 c / Z2) := by
    intro r hr c hc
    rw [h1 r hr, h2 c hc]
    have := hp21 r hr
    have := hp12 c hc
    field_simp
    ring
  have hrow : ∀ r, r < R →
      (∑ c in Finset.range C, ψ r c * (nb1 r / m21 r) * (nb2 c / m12 c)) = nb1 r / Z2 := by
    intro r hr
    rw [Finset.sum_congr rfl fun c hc => hU r hr c (Finset.mem_range.mp hc)]
    rw [h1 r hr, hm21 r hr, Finset.mul_sum, Finset.sum_div, Finset.sum_div]
    apply Finset.sum_congr rfl
    intro c _
    field_simp
    ring
  have hcol : ∀ c, c < C →
      (∑ r in Finset.range R, ψ r c * (nb1 r / m21 r) * (nb2 c / m12 c)) = nb2 c / Z1 := by
    intro c hc
    rw [Finset.sum_congr rfl fun r hr => hU r (Finset.mem_range.mp hr) c hc]
    rw [h2 c hc, hm12 c hc, Finset.mul_sum, Finset.sum_div, Finset.sum_div]
    apply Finset.sum_congr rfl
    intro r _
    field_simp
    ring
  have hS1 : (∑ r in Finset.range R, ∑ c in Finset.range C,
      ψ r c * (nb1 r / m21 r) * (nb2 c / m12 c)) = 1 / Z2 := by
    rw [Finset.sum_congr rfl fun r hr => hrow r (Finset.mem_range.mp hr), ← Finset.sum_div, hs1]
  have hS2 : (∑ r in Finset.range R, ∑ c in Finset.range C,
      ψ r c * (nb1 r / m21 r) * (nb2 c / m12 c)) = 1 / Z1 := by
    rw [Finset.sum_comm, Finset.sum_congr rfl fun c hc => hcol c (Finset.mem_range.mp hc),
      ← Finset.sum_div, hs2]
  refine ⟨by rw [hS1]; exact one_div_ne_zero hZ2, ?_, ?_⟩
  · intro r hr
    rw [← Finset.sum_div, hrow r hr, hS1]
    field_simp
  · intro c hc
    rw [← Finset.sum_div, hcol c hc, hS2]
    field_simp

/-- The unnormalised belief of a node under a positive table: its length and
the sign of its sum. -/
theorem mass_props {graph : CGraph} {flag : Bool} (h : graph.WellFormed flag)
    (hp : graph.PositivePotentials flag) {messages : Messages}
    (hinv : MsgInv graph flag messages) {n : CNode} (hn : n ∈ graph.nodes) :
    (((graph.edges_f n.id).map (incomingMessage graph messages n.id)).foldl cwiseProduct
        (n.potentials flag)).length = (n.potentials flag).length ∧
      0 < (((graph.edges_f n.id).map (incomingMessage graph messages n.id)).foldl cwiseProduct
        (n.potentials flag)).sum := by
  have hl : ∀ v ∈ (graph.edges_f n.id).map (incomingMessage graph messages n.id),
      v.length = (n.potentials flag).length ∧ ∀ x ∈ v, 0 < x := by
    intro v hv
    rw [List.mem_map] at hv
    obtain ⟨e, he, rfl⟩ := hv
    exact ⟨h.incoming_length hinv.1 hn he, incomingMessage_pos hinv.2 _ _⟩
  have hlen := foldl_cwiseProduct_length _ _ fun v hv => (hl v hv).1
  have hpos := foldl_cwiseProduct_pos _ _ hl (hp.node_pos n hn)
  refine ⟨hlen, ?_⟩
  apply List.sum_pos _ hpos
  intro hnil
  rw [hnil] at hlen
  have := h.states n hn
  simp at hlen
  omega

/-- Marginal consistency for one edge: at a positive fixed point of the
sum-product update, the row sums of the edge belief are the belief of the first
end and its column sums are the belief of the second end. -/
theorem edgeBelief_marginals {graph : CGraph} {options : TInferenceOptions}
    (h : graph.WellFormed options.considerNodeFixedValues)
    (hloop : graph.NoSelfLoops) (hpar : graph.NoParallelEdges) (hcomp : graph.CompleteEdgesF)
    (hp : graph.PositivePotentials options.considerNodeFixedValues) {messages : Messages}
    (hinv : MsgInv graph options.considerNodeFixedValues messages)
    (hfix : IsFixedPoint graph options false messages) {i : ℕ} (hi : i < graph.edges.length) :
    (edgeBelief graph messages (computeNodeBeliefs graph options messages) i).map List.sum =
        computeNodeBeliefs graph options messages (graph.edges.getD i ⟨0, 0, 0, []⟩).ID1 ∧
      ((edgeBelief graph messages (computeNodeBeliefs graph options messages) i).transpose).map
          List.sum =
        computeNodeBeliefs graph options messages (graph.edges.getD i ⟨0, 0, 0, []⟩).ID2 := by
  have hgi : graph.getEdgeIndex (graph.edges.getD i ⟨0, 0, 0, []⟩).id = i := by
    rw [List.getD_eq_getElem _ _ hi]; exact h.getEdgeIndex_getElem hi
  have he : graph.edges.getD i ⟨0, 0, 0, []⟩ ∈ graph.edges := by
    rw [List.getD_eq_getElem _ _ hi]; exact List.getElem_mem _
  have hd0 := hinv.1.dim0 i hi
  have hd1 := hinv.1.dim1 i hi
  unfold edgeBelief
  simp only []
  generalize graph.edges.getD i ⟨0, 0, 0, []⟩ = e at hgi he hd0 hd1 ⊢
  obtain ⟨⟨n1, hn1, hid1⟩, ⟨n2, hn2, hid2⟩⟩ := h.ends e he
  have hl : e.ID1 ≠ e.ID2 := hloop e he
  have he1 : e ∈ graph.edges_f n1.id := hcomp.mem_edges_f hn1 he (Or.inl hid1.symm)
  have he2 : e ∈ graph.edges_f n2.id := hcomp.mem_edges_f hn2 he (Or.inr hid2.symm)
  have hne2 : ¬ n2.id = e.ID1 := fun hh => hl (hh.symm.trans hid2)
  have hne2s : ¬ e.ID1 = n2.id := fun hh => hne2 hh.symm
  obtain ⟨hrows, _⟩ := h.dims e he
  have hcols := h.potentials_cols he
  have hc1 : graph.card options.considerNodeFixedValues e.ID1 =
      (n1.potentials options.considerNodeFixedValues).length := by
    rw [← hid1, h.card_eq hn1]
  have hc2 : graph.card options.considerNodeFixedValues e.ID2 =
      (n2.potentials options.considerNodeFixedValues).length := by
    rw [← hid2, h.card_eq hn2]
  rw [hc1] at hrows hd1
  rw [hc2] at hcols hd0
  obtain ⟨hlen1, hZ1⟩ := mass_props h hp hinv hn1
  obtain ⟨hlen2, hZ2⟩ := mass_props h hp hinv hn2
  obtain ⟨hb1, _, hs1⟩ := nodeBelief_props h hp hinv hn1
  obtain ⟨hb2, _, hs2⟩ := nodeBelief_props h hp hinv hn2
  have hnb1 : computeNodeBeliefs graph options messages e.ID1 =
      nodeBelief graph options messages n1 := by
    rw [← hid1]; exact computeNodeBeliefs_eq h _ hn1
  have hnb2 : computeNodeBeliefs graph options messages e.ID2 =
      nodeBelief graph options messages n2 := by
    rw [← hid2]; exact computeNodeBeliefs_eq h _ hn2
  have hR := h.states n1 hn1
  rw [hnb1, hnb2]
  have hrows1 : e.potentials.rows = (n1.potentials options.considerNodeFixedValues).length :=
    hrows
  rw [hrows1, hcols]
  simp only [cwiseQuotient_getD]
  have h1 : ∀ r, r < (n1.potentials options.considerNodeFixedValues).length →
      (nodeBelief graph options messages n1).getD r 0 =
        (incomingProduct graph messages n1.id e.ID2 (graph.edges_f n1.id)
            (n1.potentials options.considerNodeFixedValues)).getD r 0 *
          (messages.get i 1).getD r 0 /
        (((graph.edges_f n1.id).map (incomingMessage graph messages n1.id)).foldl cwiseProduct
          (n1.potentials options.considerNodeFixedValues)).sum := by
    intro r _
    rw [nodeBelief_eq, normalizeVector_getD hZ1.ne',
      mass_eq_acc_mul h hloop hpar hcomp messages hn1 he1 r, if_pos hid1.symm]
    unfold incomingMessage
    rw [if_pos hid1, hgi]
  have h2 : ∀ c, c < (n2.potentials options.considerNodeFixedValues).length →
      (nodeBelief graph options messages n2).getD c 0 =
        (incomingProduct graph messages n2.id e.ID1 (graph.edges_f n2.id)
            (n2.potentials options.considerNodeFixedValues)).getD c 0 *
          (messages.get i 0).getD c 0 /
        (((graph.edges_f n2.id).map (incomingMessage graph messages n2.id)).foldl cwiseProduct
          (n2.potentials options.considerNodeFixedValues)).sum := by
    intro c _
    rw [nodeBelief_eq, normalizeVector_getD hZ2.ne',
      mass_eq_acc_mul h hloop hpar hcomp messages hn2 he2 c, if_neg hne2s]
    unfold incomingMessage
    rw [if_neg hne2, hgi]
  have hm21 : ∀ r, r < (n1.potentials options.considerNodeFixedValues).length →
      (messages.get i 1).getD r 0 =
        ∑ c in Finset.range (n2.potentials options.considerNodeFixedValues).length,
          e.potentials.coeff r c *
            (incomingProduct graph messages n2.id e.ID1 (graph.edges_f n2.id)
              (n2.potentials options.considerNodeFixedValues)).getD c 0 := by
    intro r hr
    have := hfix.entry h hinv.1 hn2 he2 (show r < graph.card options.considerNodeFixedValues
      (if n2.id = e.ID1 then e.ID2 else e.ID1) by rw [if_neg hne2, hc1]; exact hr)
    rw [if_neg hne2, hgi] at this
    simp only [if_neg hne2s] at this
    exact this
  have hm12 : ∀ c, c < (n2.potentials options.considerNodeFixedValues).length →
      (messages.get i 0).getD c 0 =
        ∑ r in Finset.range (n1.potentials options.considerNodeFixedValues).length,
          e.potentials.coeff r c *
            (incomingProduct graph messages n1.id e.ID2 (graph.edges_f n1.id)
              (n1.potentials options.considerNodeFixedValues)).getD r 0 := by
    intro c hc
    have := hfix.entry h hinv.1 hn1 he1 (show c < graph.card options.considerNodeFixedValues
      (if n1.id = e.ID1 then e.ID2 else e.ID1) by rw [if_pos hid1, hc2]; exact hc)
    rw [if_pos hid1, hgi] at this
    simp only [if_pos hid1.symm] at this
    exact this
  have hsum1 : ∑ r in Finset.range (n1.potentials options.considerNodeFixedValues).length,
      (nodeBelief graph options messages n1).getD r 0 = 1 := by
    rw [← hb1, ← sum_eq_sum_range, hs1]
  have hsum2 : ∑ c in Finset.range (n2.potentials options.considerNodeFixedValues).length,
      (nodeBelief graph options messages n2).getD c 0 = 1 := by
    rw [← hb2, ← sum_eq_sum_range, hs2]
  have hp21 : ∀ r, r < (n1.potentials options.considerNodeFixedValues).length →
      (messages.get i 1).getD r 0 ≠ 0 := fun r hr =>
    (hinv.2 i 1 _ (getD_mem_of_lt (by rw [hd1]; exact hr))).ne'
  have hp12 : ∀ c, c < (n2.potentials options.considerNodeFixedValues).length →
      (messages.get i 0).getD c 0 ≠ 0 := fun c hc =>
    (hinv.2 i 0 _ (getD_mem_of_lt (by rw [hd0]; exact hc))).ne'
  obtain ⟨hS, hrow, hcol⟩ := marginal_algebra _ _ (fun r c => e.potentials.coeff r c)
    _ (fun r => (messages.get i 1).getD r 0)
    (fun r => (nodeBelief graph options messages n1).getD r 0)
    _ (fun c => (messages.get i 0).getD c 0)
    (fun c => (nodeBelief graph options messages n2).getD c 0) _ _ hZ1.ne' hZ2.ne'
    h1 h2 hm21 hm12 hsum1 hsum2 hp21 hp12
  have hnorm := normalizeMatrix_table (fun r c => e.potentials.coeff r c *
      ((nodeBelief graph options messages n1).getD r 0 / (messages.get i 1).getD r 0) *
      ((nodeBelief graph options messages n2).getD c 0 / (messages.get i 0).getD c 0))
    _ _ hS
  simp only [] at hnorm
  rw [hnorm]
  constructor
  · rw [table_row_sums]
    refine Eq.trans ?_ (eq_map_range_getD _).symm
    rw [hb1]
    apply List.map_congr_left
    intro r hr
    exact hrow r (List.mem_range.mp hr)
  · rw [table_transpose _ _ _ hR, table_row_sums]
    refine Eq.trans ?_ (eq_map_range_getD _).symm
    rw [hb2]
    apply List.map_congr_left
    intro c hc
    exact hcol c (List.mem_range.mp hc)

/-- C21: marginal consistency of the edge beliefs at a fixed point. For every
well-formed graph without self-loops or parallel edges and with strictly
positive potentials, if the message table that `CLBPInferenceMarginal::infer`
obtains from `messagesLBP` is a fixed point of the sum-product update (it is
strictly positive, as the potentials are), then for every edge the returned edge
belief has the vector of its row sums equal to the returned belief of node `ID1`
and the vector of its column sums equal to the returned belief of node `ID2`. -/
theorem infer_edge_beliefs_marginalize (graph : CGraph) (m_options : TInferenceOptions)
    (hwf : graph.WellFormed m_options.considerNodeFixedValues)
    (hloop : graph.NoSelfLoops) (hpar : graph.NoParallelEdges) (hcomp : graph.CompleteEdgesF)
    (hpos : graph.PositivePotentials m_options.considerNodeFixedValues)
    (hfix : IsFixedPoint graph m_options false (messagesLBP graph m_options [] false)) :
    MsgAll (fun x => 0 < x) (messagesLBP graph m_options [] false) ∧
      ∀ e ∈ graph.edges,
        ((CLBPInferenceMarginal.inferBeliefs graph m_options).2 e.id).map List.sum =
            (CLBPInferenceMarginal.inferBeliefs graph m_options).1 e.ID1 ∧
          (((CLBPInferenceMarginal.inferBeliefs graph m_options).2 e.id).transpose).map
              List.sum =
            (CLBPInferenceMarginal.inferBeliefs graph m_options).1 e.ID2 := by
  have hinv := messagesLBP_inv hwf hpos []
  refine ⟨hinv.2, ?_⟩
  intro e he
  obtain ⟨i, hi, rfl⟩ := List.getElem_of_mem he
  unfold CLBPInferenceMarginal.inferBeliefs
  simp only
  rw [← List.getD_eq_getElem _ ⟨0, 0, 0, []⟩ hi, computeEdgeBeliefs_eq hwf _ _ hi]
  exact edgeBelief_marginals hwf hloop hpar hcomp hpos hinv hfix hi

/-- Witness for C21: the path-ordered chain of three binary nodes, where three
passes reach a fixed point. -/
theorem infer_edge_beliefs_marginalize_witness :
    IsFixedPoint pathChain ⟨5, 1 / 1000, false, fun _ => ""⟩ false
        (messagesLBP pathChain ⟨5, 1 / 1000, false, fun _ => ""⟩ [] false) ∧
      (MsgAll (fun x => 0 < x)
          (messagesLBP pathChain ⟨5, 1 / 1000, false, fun _ => ""⟩ [] false) ∧
        ∀ e ∈ pathChain.edges,
          ((CLBPInferenceMarginal.inferBeliefs pathChain
              ⟨5, 1 / 1000, false, fun _ => ""⟩).2 e.id).map List.sum =
            (CLBPInferenceMarginal.inferBeliefs pathChain
              ⟨5, 1 / 1000, false, fun _ => ""⟩).1 e.ID1 ∧
          (((CLBPInferenceMarginal.inferBeliefs pathChain
              ⟨5, 1 / 1000, false, fun _ => ""⟩).2 e.id).transpose).map List.sum =
            (CLBPInferenceMarginal.inferBeliefs pathChain
              ⟨5, 1 / 1000, false, fun _ => ""⟩).1 e.ID2) :=
  ⟨by unfold IsFixedPoint; decide!,
    infer_edge_beliefs_marginalize pathChain ⟨5, 1 / 1000, false, fun _ => ""⟩
      pathChain_wellFormed pathChain_noSelfLoops pathChain_noParallel pathChain_complete
      pathChain_positive (by unfold IsFixedPoint; decide!)⟩

theorem mixTable_get (graph : CGraph) (Mnew Mold : Messages) (i : ℕ) {edgeIndex k : ℕ}
    (hi : edgeIndex < graph.edges.length) (hk : k < 2) :
    (mixTable graph Mnew Mold i).get edgeIndex k =
      if graph.nodeIndex (slotSender graph edgeIndex k) < graph.nodeIndex i then
        Mnew.get edgeIndex k
      else Mold.get edgeIndex k := by
  have h1 : edgeIndex < ((List.range graph.edges.length).map fun edgeIndex =>
      (List.range 2).map fun k =>
        if graph.nodeIndex (slotSender graph edgeIndex k) < graph.nodeIndex i then
          Mnew.get edgeIndex k
        else Mold.get edgeIndex k).length := by simpa using hi
  have h2 : k < ((List.range 2).map fun k =>
        if graph.nodeIndex (slotSender graph edgeIndex k) < graph.nodeIndex i then
          Mnew.get edgeIndex k
        else Mold.get edgeIndex k).length := by simpa using hk
  show ((mixTable graph Mnew Mold i).getD edgeIndex []).getD k [] = _
  unfold mixTable
  rw [List.getD_eq_getElem _ _ h1, List.getElem_map, List.getElem_range,
    List.getD_eq_getElem _ _ h2, List.getElem_map, List.getElem_range]

theorem mixTable_dims {graph : CGraph} {flag : Bool} {Mnew Mold : Messages}
    (h1 : MsgDims graph flag Mnew) (h2 : MsgDims graph flag Mold) (i : ℕ) :
    MsgDims graph flag (mixTable graph Mnew Mold i) := by
  constructor
  · simp [mixTable]
  · intro idx hidx
    unfold mixTable
    rw [List.getD_eq_getElem _ _ (by simpa using hidx)]
    simp
  · intro idx hidx
    rw [mixTable_get _ _ _ _ hidx (by decide)]
    split
    · exact h1.dim0 idx hidx
    · exact h2.dim0 idx hidx
  · intro idx hidx
    rw [mixTable_get _ _ _ _ hidx (by decide)]
    split
    · exact h1.dim1 idx hidx
    · exact h2.dim1 idx hidx

theorem maxProductMessage_length (edgePotentials : MatrixXd) (v : VectorXd) (size : ℕ) :
    (maxProductMessage edgePotentials v size).length = size := by
  unfold maxProductMessage
  refine foldl_inv (fun acc : VectorXd => acc.length = size) _ _ ?_ ?_
  · intro acc row _ hacc
    simp only [List.length_set]
    exact hacc
  · simp

/-- A single message update keeps the shape of the table, in both modes. -/
theorem sendMessage_dims_any {graph : CGraph} {options : TInferenceOptions}
    (h : graph.WellFormed options.considerNodeFixedValues) (maximize : Bool)
    {messages : Messages} (hd : MsgDims graph options.considerNodeFixedValues messages)
    {n : CNode} (hn : n ∈ graph.nodes) {e : CEdge} (he : e ∈ graph.edges_f n.id) :
    MsgDims graph options.considerNodeFixedValues
      (sendMessage graph options maximize n messages e) := by
  cases maximize with
  | false => exact sendMessage_dims h hd hn he
  | true =>
    obtain ⟨he1, he2⟩ := h.incident n hn e he
    obtain ⟨hidx, hget⟩ := h.getEdgeIndex_spec he1
    have hi : graph.getEdgeIndex e.id < messages.length := by rw [hd.len]; exact hidx
    have hk : (if n.id = e.ID1 then 0 else 1) <
        (messages.getD (graph.getEdgeIndex e.id) []).length := by
      rw [hd.pair _ hidx]; split <;> decide
    rw [sendMessage_max]
    constructor
    · rw [Messages.put_length]; exact hd.len
    · intro i hilt
      rw [Messages.put_pair_length]; exact hd.pair i hilt
    · intro i hilt
      rw [Messages.get_put _ hi hk]
      by_cases hc : i = graph.getEdgeIndex e.id ∧ 0 = if n.id = e.ID1 then 0 else 1
      · rw [if_pos hc, List.length_map, maxProductMessage_length, ← hc.2, ← hc.1]
        exact hd.dim0 i hilt
      · rw [if_neg hc]; exact hd.dim0 i hilt
    · intro i hilt
      rw [Messages.get_put _ hi hk]
      by_cases hc : i = graph.getEdgeIndex e.id ∧ 1 = if n.id = e.ID1 then 0 else 1
      · rw [if_pos hc, List.length_map, maxProductMessage_length, ← hc.2, ← hc.1]
        exact hd.dim1 i hilt
      · rw [if_neg hc]; exact hd.dim1 i hilt

theorem tableAfter_dims {graph : CGraph} {options : TInferenceOptions}
    (h : graph.WellFormed options.considerNodeFixedValues) (maximize : Bool) (n : ℕ) :
    MsgDims graph options.considerNodeFixedValues (tableAfter graph options maximize n) := by
  induction n with
  | zero => exact onesTable_dims _ _
  | succ n ih =>
    rw [tableAfter_succ]
    exact sweep_inv_any maximize (MsgDims graph options.considerNodeFixedValues)
      (fun msgs n hn e he hm => sendMessage_dims_any h maximize hm hn he) ih

/-- Positions in a list of nodes with distinct ids, split around one of its
elements. -/
theorem findIdx_split {pre post : List CNode} {i : CNode}
    (hnd : ((pre ++ i :: post).map CNode.id).Nodup) :
    (pre ++ i :: post).findIdx (fun n => n.id = i.id) = pre.length ∧
      (∀ n ∈ pre, (pre ++ i :: post).findIdx (fun m => m.id = n.id) < pre.length) ∧
      ∀ n ∈ post, pre.length < (pre ++ i :: post).findIdx (fun m => m.id = n.id) := by
  rw [List.map_append, List.map_cons, List.nodup_append, List.nodup_cons] at hnd
  obtain ⟨_, ⟨hi, _⟩, hdis⟩ := hnd
  refine ⟨?_, ?_, ?_⟩
  · rw [List.findIdx_append, List.findIdx_eq_length_of_false, if_neg (lt_irrefl _)]
    · simp [List.findIdx_cons]
    · intro x hx
      rw [decide_eq_false_iff_not]
      intro hxi
      exact hdis (List.mem_map_of_mem _ hx) (by rw [hxi]; exact List.mem_cons_self _ _)
  · intro n hn
    have hlt : pre.findIdx (fun m => decide (m.id = n.id)) < pre.length :=
      List.findIdx_lt_length_of_exists ⟨n, hn, by simp⟩
    rw [List.findIdx_append, if_pos hlt]
    exact hlt
  · intro n hn
    rw [List.findIdx_append, List.findIdx_eq_length_of_false, if_neg (lt_irrefl _)]
    · rw [List.findIdx_cons]
      have hne : i.id ≠ n.id := by
        intro hh
        apply hi
        rw [hh]
        exact List.mem_map_of_mem _ hn
      rw [show decide (i.id = n.id) = false by simpa using hne]
      simp only [cond_false]
      omega
    · intro x hx
      rw [decide_eq_false_iff_not]
      intro hxi
      exact hdis (List.mem_map_of_mem _ hx)
        (by rw [hxi]; exact List.mem_cons_of_mem _ (List.mem_map_of_mem _ hn))

/-- The slot in which a node stores the message for an incident edge is a slot
written by that node. -/
theorem slotSender_key {graph : CGraph} {flag : Bool} (h : graph.WellFormed flag) {n : CNode}
    (hn : n ∈ graph.nodes) {e : CEdge} (he : e ∈ graph.edges_f n.id) :
    slotSender graph (graph.getEdgeIndex e.id) (sendSlot n.id e) = n.id := by
  obtain ⟨he1, he2⟩ := h.incident n hn e he
  obtain ⟨_, hget⟩ := h.getEdgeIndex_spec he1
  unfold slotSender sendSlot
  rw [hget]
  by_cases hc : n.id = e.ID1
  · rw [if_pos hc, if_pos rfl]; exact hc.symm
  · rw [if_neg hc, if_neg (by decide)]
    rcases he2 with h1 | h1
    · exact absurd h1.symm hc
    · exact h1

/-- A message update changes no slot but the one it writes, in both modes. -/
theorem sendMessage_get_any {graph : CGraph} {options : TInferenceOptions}
    (h : graph.WellFormed options.considerNodeFixedValues) (maximize : Bool)
    {messages : Messages} (hd : MsgDims graph options.considerNodeFixedValues messages)
    {n : CNode} (hn : n ∈ graph.nodes) {e : CEdge} (he : e ∈ graph.edges_f n.id) (i k : ℕ)
    (hne : ¬ (i = graph.getEdgeIndex e.id ∧ k = sendSlot n.id e)) :
    (sendMessage graph options maximize n messages e).get i k = messages.get i k := by
  obtain ⟨he1, _⟩ := h.incident n hn e he
  obtain ⟨hidx, _⟩ := h.getEdgeIndex_spec he1
  have hi : graph.getEdgeIndex e.id < messages.length := by rw [hd.len]; exact hidx
  have hk : (if n.id = e.ID1 then 0 else 1) <
      (messages.getD (graph.getEdgeIndex e.id) []).length := by
    rw [hd.pair _ hidx]; split <;> decide
  have hne1 : ¬ (i = graph.getEdgeIndex e.id ∧ k = if n.id = e.ID1 then 0 else 1) := hne
  cases maximize with
  | false => rw [sendMessage_sum, Messages.get_put _ hi hk, if_neg hne1]
  | true => rw [sendMessage_max, Messages.get_put _ hi hk, if_neg hne1]

/-- A message update of node `n` changes no slot written by another node. -/
theorem sendMessage_frame {graph : CGraph} {options : TInferenceOptions}
    (h : graph.WellFormed options.considerNodeFixedValues) (maximize : Bool)
    {messages : Messages} (hd : MsgDims graph options.considerNodeFixedValues messages)
    {n : CNode} (hn : n ∈ graph.nodes) {e : CEdge} (he : e ∈ graph.edges_f n.id) (i k : ℕ)
    (hne : slotSender graph i k ≠ n.id) :
    (sendMessage graph options maximize n messages e).get i k = messages.get i k := by
  apply sendMessage_get_any h maximize hd hn he
  rintro ⟨rfl, rfl⟩
  exact hne (slotSender_key h hn he)

/-- The messages sent by node `n` along a list of its incident edges keep the
shape of the table and change no slot written by another node. -/
theorem sendList_frame {graph : CGraph} {options : TInferenceOptions}
    (h : graph.WellFormed options.considerNodeFixedValues) (maximize : Bool)
    {messages : Messages} (hd : MsgDims graph options.considerNodeFixedValues messages)
    {n : CNode} (hn : n ∈ graph.nodes) (l : List CEdge) (hl : ∀ e ∈ l, e ∈ graph.edges_f n.id) :
    MsgDims graph options.considerNodeFixedValues
        (l.foldl (sendMessage graph options maximize n) messages) ∧
      ∀ i k, slotSender graph i k ≠ n.id →
        (l.foldl (sendMessage graph options maximize n) messages).get i k =
          messages.get i k := by
  refine foldl_inv (fun b : Messages => MsgDims graph options.considerNodeFixedValues b ∧
    ∀ i k, slotSender graph i k ≠ n.id → b.get i k = messages.get i k) _ _ ?_
    ⟨hd, fun _ _ _ => rfl⟩
  intro b e he hb
  refine ⟨sendMessage_dims_any h maximize hb.1 hn (hl e he), ?_⟩
  intro i k hne
  rw [sendMessage_frame h maximize hb.1 hn (hl e he) i k hne]
  exact hb.2 i k hne

/-- The passes of a list of nodes keep the shape of the table and change no
slot written by a node outside the list. -/
theorem nodeList_frame {graph : CGraph} {options : TInferenceOptions}
    (h : graph.WellFormed options.considerNodeFixedValues) (maximize : Bool)
    {messages : Messages} (hd : MsgDims graph options.considerNodeFixedValues messages)
    (l : List CNode) (hl : ∀ n ∈ l, n ∈ graph.nodes) :
    MsgDims graph options.considerNodeFixedValues
        (l.foldl (nodeSweep graph options maximize) messages) ∧
      ∀ i k, (∀ n ∈ l, slotSender graph i k ≠ n.id) →
        (l.foldl (nodeSweep graph options maximize) messages).get i k =
          messages.get i k := by
  refine foldl_inv (fun b : Messages => MsgDims graph options.considerNodeFixedValues b ∧
    ∀ i k, (∀ n ∈ l, slotSender graph i k ≠ n.id) → b.get i k = messages.get i k) _ _ ?_
    ⟨hd, fun _ _ _ => rfl⟩
  intro b n hn hb
  obtain ⟨h1, h2⟩ := sendList_frame h maximize hb.1 (hl n hn) (graph.edges_f n.id)
    fun _ he => he
  refine ⟨h1, ?_⟩
  intro i k hne
  unfold nodeSweep
  rw [h2 i k (hne n hn)]
  exact hb.2 i k hne

/-- The message that a node writes depends on the table only through the
messages it has received along its incident edges that do not contain the
neighbour it is sending to. -/
theorem sendMessage_read {graph : CGraph} {options : TInferenceOptions}
    (h : graph.WellFormed options.considerNodeFixedValues) (maximize : Bool)
    {T T1 : Messages} (hd : MsgDims graph options.considerNodeFixedValues T)
    (hd1 : MsgDims graph options.considerNodeFixedValues T1)
    {n : CNode} (hn : n ∈ graph.nodes) {e : CEdge} (he : e ∈ graph.edges_f n.id)
    (hread : ∀ e2 ∈ graph.edges_f n.id,
      (if e.ID1 = n.id then e.ID2 else e.ID1) ≠ e2.ID1 ∧
          (if e.ID1 = n.id then e.ID2 else e.ID1) ≠ e2.ID2 →
        incomingMessage graph T n.id e2 = incomingMessage graph T1 n.id e2) :
    (sendMessage graph options maximize n T e).get (graph.getEdgeIndex e.id)
        (sendSlot n.id e) =
      (sendMessage graph options maximize n T1 e).get (graph.getEdgeIndex e.id)
        (sendSlot n.id e) := by
  obtain ⟨he1, _⟩ := h.incident n hn e he
  obtain ⟨hidx, _⟩ := h.getEdgeIndex_spec he1
  have hi : graph.getEdgeIndex e.id < T.length := by rw [hd.len]; exact hidx
  have hi1 : graph.getEdgeIndex e.id < T1.length := by rw [hd1.len]; exact hidx
  have hk : (if n.id = e.ID1 then 0 else 1) <
      (T.getD (graph.getEdgeIndex e.id) []).length := by
    rw [hd.pair _ hidx]; split <;> decide
  have hk1 : (if n.id = e.ID1 then 0 else 1) <
      (T1.getD (graph.getEdgeIndex e.id) []).length := by
    rw [hd1.pair _ hidx]; split <;> decide
  have hprod : incomingProduct graph T n.id (if e.ID1 = n.id then e.ID2 else e.ID1)
      (graph.edges_f n.id) (n.potentials options.considerNodeFixedValues) =
      incomingProduct graph T1 n.id (if e.ID1 = n.id then e.ID2 else e.ID1)
        (graph.edges_f n.id) (n.potentials options.considerNodeFixedValues) := by
    rw [incomingProduct_eq, incomingProduct_eq]
    congr 1
    apply List.map_congr_left
    intro e2 he2
    rw [List.mem_filter, decide_eq_true_eq] at he2
    exact hread e2 he2.1 he2.2
  have hlen : (T.get (graph.getEdgeIndex e.id) (if n.id = e.ID1 then 0 else 1)).length =
      (T1.get (graph.getEdgeIndex e.id) (if n.id = e.ID1 then 0 else 1)).length := by
    by_cases hc : n.id = e.ID1
    · rw [if_pos hc, hd.dim0 _ hidx, hd1.dim0 _ hidx]
    · rw [if_neg hc, hd.dim1 _ hidx, hd1.dim1 _ hidx]
  unfold sendSlot
  cases maximize with
  | false =>
    rw [sendMessage_sum, sendMessage_sum, Messages.get_put _ hi hk, Messages.get_put _ hi1 hk1,
      hprod]
    simp only [and_self, if_true]
  | true =>
    rw [sendMessage_max, sendMessage_max, Messages.get_put _ hi hk, Messages.get_put _ hi1 hk1,
      hprod, hlen]
    simp only [and_self, if_true]

/-- The slot that node `n` writes for its incident edge `e` during its pass holds
the message computed from a table that differs from the table at the start of the
pass only in slots written by `n`. -/
theorem nodeSweep_written {graph : CGraph} {options : TInferenceOptions}
    (h : graph.WellFormed options.considerNodeFixedValues) (hcomp : graph.CompleteEdgesF)
    (maximize : Bool) {T : Messages}
    (hd : MsgDims graph options.considerNodeFixedValues T) {n : CNode}
    (hn : n ∈ graph.nodes) {e : CEdge} (he : e ∈ graph.edges_f n.id) :
    ∃ T_e, MsgDims graph options.considerNodeFixedValues T_e ∧
      (∀ i k, slotSender graph i k ≠ n.id → T_e.get i k = T.get i k) ∧
      (nodeSweep graph options maximize T n).get (graph.getEdgeIndex e.id) (sendSlot n.id e) =
        (sendMessage graph options maximize n T_e e).get (graph.getEdgeIndex e.id)
          (sendSlot n.id e) := by
  obtain ⟨preE, postE, hsplit⟩ := List.append_of_mem he
  have hnd := h.edges_f_nodup hcomp hn
  rw [hsplit, List.nodup_append, List.nodup_cons] at hnd
  obtain ⟨_, ⟨hnotin, _⟩, _⟩ := hnd
  have hpre : ∀ e1 ∈ preE, e1 ∈ graph.edges_f n.id := by
    intro e1 h1; rw [hsplit]; exact List.mem_append_left _ h1
  have hpost : ∀ e1 ∈ postE, e1 ∈ graph.edges_f n.id := by
    intro e1 h1; rw [hsplit]
    exact List.mem_append_right _ (List.mem_cons_of_mem _ h1)
  obtain ⟨hd1, hfr1⟩ := sendList_frame h maximize hd hn preE hpre
  refine ⟨preE.foldl (sendMessage graph options maximize n) T, hd1, hfr1, ?_⟩
  unfold nodeSweep
  rw [hsplit, List.foldl_append, List.foldl_cons]
  have hd2 := sendMessage_dims_any h maximize hd1 hn he
  refine (foldl_inv (fun b : Messages => MsgDims graph options.considerNodeFixedValues b ∧
    b.get (graph.getEdgeIndex e.id) (sendSlot n.id e) =
      (sendMessage graph options maximize n
        (preE.foldl (sendMessage graph options maximize n) T) e).get
          (graph.getEdgeIndex e.id) (sendSlot n.id e)) _ _ ?_ ⟨hd2, rfl⟩).2
  intro b e1 he1 hb
  refine ⟨sendMessage_dims_any h maximize hb.1 hn (hpost e1 he1), ?_⟩
  rw [sendMessage_get_any h maximize hb.1 hn (hpost e1 he1)]
  · exact hb.2
  · rintro ⟨hidx, _⟩
    apply hnotin
    have h1 := (h.getEdgeIndex_spec (h.incident n hn e he).1).2
    have h2 := (h.getEdgeIndex_spec (h.incident n hn e1 (hpost e1 he1)).1).2
    rw [hidx, h2] at h1
    rw [← h1]
    exact he1

/-- The value that a pass over the nodes leaves in the slot of node `i` for its
incident edge `e` is the message computed from the table that holds the messages
of this pass from the nodes of smaller index and the messages of the previous
pass from the other nodes. -/
theorem sweep_written {graph : CGraph} {options : TInferenceOptions}
    (h : graph.WellFormed options.considerNodeFixedValues) (hloop : graph.NoSelfLoops)
    (hcomp : graph.CompleteEdgesF) (maximize : Bool) {T : Messages}
    (hd : MsgDims graph options.considerNodeFixedValues T) {i : CNode}
    (hi : i ∈ graph.nodes) {e : CEdge} (he : e ∈ graph.edges_f i.id) :
    (sweep graph options maximize T).get (graph.getEdgeIndex e.id) (sendSlot i.id e) =
      (sendMessage graph options maximize i
        (mixTable graph (sweep graph options maximize T) T i.id) e).get
          (graph.getEdgeIndex e.id) (sendSlot i.id e) := by
  obtain ⟨pre, post, hsplit⟩ := List.append_of_mem hi
  have hnd := h.node_ids
  rw [hsplit] at hnd
  obtain ⟨hidx0, hlt0, hgt0⟩ := findIdx_split hnd
  rw [← hsplit] at hidx0 hlt0 hgt0
  have hidx : graph.nodeIndex i.id = pre.length := hidx0
  have hlt : ∀ n ∈ pre, graph.nodeIndex n.id < pre.length := hlt0
  have hgt : ∀ n ∈ post, pre.length < graph.nodeIndex n.id := hgt0
  have hpre : ∀ n ∈ pre, n ∈ graph.nodes := by
    intro n h1; rw [hsplit]; exact List.mem_append_left _ h1
  have hpost : ∀ n ∈ post, n ∈ graph.nodes := by
    intro n h1; rw [hsplit]
    exact List.mem_append_right _ (List.mem_cons_of_mem _ h1)
  have htail : ∀ n ∈ i :: post, n ∈ graph.nodes := by
    intro n h1; rw [hsplit]; exact List.mem_append_right _ h1
  obtain ⟨hd1, hfr1⟩ := nodeList_frame h maximize hd pre hpre
  obtain ⟨T_e, hde, hfre, hval⟩ := nodeSweep_written h hcomp maximize hd1 hi he
  have hd2 : MsgDims graph options.considerNodeFixedValues
      (nodeSweep graph options maximize (pre.foldl (nodeSweep graph options maximize) T) i) :=
    (nodeList_frame h maximize hd1 [i] (by simpa using hi)).1
  obtain ⟨hd3, hfr3⟩ := nodeList_frame h maximize hd2 post hpost
  obtain ⟨_, hfr4⟩ := nodeList_frame h maximize hd1 (i :: post) htail
  have hsw : sweep graph options maximize T =
      post.foldl (nodeSweep graph options maximize)
        (nodeSweep graph options maximize (pre.foldl (nodeSweep graph options maximize) T) i) := by
    unfold sweep
    rw [hsplit, List.foldl_append, List.foldl_cons]
  have hsw1 : sweep graph options maximize T =
      (i :: post).foldl (nodeSweep graph options maximize)
        (pre.foldl (nodeSweep graph options maximize) T) := by
    rw [hsw, List.foldl_cons]
  have hdsw : MsgDims graph options.considerNodeFixedValues (sweep graph options maximize T) := by
    rw [hsw]; exact hd3
  have hdmix := mixTable_dims hdsw hd i.id
  have hstep1 : (sweep graph options maximize T).get (graph.getEdgeIndex e.id)
      (sendSlot i.id e) =
      (nodeSweep graph options maximize (pre.foldl (nodeSweep graph options maximize) T) i).get
        (graph.getEdgeIndex e.id) (sendSlot i.id e) := by
    rw [hsw]
    apply hfr3
    intro n hn
    rw [slotSender_key h hi he]
    intro hh
    have := hgt n hn
    rw [← hh, hidx] at this
    exact lt_irrefl _ this
  rw [hstep1, hval]
  apply sendMessage_read h maximize hde hdmix hi he
  intro e2 he2 _
  obtain ⟨he21, he22⟩ := h.incident i hi e2 he2
  obtain ⟨hidx2, hget2⟩ := h.getEdgeIndex_spec he21
  have hl2 := hloop e2 he21
  have key : ∀ k, k < 2 → slotSender graph (graph.getEdgeIndex e2.id) k ≠ i.id →
      T_e.get (graph.getEdgeIndex e2.id) k =
        (mixTable graph (sweep graph options maximize T) T i.id).get
          (graph.getEdgeIndex e2.id) k := by
    intro k hk hne
    rw [hfre _ _ hne, mixTable_get _ _ _ _ hidx2 hk]
    split
    · rename_i hlt1
      rw [hsw1]
      symm
      apply hfr4
      intro n hn hh
      rw [hh] at hlt1
      rcases List.mem_cons.mp hn with rfl | hn1
      · exact lt_irrefl _ hlt1
      · have := hgt n hn1
        omega
    · rename_i hnlt
      apply hfr1
      intro n hn hh
      apply hnlt
      rw [hh]
      have := hlt n hn
      omega
  unfold incomingMessage
  by_cases hc : i.id = e2.ID1
  · rw [if_pos hc, if_pos hc]
    apply key 1 (by decide)
    unfold slotSender
    rw [hget2, if_neg (by decide)]
    exact fun hh => hl2 (hc.symm.trans hh.symm)
  · rw [if_neg hc, if_neg hc]
    apply key 0 (by decide)
    unfold slotSender
    rw [hget2, if_pos rfl]
    exact fun hh => hc hh.symm

theorem nodeIndex_inj {graph : CGraph} {n : CNode} (hn : n ∈ graph.nodes) {b : ℕ}
    (heq : graph.nodeIndex n.id = graph.nodeIndex b) : n.id = b := by
  have hlt : graph.nodes.findIdx (fun m => decide (m.id = n.id)) < graph.nodes.length :=
    List.findIdx_lt_length_of_exists ⟨n, hn, by simp⟩
  have hlt1 : graph.nodes.findIdx (fun m => decide (m.id = b)) < graph.nodes.length := by
    have h1 : graph.nodes.findIdx (fun m => decide (m.id = n.id)) =
        graph.nodes.findIdx (fun m => decide (m.id = b)) := heq
    rw [← h1]; exact hlt
  have h1 : ((graph.nodes.getD (graph.nodes.findIdx fun m => decide (m.id = n.id))
      ⟨0, fun _ => []⟩).id = n.id) := by
    rw [List.getD_eq_getElem _ _ hlt]
    have := List.findIdx_getElem (w := hlt)
    simpa using this
  have h2 : ((graph.nodes.getD (graph.nodes.findIdx fun m => decide (m.id = b))
      ⟨0, fun _ => []⟩).id = b) := by
    rw [List.getD_eq_getElem _ _ hlt1]
    have := List.findIdx_getElem (w := hlt1)
    simpa using this
  have h3 : graph.nodes.findIdx (fun m => decide (m.id = n.id)) =
      graph.nodes.findIdx (fun m => decide (m.id = b)) := heq
  rw [h3] at h1
  exact h1.symm.trans h2

theorem sendSlot_lt (nodeID : ℕ) (e : CEdge) : sendSlot nodeID e < 2 := by
  unfold sendSlot
  by_cases hc : nodeID = e.ID1
  · rw [if_pos hc]; decide
  · rw [if_neg hc]; decide

/-- The message that a node has received along an incident edge is read in the
slot written by the node at the other end. -/
theorem incomingMessage_eq_sent (graph : CGraph) (messages : Messages) {nodeID : ℕ}
    {e2 : CEdge} (hl : e2.ID1 ≠ e2.ID2) :
    incomingMessage graph messages nodeID e2 =
      messages.get (graph.getEdgeIndex e2.id)
        (sendSlot (if e2.ID1 = nodeID then e2.ID2 else e2.ID1) e2) := by
  unfold incomingMessage sendSlot
  by_cases hc : e2.ID1 = nodeID
  · rw [if_pos hc.symm, if_pos hc, if_neg (Ne.symm hl)]
  · rw [if_neg (fun hh => hc hh.symm), if_neg hc, if_pos rfl]

/-- In the table that node `i` reads, the message received along an incident
edge is the one of the current pass when the other end has a smaller index, and
the one of the previous pass otherwise. -/
theorem incomingMessage_mix {graph : CGraph} {flag : Bool} (h : graph.WellFormed flag)
    (hloop : graph.NoSelfLoops) (Mnew Mold : Messages) (i : ℕ) {e2 : CEdge}
    (he2 : e2 ∈ graph.edges) :
    incomingMessage graph (mixTable graph Mnew Mold i) i e2 =
      incomingMessage graph
        (if graph.nodeIndex (if e2.ID1 = i then e2.ID2 else e2.ID1) < graph.nodeIndex i then
          Mnew else Mold) i e2 := by
  obtain ⟨hidx, hget⟩ := h.getEdgeIndex_spec he2
  have hl := hloop e2 he2
  rw [incomingMessage_eq_sent _ _ hl, incomingMessage_eq_sent _ _ hl,
    mixTable_get _ _ _ _ hidx (sendSlot_lt _ _)]
  have hs : slotSender graph (graph.getEdgeIndex e2.id)
      (sendSlot (if e2.ID1 = i then e2.ID2 else e2.ID1) e2) =
      if e2.ID1 = i then e2.ID2 else e2.ID1 := by
    unfold slotSender sendSlot
    rw [hget]
    by_cases hc : e2.ID1 = i
    · rw [if_pos hc, if_neg (Ne.symm hl), if_neg (by decide)]
    · rw [if_neg hc, if_pos rfl, if_pos rfl]
  rw [hs]
  by_cases hlt : graph.nodeIndex (if e2.ID1 = i then e2.ID2 else e2.ID1) < graph.nodeIndex i
  · rw [if_pos hlt, if_pos hlt]
  · rw [if_neg hlt, if_neg hlt]

/-- Sum-product mode: the entries of the message that a pass over the nodes
leaves in the slot of node `i` for its incident edge `e`. -/
theorem sweep_written_sum {graph : CGraph} {options : TInferenceOptions}
    (h : graph.WellFormed options.considerNodeFixedValues) (hloop : graph.NoSelfLoops)
    (hcomp : graph.CompleteEdgesF) {T : Messages}
    (hd : MsgDims graph options.considerNodeFixedValues T) {i : CNode}
    (hi : i ∈ graph.nodes) {e : CEdge} (he : e ∈ graph.edges_f i.id) {x_j : ℕ}
    (hx : x_j < graph.card options.considerNodeFixedValues
      (if i.id = e.ID1 then e.ID2 else e.ID1)) :
    ((sweep graph options false T).get (graph.getEdgeIndex e.id) (sendSlot i.id e)).getD x_j 0 =
      scheduledMessage graph options.considerNodeFixedValues (sweep graph options false T) T
        i e x_j := by
  obtain ⟨he1, he2⟩ := h.incident i hi e he
  have hj : (if e.ID1 = i.id then e.ID2 else e.ID1) ≠ i.id := by
    have hl := hloop e he1
    by_cases hc : e.ID1 = i.id
    · rw [if_pos hc]
      exact fun hh => hl (hc.trans hh.symm)
    · rw [if_neg hc]; exact hc
  have hdsw : MsgDims graph options.considerNodeFixedValues (sweep graph options false T) :=
    sweep_inv_any false (MsgDims graph options.considerNodeFixedValues)
      (fun msgs n hn e he hm => sendMessage_dims_any h false hm hn he) hd
  have hdmix := mixTable_dims hdsw hd i.id
  have hacc := h.incomingProduct_length hdmix hi (if e.ID1 = i.id then e.ID2 else e.ID1)
  rw [sweep_written h hloop hcomp false hd hi he, sendMessage_get h hdmix hi he,
    if_pos ⟨rfl, rfl⟩]
  unfold outMessage
  rw [h.oriented_mulVec_getD he1 hi _ hacc hx]
  unfold scheduledMessage
  refine Finset.sum_congr rfl fun x_i _ => ?_
  rw [incomingProduct_getD, mul_assoc]
  congr 2
  rw [((incoming_filter_perm hloop hcomp hi hj).map _).prod_eq]
  congr 1
  apply List.map_congr_left
  intro e2 he2
  rw [List.mem_filter, decide_eq_true_eq] at he2
  rw [incomingMessage_mix h hloop _ _ _ he2.1]

/-- On a graph whose edges join nodes of consecutive indices, one pass over the
nodes, from any table of the right shape, gives every message from a node to its
successor the value it has in every fixed point of the update. -/
theorem sweep_path_forward {graph : CGraph} {options : TInferenceOptions}
    (h : graph.WellFormed options.considerNodeFixedValues) (hloop : graph.NoSelfLoops)
    (hcomp : graph.CompleteEdgesF) (maximize : Bool) (hpath : graph.PathOrdered)
    {T : Messages} (hd : MsgDims graph options.considerNodeFixedValues T) {F : Messages}
    (hdF : MsgDims graph options.considerNodeFixedValues F)
    (hfix : IsFixedPoint graph options maximize F) :
    ∀ p, ∀ i ∈ graph.nodes, graph.nodeIndex i.id = p → ∀ e ∈ graph.edges_f i.id,
      graph.nodeIndex i.id + 1 = graph.nodeIndex (if e.ID1 = i.id then e.ID2 else e.ID1) →
      (sweep graph options maximize T).get (graph.getEdgeIndex e.id) (sendSlot i.id e) =
        F.get (graph.getEdgeIndex e.id) (sendSlot i.id e) := by
  have hdsw : MsgDims graph options.considerNodeFixedValues (sweep graph options maximize T) :=
    sweep_inv_any maximize (MsgDims graph options.considerNodeFixedValues)
      (fun msgs n hn e he hm => sendMessage_dims_any h maximize hm hn he) hd
  intro p
  induction p using Nat.strong_induction_on with
  | _ p ih =>
    intro i hi hp e he hnext
    have hF : F.get (graph.getEdgeIndex e.id) (sendSlot i.id e) =
        (sendMessage graph options maximize i F e).get (graph.getEdgeIndex e.id)
          (sendSlot i.id e) := by
      rw [hfix i hi e he]
    rw [sweep_written h hloop hcomp maximize hd hi he, hF]
    apply sendMessage_read h maximize (mixTable_dims hdsw hd i.id) hdF hi he
    intro e2 he2 hex
    obtain ⟨he21, he22⟩ := h.incident i hi e2 he2
    obtain ⟨hidx2, _⟩ := h.getEdgeIndex_spec he21
    have hl2 := hloop e2 he21
    rw [incomingMessage_eq_sent _ _ hl2, incomingMessage_eq_sent _ _ hl2,
      mixTable_get _ _ _ _ hidx2 (sendSlot_lt _ _)]
    by_cases hc : e2.ID1 = i.id
    · rw [if_pos hc]
      obtain ⟨k2n, hk2n, hk2id⟩ := (h.ends e2 he21).2
      have he2k : e2 ∈ graph.edges_f k2n.id := hcomp.mem_edges_f hk2n he21 (Or.inr hk2id.symm)
      have hs := slotSender_key h hk2n he2k
      rw [hk2id] at hs
      have hrel : graph.nodeIndex e2.ID2 + 1 = graph.nodeIndex i.id := by
        rcases hpath e2 he21 with h1 | h1
        · exfalso
          rw [hc] at h1
          have h2 : graph.nodeIndex k2n.id =
              graph.nodeIndex (if e.ID1 = i.id then e.ID2 else e.ID1) := by
            rw [hk2id]; omega
          have h3 := nodeIndex_inj hk2n h2
          rw [hk2id] at h3
          exact hex.2 h3.symm
        · rw [hc] at h1; exact h1
      rw [hs, if_pos (by omega)]
      have := ih (graph.nodeIndex e2.ID2) (by omega) k2n hk2n (by rw [hk2id]) e2 he2k
        (by rw [hk2id, if_neg hl2, hc]; exact hrel)
      rw [hk2id] at this
      exact this
    · rw [if_neg hc]
      have hc2 : e2.ID2 = i.id := by
        rcases he22 with h5 | h5
        · exact absurd h5 hc
        · exact h5
      obtain ⟨k2n, hk2n, hk2id⟩ := (h.ends e2 he21).1
      have he2k : e2 ∈ graph.edges_f k2n.id := hcomp.mem_edges_f hk2n he21 (Or.inl hk2id.symm)
      have hs := slotSender_key h hk2n he2k
      rw [hk2id] at hs
      have hrel : graph.nodeIndex e2.ID1 + 1 = graph.nodeIndex i.id := by
        rcases hpath e2 he21 with h1 | h1
        · rw [hc2] at h1; exact h1
        · exfalso
          rw [hc2] at h1
          have h2 : graph.nodeIndex k2n.id =
              graph.nodeIndex (if e.ID1 = i.id then e.ID2 else e.ID1) := by
            rw [hk2id]; omega
          have h3 := nodeIndex_inj hk2n h2
          rw [hk2id] at h3
          exact hex.1 h3.symm
      rw [hs, if_pos (by omega)]
      have := ih (graph.nodeIndex e2.ID1) (by omega) k2n hk2n (by rw [hk2id]) e2 he2k
        (by rw [hk2id, if_pos rfl, hc2]; exact hrel)
      rw [hk2id] at this
      exact this

/-- C23: sequential (in-place) update schedule of `messagesLBP`. On a well-formed
graph without self-loops, with `tableAfter n` the table after `n` passes over the
nodes (the all-ones table for `n = 0`): in pass `n + 1`, in both modes, the
message that node `i` stores for its incident edge `e` is the message that the
update computes from the table holding the messages of pass `n + 1` from the
nodes whose index is smaller than the index of `i` and the messages of pass `n`
from the others; in sum-product mode its entry at state `x_j` is the sum over
`x_i` of `psi(x_i, x_j) * phi_i(x_i)` times the product, over the neighbours
`k ≠ j`, of the message from `k` to `i` of pass `n + 1` when the index of `k` is
smaller than the index of `i` and of pass `n` when it is larger. Consequently, on
a graph whose edges join nodes of consecutive indices (a path graph indexed in
path order), after the first pass every message from a node to its successor has
the value it has in every fixed point of the update. -/
theorem messagesLBP_sequential_schedule (graph : CGraph) (options : TInferenceOptions)
    (maximize : Bool) (hwf : graph.WellFormed options.considerNodeFixedValues)
    (hloop : graph.NoSelfLoops) (hcomp : graph.CompleteEdgesF) :
    tableAfter graph options maximize 0 = onesTable graph options.considerNodeFixedValues ∧
      (∀ n, ∀ i ∈ graph.nodes, ∀ e ∈ graph.edges_f i.id,
        (tableAfter graph options maximize (n + 1)).get (graph.getEdgeIndex e.id)
            (sendSlot i.id e) =
          (sendMessage graph options maximize i
            (mixTable graph (tableAfter graph options maximize (n + 1))
              (tableAfter graph options maximize n) i.id) e).get
            (graph.getEdgeIndex e.id) (sendSlot i.id e)) ∧
      (∀ n, ∀ i ∈ graph.nodes, ∀ e ∈ graph.edges_f i.id, ∀ x_j,
        x_j < graph.card options.considerNodeFixedValues
            (if i.id = e.ID1 then e.ID2 else e.ID1) →
          ((tableAfter graph options false (n + 1)).get (graph.getEdgeIndex e.id)
              (sendSlot i.id e)).getD x_j 0 =
            scheduledMessage graph options.considerNodeFixedValues
              (tableAfter graph options false (n + 1)) (tableAfter graph options false n)
              i e x_j) ∧
      (graph.PathOrdered → ∀ F, MsgDims graph options.considerNodeFixedValues F →
        IsFixedPoint graph options maximize F →
        ∀ i ∈ graph.nodes, ∀ e ∈ graph.edges_f i.id,
          graph.nodeIndex i.id + 1 =
              graph.nodeIndex (if e.ID1 = i.id then e.ID2 else e.ID1) →
            (tableAfter graph options maximize 1).get (graph.getEdgeIndex e.id)
                (sendSlot i.id e) =
              F.get (graph.getEdgeIndex e.id) (sendSlot i.id e)) := by
  refine ⟨rfl, ?_, ?_, ?_⟩
  · intro n i hi e he
    rw [tableAfter_succ]
    exact sweep_written hwf hloop hcomp maximize (tableAfter_dims hwf maximize n) hi he
  · intro n i hi e he x_j hx
    rw [tableAfter_succ]
    exact sweep_written_sum hwf hloop hcomp (tableAfter_dims hwf false n) hi he hx
  · intro hpath F hdF hfix i hi e he hnext
    rw [tableAfter_succ]
    exact sweep_path_forward hwf hloop hcomp maximize hpath (tableAfter_dims hwf maximize 0)
      hdF hfix _ i hi rfl e he hnext

theorem pathChain_pathOrdered : pathChain.PathOrdered := by
  unfold CGraph.PathOrdered; decide

/-- Witness for C23: the path-ordered chain of three binary nodes in sum-product
mode, whose table after two passes is a fixed point. -/
theorem messagesLBP_sequential_schedule_witness :
    pathChain.PathOrdered ∧
      IsFixedPoint pathChain ⟨5, 1 / 1000, false, fun _ => ""⟩ false
        (tableAfter pathChain ⟨5, 1 / 1000, false, fun _ => ""⟩ false 2) ∧
      (∀ n, ∀ i ∈ pathChain.nodes, ∀ e ∈ pathChain.edges_f i.id,
        (tableAfter pathChain ⟨5, 1 / 1000, false, fun _ => ""⟩ false (n + 1)).get
            (pathChain.getEdgeIndex e.id) (sendSlot i.id e) =
          (sendMessage pathChain ⟨5, 1 / 1000, false, fun _ => ""⟩ false i
            (mixTable pathChain (tableAfter pathChain ⟨5, 1 / 1000, false, fun _ => ""⟩ false (n + 1))
              (tableAfter pathChain ⟨5, 1 / 1000, false, fun _ => ""⟩ false n) i.id) e).get
            (pathChain.getEdgeIndex e.id) (sendSlot i.id e)) ∧
      ∀ i ∈ pathChain.nodes, ∀ e ∈ pathChain.edges_f i.id,
        pathChain.nodeIndex i.id + 1 =
            pathChain.nodeIndex (if e.ID1 = i.id then e.ID2 else e.ID1) →
          (tableAfter pathChain ⟨5, 1 / 1000, false, fun _ => ""⟩ false 1).get
              (pathChain.getEdgeIndex e.id) (sendSlot i.id e) =
            (tableAfter pathChain ⟨5, 1 / 1000, false, fun _ => ""⟩ false 2).get
              (pathChain.getEdgeIndex e.id) (sendSlot i.id e) :=
  ⟨pathChain_pathOrdered, by unfold IsFixedPoint; decide!,
    (messagesLBP_sequential_schedule pathChain ⟨5, 1 / 1000, false, fun _ => ""⟩ false
      pathChain_wellFormed pathChain_noSelfLoops pathChain_complete).2.1,
    (messagesLBP_sequential_schedule pathChain ⟨5, 1 / 1000, false, fun _ => ""⟩ false
      pathChain_wellFormed pathChain_noSelfLoops pathChain_complete).2.2.2 pathChain_pathOrdered
      (tableAfter pathChain ⟨5, 1 / 1000, false, fun _ => ""⟩ false 2)
      (tableAfter_dims pathChain_wellFormed false 2) (by unfold IsFixedPoint; decide!)⟩

/-! ## Max-flow / min-cut: equal terminals -/


theorem bfsVisit_visited (rGraph : MatrixXd) (u : ℕ) (st : BfsState) (v t : ℕ)
    (h : st.visited.getD t false = true) :
    (bfsVisit rGraph u st v).visited.getD t false = true := by
  unfold bfsVisit
  split
  · simp only
    rw [getD_set_eq]
    split
    · rfl
    · exact h
  · exact h

theorem bfsLoop_visited (rGraph : MatrixXd) (N_nodes t : ℕ) (fuel : ℕ) (st st1 : BfsState)
    (hrun : bfsLoop rGraph N_nodes fuel st = some st1)
    (h : st.visited.getD t false = true) : st1.visited.getD t false = true := by
  induction fuel generalizing st with
  | zero =>
    rw [bfsLoop] at hrun
    split at hrun
    · cases hrun; exact h
    · cases hrun
  | succ fuel ih =>
    rw [bfsLoop] at hrun
    split at hrun
    · cases hrun; exact h
    · apply ih _ hrun
      exact foldl_inv (fun b : BfsState => b.visited.getD t false = true) _ _
        (fun b v _ hb => bfsVisit_visited rGraph _ b v t hb) h

/-- The search started at `s` always reports `s` itself as reached. -/
theorem bfs_same_terminals (fuel : ℕ) (rGraph : MatrixXd) (s : ℕ) (parent : List ℕ)
    (hs : s < rGraph.cols) (r : Bool × List ℕ) (hr : bfs fuel rGraph s s parent = some r) :
    r.1 = true := by
  unfold bfs at hr
  simp only [Option.map_eq_some'] at hr
  obtain ⟨st1, hrun, rfl⟩ := hr
  apply bfsLoop_visited _ _ _ _ _ _ hrun
  simp only
  rw [getD_set_eq, if_pos ⟨rfl, by simpa using hs⟩]

theorem pathFlowLoop_same (rGraph : MatrixXd) (s : ℕ) (parent : List ℕ) (fuel : ℕ)
    (path_flow : ℚ) : pathFlowLoop rGraph s parent fuel s path_flow = some path_flow := by
  cases fuel <;> simp [pathFlowLoop]

theorem augmentLoop_same (s : ℕ) (parent : List ℕ) (path_flow : ℚ) (fuel : ℕ)
    (rGraph : MatrixXd) : augmentLoop s parent path_flow fuel s rGraph = some rGraph := by
  cases fuel <;> simp [augmentLoop]

/-- With `s = t` a round of the augmentation loop never ends the loop: the
search succeeds, the path is empty, the residual graph is left as it is and
`DBL_MAX` is added to the flow. -/
theorem augmentStep_same_terminals (fuel : ℕ) (s : ℕ) (st : FlowState)
    (hs : s < st.rGraph.cols) :
    augmentStep fuel s s st = none ∨
      ∃ parent, augmentStep fuel s s st =
        some (Sum.inr { rGraph := st.rGraph, parent := parent,
                        max_flow := st.max_flow + DBL_MAX }) := by
  unfold augmentStep
  cases hb : bfs fuel st.rGraph s s st.parent with
  | none => exact Or.inl rfl
  | some r =>
    obtain ⟨b, parent⟩ := r
    have hb1 : b = true := bfs_same_terminals fuel st.rGraph s st.parent hs _ hb
    subst hb1
    right
    refine ⟨parent, ?_⟩
    simp only [pathFlowLoop_same, augmentLoop_same]

theorem flowLoop_same_terminals (fuel : ℕ) (s : ℕ) (rounds : ℕ) (st : FlowState)
    (hs : s < st.rGraph.cols) : flowLoop fuel s s rounds st = none := by
  induction rounds generalizing st with
  | zero => rfl
  | succ rounds ih =>
    rw [flowLoop]
    rcases augmentStep_same_terminals fuel s st hs with h | ⟨parent, h⟩
    · rw [h]
    · rw [h]
      exact ih _ hs

/-- With `s = t` in range and enough fuel, a round of the augmentation loop runs
the search, which reports `t` as reached, and augments along the empty path: the
residual graph is left as it is and `DBL_MAX` is added to the flow. -/
theorem augmentStep_same_total {N s : ℕ} {fuel : ℕ} (hfuel : N ≤ fuel) (st : FlowState)
    (hsq : IsSquare st.rGraph N) (hs : s < N) (hpar : st.parent.length = N) :
    ∃ parent1, parent1.length = N ∧
      bfs fuel st.rGraph s s st.parent = some (true, parent1) ∧
      augmentStep fuel s s st =
        some (Sum.inr { rGraph := st.rGraph, parent := parent1,
                        max_flow := st.max_flow + DBL_MAX }) := by
  obtain ⟨vis, par, rank, hb, hpost⟩ := bfs_spec hsq hs s hpar hfuel
  have hv : vis.getD s false = true := (hpost.vis_iff s).mpr Relation.ReflTransGen.refl
  rw [hv] at hb
  refine ⟨par, hpost.plen, hb, ?_⟩
  unfold augmentStep
  rw [hb]
  simp only [pathFlowLoop_same, augmentLoop_same]

/-- With `s = t` in range and enough fuel, the augmentation loop is still
running after any number of rounds, on the residual graph it started with. -/
theorem flowTrace_same_terminals {N s : ℕ} {fuel : ℕ} (hfuel : N ≤ fuel) (hs : s < N) :
    ∀ (n : ℕ) (st : FlowState), IsSquare st.rGraph N → st.parent.length = N →
      ∃ st1, flowTrace fuel s s n st = some st1 ∧ st1.rGraph = st.rGraph ∧
        st1.parent.length = N ∧ st1.max_flow = st.max_flow + n * DBL_MAX := by
  intro n
  induction n with
  | zero =>
    intro st _ hpar
    exact ⟨st, rfl, rfl, hpar, by simp⟩
  | succ n ih =>
    intro st hsq hpar
    obtain ⟨parent1, hlen, _, hstep⟩ := augmentStep_same_total hfuel st hsq hs hpar
    obtain ⟨st1, h1, h2, h3, h4⟩ := ih
      { rGraph := st.rGraph, parent := parent1, max_flow := st.max_flow + DBL_MAX } hsq hlen
    refine ⟨st1, ?_, h2, h3, ?_⟩
    · rw [flowTrace, hstep]
      exact h1
    · rw [h4]
      push_cast
      ring

/-- C20, as claimed, fails: `fordFulkerson` makes no check of its terminals. On
the capacity matrix `[[0, 1], [0, 0]]` with `s = t = 0` the first round of the
loop runs the breadth-first search, which reports `t` as reached, and goes on to
add the path flow `DBL_MAX` of the empty path to `max_flow`: the search and an
augmentation are performed and no error is raised. With `s = 0` and the terminal
`t = 2` outside `0..N-1` the search is performed as well: its loop visits the
vertices `0` and `1` and ends; the test `visited[t]` then reads outside the array
(in the model such a read gives `false`), the search reports `t` as not reached
and the flow value `0` is returned. -/
theorem fordFulkerson_no_terminal_check :
    bfs 2 (initResidual [[0, 1], [0, 0]]) 0 0 [0, 0] = some (true, [0, 0]) ∧
      augmentStep 2 0 0 { rGraph := initResidual [[0, 1], [0, 0]], parent := [0, 0],
                          max_flow := 0 } =
        some (Sum.inr { rGraph := [[0, 1], [0, 0]], parent := [0, 0], max_flow := DBL_MAX }) ∧
      (bfsLoop (initResidual [[0, 1], [0, 0]]) 2 2
          { visited := [true, false], parent := [0, 0], q := [0] }).map
          (fun st => (st.visited, st.parent, st.q)) = some ([true, true], [0, 0], []) ∧
      bfs 2 (initResidual [[0, 1], [0, 0]]) 0 2 [0, 0] = some (false, [0, 0]) ∧
      fordFulkerson 2 [[0, 1], [0, 0]] 0 2 [0, 0] [0, 0] = some (0, [1, 1]) := by
  refine ⟨?_, ?_, ?_, ?_, ?_⟩ <;> decide!

/-- C20 (amended): `fordFulkerson` does not check its terminals and raises no
error. When `s = t` is a vertex of the capacity matrix, every round of the
augmentation loop (given fuel for the search) runs the breadth-first search,
which reports `t` as reached at once, leaves the residual graph unchanged and
adds `DBL_MAX` to the flow total, so that the loop is still running after any
number of rounds; the loop does not end and no flow value is returned, whatever
fuel is given. -/
theorem fordFulkerson_same_terminals (graph : MatrixXd) (N s : ℕ) (cut : VectorXi)
    (parent : List ℕ) (hsq : IsSquare graph N) (hs : s < N) :
    (∀ fuel, N ≤ fuel → parent.length = N → ∀ n, ∃ st parent1,
        flowTrace fuel s s n { rGraph := initResidual graph, parent := parent, max_flow := 0 } =
          some st ∧
        st.rGraph = initResidual graph ∧ st.max_flow = n * DBL_MAX ∧
        bfs fuel st.rGraph s s st.parent = some (true, parent1) ∧
        augmentStep fuel s s st =
          some (Sum.inr { rGraph := initResidual graph, parent := parent1,
                          max_flow := st.max_flow + DBL_MAX })) ∧
      (∀ fuel, fordFulkersonLoop fuel graph s s parent = none) ∧
      ∀ fuel, fordFulkerson fuel graph s s cut parent = none := by
  have hcols : s < (initResidual graph).cols := by
    rw [(initResidual_isSquare hsq).cols_eq]; exact hs
  have hloop : ∀ fuel, fordFulkersonLoop fuel graph s s parent = none := by
    intro fuel
    unfold fordFulkersonLoop
    exact flowLoop_same_terminals fuel s fuel _ hcols
  refine ⟨?_, hloop, ?_⟩
  · intro fuel hfuel hpar n
    obtain ⟨st, h1, h2, h3, h4⟩ := flowTrace_same_terminals hfuel hs n
      { rGraph := initResidual graph, parent := parent, max_flow := 0 }
      (initResidual_isSquare hsq) hpar
    have hsq1 : IsSquare st.rGraph N := by rw [h2]; exact initResidual_isSquare hsq
    obtain ⟨parent1, _, hb, hstep⟩ := augmentStep_same_total hfuel st hsq1 hs h3
    refine ⟨st, parent1, h1, h2, ?_, hb, ?_⟩
    · rw [h4]; simp
    · rw [hstep, h2]
  · intro fuel
    unfold fordFulkerson
    rw [hloop fuel]

/-- Witness for C20 (amended): the textbook network with `s = t = 0`. -/
theorem fordFulkerson_same_terminals_witness :
    (∃ st parent1,
        flowTrace 6 0 0 3 { rGraph := initResidual textbookGraph,
                            parent := [0, 0, 0, 0, 0, 0], max_flow := 0 } = some st ∧
        st.rGraph = initResidual textbookGraph ∧ st.max_flow = (3 : ℕ) * DBL_MAX ∧
        bfs 6 st.rGraph 0 0 st.parent = some (true, parent1) ∧
        augmentStep 6 0 0 st =
          some (Sum.inr { rGraph := initResidual textbookGraph, parent := parent1,
                          max_flow := st.max_flow + DBL_MAX })) ∧
      fordFulkerson 100 textbookGraph 0 0 [0, 0, 0, 0, 0, 0] [0, 0, 0, 0, 0, 0] = none :=
  ⟨(fordFulkerson_same_terminals textbookGraph 6 0 [0, 0, 0, 0, 0, 0] [0, 0, 0, 0, 0, 0]
      textbookGraph_isSquare (by decide)).1 6 (le_refl 6) rfl 3,
    (fordFulkerson_same_terminals textbookGraph 6 0 [0, 0, 0, 0, 0, 0] [0, 0, 0, 0, 0, 0]
      textbookGraph_isSquare (by decide)).2.2 100⟩

/-! ## Max-flow / min-cut: search, cut and termination -/


/-- C24: the cut reported by `fordFulkerson` is a valid `s`-`t` cut. For every
non-negative capacity matrix over `N` vertices, every `s ≠ t` in range and the
zero-initialised cut vector, `fordFulkerson` returns (given enough fuel,
whatever the prior content of `parent`) and leaves `cut(s) = 1` and
`cut(t) = 0`. -/
theorem fordFulkerson_cut_separates (graph : MatrixXd) (N s t : ℕ) (hsq : IsSquare graph N)
    (hnn : ∀ a b, a < N → b < N → 0 ≤ graph.coeff a b) (hs : s < N) (ht : t < N)
    (hst : s ≠ t) :
    ∃ (F0 : ℕ) (val : ℤ) (cut1 : VectorXi),
      (∀ parent F, parent.length = N → F0 ≤ F →
        fordFulkerson F graph s t (List.replicate N 0) parent = some (val, cut1)) ∧
      cut1.getD s 0 = 1 ∧ cut1.getD t 0 = 0 := by
  obtain ⟨D, hD, hmul⟩ := exists_den_matrix graph
  obtain ⟨F0, st, cut1, _, h2, _, h4, h5⟩ :=
    fordFulkerson_total hsq hnn hmul hD hs hst (List.replicate N 0)
  refine ⟨F0, doubleToInt st.max_flow, cut1, fun parent F hpar hF => (h5 parent F hpar hF).2,
    ?_, ?_⟩
  · exact (h4 s).1 Relation.ReflTransGen.refl (by simpa using hs)
  · rw [(h4 t).2 h2]
    simp [List.getD_eq_getElem?_getD, ht]

/-- Witness for C24: the textbook network with source `0` and sink `5`. -/
theorem fordFulkerson_cut_separates_witness :
    ∃ (F0 : ℕ) (val : ℤ) (cut1 : VectorXi),
      (∀ parent F, parent.length = 6 → F0 ≤ F →
        fordFulkerson F textbookGraph 0 5 (List.replicate 6 0) parent = some (val, cut1)) ∧
      cut1.getD 0 0 = 1 ∧ cut1.getD 5 0 = 0 :=
  fordFulkerson_cut_separates textbookGraph 6 0 5 textbookGraph_isSquare
    (fun a b _ _ => coeff_nonneg_of_forall (fun row hr x hx => (textbookGraph_entries row hr x hx).1)
      a b)
    (by decide) (by decide) (by decide)

/-- Following the parent pointers left by the search from a reachable vertex
leads to `s`, in at most as many steps as the discovery rank of the vertex, along
edges of positive residual capacity. -/
theorem BfsPost.walk {r : MatrixXd} {N s : ℕ} {vis : List Bool} {par : List ℕ}
    {rank : ℕ → ℕ} (hpost : BfsPost r N s vis par rank) :
    ∀ (n v : ℕ), rank v ≤ n → Reach r s v →
      ∃ k, k ≤ rank v ∧ (fun w => par.getD w 0)^[k] v = s ∧
        ∀ j, j < k → (fun w => par.getD w 0)^[j] v ≠ s ∧
          0 < r.coeff (par.getD ((fun w => par.getD w 0)^[j] v) 0)
            ((fun w => par.getD w 0)^[j] v) := by
  intro n
  induction n with
  | zero =>
    intro v hv hr
    by_cases hvs : v = s
    · exact ⟨0, Nat.zero_le _, hvs, fun j hj => by omega⟩
    · obtain ⟨_, p2, _⟩ := hpost.par_ok v hr hvs
      omega
  | succ n ih =>
    intro v hv hr
    by_cases hvs : v = s
    · exact ⟨0, Nat.zero_le _, hvs, fun j hj => by omega⟩
    · obtain ⟨p1, p2, p3⟩ := hpost.par_ok v hr hvs
      obtain ⟨k, hk1, hk2, hk3⟩ := ih (par.getD v 0) (by omega) p1
      refine ⟨k + 1, by omega, ?_, ?_⟩
      · rw [Function.iterate_succ_apply]
        exact hk2
      · intro j hj
        cases j with
        | zero => exact ⟨hvs, p3⟩
        | succ j =>
          rw [Function.iterate_succ_apply]
          exact hk3 j (by omega)

/-- C22: correctness of the residual-graph search `bfs`. For every square residual
matrix and `s`, `t` in range, whatever values the `parent` array held before the
call, `bfs` returns (given fuel `N`), it returns `true` exactly when `t` is
reachable from `s` through edges of strictly positive residual capacity, and
when it returns `true` with `s ≠ t`, following `parent` from `t` reaches `s`
(for the first time) after `k < N` steps, every traversed pair `(parent[v], v)`
having `rGraph(parent[v], v) > 0`. -/
theorem bfs_correct (rGraph : MatrixXd) (N s t : ℕ) (hsq : IsSquare rGraph N) (hs : s < N)
    (_ : t < N) (parent : List ℕ) (hpar : parent.length = N) (fuel : ℕ) (hfuel : N ≤ fuel) :
    ∃ (found : Bool) (parent1 : List ℕ),
      bfs fuel rGraph s t parent = some (found, parent1) ∧
      (found = true ↔ Reach rGraph s t) ∧
      (found = true → s ≠ t →
        ∃ k, k < N ∧ (fun v => parent1.getD v 0)^[k] t = s ∧
          ∀ j, j < k → (fun v => parent1.getD v 0)^[j] t ≠ s ∧
            0 < rGraph.coeff (parent1.getD ((fun v => parent1.getD v 0)^[j] t) 0)
              ((fun v => parent1.getD v 0)^[j] t)) := by
  obtain ⟨vis, par, rank, hbfs, hpost⟩ := bfs_spec hsq hs t hpar hfuel
  refine ⟨vis.getD t false, par, hbfs, hpost.vis_iff t, ?_⟩
  intro hfound _
  have hr : Reach rGraph s t := (hpost.vis_iff t).mp hfound
  obtain ⟨k, hk1, hk2, hk3⟩ := hpost.walk (rank t) t le_rfl hr
  exact ⟨k, lt_of_le_of_lt hk1 (hpost.rank_lt t hr), hk2, hk3⟩

/-- Witness for C22: the textbook network, with a `parent` array holding other
values. -/
theorem bfs_correct_witness :
    ∃ (found : Bool) (parent1 : List ℕ),
      bfs 6 textbookGraph 0 5 [5, 5, 5, 5, 5, 5] = some (found, parent1) ∧
      (found = true ↔ Reach textbookGraph 0 5) ∧
      (found = true → (0 : ℕ) ≠ 5 →
        ∃ k, k < 6 ∧ (fun v => parent1.getD v 0)^[k] 5 = 0 ∧
          ∀ j, j < k → (fun v => parent1.getD v 0)^[j] 5 ≠ 0 ∧
            0 < textbookGraph.coeff (parent1.getD ((fun v => parent1.getD v 0)^[j] 5) 0)
              ((fun v => parent1.getD v 0)^[j] 5)) :=
  bfs_correct textbookGraph 6 0 5 textbookGraph_isSquare (by decide) (by decide)
    [5, 5, 5, 5, 5, 5] rfl 6 le_rfl



end UPGMpp
